import Mathlib

/-!
Verification development for the libTIM-based component-tree
(max-tree) attribute-image engine (`ComponentTree.hxx`, `ImageIO.hxx`,
`Morphology.hxx`).  The C++ sources are shallowly embedded as executable
Lean definitions: images are flat `List Int` buffers, the Salembier
recursive flooding is a fuel-indexed step machine over an explicit
builder state, tree nodes live in a pool addressed by `Nat` indices
(standing for the C++ `Node*` pointers), and `long double` arithmetic is
modelled by exact rationals.
-/

namespace CTAI

/-- A dense image buffer: dimensions and row-major pixel data
(`Image<T>` of `Common/Image.h`).  A pixel at `(x, y, z)` lives at
linear offset `x + y*sx + z*sx*sy`.  Modelled from the spec:
`Image.hxx` is not in `src/`; the spec fixes the offset arithmetic. -/
structure Img where
  sx : Nat
  sy : Nat
  sz : Nat
  data : List Int
  deriving Repr, DecidableEq

/-- Read a pixel at a linear offset; out-of-range reads (undefined
behaviour in the C++) return 0. -/
def Img.get (im : Img) (o : Int) : Int :=
  if 0 ≤ o then im.data.getD o.toNat 0 else 0

/-- Write a pixel at a linear offset; out-of-range writes are dropped. -/
def Img.set (im : Img) (o : Int) (v : Int) : Img :=
  if 0 ≤ o then { im with data := im.data.set o.toNat v } else im

/-- `Image::getOffset(x,y,z)`. -/
def Img.getOffset (im : Img) (x y z : Int) : Int :=
  x + y * im.sx + z * (im.sx * im.sy)

/-- Number of cells. -/
def Img.len (im : Img) : Nat := im.sx * im.sy * im.sz

/-- `Image::fill(v)`. -/
def Img.fill (im : Img) (v : Int) : Img :=
  { im with data := List.replicate im.data.length v }

/-- The x coordinate of a linear offset. -/
def Img.cx (im : Img) (o : Nat) : Int := (o % im.sx : Nat)

/-- The y coordinate of a linear offset. -/
def Img.cy (im : Img) (o : Nat) : Int := ((o / im.sx) % im.sy : Nat)

/-- The z coordinate of a linear offset. -/
def Img.cz (im : Img) (o : Nat) : Int := (o / (im.sx * im.sy) : Nat)

/-- `Image::getMin()`: minimum pixel value (0 on an empty buffer). -/
def Img.getMin (im : Img) : Int :=
  match im.data with
  | [] => 0
  | v :: vs => vs.foldl min v

/-- `Image::getMax()`: maximum pixel value (0 on an empty buffer). -/
def Img.getMax (im : Img) : Int :=
  match im.data with
  | [] => 0
  | v :: vs => vs.foldl max v

/-- `addBorders(im, preWidth, postWidth, value)` of `Morphology.hxx`:
pad each axis by `back` cells below and `front` cells above, new cells
holding `value`, old cells copied at the translated origin. -/
def addBorders (im : Img) (back front : Int × Int × Int) (value : Int) : Img :=
  let bx := back.1.toNat
  let by' := back.2.1.toNat
  let bz := back.2.2.toNat
  let nx := im.sx + bx + front.1.toNat
  let ny := im.sy + by' + front.2.1.toNat
  let nz := im.sz + bz + front.2.2.toNat
  { sx := nx, sy := ny, sz := nz,
    data := (List.range (nx * ny * nz)).map (fun o =>
      let x := o % nx
      let y := (o / nx) % ny
      let z := o / (nx * ny)
      if bx ≤ x ∧ x < bx + im.sx ∧ by' ≤ y ∧ y < by' + im.sy ∧
         bz ≤ z ∧ z < bz + im.sz then
        im.data.getD ((x - bx) + (y - by') * im.sx + (z - bz) * (im.sx * im.sy)) 0
      else value) }

/-- A structuring element / connexity: a list of integer displacements
(`FlatSE` of `Common/FlatSE.h`). -/
abbrev FlatSE := List (Int × Int × Int)

/-- `FlatSE::make2DN8()`.  Modelled from the spec: `FlatSE.hxx` is not
in `src/`; the spec fixes the 8-connected displacement set
`(±1,0),(0,±1),(±1,±1)` (origin excluded) but not its order; row-major
order is chosen. -/
def make2DN8 : FlatSE :=
  [(-1,-1,0), (0,-1,0), (1,-1,0), (-1,0,0), (1,0,0), (-1,1,0), (0,1,0), (1,1,0)]

/-- `FlatSE::make2DEuclidianBall(r)`.  Modelled from the spec:
`FlatSE.hxx` is not in `src/`; the spec describes a Euclidean ball of
radius `r` (§4.5.1). -/
def make2DEuclidianBall (r : Int) : FlatSE :=
  ((List.range (2 * r.toNat + 1)).flatMap (fun j =>
    (List.range (2 * r.toNat + 1)).map (fun i =>
      ((i : Int) - r, (j : Int) - r, (0 : Int))))).filter
    (fun d => d.1 * d.1 + d.2.1 * d.2.1 ≤ r * r)

/-- `FlatSE::getNegativeOffsets()`: per-axis magnitude of the most
negative displacement (used as low-side border widths). -/
def seNegOffsets (se : FlatSE) : Int × Int × Int :=
  ((se.foldl (fun (a : Int) d => min a d.1) 0).natAbs,
   (se.foldl (fun (a : Int) d => min a d.2.1) 0).natAbs,
   (se.foldl (fun (a : Int) d => min a d.2.2) 0).natAbs)

/-- `FlatSE::getPositiveOffsets()`: per-axis most positive displacement. -/
def sePosOffsets (se : FlatSE) : Int × Int × Int :=
  (se.foldl (fun (a : Int) d => max a d.1) 0,
   se.foldl (fun (a : Int) d => max a d.2.1) 0,
   se.foldl (fun (a : Int) d => max a d.2.2) 0)

/-- `FlatSE::setContext(size)`: flat linear offsets of the
displacements with respect to an image of sizes `(w, h)`. -/
def seFlatOffsets (se : FlatSE) (w h : Nat) : List Int :=
  se.map (fun d => d.1 + d.2.1 * w + d.2.2 * (w * h))

/-- Exact-fraction model of the C++ `long double` values (the engine
only ever builds them from integer data by `+ - * /`); fractions are
kept unnormalized so that all operations evaluate by kernel reduction. -/
structure LD where
  num : Int
  den : Int
  deriving Repr, DecidableEq

/-- Embed an integer. -/
def LD.ofInt (n : Int) : LD := ⟨n, 1⟩

/-- Fraction addition. -/
def LD.add (a b : LD) : LD := ⟨a.num * b.den + b.num * a.den, a.den * b.den⟩

/-- Fraction subtraction. -/
def LD.sub (a b : LD) : LD := ⟨a.num * b.den - b.num * a.den, a.den * b.den⟩

/-- Fraction multiplication. -/
def LD.mul (a b : LD) : LD := ⟨a.num * b.num, a.den * b.den⟩

/-- Fraction division. -/
def LD.div (a b : LD) : LD := ⟨a.num * b.den, a.den * b.num⟩

/-- The value as a rational number (used only in statements/proofs). -/
def LD.val (a : LD) : ℚ := (a.num : ℚ) / (a.den : ℚ)

/-- Status-image sentinel `ACTIVE`: cell not yet queued.  Modelled from
the spec: the sentinel constants live in `ComponentTree.h`, which is
not in `src/`; the spec (§4.3) fixes their meaning, any three values
distinct from the node labels (which are `≥ 0`) serve. -/
def ACTIVE : Int := -1

/-- Status-image sentinel `NOT_ACTIVE`: queued but not yet popped. -/
def NOT_ACTIVE : Int := -2

/-- Status-image sentinel `BORDER_STATUS`: padded cell. -/
def BORDER_STATUS : Int := -3

/-- Pixel value used for padded border cells (`BORDER`).  Its value is
never read on any guarded path, so any value serves. -/
def BORDER : Int := 0

/-- A tree node (`struct Node` declared in `ComponentTree.h`).  The
pool index stored in `father`/`childs` stands for the C++ `Node*`.
Field defaults are modelled from the spec (the constructor is in the
missing header): counters start at 0, `active` starts `true`,
bounding-box minima start at a large sentinel so the first pixel
initializes them, the MSER family starts at the `+∞` sentinel
(`none` models `std::numeric_limits<long double>::max()`). -/
structure Node where
  h : Int := 0
  ori_h : Int := 0
  label : Int := 0
  father : Option Nat := none
  childs : List Nat := []
  pixels : List Int := []
  active : Bool := true
  status : Bool := false
  area : Int := 0
  sum : Int := 0
  sum_square : Int := 0
  contrast : Int := 0
  volume : Int := 0
  subNodes : Int := 0
  contourLength : Int := 0
  complexity : Int := 0
  compacity : Int := 0
  mean : LD := ⟨0, 1⟩
  variance : LD := ⟨0, 1⟩
  area_nghb : Int := 0
  sum_nghb : Int := 0
  sum_square_nghb : Int := 0
  mean_nghb : LD := ⟨0, 1⟩
  variance_nghb : LD := ⟨0, 1⟩
  otsu : LD := ⟨0, 1⟩
  mser : Option LD := none
  area_derivative_h : LD := ⟨0, 1⟩
  area_derivative_areaN : LD := ⟨0, 1⟩
  area_derivative_areaN_h : LD := ⟨0, 1⟩
  area_derivative_areaN_h_derivative : LD := ⟨0, 1⟩
  area_derivative_delta_h : Option LD := none
  area_derivative_delta_areaF : Option LD := none
  mean_gradient_border : LD := ⟨0, 1⟩
  pixels_border : List Int := []
  xmin : Int := 4611686018427387904
  ymin : Int := 4611686018427387904
  zmin : Int := 4611686018427387904
  xmax : Int := -4611686018427387904
  ymax : Int := -4611686018427387904
  zmax : Int := -4611686018427387904

/-- `new_node(h, n)` of `SalembierRecursiveImplementation`. -/
def mkNode (h : Int) (n : Int) : Node := { h := h, ori_h := h, label := n }

/-- Default node used for out-of-pool reads (a dereference of an
invalid `Node*` in the C++, which never happens on guarded paths). -/
def defNode : Node := { h := 0 }

/-- Read a pool node. -/
def getN (pool : List Node) (i : Nat) : Node := pool.getD i defNode

/-- Update a pool node in place. -/
def modN (pool : List Node) (i : Nat) (f : Node → Node) : List Node :=
  pool.set i (f (getN pool i))

/-- The whole builder/tree state: the `SalembierRecursiveImplementation`
scratch data (bordered image, status image, hierarchical queues,
per-level counters and node index) together with the node pool and the
original image (`ComponentTree::m_img`). -/
structure BState where
  oriImg : Img
  imBorder : Img
  imGradient : Img
  status : List Int
  hq : List (List Int)
  number_nodes : List Int
  node_at_level : List Bool
  index : List (List (Option Nat))
  pool : List Node
  hMin : Int
  hMax : Int
  back : Int × Int × Int
  front : Int × Int × Int
  seOff : List Int

/-- `hToIndex(h)`: intensity to level index. -/
def hToIndex (st : BState) (v : Int) : Nat := (v - st.hMin).toNat

/-- `indexToH(i)`: level index to intensity. -/
def indexToH (st : BState) (l : Nat) : Int := st.hMin + l

/-- Read `STATUS(q)`; out-of-range reads yield `BORDER_STATUS` (they
cannot occur on guarded paths, the padding makes all probes valid). -/
def statusGet (st : BState) (q : Int) : Int :=
  if 0 ≤ q then st.status.getD q.toNat BORDER_STATUS else BORDER_STATUS

/-- Write `STATUS(q)`. -/
def statusSet (st : BState) (q : Int) (v : Int) : BState :=
  if 0 ≤ q then { st with status := st.status.set q.toNat v } else st

/-- Read the FIFO of level `l`. -/
def hqGet (st : BState) (l : Nat) : List Int := st.hq.getD l []

/-- `hq[l].push(q)` (FIFO: append at the back). -/
def hqPush (st : BState) (l : Nat) (q : Int) : BState :=
  { st with hq := st.hq.set l (hqGet st l ++ [q]) }

/-- Replace the FIFO of level `l` (used by pop). -/
def hqSet (st : BState) (l : Nat) (v : List Int) : BState :=
  { st with hq := st.hq.set l v }

/-- Read `index[l][j]`. -/
def idxGet (st : BState) (l j : Nat) : Option Nat :=
  (st.index.getD l []).getD j none

/-- Write `index[l][j]`. -/
def idxSet (st : BState) (l j : Nat) (v : Option Nat) : BState :=
  { st with index := st.index.set l ((st.index.getD l []).set j v) }

/-- Read `number_nodes[l]`. -/
def nnGet (st : BState) (l : Nat) : Int := st.number_nodes.getD l 0

/-- Write `number_nodes[l]`. -/
def nnSet (st : BState) (l : Nat) (v : Int) : BState :=
  { st with number_nodes := st.number_nodes.set l v }

/-- Read `node_at_level[l]`. -/
def nalGet (st : BState) (l : Nat) : Bool := st.node_at_level.getD l false

/-- Write `node_at_level[l]`. -/
def nalSet (st : BState) (l : Nat) (v : Bool) : BState :=
  { st with node_at_level := st.node_at_level.set l v }

/-- Append a fresh node to the pool (`new Node`), returning its index. -/
def newNode (st : BState) (h : Int) (n : Int) : Nat × BState :=
  (st.pool.length, { st with pool := st.pool ++ [mkNode h n] })

/-- Update one pool node. -/
def modPool (st : BState) (i : Nat) (f : Node → Node) : BState :=
  { st with pool := modN st.pool i f }

/-- Sentinel for `std::numeric_limits<T>::min()` of the pixel type:
below every pixel value handled by the engine. -/
def TMIN : Int := -4611686018427387904

/-- Sentinel for `std::numeric_limits<T>::max()` of the pixel type:
above every pixel value handled by the engine. -/
def TMAX : Int := 4611686018427387904

/-- Elementwise subtraction `im -= tmp` (`Image::operator-=`). -/
def Img.sub (a b : Img) : Img :=
  { a with data := List.zipWith (fun x y => x - y) a.data b.data }

/-- `dilation(im, se)` of `Morphology.hxx`: symmetrize the structuring
element, pad with the type minimum, take the max over each window.
(`FlatSE::makeSymmetric`, whose body is in the missing `FlatSE.hxx`,
is modelled as adjoining the negated displacements.) -/
def dilation (im : Img) (se : FlatSE) : Img :=
  let se2 := se ++ se.map (fun d => (-d.1, -d.2.1, -d.2.2))
  let back := seNegOffsets se2
  let front := sePosOffsets se2
  let imB := addBorders im back front TMIN
  let offs := seFlatOffsets se2 imB.sx imB.sy
  { im with data := (List.range im.len).map (fun o =>
      let base := imB.getOffset (im.cx o + back.1) (im.cy o + back.2.1) (im.cz o + back.2.2)
      offs.foldl (fun a d => max a (imB.get (base + d))) TMIN) }

/-- `erosion(im, se)` of `Morphology.hxx`. -/
def erosion (im : Img) (se : FlatSE) : Img :=
  let back := seNegOffsets se
  let front := sePosOffsets se
  let imB := addBorders im back front TMAX
  let offs := seFlatOffsets se imB.sx imB.sy
  { im with data := (List.range im.len).map (fun o =>
      let base := imB.getOffset (im.cx o + back.1) (im.cy o + back.2.1) (im.cz o + back.2.2)
      offs.foldl (fun a d => min a (imB.get (base + d))) TMAX) }

/-- `morphologicalGradient(im, se)` of `Morphology.hxx`:
dilation minus erosion. -/
def morphologicalGradient (im : Img) (se : FlatSE) : Img :=
  (dilation im se).sub (erosion im se)

/-- `update_attributes(n, p)` of `SalembierRecursiveImplementation`:
translate the bordered offset back to original-image coordinates,
append the pixel and update the running attributes. -/
def updAttrStep (st : BState) (nid : Nat) (p : Int) : BState :=
  let ix := st.imBorder.cx p.toNat - st.back.1
  let iy := st.imBorder.cy p.toNat - st.back.2.1
  let iz := st.imBorder.cz p.toNat - st.back.2.2
  let ow : Int := st.oriImg.sx
  let oh : Int := st.oriImg.sy
  let off := ix + iy * ow + iz * (ow * oh)
  modPool st nid (fun n =>
    { n with pixels := n.pixels ++ [off],
             area := n.area + 1,
             sum := n.sum + n.h,
             sum_square := n.sum_square + n.h * n.h,
             xmin := if ix < n.xmin then ix else n.xmin,
             xmax := if ix > n.xmax then ix else n.xmax,
             ymin := if iy < n.ymin then iy else n.ymin,
             ymax := if iy > n.ymax then iy else n.ymax,
             zmin := if iz < n.zmin then iz else n.zmin,
             zmax := if iz > n.zmax then iz else n.zmax })

/-- The body run for a popped queue element `p` at level `h` (the head
of `flood`'s while loop): label the cell, materialize `index[h][label]`
if absent, update the running attributes. -/
def popStep (st : BState) (h : Nat) (p : Int) : BState :=
  let nn := nnGet st h
  let st := statusSet st p nn
  match idxGet st h nn.toNat with
  | some nid => updAttrStep st nid p
  | none =>
      let r := newNode st (indexToH st h) nn
      let st := idxSet r.2 h nn.toNat (some r.1)
      updAttrStep st r.1 p

/-- `m = h-1; while (m >= 0 && !node_at_level[m]) m--;` — the scan for
the nearest lower level holding a pending node (levels are already
re-based so `hToIndex(hMin) = 0`). -/
def scanLevel (st : BState) : Nat → Int
  | 0 => if nalGet st 0 then 0 else -1
  | m+1 => if nalGet st (m+1) then ((m+1 : Nat) : Int) else scanLevel st m

/-- The father lookup of the linking step: materialize
`index[m][number_nodes[m]]` if absent, returning its node id. -/
def linkFather (st : BState) (m : Nat) : Nat × BState :=
  let j := nnGet st m
  match idxGet st m j.toNat with
  | some fid => (fid, st)
  | none =>
      let r2 := newNode st (indexToH st m) j
      (r2.1, idxSet r2.2 m j.toNat (some r2.1))

/-- The linking step at the end of `flood(h)` when a lower pending
level `m` exists: materialize `index[m][number_nodes[m]]` if absent and
`link_node` the just-closed level-`h` node under it. -/
def linkStep (st : BState) (h m : Nat) : BState :=
  let i := (nnGet st h - 1).toNat
  let r := linkFather st m
  match idxGet r.2 h i with
  | some cid =>
      let st2 := modPool r.2 cid (fun n => { n with father := some r.1 })
      modPool st2 r.1 (fun n => { n with childs := n.childs ++ [cid] })
  | none => r.2

/-- The root case at the end of `flood(h)`: the father of the root is
itself. -/
def rootLinkStep (st : BState) : BState :=
  match idxGet st 0 0 with
  | some rid => modPool st rid (fun n => { n with father := some rid })
  | none => st

/-- The tail of `flood(h)` after its while loop: close the current
level-`h` component, link it (or make it the root), clear
`node_at_level[h]` and return the scanned level. -/
def floodTail (st : BState) (h : Nat) : Int × BState :=
  let st := nnSet st h (nnGet st h + 1)
  let m : Int := if h = 0 then -1 else scanLevel st (h - 1)
  let st := if 0 ≤ m then linkStep st h m.toNat else rootLinkStep st
  let st := nalSet st h false
  (m, st)

/-- Commands of the flooding step machine: `flood h` is the recursive
`flood`, `fwhile h` its queue-draining while loop, `fnbrs h p offs` the
neighbor scan of a popped pixel `p`, and `funtil m h` the
`do m = flood(m); while (m != h);` loop.  One structural `fuel` unit is
consumed per step so the whole mutual recursion is structural. -/
inductive Cmd where
  | flood (h : Nat)
  | fwhile (h : Nat)
  | fnbrs (h : Nat) (p : Int) (offs : List Int)
  | funtil (m : Nat) (h : Nat)

/-- The flooding machine (`SalembierRecursiveImplementation::flood`).
Returns `none` when out of fuel; the `Int` result is `flood`'s return
level. -/
def run : Nat → Cmd → BState → Option (Int × BState)
  | 0, _, _ => none
  | fuel+1, Cmd.flood h, st =>
      match run fuel (Cmd.fwhile h) st with
      | none => none
      | some (_, st) => some (floodTail st h)
  | fuel+1, Cmd.fwhile h, st =>
      match hqGet st h with
      | [] => some (0, st)
      | p :: rest =>
          let st := hqSet st h rest
          let st := popStep st h p
          match run fuel (Cmd.fnbrs h p st.seOff) st with
          | none => none
          | some (_, st) => run fuel (Cmd.fwhile h) st
  | fuel+1, Cmd.fnbrs h p offs, st =>
      match offs with
      | [] => some (0, st)
      | off :: rest =>
          let q := p + off
          if statusGet st q = ACTIVE then
            let vq := st.imBorder.get q
            let lq := hToIndex st vq
            let st := hqPush st lq q
            let st := statusSet st q NOT_ACTIVE
            let st := nalSet st lq true
            if st.imBorder.get p < vq then
              match run fuel (Cmd.funtil lq h) st with
              | none => none
              | some (_, st) => run fuel (Cmd.fnbrs h p rest) st
            else run fuel (Cmd.fnbrs h p rest) st
          else run fuel (Cmd.fnbrs h p rest) st
  | fuel+1, Cmd.funtil m h, st =>
      match run fuel (Cmd.flood m) st with
      | none => none
      | some (m2, st) =>
          if m2 = (h : Int) then some (m2, st)
          else run fuel (Cmd.funtil m2.toNat h) st

/-- `SalembierRecursiveImplementation::init(img, connexity)`: border
the image and the status image, set up the hierarchical queue, the
per-level counters and the histogram-sized node index. -/
def initState (img : Img) (conn : FlatSE) : BState :=
  let back := seNegOffsets conn
  let front := sePosOffsets conn
  let imB := addBorders img back front BORDER
  let statusImg : Img := { sx := img.sx, sy := img.sy, sz := img.sz,
                           data := List.replicate img.len ACTIVE }
  let statusB := addBorders statusImg back front BORDER_STATUS
  let hMin := img.getMin
  let hMax := img.getMax
  let levels := (hMax - hMin + 1).toNat
  { oriImg := img
    imBorder := imB
    imGradient := morphologicalGradient img conn
    status := statusB.data
    hq := List.replicate levels []
    number_nodes := List.replicate levels 0
    node_at_level := List.replicate levels false
    index := (List.range levels).map (fun l =>
      List.replicate (img.data.countP (fun v => v == hMin + l)) none)
    pool := []
    hMin := hMin
    hMax := hMax
    back := back
    front := front
    seOff := seFlatOffsets conn imB.sx imB.sy }

/-- The seed scan of `computeTree`: the first cell at level `hMin`
still `ACTIVE`. -/
def findSeed (st : BState) : Option Nat :=
  (List.range st.status.length).find? (fun i =>
    (st.imBorder.data.getD i 0 == st.hMin) &&
    (st.status.getD i BORDER_STATUS == ACTIVE))

/-- `SalembierRecursiveImplementation::computeTree()`: seed the queue,
flood from the lowest level, return the root (`index[hMin][0]`). -/
def computeTree (fuel : Nat) (img : Img) (conn : FlatSE) : Option (Nat × BState) :=
  let st := initState img conn
  let st := match findSeed st with
            | some s => hqPush st 0 (s : Int)
            | none => st
  let st := nalSet st 0 true
  match run fuel (Cmd.flood 0) st with
  | none => none
  | some (_, st2) =>
      match idxGet st2 0 0 with
      | some root => some (root, st2)
      | none => none

/-- Breadth-first visit order of the tree below the queued nodes
(the `std::queue<Node*>` walk shared by every BFS pass). -/
def bfsOrder (fuel : Nat) (pool : List Node) (queue : List Nat) (acc : List Nat) :
    Option (List Nat) :=
  match fuel, queue with
  | _, [] => some acc.reverse
  | 0, _ => none
  | fuel+1, t :: rest => bfsOrder fuel pool (rest ++ (getN pool t).childs) (t :: acc)

/-- `ComponentTree::merge_pixels(tree)`: all pixels of the subtree, in
BFS pop order. -/
def mergePixels (fuel : Nat) (pool : List Node) (queue : List Nat) (acc : List Int) :
    Option (List Int) :=
  match fuel, queue with
  | _, [] => some acc
  | 0, _ => none
  | fuel+1, t :: rest =>
      mergePixels fuel pool (rest ++ (getN pool t).childs) (acc ++ (getN pool t).pixels)

/-- `ComponentTree::merge_pixelsFalseNodes(tree)`: the pixels of the
connected chain of inactive nodes below (and including) `tree`; the
scan stops at active nodes. -/
def mergePixelsFalse (fuel : Nat) (pool : List Node) (queue : List Nat) (acc : List Int) :
    Option (List Int) :=
  match fuel, queue with
  | _, [] => some acc
  | 0, _ => none
  | fuel+1, t :: rest =>
      if (getN pool t).active = false then
        mergePixelsFalse fuel pool (rest ++ (getN pool t).childs) (acc ++ (getN pool t).pixels)
      else
        mergePixelsFalse fuel pool rest acc

/-- Paint a pixel list at one intensity. -/
def paint (res : Img) (pixels : List Int) (v : Int) : Img :=
  pixels.foldl (fun im o => im.set o v) res

/-- The child scan of one `constructImageMin` iteration: inactive
children have their whole subtree painted at the parent level, active
children are queued. -/
def cimChild (fuel : Nat) (pool : List Node) (hval : Int) (cs : List Nat)
    (res : Img) (qadd : List Nat) : Option (Img × List Nat) :=
  match fuel, cs with
  | _, [] => some (res, qadd)
  | 0, _ => none
  | fuel+1, c :: rest =>
      if (getN pool c).active = false then
        match mergePixels fuel pool [c] [] with
        | none => none
        | some subPixels => cimChild fuel pool hval rest (paint res subPixels hval) qadd
      else cimChild fuel pool hval rest res (qadd ++ [c])

/-- The BFS loop of `constructImageMin`. -/
def cimLoop (fuel : Nat) (pool : List Node) (queue : List Nat) (res : Img) : Option Img :=
  match fuel, queue with
  | _, [] => some res
  | 0, _ => none
  | fuel+1, t :: rest =>
      let n := getN pool t
      let res := paint res n.pixels n.h
      match cimChild fuel pool n.h n.childs res [] with
      | none => none
      | some (res, qadd) => cimLoop fuel pool (rest ++ qadd) res

/-- `ComponentTree::constructImageMin(res)`. -/
def constructImageMin (fuel : Nat) (pool : List Node) (root : Nat) (res : Img) :
    Option Img :=
  if (getN pool root).active = true then cimLoop fuel pool [root] res
  else some (res.fill 0)

/-- The first loop of `constructImageMax`: mark every node's `status`,
collect the leaves. -/
def cimaxCollect (fuel : Nat) (pool : List Node) (queue : List Nat) (leafs : List Nat) :
    Option (List Node × List Nat) :=
  match fuel, queue with
  | _, [] => some (pool, leafs)
  | 0, _ => none
  | fuel+1, t :: rest =>
      let pool := modN pool t (fun n => { n with status := true })
      let n := getN pool t
      if n.childs.isEmpty then cimaxCollect fuel pool rest (leafs ++ [t])
      else cimaxCollect fuel pool (rest ++ n.childs) leafs

/-- The second loop of `constructImageMax` (marked `Does not work!!!!!`
in the source; embedded as written). -/
def cimaxLoop (fuel : Nat) (pool : List Node) (queue : List Nat) (res : Img) :
    Option (Img × List Node) :=
  match fuel, queue with
  | _, [] => some (res, pool)
  | 0, _ => none
  | fuel+1, t :: rest =>
      let n := getN pool t
      if n.active = false && (match n.father with
          | some f => (getN pool f).status
          | none => false) then
        match n.father with
        | some f =>
            cimaxLoop fuel (modN pool f (fun fa => { fa with status := false }))
              (rest ++ [f]) res
        | none => cimaxLoop fuel pool rest res
      else if n.active = true then
        match mergePixels fuel pool [t] [] with
        | none => none
        | some subPixels => cimaxLoop fuel pool rest (paint res subPixels n.h)
      else cimaxLoop fuel pool rest res

/-- `ComponentTree::constructImageMax(res)`. -/
def constructImageMax (fuel : Nat) (pool : List Node) (root : Nat) (res : Img) :
    Option (Img × List Node) :=
  match cimaxCollect fuel pool [root] [] with
  | none => none
  | some (pool, leafs) => cimaxLoop fuel pool leafs (res.fill 0)

/-- The first loop of `constructImageDirectExpe`: BFS from the root,
descending only through inactive nodes, collecting the topmost active
nodes. -/
def cideCollect (fuel : Nat) (pool : List Node) (queue : List Nat) (acc : List Nat) :
    Option (List Nat) :=
  match fuel, queue with
  | _, [] => some acc
  | 0, _ => none
  | fuel+1, t :: rest =>
      if (getN pool t).active = true then cideCollect fuel pool rest (acc ++ [t])
      else cideCollect fuel pool (rest ++ (getN pool t).childs) acc

/-- The second loop of `constructImageDirectExpe`: paint each node's
own pixels at its (current) level, and overwrite each inactive child's
`h` with the parent's current `h` before queueing it. -/
def cideLoop (fuel : Nat) (pool : List Node) (queue : List Nat) (res : Img) :
    Option (Img × List Node) :=
  match fuel, queue with
  | _, [] => some (res, pool)
  | 0, _ => none
  | fuel+1, t :: rest =>
      let n := getN pool t
      let res := paint res n.pixels n.h
      let pool := n.childs.foldl (fun pl c =>
        if (getN pl c).active = false then modN pl c (fun m => { m with h := n.h })
        else pl) pool
      cideLoop fuel pool (rest ++ n.childs) res

/-- `ComponentTree::constructImageDirectExpe(res)`. -/
def constructImageDirectExpe (fuel : Nat) (pool : List Node) (root : Nat) (res : Img) :
    Option (Img × List Node) :=
  match cideCollect fuel pool [root] [] with
  | none => none
  | some tops => cideLoop fuel pool tops (res.fill 0)

/-- The three reconstruction rules of `ComponentTree::constructImage`. -/
inductive ConstructionDecision where
  | MIN
  | MAX
  | DIRECT
  deriving Repr, DecidableEq

/-- `ComponentTree::constructImage(decision)`: dispatch on the rule
(`DIRECT` dispatches to `constructImageDirectExpe`); the result image
has the original image's size.  Returns the image together with the
updated tree state (`MAX` toggles the nodes' scratch `status` flags and
`DIRECT` overwrites inactive nodes' `h`). -/
def constructImage (fuel : Nat) (st : BState) (root : Nat) (d : ConstructionDecision) :
    Option (Img × BState) :=
  let res0 : Img := ⟨st.oriImg.sx, st.oriImg.sy, st.oriImg.sz,
                     List.replicate st.oriImg.len 0⟩
  match d with
  | ConstructionDecision.MIN =>
      match constructImageMin fuel st.pool root res0 with
      | none => none
      | some res => some (res, st)
  | ConstructionDecision.MAX =>
      match constructImageMax fuel st.pool root res0 with
      | none => none
      | some (res, pool) => some (res, { st with pool := pool })
  | ConstructionDecision.DIRECT =>
      match constructImageDirectExpe fuel st.pool root res0 with
      | none => none
      | some (res, pool) => some (res, { st with pool := pool })

/-- `ComponentTree::setFalse()`: deactivate every node. -/
def setFalseLoop (fuel : Nat) (pool : List Node) (queue : List Nat) : Option (List Node) :=
  match fuel, queue with
  | _, [] => some pool
  | 0, _ => none
  | fuel+1, t :: rest =>
      let pool := modN pool t (fun n => { n with active := false })
      setFalseLoop fuel pool (rest ++ (getN pool t).childs)

/-- `ComponentTree::restore()`: reactivate every node and reset `h` to
`ori_h`. -/
def restoreLoop (fuel : Nat) (pool : List Node) (queue : List Nat) : Option (List Node) :=
  match fuel, queue with
  | _, [] => some pool
  | 0, _ => none
  | fuel+1, t :: rest =>
      let pool := modN pool t (fun n => { n with active := true, h := n.ori_h })
      restoreLoop fuel pool (rest ++ (getN pool t).childs)

/-- The shared BFS body of `areaFiltering` / `volumicFiltering` /
`contrastFiltering`: deactivate every visited node whose selected
attribute lies outside `[tMin, tMax]`. -/
def filterLoop (fuel : Nat) (sel : Node → Int) (tMin tMax : Int)
    (pool : List Node) (queue : List Nat) : Option (List Node) :=
  match fuel, queue with
  | _, [] => some pool
  | 0, _ => none
  | fuel+1, t :: rest =>
      let pool :=
        if sel (getN pool t) < tMin ∨ sel (getN pool t) > tMax then
          modN pool t (fun n => { n with active := false })
        else pool
      filterLoop fuel sel tMin tMax pool (rest ++ (getN pool t).childs)

/-- `ComponentTree::areaFiltering(tMin, tMax)`. -/
def areaFiltering (fuel : Nat) (st : BState) (root : Nat) (tMin tMax : Int) :
    Option BState :=
  match filterLoop fuel (fun n => n.area) tMin tMax st.pool [root] with
  | none => none
  | some pool => some { st with pool := pool }

/-- `ComponentTree::volumicFiltering(tMin, tMax)`. -/
def volumicFiltering (fuel : Nat) (st : BState) (root : Nat) (tMin tMax : Int) :
    Option BState :=
  match filterLoop fuel (fun n => n.volume) tMin tMax st.pool [root] with
  | none => none
  | some pool => some { st with pool := pool }

/-- `ComponentTree::contrastFiltering(tMin, tMax)`. -/
def contrastFiltering (fuel : Nat) (st : BState) (root : Nat) (tMin tMax : Int) :
    Option BState :=
  match filterLoop fuel (fun n => n.contrast) tMin tMax st.pool [root] with
  | none => none
  | some pool => some { st with pool := pool }

/-- The child fold of `computeArea(tree)`: recursively finish each
child, then add its `area` into `t` (`tree->area += computeArea(*it)`).
`areaRec fuel pool t cs` processes the remaining children `cs` of `t`. -/
def areaRec : Nat → List Node → Nat → List Nat → Option (List Node)
  | 0, _, _, _ => none
  | _+1, pool, _, [] => some pool
  | fuel+1, pool, t, c :: rest =>
      match areaRec fuel pool c (getN pool c).childs with
      | none => none
      | some pool =>
          areaRec fuel (modN pool t (fun n => { n with area := n.area + (getN pool c).area })) t rest

/-- `computeArea(tree)` from the root. -/
def computeAreaTop (fuel : Nat) (pool : List Node) (t : Nat) : Option (List Node) :=
  areaRec fuel pool t (getN pool t).childs

/-- The child fold of `computeSum(tree)`. -/
def sumRec : Nat → List Node → Nat → List Nat → Option (List Node)
  | 0, _, _, _ => none
  | _+1, pool, _, [] => some pool
  | fuel+1, pool, t, c :: rest =>
      match sumRec fuel pool c (getN pool c).childs with
      | none => none
      | some pool =>
          sumRec fuel (modN pool t (fun n => { n with sum := n.sum + (getN pool c).sum })) t rest

/-- `computeSum(tree)` from the root. -/
def computeSumTop (fuel : Nat) (pool : List Node) (t : Nat) : Option (List Node) :=
  sumRec fuel pool t (getN pool t).childs

/-- The child fold of `computeSumSquare(tree)`. -/
def sumsqRec : Nat → List Node → Nat → List Nat → Option (List Node)
  | 0, _, _, _ => none
  | _+1, pool, _, [] => some pool
  | fuel+1, pool, t, c :: rest =>
      match sumsqRec fuel pool c (getN pool c).childs with
      | none => none
      | some pool =>
          sumsqRec fuel
            (modN pool t (fun n => { n with sum_square := n.sum_square + (getN pool c).sum_square }))
            t rest

/-- `computeSumSquare(tree)` from the root. -/
def computeSumSquareTop (fuel : Nat) (pool : List Node) (t : Nat) : Option (List Node) :=
  sumsqRec fuel pool t (getN pool t).childs

/-- The child fold of `computeContrast(tree)` carrying the running
`current_max`; when the children are exhausted `tree->contrast` is set
to it. -/
def contrastRec : Nat → List Node → Nat → List Nat → Int → Option (List Node)
  | 0, _, _, _, _ => none
  | _+1, pool, t, [], cmax => some (modN pool t (fun n => { n with contrast := cmax }))
  | fuel+1, pool, t, c :: rest, cmax =>
      match contrastRec fuel pool c (getN pool c).childs 0 with
      | none => none
      | some pool =>
          let cc := ((getN pool c).h - (getN pool t).h) + (getN pool c).contrast
          contrastRec fuel pool t rest (if cc > cmax then cc else cmax)

/-- `computeContrast(tree)` from the root. -/
def computeContrastTop (fuel : Nat) (pool : List Node) (t : Nat) : Option (List Node) :=
  contrastRec fuel pool t (getN pool t).childs 0

/-- The head of `computeVolume(tree)`: `volume = area * local_contrast`
with the root convention (`h - 0` when the node is its own father). -/
def volumeInit (pool : List Node) (t : Nat) : List Node :=
  modN pool t (fun n =>
    let lc := match n.father with
      | some f => if f = t then n.h else n.h - (getN pool f).h
      | none => n.h
    { n with volume := n.area * lc })

/-- The child fold of `computeVolume(tree)`. -/
def volumeRec : Nat → List Node → Nat → List Nat → Option (List Node)
  | 0, _, _, _ => none
  | _+1, pool, _, [] => some pool
  | fuel+1, pool, t, c :: rest =>
      match volumeRec fuel (volumeInit pool c) c (getN pool c).childs with
      | none => none
      | some pool =>
          volumeRec fuel (modN pool t (fun n => { n with volume := n.volume + (getN pool c).volume })) t rest

/-- `computeVolume(tree)` from the root. -/
def computeVolumeTop (fuel : Nat) (pool : List Node) (t : Nat) : Option (List Node) :=
  volumeRec fuel (volumeInit pool t) t (getN pool t).childs

/-- The child fold of `computeSubNodes(tree)`.  Note the source
*assigns* `tree->subNodes = tree->childs.size() + computeSubNodes(*it)`
inside the loop, so after the loop only the last child's count remains
added. -/
def subNodesRec : Nat → List Node → Nat → List Nat → Option (List Node)
  | 0, _, _, _ => none
  | _+1, pool, _, [] => some pool
  | fuel+1, pool, t, c :: rest =>
      match subNodesRec fuel pool c (getN pool c).childs with
      | none => none
      | some pool =>
          subNodesRec fuel
            (modN pool t (fun n =>
              { n with subNodes := ((getN pool t).childs.length : Int) + (getN pool c).subNodes }))
            t rest

/-- `computeSubNodes(tree)` from the root. -/
def computeSubNodesTop (fuel : Nat) (pool : List Node) (t : Nat) : Option (List Node) :=
  subNodesRec fuel pool t (getN pool t).childs

/-- The child fold of `computeMean(tree)`: recurse into every child,
then set `mean = sum / area`. -/
def meanRec : Nat → List Node → Nat → List Nat → Option (List Node)
  | 0, _, _, _ => none
  | _+1, pool, t, [] =>
      some (modN pool t (fun n => { n with mean := LD.div ⟨n.sum, 1⟩ ⟨n.area, 1⟩ }))
  | fuel+1, pool, t, c :: rest =>
      match meanRec fuel pool c (getN pool c).childs with
      | none => none
      | some pool => meanRec fuel pool t rest

/-- `computeMean(tree)` from the root. -/
def computeMeanTop (fuel : Nat) (pool : List Node) (t : Nat) : Option (List Node) :=
  meanRec fuel pool t (getN pool t).childs

/-- The child fold of `computeVariance(tree)`:
`variance = sum_square / area - mean * mean`. -/
def varianceRec : Nat → List Node → Nat → List Nat → Option (List Node)
  | 0, _, _, _ => none
  | _+1, pool, t, [] =>
      some (modN pool t (fun n =>
        { n with variance := LD.sub (LD.div ⟨n.sum_square, 1⟩ ⟨n.area, 1⟩) (LD.mul n.mean n.mean) }))
  | fuel+1, pool, t, c :: rest =>
      match varianceRec fuel pool c (getN pool c).childs with
      | none => none
      | some pool => varianceRec fuel pool t rest

/-- `computeVariance(tree)` from the root. -/
def computeVarianceTop (fuel : Nat) (pool : List Node) (t : Nat) : Option (List Node) :=
  varianceRec fuel pool t (getN pool t).childs

/-- The child fold of `computeOtsu(tree)`:
`otsu = (mean - mean_nghb)^2 / (variance + variance_nghb)`. -/
def otsuRec : Nat → List Node → Nat → List Nat → Option (List Node)
  | 0, _, _, _ => none
  | _+1, pool, t, [] =>
      some (modN pool t (fun n =>
        { n with otsu := LD.div (LD.mul (LD.sub n.mean n.mean_nghb) (LD.sub n.mean n.mean_nghb))
                                (LD.add n.variance n.variance_nghb) }))
  | fuel+1, pool, t, c :: rest =>
      match otsuRec fuel pool c (getN pool c).childs with
      | none => none
      | some pool => otsuRec fuel pool t rest

/-- `computeOtsu(tree)` from the root. -/
def computeOtsuTop (fuel : Nat) (pool : List Node) (t : Nat) : Option (List Node) :=
  otsuRec fuel pool t (getN pool t).childs

/-- The father of a node (dereference of `tree->father`; out-of-pool
and unset fathers yield the default node, which no guarded path ever
does). -/
def getF (pool : List Node) (n : Node) : Node :=
  match n.father with
  | some f => getN pool f
  | none => defNode

/-- The child fold of `computeAreaDerivative(tree)`: recurse into every
child, then set the three derivative fields from the father's `area`
and `h`. -/
def areaDerivRec : Nat → List Node → Nat → List Nat → Option (List Node)
  | 0, _, _, _ => none
  | _+1, pool, t, [] =>
      some (modN pool t (fun n =>
        let fa := getF pool n
        { n with
          area_derivative_areaN_h :=
            LD.div (LD.div ⟨fa.area - n.area, 1⟩ ⟨n.h - fa.h, 1⟩) ⟨n.area, 1⟩,
          area_derivative_h := LD.div ⟨fa.area - n.area, 1⟩ ⟨n.h - fa.h, 1⟩,
          area_derivative_areaN := LD.div ⟨fa.area - n.area, 1⟩ ⟨n.area, 1⟩ }))
  | fuel+1, pool, t, c :: rest =>
      match areaDerivRec fuel pool c (getN pool c).childs with
      | none => none
      | some pool => areaDerivRec fuel pool t rest

/-- `computeAreaDerivative(tree)` from the root. -/
def computeAreaDerivativeTop (fuel : Nat) (pool : List Node) (t : Nat) : Option (List Node) :=
  areaDerivRec fuel pool t (getN pool t).childs

/-- The child fold of `computeAreaDerivative2(tree)`:
`area_derivative_areaN_h_derivative = father's areaN_h - own areaN_h`. -/
def areaDeriv2Rec : Nat → List Node → Nat → List Nat → Option (List Node)
  | 0, _, _, _ => none
  | _+1, pool, t, [] =>
      some (modN pool t (fun n =>
        { n with area_derivative_areaN_h_derivative :=
            LD.sub (getF pool n).area_derivative_areaN_h n.area_derivative_areaN_h }))
  | fuel+1, pool, t, c :: rest =>
      match areaDeriv2Rec fuel pool c (getN pool c).childs with
      | none => none
      | some pool => areaDeriv2Rec fuel pool t rest

/-- `computeAreaDerivative2(tree)` from the root. -/
def computeAreaDerivative2Top (fuel : Nat) (pool : List Node) (t : Nat) : Option (List Node) :=
  areaDeriv2Rec fuel pool t (getN pool t).childs

/-- The ancestor walk of `computeMSER`:
`while (h_node - node.h < delta && node.father != node.father->father) node = *node.father;`
returns the index of the node the walk stops at. -/
def mserWalk : Nat → List Node → Int → Int → Nat → Option Nat
  | 0, _, _, _, _ => none
  | fuel+1, pool, hnode, delta, cur =>
      let n := getN pool cur
      if (hnode - n.h < delta : Bool) && (match n.father with
          | some f => (getN pool f).father != some f
          | none => false) then
        mserWalk fuel pool hnode delta (n.father.getD cur)
      else some cur

/-- The child fold of `computeMSER(tree, delta)`: recurse into every
child, then reset the three fields to the `+∞` sentinel, walk the
ancestors, and set them when the intensity threshold was met. -/
def mserRec : Nat → List Node → Int → Nat → List Nat → Option (List Node)
  | 0, _, _, _, _ => none
  | fuel+1, pool, delta, t, [] =>
      let n0 := getN pool t
      let pool := modN pool t (fun n =>
        { n with mser := none, area_derivative_delta_h := none,
                 area_derivative_delta_areaF := none })
      (match mserWalk fuel pool n0.h delta t with
       | none => none
       | some stop =>
          let x := getN pool stop
          if n0.h - x.h ≥ delta then
            some (modN pool t (fun n =>
              { n with
                mser := some (LD.div ⟨x.area - n0.area, 1⟩ ⟨n0.area, 1⟩),
                area_derivative_delta_h :=
                  some (LD.div ⟨x.area - n0.area, 1⟩ ⟨n0.h - x.h, 1⟩),
                area_derivative_delta_areaF :=
                  some (LD.div ⟨x.area - n0.area, 1⟩ ⟨x.area, 1⟩) }))
          else some pool)
  | fuel+1, pool, delta, t, c :: rest =>
      match mserRec fuel pool delta c (getN pool c).childs with
      | none => none
      | some pool => mserRec fuel pool delta t rest

/-- `computeMSER(tree, delta)` from the root. -/
def computeMSERTop (fuel : Nat) (pool : List Node) (delta : Int) (t : Nat) :
    Option (List Node) :=
  mserRec fuel pool delta t (getN pool t).childs

/-- Translate a bordered-image offset back to an original-image offset
(the `conversion offset imBorder->im` blocks). -/
def borderToOri (st : BState) (o : Nat) : Int :=
  (st.imBorder.cx o - st.back.1) +
  (st.imBorder.cy o - st.back.2.1) * (st.oriImg.sx : Int) +
  (st.imBorder.cz o - st.back.2.2) * ((st.oriImg.sx : Int) * st.oriImg.sy)

/-- The non-border contour walk: climb fathers while `tmp->h >
minValue`, incrementing `contourLength` (and recording the border pixel
when saving). -/
def contourWalkMin (fuel : Nat) (pool : List Node) (cur : Nat) (minv : Int)
    (save : Bool) (imOff : Int) : Option (List Node) :=
  match fuel with
  | 0 => none
  | fuel+1 =>
      let n := getN pool cur
      if n.h > minv then
        let pool := modN pool cur (fun m =>
          { m with contourLength := m.contourLength + 1,
                   pixels_border := if save then m.pixels_border ++ [imOff] else m.pixels_border })
        match n.father with
        | some f => contourWalkMin fuel pool f minv save imOff
        | none => some pool
      else some pool

/-- The border-hitting contour walk: climb fathers up to and including
the root, incrementing `contourLength` at every node. -/
def contourWalkBorder (fuel : Nat) (pool : List Node) (cur : Nat)
    (save : Bool) (imOff : Int) : Option (List Node) :=
  match fuel with
  | 0 => none
  | fuel+1 =>
      let pool := modN pool cur (fun m =>
        { m with contourLength := m.contourLength + 1,
                 pixels_border := if save then m.pixels_border ++ [imOff] else m.pixels_border })
      match (getN pool cur).father with
      | some f => if f = cur then some pool else contourWalkBorder fuel pool f save imOff
      | none => some pool

/-- The neighbor scan of one pixel of the contour pass: returns
`(contour, hitsBorder, minValue)`; `none` models the
`numeric_limits<T>::max()` start value of `minValue`. -/
def contourProbe (st : BState) (o : Nat) (v : Int) : Bool × Bool × Option Int :=
  st.seOff.foldl (fun (a : Bool × Bool × Option Int) d =>
    let q := (o : Int) + d
    if statusGet st q ≠ BORDER_STATUS then
      if v > st.imBorder.get q then
        let m := match a.2.2 with
          | none => some (st.imBorder.get q)
          | some m0 => if st.imBorder.get q < m0 then some (st.imBorder.get q) else some m0
        (true, a.2.1, m)
      else a
    else (true, true, some st.hMin)) (false, false, none)

/-- One pixel of `computeContour`: probe the neighbors and run the
matching ancestor walk from the owning node
(`index[hToIndex(*it)][STATUS(offset)]`). -/
def contourPixel (fuel : Nat) (st : BState) (save : Bool) (pool : List Node) (o : Nat) :
    Option (List Node) :=
  let s0 := st.status.getD o BORDER_STATUS
  if s0 = BORDER_STATUS then some pool
  else
    let v := st.imBorder.data.getD o 0
    let pr := contourProbe st o v
    if pr.1 = false then some pool
    else
      match (if 0 ≤ s0 then idxGet st (hToIndex st v) s0.toNat else none) with
      | none => some pool
      | some nid =>
          if pr.2.1 then contourWalkBorder fuel pool nid save (borderToOri st o)
          else
            match pr.2.2 with
            | some minv => contourWalkMin fuel pool nid minv save (borderToOri st o)
            | none => some pool

/-- The offset loop of `computeContour`. -/
def contourScan (fuel : Nat) (st : BState) (save : Bool) (pool : List Node) :
    List Nat → Option (List Node)
  | [] => some pool
  | o :: rest =>
      match contourPixel fuel st save pool o with
      | none => none
      | some pool => contourScan fuel st save pool rest

/-- `SalembierRecursiveImplementation::computeContour(save_pixels)`:
one pass over the bordered image. -/
def computeContourPass (fuel : Nat) (st : BState) (save : Bool) : Option BState :=
  match contourScan fuel st save st.pool (List.range st.imBorder.data.length) with
  | none => none
  | some pool => some { st with pool := pool }

/-- Numerator of the `M_PI` literal of the source. -/
def M_PI_NUM : Int := 314159265358979323846

/-- Denominator of the `M_PI` literal of the source. -/
def M_PI_DEN : Int := 100000000000000000000

/-- `computeComplexityAndCompacity(tree)`: BFS setting
`complexity = trunc(1000 * contourLength / area)` (when `area != 0`)
and `compacity = trunc(4 * pi * area / contourLength^2 * 1000)` (0 when
`contourLength = 0`); the real arithmetic is modelled exactly, with the
source's `M_PI` literal for pi. -/
def ccLoop (fuel : Nat) (pool : List Node) (queue : List Nat) : Option (List Node) :=
  match fuel, queue with
  | _, [] => some pool
  | 0, _ => none
  | fuel+1, t :: rest =>
      let pool := modN pool t (fun n =>
        let n := if n.area ≠ 0 then
            { n with complexity := (1000 * n.contourLength) / n.area } else n
        if n.contourLength ≠ 0 then
          { n with compacity :=
              (4000 * n.area * M_PI_NUM) / (n.contourLength * n.contourLength * M_PI_DEN) }
        else { n with compacity := 0 })
      ccLoop fuel pool (rest ++ (getN pool t).childs)

/-- One step of `computeBoundingBox`'s merge fold (the body of
`bboxFold`'s `foldl`): merge `t`'s bounding box into its father's. -/
def bboxStep (pool : List Node) (t : Nat) : List Node :=
  match (getN pool t).father with
  | some f =>
      if f = t then pool
      else modN pool f (fun fa =>
        { fa with xmin := min fa.xmin (getN pool t).xmin,
                  xmax := max fa.xmax (getN pool t).xmax,
                  ymin := min fa.ymin (getN pool t).ymin,
                  ymax := max fa.ymax (getN pool t).ymax,
                  zmin := min fa.zmin (getN pool t).zmin,
                  zmax := max fa.zmax (getN pool t).zmax })
  | none => pool

/-- `computeBoundingBox(tree)`: BFS collect, then in reverse (stack)
order merge every non-root node's bounding box into its father's. -/
def bboxFold (pool : List Node) (order : List Nat) : List Node :=
  order.foldl (fun pl t =>
    let n := getN pl t
    match n.father with
    | some f =>
        if f = t then pl
        else modN pl f (fun fa =>
          { fa with xmin := min fa.xmin n.xmin, xmax := max fa.xmax n.xmax,
                    ymin := min fa.ymin n.ymin, ymax := max fa.ymax n.ymax,
                    zmin := min fa.zmin n.zmin, zmax := max fa.zmax n.zmax })
    | none => pl) pool

/-- `computeBoundingBox(tree)` from the root. -/
def computeBoundingBoxTop (fuel : Nat) (pool : List Node) (t : Nat) : Option (List Node) :=
  match bfsOrder fuel pool [t] [] with
  | none => none
  | some order => some (bboxFold pool order.reverse)

/-- The child fold of `computeBorderGradient(tree)`: recurse into every
child, then average the gradient image over the recorded border
pixels. -/
def borderGradRec (grad : Img) : Nat → List Node → Nat → List Nat → Option (List Node)
  | 0, _, _, _ => none
  | _+1, pool, t, [] =>
      some (modN pool t (fun n =>
        let s := n.pixels_border.foldl (fun a o => a + grad.get o) 0
        { n with mean_gradient_border := LD.div ⟨s, 1⟩ ⟨(n.pixels_border.length : Int), 1⟩ }))
  | fuel+1, pool, t, c :: rest =>
      match borderGradRec grad fuel pool c (getN pool c).childs with
      | none => none
      | some pool => borderGradRec grad fuel pool t rest

/-- `computeBorderGradient(tree)` from the root. -/
def computeBorderGradientTop (fuel : Nat) (grad : Img) (pool : List Node) (t : Nat) :
    Option (List Node) :=
  borderGradRec grad fuel pool t (getN pool t).childs

/-- `Image::isPosValid` for the original image. -/
def posValid (im : Img) (x y z : Int) : Bool :=
  0 ≤ x && x < (im.sx : Int) && 0 ≤ y && y < (im.sy : Int) && 0 ≤ z && z < (im.sz : Int)

/-- The per-node body of
`ComponentTree::computeNeighborhoodAttributes(r)`: collect the
aggregated subtree pixels, deactivate them in the scratch image, then
consume each still-active in-bounds ball neighbor once, accumulating
`area_nghb`, `sum_nghb`, `sum_square_nghb`, and finally derive
`mean_nghb` and `variance_nghb` when `area_nghb > 0`. -/
def ringNode (fuel : Nat) (img : Img) (ball : FlatSE) (pool : List Node) (t : Nat) :
    Option (List Node) :=
  match mergePixels fuel pool [t] [] with
  | none => none
  | some pixels =>
      let act0 := (List.replicate img.len true)
      let act := pixels.foldl (fun (a : List Bool) o =>
        if 0 ≤ o then a.set o.toNat false else a) act0
      let res := pixels.foldl (fun (s : List Bool × Int × Int × Int) o =>
        let px := img.cx o.toNat
        let py := img.cy o.toNat
        let pz := img.cz o.toNat
        ball.foldl (fun (s : List Bool × Int × Int × Int) d =>
          let qx := px + d.1
          let qy := py + d.2.1
          let qz := pz + d.2.2
          if posValid img qx qy qz then
            let qo := img.getOffset qx qy qz
            if s.1.getD qo.toNat false then
              (s.1.set qo.toNat false, s.2.1 + 1, s.2.2.1 + img.get qo,
               s.2.2.2 + img.get qo * img.get qo)
            else s
          else s) s) (act, 0, 0, 0)
      some (modN pool t (fun n =>
        let n := { n with area_nghb := n.area_nghb + res.2.1,
                          sum_nghb := n.sum_nghb + res.2.2.1,
                          sum_square_nghb := n.sum_square_nghb + res.2.2.2 }
        if (0 : Int) < n.area_nghb then
          { n with mean_nghb := LD.div ⟨n.sum_nghb, 1⟩ ⟨n.area_nghb, 1⟩,
                   variance_nghb :=
                     LD.sub (LD.div ⟨n.sum_square_nghb, 1⟩ ⟨n.area_nghb, 1⟩)
                            (LD.mul (LD.div ⟨n.sum_nghb, 1⟩ ⟨n.area_nghb, 1⟩)
                                    (LD.div ⟨n.sum_nghb, 1⟩ ⟨n.area_nghb, 1⟩)) }
        else n))

/-- The BFS loop of `computeNeighborhoodAttributes(r)`. -/
def ringLoop (fuel : Nat) (img : Img) (ball : FlatSE) (pool : List Node)
    (queue : List Nat) : Option (List Node) :=
  match fuel, queue with
  | _, [] => some pool
  | 0, _ => none
  | fuel+1, t :: rest =>
      match ringNode fuel img ball pool t with
      | none => none
      | some pool => ringLoop fuel img ball pool (rest ++ (getN pool t).childs)

/-- `ComponentTree::computeNeighborhoodAttributes(r)`. -/
def computeNeighborhoodAttributes (fuel : Nat) (st : BState) (root : Nat) (r : Int) :
    Option BState :=
  match ringLoop fuel st.oriImg (make2DEuclidianBall r) st.pool [root] with
  | none => none
  | some pool => some { st with pool := pool }

/-- Bind for the `Option BState` pipeline of the attribute passes. -/
def obind (a : Option BState) (f : BState → Option BState) : Option BState :=
  match a with
  | none => none
  | some st => f st

/-- Lift a pool pass into the state pipeline. -/
def onPool (st : BState) (r : Option (List Node)) : Option BState :=
  match r with
  | none => none
  | some pool => some { st with pool := pool }

/-- `computeAttributes(tree)` (the no-argument bundle used by the
default constructors): area, contrast, volume, contour scan,
complexity/compacity, bounding box, subNodes. -/
def computeAttributes1 (fuel : Nat) (st : BState) (root : Nat) : Option BState :=
  obind (onPool st (computeAreaTop fuel st.pool root)) (fun st =>
  obind (onPool st (computeContrastTop fuel st.pool root)) (fun st =>
  obind (onPool st (computeVolumeTop fuel st.pool root)) (fun st =>
  obind (computeContourPass fuel st false) (fun st =>
  obind (onPool st (ccLoop fuel st.pool [root])) (fun st =>
  obind (onPool st (computeBoundingBoxTop fuel st.pool root)) (fun st =>
  onPool st (computeSubNodesTop fuel st.pool root)))))))

/-- `computeAttributes(tree, delta)`: area, the area derivatives, MSER
at `delta`, contrast, volume. -/
def computeAttributes2 (fuel : Nat) (st : BState) (root : Nat) (delta : Int) :
    Option BState :=
  obind (onPool st (computeAreaTop fuel st.pool root)) (fun st =>
  obind (onPool st (computeAreaDerivativeTop fuel st.pool root)) (fun st =>
  obind (onPool st (computeAreaDerivative2Top fuel st.pool root)) (fun st =>
  obind (onPool st (computeMSERTop fuel st.pool delta root)) (fun st =>
  obind (onPool st (computeContrastTop fuel st.pool root)) (fun st =>
  onPool st (computeVolumeTop fuel st.pool root))))))

/-- Modelled from the spec: the `ComputedAttributes` enum lives in
`ComponentTree.h`, which is not in `src/`; the spec (§6.2) lists the
flags, and says `OTSU` implies `AREA`, so the `OTSU` flag is modelled
as containing the `AREA` bit.  This is `ComputedAttributes::AREA`. -/
def CA_AREA : Nat := 1

/-- `ComputedAttributes::AREA_DERIVATIVES`. -/
def CA_AREA_DERIVATIVES : Nat := 2

/-- `ComputedAttributes::CONTRAST`. -/
def CA_CONTRAST : Nat := 4

/-- `ComputedAttributes::VOLUME`. -/
def CA_VOLUME : Nat := 8

/-- `ComputedAttributes::BORDER_GRADIENT`. -/
def CA_BORDER_GRADIENT : Nat := 16

/-- `ComputedAttributes::COMP_LEXITY_ACITY`. -/
def CA_COMP_LEXITY_ACITY : Nat := 32

/-- `ComputedAttributes::BOUNDING_BOX`. -/
def CA_BOUNDING_BOX : Nat := 64

/-- `ComputedAttributes::SUB_NODES`. -/
def CA_SUB_NODES : Nat := 128

/-- `ComputedAttributes::OTSU`; contains the `AREA` bit (see
`CA_AREA`). -/
def CA_OTSU : Nat := 257

/-- `computeAttributes(tree, ca, delta)`: the bitmask-selected attribute
bundle, in the source's dispatch order.  Note `computeOtsu` runs only
inside the `AREA` branch. -/
def computeAttributes3 (fuel : Nat) (st : BState) (root : Nat) (ca : Nat) (delta : Int) :
    Option BState :=
  obind (if ca &&& CA_AREA ≠ 0 then
      obind (onPool st (computeAreaTop fuel st.pool root)) (fun st =>
        if ca &&& CA_OTSU ≠ 0 then
          obind (onPool st (computeSumTop fuel st.pool root)) (fun st =>
          obind (onPool st (computeSumSquareTop fuel st.pool root)) (fun st =>
          obind (onPool st (computeMeanTop fuel st.pool root)) (fun st =>
          obind (onPool st (computeVarianceTop fuel st.pool root)) (fun st =>
          onPool st (computeOtsuTop fuel st.pool root)))))
        else some st)
    else some st) (fun st =>
  obind (if ca &&& CA_AREA_DERIVATIVES ≠ 0 then
      obind (onPool st (computeAreaDerivativeTop fuel st.pool root)) (fun st =>
      obind (onPool st (computeAreaDerivative2Top fuel st.pool root)) (fun st =>
      onPool st (computeMSERTop fuel st.pool delta root)))
    else some st) (fun st =>
  obind (if ca &&& CA_CONTRAST ≠ 0 then onPool st (computeContrastTop fuel st.pool root)
    else some st) (fun st =>
  obind (if ca &&& CA_VOLUME ≠ 0 then onPool st (computeVolumeTop fuel st.pool root)
    else some st) (fun st =>
  obind (if ca &&& CA_BORDER_GRADIENT ≠ 0 then
      obind (computeContourPass fuel st true) (fun st =>
      onPool st (computeBorderGradientTop fuel st.imGradient st.pool root))
    else some st) (fun st =>
  obind (if ca &&& CA_COMP_LEXITY_ACITY ≠ 0 then
      (if ca &&& CA_BORDER_GRADIENT ≠ 0 then onPool st (ccLoop fuel st.pool [root])
       else obind (computeContourPass fuel st false) (fun st =>
         onPool st (ccLoop fuel st.pool [root])))
    else some st) (fun st =>
  obind (if ca &&& CA_BOUNDING_BOX ≠ 0 then
      onPool st (computeBoundingBoxTop fuel st.pool root)
    else some st) (fun st =>
  if ca &&& CA_SUB_NODES ≠ 0 then onPool st (computeSubNodesTop fuel st.pool root)
  else some st)))))))

/-- `ComponentTree(img)`: build with the default 8-connected 2D
neighborhood and compute the default attribute bundle. -/
def componentTree1 (fuel : Nat) (img : Img) : Option (Nat × BState) :=
  match computeTree fuel img make2DN8 with
  | none => none
  | some (root, st) =>
      match computeAttributes1 fuel st root with
      | none => none
      | some st => some (root, st)

/-- `ComponentTree(img, connexity)`. -/
def componentTree2 (fuel : Nat) (img : Img) (conn : FlatSE) : Option (Nat × BState) :=
  match computeTree fuel img conn with
  | none => none
  | some (root, st) =>
      match computeAttributes1 fuel st root with
      | none => none
      | some st => some (root, st)

/-- `ComponentTree(img, connexity, delta)`: the MSER constructor. -/
def componentTree3 (fuel : Nat) (img : Img) (conn : FlatSE) (delta : Int) :
    Option (Nat × BState) :=
  match computeTree fuel img conn with
  | none => none
  | some (root, st) =>
      match computeAttributes2 fuel st root delta with
      | none => none
      | some st => some (root, st)

/-- `ComponentTree(img, connexity, ca, delta)`: build the tree, run the
neighborhood-ring pass when the mask meets `OTSU`, then the selected
bundle. -/
def componentTree4 (fuel : Nat) (img : Img) (conn : FlatSE) (ca : Nat) (delta : Int) :
    Option (Nat × BState) :=
  match computeTree fuel img conn with
  | none => none
  | some (root, st) =>
      match (if ca &&& CA_OTSU ≠ 0 then computeNeighborhoodAttributes fuel st root delta
             else some st) with
      | none => none
      | some st =>
          match computeAttributes3 fuel st root ca delta with
          | none => none
          | some st => some (root, st)

/-- The four whitespace-delimited header fields parsed by
`GImageIO_ReadPPMHeader` (`Common/ImageIO.hxx`): magic token, width,
height, `colormax`.  The character-level tokenizer (comment skipping,
separator handling) is abstracted: the reader model receives the parsed
fields, which is all its control flow inspects. -/
structure PPMHeader where
  format : String
  width : Nat
  height : Nat
  colormax : Nat
  deriving Repr, DecidableEq

/-- An opened binary PGM/PPM file: header fields plus raster bytes;
`none` models a file that failed to open. -/
abbrev PGMFile := Option (PPMHeader × List Int)

/-- `Image<U8>::load(filename, im)`: returns the success flag together
with the (possibly replaced) image.  On open failure, on a magic other
than `P5` and on `colormax >= 256` it returns 0 and leaves `im`
untouched; otherwise it reallocates `im` to `width x height x 1` and
fills it with the raster bytes (missing bytes read as 0). -/
def loadU8 (f : PGMFile) (im : Img) : Int × Img :=
  match f with
  | none => (0, im)
  | some fd =>
      if fd.1.format ≠ "P5" ∨ fd.1.colormax ≥ 256 then (0, im)
      else (1, { sx := fd.1.width, sy := fd.1.height, sz := 1,
                 data := (List.range (fd.1.width * fd.1.height)).map
                   (fun i => fd.2.getD i 0) })

/-- An RGB image buffer (`Image<RGB>`). -/
structure RGBImg where
  sx : Nat
  sy : Nat
  sz : Nat
  data : List (Int × Int × Int)
  deriving Repr, DecidableEq

/-- `Image<RGB>::load(filename, im)`: like `loadU8` with magic `P6`
and three raster bytes per pixel. -/
def loadRGB (f : PGMFile) (im : RGBImg) : Int × RGBImg :=
  match f with
  | none => (0, im)
  | some fd =>
      if fd.1.format ≠ "P6" ∨ fd.1.colormax ≥ 256 then (0, im)
      else (1, { sx := fd.1.width, sy := fd.1.height, sz := 1,
                 data := (List.range (fd.1.width * fd.1.height)).map
                   (fun i => (fd.2.getD (3*i) 0, fd.2.getD (3*i+1) 0, fd.2.getD (3*i+2) 0)) })

/-- Test image: the 1-pixel-wide ramp `[0,1,2,0,1]` whose max-tree root
has two children, the first of which has a child of its own. -/
def imgRamp5 : Img := ⟨5, 1, 1, [0, 1, 2, 0, 1]⟩

/-- Test image: 3×3 with a central peak (spec scenario B). -/
def imgPeak33 : Img := ⟨3, 3, 1, [0, 0, 0, 0, 5, 0, 0, 0, 0]⟩

/-- Test image: 2×2 non-constant. -/
def imgStep22 : Img := ⟨2, 2, 1, [0, 0, 0, 1]⟩

/-- Test image: 2×1 step whose only non-root node's MSER search can
only be satisfied at the root. -/
def imgStep21 : Img := ⟨2, 1, 1, [0, 5]⟩

/-- Test image: the 3×1 chain `[0,1,2]`. -/
def imgChain31 : Img := ⟨3, 1, 1, [0, 1, 2]⟩

/-- The MSER ancestor walk as claim C4 words it (refinement spec,
following the claim's words rather than the source): walk the ancestor
chain of `cur` until a node with `hnode - h ≥ delta` is found or the
root (its own father) is reached. -/
def specMserStop (fuel : Nat) (pool : List Node) (hnode delta : Int) (cur : Nat) :
    Option Nat :=
  match fuel with
  | 0 => none
  | fuel+1 =>
      if hnode - (getN pool cur).h ≥ delta then some cur
      else match (getN pool cur).father with
        | some f => if f = cur then some cur else specMserStop fuel pool hnode delta f
        | none => some cur

/-- The MSER value as claim C4 words it: `(a.area - n.area) / n.area`
when the walk met the threshold, `+∞` (`none`) otherwise. -/
def specMser (fuel : Nat) (pool : List Node) (delta : Int) (t : Nat) :
    Option (Option LD) :=
  (specMserStop fuel pool (getN pool t).h delta t).map (fun a =>
    if (getN pool t).h - (getN pool a).h ≥ delta then
      some (LD.div ⟨(getN pool a).area - (getN pool t).area, 1⟩ ⟨(getN pool t).area, 1⟩)
    else none)

/-- The fully attributed tree of `imgPeak33` (default bundle). -/
def treePeak : Option (Nat × BState) :=
  (computeTree 400 imgPeak33 make2DN8).bind (fun r =>
    (computeAttributes1 400 r.2 r.1).map (fun st => (r.1, st)))

/-- The root index of `treePeak` (0 on the impossible failure path). -/
def rootPeak : Nat :=
  match treePeak with
  | some r => r.1
  | none => 0

/-- The state of `treePeak`. -/
def stPeak : BState :=
  match treePeak with
  | some r => r.2
  | none => initState imgPeak33 make2DN8

/-- The tree of `imgPeak33` with every node deactivated by
`areaFiltering(0,0)` (whose built root then has area 9 > 0). -/
def treeAllOff : Option (Nat × BState) :=
  (areaFiltering 400 stPeak rootPeak 0 0).map (fun st2 => (rootPeak, st2))

/-- The root index of `treeAllOff` (0 on the impossible failure path). -/
def rootAllOff : Nat :=
  match treeAllOff with
  | some r => r.1
  | none => 0

/-- The state of `treeAllOff`. -/
def stAllOff : BState :=
  match treeAllOff with
  | some r => r.2
  | none => initState imgPeak33 make2DN8

/-- A node with its three MSER-family fields reset to the sentinel:
equality under `eraseMser` says two nodes agree on every field the MSER
pass does not write. -/
def eraseMser (n : Node) : Node :=
  { n with mser := none, area_derivative_delta_h := none,
           area_derivative_delta_areaF := none }

/-- The list of nodes `computeMSER`'s recursion finishes, in finishing
order, mirroring `mserRec`'s traversal (which depends on the pool only
through the `childs` lists, which the pass never modifies). -/
def mserSeen (fuel : Nat) (pool : List Node) (t : Nat) (cs : List Nat) :
    Option (List Nat) :=
  match fuel, cs with
  | 0, _ => none
  | _+1, [] => some [t]
  | fuel+1, c :: rest =>
      match mserSeen fuel pool c (getN pool c).childs with
      | none => none
      | some v1 =>
          match mserSeen fuel pool t rest with
          | none => none
          | some v2 => some (v1 ++ v2)

/-- The father chain of a node: the node, its ancestors, and finally
the first self-fathered node (the root in a well-formed tree). -/
def ancestorsToRoot (fuel : Nat) (pool : List Node) (cur : Nat) : Option (List Nat) :=
  match fuel with
  | 0 => none
  | fuel+1 =>
      match (getN pool cur).father with
      | some f =>
          if f = cur then some [cur]
          else (ancestorsToRoot fuel pool f).map (fun l => cur :: l)
      | none => some [cur]

/-- A node with its `h` field reset: equality under `eraseH` says two
nodes agree on every field `constructImageDirectExpe` cannot write. -/
def eraseH (n : Node) : Node := { n with h := 0 }

/-- The nearest active proper ancestor of a node (`none` when every
proper ancestor up to the root is inactive, or the node is the root). -/
def naa (fuel : Nat) (pool : List Node) (nid : Nat) : Option Nat :=
  match fuel with
  | 0 => none
  | fuel+1 =>
      match (getN pool nid).father with
      | some f =>
          if f = nid then none
          else if (getN pool f).active then some f else naa fuel pool f
      | none => none

/-- The raw pool built from `imgStep21` (before any attribute pass). -/
def poolStep21 : List Node :=
  match computeTree 200 imgStep21 make2DN8 with
  | some r => r.2.pool
  | none => []

/-- `poolStep21` after `computeMSER` with `Δ = 5`. -/
def poolStep21M : List Node :=
  match computeMSERTop 200 poolStep21 5 0 with
  | some p => p
  | none => []

/-- The per-node write of one `constructImageDirectExpe` iteration:
every inactive member of `cs` has its `h` overwritten with `hv`. -/
def hFold (hv : Int) (pool : List Node) (cs : List Nat) : List Node :=
  cs.foldl (fun pl c =>
    if (getN pl c).active = false then modN pl c (fun m => { m with h := hv })
    else pl) pool

/-- A node with `h` zeroed and `active` set: equality under `eraseHA`
says two nodes agree on every field `restore` cannot write. -/
def eraseHA (n : Node) : Node := { n with h := 0, active := true }

/-- The chain tree of `imgChain31` with its attributes computed and the
area-1 leaf deactivated by `areaFiltering(2, 3)`. -/
def treeChainF : Option (Nat × BState) :=
  (computeTree 200 imgChain31 make2DN8).bind (fun r =>
    (computeAttributes1 200 r.2 r.1).bind (fun st =>
      (areaFiltering 200 st r.1 2 3).map (fun st2 => (r.1, st2))))

/-- The root index of `treeChainF` (0 on the impossible failure path). -/
def rootChainF : Nat :=
  match treeChainF with
  | some r => r.1
  | none => 0

/-- The state of `treeChainF`. -/
def stChainF : BState :=
  match treeChainF with
  | some r => r.2
  | none => initState imgChain31 make2DN8

/-- The image and state produced by the DIRECT reconstruction of
`stChainF` (dummies on the impossible failure path). -/
def outChainF : Img × BState :=
  match constructImage 200 stChainF rootChainF ConstructionDecision.DIRECT with
  | some o => o
  | none => (imgChain31, stChainF)

/-- Builder invariant: every materialized `index[l][j]` entry points
into the pool, at a node whose level is exactly `hMin + l`. -/
def IndexOK (st : BState) : Prop :=
  ∀ l j nid, idxGet st l j = some nid →
    nid < st.pool.length ∧ (getN st.pool nid).h = st.hMin + l

/-- Builder invariant: every father link in the pool is either the
root's self-link or points at an in-pool node of strictly lower level. -/
def FatherOK (pool : List Node) : Prop :=
  ∀ i p, (getN pool i).father = some p →
    p = i ∨ (p < pool.length ∧ i < pool.length ∧
      (getN pool p).h < (getN pool i).h)

/-- The raw builder output on the 3×1 chain image (dummies on the
impossible failure path). -/
def treeChainRaw : Nat × BState :=
  match computeTree 200 imgChain31 make2DN8 with
  | some r => r
  | none => (0, initState imgChain31 make2DN8)

/-- The six node fields the otsu claim is about: `otsu`, its four
inputs, and the `childs` list that steers every traversal.  Equality of
`oproj` across a pass says the pass touched none of them. -/
def oproj (n : Node) : LD × LD × LD × LD × LD × List Nat :=
  (n.otsu, n.mean, n.mean_nghb, n.variance, n.variance_nghb, n.childs)

/-- The value `computeOtsu` writes:
`(mean - mean_nghb)^2 / (variance + variance_nghb)`. -/
def otsuVal (n : Node) : LD :=
  LD.div (LD.mul (LD.sub n.mean n.mean_nghb) (LD.sub n.mean n.mean_nghb))
         (LD.add n.variance n.variance_nghb)

/-- A node with its `otsu` field reset. -/
def eraseOtsu (n : Node) : Node := { n with otsu := ⟨0, 1⟩ }

/-- Fueled subtree membership: `i` is reachable from `t` along `childs`
links. -/
def inSub : Nat → List Node → Nat → Nat → Bool
  | 0, _, _, _ => false
  | fuel+1, pool, t, i =>
      i == t || (getN pool t).childs.any (fun c => inSub fuel pool c i)

/-- The `(img, connexity, ca, delta)` construction on the 3×1 chain
image with the bare `OTSU` mask (dummies on the impossible failure
path). -/
def treeOtsu : Option (Nat × BState) :=
  componentTree4 300 imgChain31 make2DN8 CA_OTSU 1

/-- The root index of `treeOtsu`. -/
def rootOtsu : Nat :=
  match treeOtsu with
  | some r => r.1
  | none => 0

/-- The state of `treeOtsu`. -/
def stOtsu : BState :=
  match treeOtsu with
  | some r => r.2
  | none => initState imgChain31 make2DN8

/-- The raw builder state behind `treeOtsu` (fuel 300). -/
def stOtsu0 : BState :=
  match computeTree 300 imgChain31 make2DN8 with
  | some r => r.2
  | none => initState imgChain31 make2DN8

/-- The bordered width `initState` builds (`addBorders`'s `nx`). -/
def bNX (img : Img) (conn : FlatSE) : Nat :=
  img.sx + (seNegOffsets conn).1.toNat + (sePosOffsets conn).1.toNat

/-- The bordered height (`addBorders`'s `ny`). -/
def bNY (img : Img) (conn : FlatSE) : Nat :=
  img.sy + (seNegOffsets conn).2.1.toNat + (sePosOffsets conn).2.1.toNat

/-- The bordered depth (`addBorders`'s `nz`). -/
def bNZ (img : Img) (conn : FlatSE) : Nat :=
  img.sz + (seNegOffsets conn).2.2.toNat + (sePosOffsets conn).2.2.toNat

/-- The original-image linear index behind interior bordered cell `q`
(`addBorders`'s copy index). -/
def bLin (img : Img) (conn : FlatSE) (q : Nat) : Nat :=
  q % bNX img conn - (seNegOffsets conn).1.toNat +
  (q / bNX img conn % bNY img conn - (seNegOffsets conn).2.1.toNat) * img.sx +
  (q / (bNX img conn * bNY img conn) - (seNegOffsets conn).2.2.toNat) *
    (img.sx * img.sy)

/-- The original-image linear offset behind a bordered-image offset:
the coordinate translation that `update_attributes` performs. -/
def trOff (st : BState) (p : Int) : Int :=
  (st.imBorder.cx p.toNat - st.back.1) +
  (st.imBorder.cy p.toNat - st.back.2.1) * st.oriImg.sx +
  (st.imBorder.cz p.toNat - st.back.2.2) * (st.oriImg.sx * st.oriImg.sy)

/-- A bordered offset standing for a real cell of the original image
holding the same value. -/
def RealPix (st : BState) (p : Int) : Prop :=
  0 ≤ p ∧ 0 ≤ trOff st p ∧ (trOff st p).toNat < st.oriImg.data.length ∧
  st.oriImg.data.getD (trOff st p).toNat 0 = st.imBorder.get p

/-- Flooding invariant: every still-`ACTIVE` status cell is a real
original-image cell at or above the global minimum. -/
def StatusOK (st : BState) : Prop :=
  ∀ p : Int, statusGet st p = ACTIVE →
    RealPix st p ∧ st.hMin ≤ st.imBorder.get p

/-- Flooding invariant: every queued offset is a real cell whose value
is exactly the level of the FIFO holding it. -/
def QueueOK (st : BState) : Prop :=
  ∀ l, ∀ p ∈ hqGet st l, RealPix st p ∧ st.imBorder.get p = st.hMin + l

/-- Flooding invariant: every pixel stored in a node is an in-range
original-image offset whose value is the node's level. -/
def PixOK (st : BState) : Prop :=
  ∀ i, ∀ o ∈ (getN st.pool i).pixels, 0 ≤ o ∧ o.toNat < st.oriImg.data.length ∧
    st.oriImg.data.getD o.toNat 0 = (getN st.pool i).h

/-- Builder invariant: the builder never deactivates a node. -/
def ActiveOK (pool : List Node) : Prop :=
  ∀ i, (getN pool i).active = true

/-- Flooding invariant: the per-level node counters stay nonnegative,
so a counter written into the status image never collides with the
`ACTIVE` sentinel. -/
def NNOK (st : BState) : Prop :=
  ∀ l, 0 ≤ nnGet st l

/-- The conjunction of the pixel-tracking flooding invariants. -/
def PixBundle (st : BState) : Prop :=
  StatusOK st ∧ QueueOK st ∧ PixOK st ∧ ActiveOK st.pool ∧ NNOK st

/-- Fueled test mirroring `constructImageDirectExpe`'s paint loop: some
node in the BFS closure of `queue` holds original-image offset `j`. -/
def pixCover : Nat → List Node → List Nat → Nat → Bool
  | _, _, [], _ => false
  | 0, _, _, _ => false
  | fuel+1, pool, t :: rest, j =>
      (getN pool t).pixels.contains ((j : Int)) ||
      pixCover fuel pool (rest ++ (getN pool t).childs) j

/-- Fueled test: the father chain from `i` (stopping at a self-link or
an unset father, as the contour walks do) passes through `root`. -/
def fatherReach : Nat → List Node → Nat → Nat → Bool
  | 0, _, _, _ => false
  | fuel+1, pool, i, root =>
      decide (i < pool.length) &&
      (i == root ||
        ((getN pool i).father.elim false (fun f =>
          (f != i) && fatherReach fuel pool f root)))

/-- Decidable per-offset test on the builder state: the scanned
bordered cell `o` is a real pixel whose neighbor probe sees the image
border, whose owning-node lookup succeeds, and whose father chain
reaches `root` — exactly the cells whose `computeContour` walk bumps
the root's `contourLength`. -/
def goodC5 (fuel : Nat) (st : BState) (root : Nat) (o : Nat) : Bool :=
  (st.status.getD o BORDER_STATUS != BORDER_STATUS) &&
  (contourProbe st o (st.imBorder.data.getD o 0)).1 &&
  (contourProbe st o (st.imBorder.data.getD o 0)).2.1 &&
  ((if 0 ≤ st.status.getD o BORDER_STATUS then
      idxGet st (hToIndex st (st.imBorder.data.getD o 0))
        (st.status.getD o BORDER_STATUS).toNat
    else none).elim false (fun nid => fatherReach fuel st.pool nid root))

/-- The non-constant 2×2 image refuting the `2·(W+H)` bound. -/
def imgSq22 : Img := ⟨2, 2, 1, [0, 1, 0, 0]⟩

/-- Its built tree (dummies on the impossible failure path). -/
def treeSq22 : Nat × BState :=
  match computeTree 100 imgSq22 make2DN8 with
  | some r => r
  | none => (0, initState imgSq22 make2DN8)

/-- Its state after the contour scan. -/
def stSq22 : BState :=
  match computeContourPass 100 treeSq22.2 false with
  | some s => s
  | none => treeSq22.2

/-- A non-constant 3×3 image for the amended bound. -/
def img33C5 : Img := ⟨3, 3, 1, [0, 1, 0, 0, 0, 0, 0, 0, 2]⟩

/-- Its built tree (dummies on the impossible failure path). -/
def treeC5 : Nat × BState :=
  match computeTree 200 img33C5 make2DN8 with
  | some r => r
  | none => (0, initState img33C5 make2DN8)

/-- Its state after the contour scan. -/
def stC5 : BState :=
  match computeContourPass 200 treeC5.2 false with
  | some s => s
  | none => treeC5.2

/-- `constructImage(DIRECT)` on the unfiltered 3×1 chain tree (dummies
on the impossible failure path). -/
def reconC1 : Option (Img × BState) :=
  constructImage 200 treeChainRaw.2 treeChainRaw.1 ConstructionDecision.DIRECT

/-- The image `reconC1` returns. -/
def resC1 : Img :=
  match reconC1 with
  | some r => r.1
  | none => imgChain31

/-- The state `reconC1` returns. -/
def stC1 : BState :=
  match reconC1 with
  | some r => r.2
  | none => treeChainRaw.2

/-- The neighbor-accumulation body of `contourProbe`, named so that the
fold can be reasoned about one displacement at a time. -/
def probeStep (st : BState) (o : Nat) (v : Int) (a : Bool × Bool × Option Int)
    (d : Int) : Bool × Bool × Option Int :=
  let q := (o : Int) + d
  if statusGet st q ≠ BORDER_STATUS then
    if v > st.imBorder.get q then
      let m := match a.2.2 with
        | none => some (st.imBorder.get q)
        | some m0 => if st.imBorder.get q < m0 then some (st.imBorder.get q) else some m0
      (true, a.2.1, m)
    else a
  else (true, true, some st.hMin)

/-- Geometric interiority of a bordered-image offset: its coordinates
lie inside the box where `addBorders` copied the original image (the
complement is the border ring, together with the out-of-range
offsets). -/
def InteriorB (st : BState) (o : Nat) : Prop :=
  st.back.1.toNat ≤ o % st.imBorder.sx ∧
  o % st.imBorder.sx < st.back.1.toNat + st.oriImg.sx ∧
  st.back.2.1.toNat ≤ o / st.imBorder.sx % st.imBorder.sy ∧
  o / st.imBorder.sx % st.imBorder.sy < st.back.2.1.toNat + st.oriImg.sy ∧
  st.back.2.2.toNat ≤ o / (st.imBorder.sx * st.imBorder.sy) ∧
  o / (st.imBorder.sx * st.imBorder.sy) < st.back.2.2.toNat + st.oriImg.sz

/-- Flooding invariant: every non-interior status cell still holds
`BORDER_STATUS` — the flood only ever writes interior cells. -/
def RingOK (st : BState) : Prop :=
  ∀ o : Nat, ¬ InteriorB st o → st.status.getD o BORDER_STATUS = BORDER_STATUS

/-- Flooding invariant: every queued offset is geometrically interior. -/
def QGeomOK (st : BState) : Prop :=
  ∀ l, ∀ p ∈ hqGet st l, 0 ≤ p ∧ InteriorB st p.toNat

/-- The border-ring flooding invariant bundle. -/
def RingB (st : BState) : Prop := RingOK st ∧ QGeomOK st

/-- The bordered-image offset of original-image cell `j` of a 2D image
under the N8 border widths `(1, 1, 0)`. -/
def bOff (img : Img) (j : Nat) : Nat :=
  (j % img.sx + 1) + (j / img.sx + 1) * (img.sx + 2)

/-- In-image linear indices of the frame (boundary) pixels of a 2D
image: top row, bottom row, and the interior parts of the left and
right columns — `2·(W+H) − 4` cells when `W, H ≥ 2`. -/
def frameCells (img : Img) : List Nat :=
  (List.range img.sx).map (fun x => x) ++
  (List.range img.sx).map (fun x => x + (img.sy - 1) * img.sx) ++
  (List.range (img.sy - 2)).map (fun y => (y + 1) * img.sx) ++
  (List.range (img.sy - 2)).map (fun y => (img.sx - 1) + (y + 1) * img.sx)

end CTAI

namespace CTAI

/-! Helper lemmas about the list primitives underlying the pool and the
state cells. -/

theorem getD_set_self {α : Type} (l : List α) (i : Nat) (v d : α) (h : i < l.length) :
    (l.set i v).getD i d = v := by
  induction l generalizing i with
  | nil => simp at h
  | cons a t ih =>
      cases i with
      | zero => rfl
      | succ j => exact ih j (by simpa using h)

theorem getD_set_ne {α : Type} (l : List α) (i j : Nat) (v d : α) (h : j ≠ i) :
    (l.set i v).getD j d = l.getD j d := by
  induction l generalizing i j with
  | nil => rfl
  | cons a t ih =>
      cases i with
      | zero => cases j with
          | zero => exact absurd rfl h
          | succ j2 => rfl
      | succ i2 =>
          cases j with
          | zero => rfl
          | succ j2 => exact ih i2 j2 (fun e => h (by rw [e]))

theorem set_oob {α : Type} (l : List α) (i : Nat) (v : α) (h : l.length ≤ i) :
    l.set i v = l := by
  induction l generalizing i with
  | nil => rfl
  | cons a t ih =>
      cases i with
      | zero => simp at h
      | succ j => simpa using ih j (by simpa using h)

theorem getD_append_lt {α : Type} (l l2 : List α) (i : Nat) (d : α) (h : i < l.length) :
    (l ++ l2).getD i d = l.getD i d := by
  induction l generalizing i with
  | nil => simp at h
  | cons a t ih =>
      cases i with
      | zero => rfl
      | succ j => exact ih j (by simpa using h)

theorem getD_append_self {α : Type} (l : List α) (x d : α) :
    (l ++ [x]).getD l.length d = x := by
  induction l with
  | nil => rfl
  | cons a t ih => simp only [List.cons_append, List.length_cons]; exact ih

theorem length_modN (pool : List Node) (i : Nat) (f : Node → Node) :
    (modN pool i f).length = pool.length := by
  simp [modN]

theorem getN_modN_self (pool : List Node) (i : Nat) (f : Node → Node)
    (h : i < pool.length) : getN (modN pool i f) i = f (getN pool i) := by
  simp only [getN, modN]
  exact getD_set_self _ _ _ _ h

theorem getN_modN_ne (pool : List Node) (i j : Nat) (f : Node → Node) (h : j ≠ i) :
    getN (modN pool i f) j = getN pool j := by
  simp only [getN, modN]
  exact getD_set_ne _ _ _ _ _ h

theorem modN_oob (pool : List Node) (i : Nat) (f : Node → Node) (h : pool.length ≤ i) :
    modN pool i f = pool := set_oob _ _ _ h

theorem getN_append_lt (pool : List Node) (x : Node) (i : Nat) (h : i < pool.length) :
    getN (pool ++ [x]) i = getN pool i := by
  simp only [getN]
  exact getD_append_lt _ _ _ _ h

theorem getN_append_self (pool : List Node) (x : Node) :
    getN (pool ++ [x]) pool.length = x := by
  simp only [getN]
  exact getD_append_self _ _ _

/-- Claim C8: on every failing input of the PGM readers — open failure,
mismatched magic, or (for the 8-bit readers) `colormax` out of range —
`load` returns the failure indication 0 and the target image object is
left unchanged. -/
theorem pgm_load_failure_unchanged :
    (∀ (hdr : PPMHeader) (bytes : List Int) (im : Img),
        hdr.format ≠ "P5" ∨ hdr.colormax ≥ 256 →
        loadU8 (some (hdr, bytes)) im = (0, im)) ∧
    (∀ im : Img, loadU8 none im = (0, im)) ∧
    (∀ (hdr : PPMHeader) (bytes : List Int) (im : RGBImg),
        hdr.format ≠ "P6" ∨ hdr.colormax ≥ 256 →
        loadRGB (some (hdr, bytes)) im = (0, im)) ∧
    (∀ im : RGBImg, loadRGB none im = (0, im)) := by
  refine ⟨fun hdr bytes im h => ?_, fun im => rfl, fun hdr bytes im h => ?_, fun im => rfl⟩
  · simp only [loadU8, if_pos h]
  · simp only [loadRGB, if_pos h]

/-- Witness for C8: a `P6` header fed to the 8-bit `P5` reader and an
over-range `colormax` fed to the RGB reader both fail and leave the
image untouched. -/
theorem pgm_load_failure_unchanged_witness :
    loadU8 (some (⟨"P6", 2, 2, 255⟩, [1, 2, 3, 4])) imgStep22 = (0, imgStep22) ∧
    loadRGB (some (⟨"P6", 1, 1, 256⟩, [1, 2, 3])) ⟨1, 1, 1, [(9, 9, 9)]⟩ =
      (0, ⟨1, 1, 1, [(9, 9, 9)]⟩) :=
  ⟨pgm_load_failure_unchanged.1 _ _ _ (by decide),
   pgm_load_failure_unchanged.2.2.1 _ _ _ (by decide)⟩

/-- Claim C10: whenever the root is inactive, `constructImage(MIN)`
returns the all-zero image, regardless of the state of any descendant. -/
theorem min_reconstruction_root_inactive (fuel : Nat) (st : BState) (root : Nat)
    (h : (getN st.pool root).active = false) :
    constructImage fuel st root ConstructionDecision.MIN =
      some (⟨st.oriImg.sx, st.oriImg.sy, st.oriImg.sz, List.replicate st.oriImg.len 0⟩, st) := by
  simp only [constructImage, constructImageMin, h]
  simp [Img.fill]

/-- Witness for C10: the `imgPeak33` tree with every node (hence the
root, while some descendants exist) deactivated reconstructs under MIN
to the all-zero 3×3 image. -/
theorem min_reconstruction_root_inactive_witness :
    (getN stAllOff.pool rootAllOff).active = false ∧
    constructImage 400 stAllOff rootAllOff ConstructionDecision.MIN =
      some (⟨stAllOff.oriImg.sx, stAllOff.oriImg.sy, stAllOff.oriImg.sz,
             List.replicate stAllOff.oriImg.len 0⟩, stAllOff) :=
  ⟨by decide, min_reconstruction_root_inactive 400 stAllOff rootAllOff (by decide)⟩

/-- Claim C3 (code bug): with `SUB_NODES` selected, on `imgRamp5` the
root has two children whose own `subNodes` counts are 1 and 0, yet the
pass leaves `subNodes(root) = 2`: the loop in `computeSubNodes`
assigns `childs.size() + computeSubNodes(*it)` instead of accumulating,
so only the last child's count survives, and `2 ≠ 2 + (1 + 0)`, the
value the `|children| + Σ subNodes(child)` recurrence demands. -/
theorem subNodes_assignment_bug :
    (componentTree4 2000 imgRamp5 make2DN8 CA_SUB_NODES 0).map (fun r =>
      ((getN r.2.pool r.1).subNodes,
       (getN r.2.pool r.1).childs.map (fun c => (getN r.2.pool c).subNodes))) =
      some (2, [1, 0]) ∧
    (2 : Int) ≠ 2 + (1 + 0) := ⟨by decide, by decide⟩

/-- Claim C4 (counterexample): on `imgStep21` with `Δ = 5` the only
non-root node `n` has `n.h − root.h = 5 ≥ Δ`, so the walk described by
the claim stops at the root and yields
`(root.area − n.area)/n.area = 1`; but `computeMSER` (which never
examines the root) leaves `mser(n) = +∞`. -/
theorem mser_never_reaches_root :
    (componentTree3 2000 imgStep21 make2DN8 5).map (fun r => (getN r.2.pool 1).mser) =
      some none ∧
    (componentTree3 2000 imgStep21 make2DN8 5).bind (fun r => specMser 100 r.2.pool 5 1) =
      some (some ⟨1, 1⟩) ∧
    some (none : Option LD) ≠ some (some (⟨1, 1⟩ : LD)) :=
  ⟨by decide, by decide, by decide⟩

/-- Claim C5 (counterexample): `imgStep22` is a non-constant 2×2 image,
yet after the default pass (8-connectivity) the root's `contourLength`
is 4, the number of frame pixels, and `4 < 2·(W+H) = 8`. -/
theorem contour_root_below_2WH :
    imgStep22.getMin ≠ imgStep22.getMax ∧
    (componentTree1 2000 imgStep22).map (fun r => (getN r.2.pool r.1).contourLength) =
      some 4 ∧
    ¬((4 : Int) ≥ 2 * (2 + 2)) := ⟨by decide, by decide, by decide⟩

/-- What one `filterLoop` iteration does to the pool commutes with
everything we need: the deactivation update keeps every other field. -/
theorem filterLoop_step_childs (sel : Node → Int) (lo hi : Int) (pool : List Node) (t : Nat) :
    ∀ j, (getN (if sel (getN pool t) < lo ∨ sel (getN pool t) > hi then
            modN pool t (fun n => { n with active := false }) else pool) j).childs =
          (getN pool j).childs := by
  intro j
  by_cases hc : sel (getN pool t) < lo ∨ sel (getN pool t) > hi
  · simp only [if_pos hc]
    by_cases hj : j = t
    · subst hj
      by_cases hb : j < pool.length
      · rw [getN_modN_self _ _ _ hb]
      · rw [modN_oob _ _ _ (Nat.le_of_not_lt hb)]
    · rw [getN_modN_ne _ _ _ _ hj]
  · simp only [if_neg hc]

/-- The characterization of the shared filter loop: the pool keeps its
length; every node is either untouched or — when its selected attribute
lies outside `[lo, hi]` — exactly deactivated; and every in-pool node
the BFS visits whose attribute lies outside `[lo, hi]` ends inactive.
(`sel` must ignore the `active` flag, as all three filters' selectors
do.) -/
theorem filterLoop_spec (sel : Node → Int)
    (hsel : ∀ n, sel { n with active := false } = sel n) (lo hi : Int) :
    ∀ (fuel : Nat) (pool : List Node) (q : List Nat) (pool' : List Node),
    filterLoop fuel sel lo hi pool q = some pool' →
    pool'.length = pool.length ∧
    (∀ i, getN pool' i = getN pool i ∨
        ((sel (getN pool i) < lo ∨ sel (getN pool i) > hi) ∧
         getN pool' i = { getN pool i with active := false })) ∧
    (∀ (pool0 : List Node) (acc ord : List Nat),
        (∀ j, (getN pool0 j).childs = (getN pool j).childs) →
        bfsOrder fuel pool0 q acc = some ord →
        ∀ i, i ∈ ord → ¬ i ∈ acc → i < pool.length →
          (sel (getN pool i) < lo ∨ sel (getN pool i) > hi) →
          (getN pool' i).active = false) := by
  intro fuel
  induction fuel with
  | zero =>
      intro pool q pool' hrun
      cases q with
      | nil =>
          simp only [filterLoop, Option.some.injEq] at hrun
          subst hrun
          refine ⟨rfl, fun i => Or.inl rfl, ?_⟩
          intro pool0 acc ord _ hbfs i hi1 hi2 _ _
          simp only [bfsOrder, Option.some.injEq] at hbfs
          subst hbfs
          exact absurd (List.mem_reverse.mp hi1) hi2
      | cons t rest => simp [filterLoop] at hrun
  | succ fuel ih =>
      intro pool q pool' hrun
      cases q with
      | nil =>
          simp only [filterLoop, Option.some.injEq] at hrun
          subst hrun
          refine ⟨rfl, fun i => Or.inl rfl, ?_⟩
          intro pool0 acc ord _ hbfs i hi1 hi2 _ _
          simp only [bfsOrder, Option.some.injEq] at hbfs
          subst hbfs
          exact absurd (List.mem_reverse.mp hi1) hi2
      | cons t rest =>
          simp only [filterLoop] at hrun
          set pool1 := if sel (getN pool t) < lo ∨ sel (getN pool t) > hi then
            modN pool t (fun n => { n with active := false }) else pool with hpool1
          have hchilds1 : ∀ j, (getN pool1 j).childs = (getN pool j).childs :=
            filterLoop_step_childs sel lo hi pool t
          have hlen1 : pool1.length = pool.length := by
            rw [hpool1]
            by_cases hc : sel (getN pool t) < lo ∨ sel (getN pool t) > hi
            · rw [if_pos hc, length_modN]
            · rw [if_neg hc]
          obtain ⟨ihA, ihB, ihC⟩ := ih pool1 (rest ++ (getN pool1 t).childs) pool' hrun
          have hframe1 : ∀ i, i ≠ t → getN pool1 i = getN pool i := by
            intro i hit
            rw [hpool1]
            by_cases hc : sel (getN pool t) < lo ∨ sel (getN pool t) > hi
            · rw [if_pos hc, getN_modN_ne _ _ _ _ hit]
            · rw [if_neg hc]
          refine ⟨by rw [ihA, hlen1], ?_, ?_⟩
          · intro i
            by_cases hit : i = t
            · subst hit
              by_cases hc : sel (getN pool i) < lo ∨ sel (getN pool i) > hi
              · by_cases hb : i < pool.length
                · have h1 : getN pool1 i = { getN pool i with active := false } := by
                    rw [hpool1, if_pos hc, getN_modN_self _ _ _ hb]
                  rcases ihB i with h2 | ⟨_, h2⟩
                  · exact Or.inr ⟨hc, by rw [h2, h1]⟩
                  · exact Or.inr ⟨hc, by rw [h2, h1]⟩
                · have h1 : pool1 = pool := by
                    rw [hpool1, if_pos hc, modN_oob _ _ _ (Nat.le_of_not_lt hb)]
                  rw [← h1]
                  exact ihB i
              · have h1 : pool1 = pool := by rw [hpool1, if_neg hc]
                rw [← h1]
                exact ihB i
            · have h1 := hframe1 i hit
              rw [← h1]
              rcases ihB i with h2 | ⟨ho, he⟩
              · exact Or.inl h2
              · exact Or.inr ⟨ho, he⟩
          · intro pool0 acc ord hchilds0 hbfs i hio hia hib ho
            simp only [bfsOrder] at hbfs
            have hq0 : (getN pool0 t).childs = (getN pool1 t).childs := by
              rw [hchilds0 t, hchilds1 t]
            rw [hq0] at hbfs
            by_cases hit : i = t
            · subst hit
              have hact1 : (getN pool1 i).active = false := by
                rw [hpool1, if_pos ho, getN_modN_self _ _ _ hib]
              rcases ihB i with h2 | ⟨_, h2⟩
              · rw [h2]; exact hact1
              · rw [h2]
            · refine ihC pool0 (t :: acc) ord
                (fun j => by rw [hchilds0 j, hchilds1 j]) hbfs i hio ?_ ?_ ?_
              · intro hmem
                rcases List.mem_cons.mp hmem with he | hm
                · exact hit he
                · exact hia hm
              · rwa [hlen1]
              · rw [hframe1 i hit]; exact ho

/-- The derived per-filter packaging of `filterLoop_spec` for a run
from the root. -/
theorem filter_spec_aux (sel : Node → Int)
    (hsel : ∀ n, sel { n with active := false } = sel n)
    (fuel : Nat) (pool pool' : List Node) (root : Nat) (lo hi : Int)
    (hrun : filterLoop fuel sel lo hi pool [root] = some pool') :
    pool'.length = pool.length ∧
    (∀ i, getN pool' i = getN pool i ∨
        ((sel (getN pool i) < lo ∨ sel (getN pool i) > hi) ∧
         getN pool' i = { getN pool i with active := false })) ∧
    (∀ i, ¬(sel (getN pool i) < lo ∨ sel (getN pool i) > hi) →
        getN pool' i = getN pool i) ∧
    (∀ i, (getN pool' i).active = true → (getN pool i).active = true) ∧
    (∀ ord, bfsOrder fuel pool [root] [] = some ord →
        ∀ i, i ∈ ord → i < pool.length →
          (sel (getN pool i) < lo ∨ sel (getN pool i) > hi) →
          (getN pool' i).active = false) := by
  obtain ⟨hA, hB, hC⟩ := filterLoop_spec sel hsel lo hi fuel pool [root] pool' hrun
  refine ⟨hA, hB, ?_, ?_, ?_⟩
  · intro i hin
    rcases hB i with h | ⟨ho, _⟩
    · exact h
    · exact absurd ho hin
  · intro i hact
    rcases hB i with h | ⟨_, he⟩
    · rw [← h]; exact hact
    · rw [he] at hact; simp at hact
  · intro ord hbfs i hio hib ho
    exact hC pool [] ord (fun _ => rfl) hbfs i hio (by simp) hib ho

/-- Claim C6: for `lo ≤ hi`, each of `areaFiltering`, `volumicFiltering`
and `contrastFiltering` sets `active := false` exactly on the (visited,
in-pool) nodes whose respective attribute lies outside `[lo, hi]` and
changes nothing else: the pool keeps its length (no node deleted), a
node is either bit-identical or exactly deactivated, nodes with the
attribute in range are untouched, no `active` flag is ever set to true,
and the rest of the tree state is untouched. -/
theorem filtering_only_deactivates (fuel : Nat) (st : BState) (root : Nat) (lo hi : Int)
    (hlohi : lo ≤ hi) :
    (∀ st', areaFiltering fuel st root lo hi = some st' →
      st'.pool.length = st.pool.length ∧
      (∀ i, getN st'.pool i = getN st.pool i ∨
          (((getN st.pool i).area < lo ∨ (getN st.pool i).area > hi) ∧
           getN st'.pool i = { getN st.pool i with active := false })) ∧
      (∀ i, ¬((getN st.pool i).area < lo ∨ (getN st.pool i).area > hi) →
          getN st'.pool i = getN st.pool i) ∧
      (∀ i, (getN st'.pool i).active = true → (getN st.pool i).active = true) ∧
      (∀ ord, bfsOrder fuel st.pool [root] [] = some ord →
          ∀ i, i ∈ ord → i < st.pool.length →
            ((getN st.pool i).area < lo ∨ (getN st.pool i).area > hi) →
            (getN st'.pool i).active = false) ∧
      st'.oriImg = st.oriImg ∧ st'.imBorder = st.imBorder ∧
      st'.status = st.status ∧ st'.index = st.index ∧ st'.hMin = st.hMin) ∧
    (∀ st', volumicFiltering fuel st root lo hi = some st' →
      st'.pool.length = st.pool.length ∧
      (∀ i, getN st'.pool i = getN st.pool i ∨
          (((getN st.pool i).volume < lo ∨ (getN st.pool i).volume > hi) ∧
           getN st'.pool i = { getN st.pool i with active := false })) ∧
      (∀ i, ¬((getN st.pool i).volume < lo ∨ (getN st.pool i).volume > hi) →
          getN st'.pool i = getN st.pool i) ∧
      (∀ i, (getN st'.pool i).active = true → (getN st.pool i).active = true) ∧
      (∀ ord, bfsOrder fuel st.pool [root] [] = some ord →
          ∀ i, i ∈ ord → i < st.pool.length →
            ((getN st.pool i).volume < lo ∨ (getN st.pool i).volume > hi) →
            (getN st'.pool i).active = false)) ∧
    (∀ st', contrastFiltering fuel st root lo hi = some st' →
      st'.pool.length = st.pool.length ∧
      (∀ i, getN st'.pool i = getN st.pool i ∨
          (((getN st.pool i).contrast < lo ∨ (getN st.pool i).contrast > hi) ∧
           getN st'.pool i = { getN st.pool i with active := false })) ∧
      (∀ i, ¬((getN st.pool i).contrast < lo ∨ (getN st.pool i).contrast > hi) →
          getN st'.pool i = getN st.pool i) ∧
      (∀ i, (getN st'.pool i).active = true → (getN st.pool i).active = true) ∧
      (∀ ord, bfsOrder fuel st.pool [root] [] = some ord →
          ∀ i, i ∈ ord → i < st.pool.length →
            ((getN st.pool i).contrast < lo ∨ (getN st.pool i).contrast > hi) →
            (getN st'.pool i).active = false)) := by
  refine ⟨?_, ?_, ?_⟩
  · intro st' hrun
    simp only [areaFiltering] at hrun
    cases hfl : filterLoop fuel (fun n => n.area) lo hi st.pool [root] with
    | none => rw [hfl] at hrun; exact absurd hrun (by simp)
    | some pool' =>
        rw [hfl] at hrun
        simp only [Option.some.injEq] at hrun
        subst hrun
        obtain ⟨h1, h2, h3, h4, h5⟩ :=
          filter_spec_aux (fun n => n.area) (fun _ => rfl) fuel st.pool pool' root lo hi hfl
        exact ⟨h1, h2, h3, h4, h5, rfl, rfl, rfl, rfl, rfl⟩
  · intro st' hrun
    simp only [volumicFiltering] at hrun
    cases hfl : filterLoop fuel (fun n => n.volume) lo hi st.pool [root] with
    | none => rw [hfl] at hrun; exact absurd hrun (by simp)
    | some pool' =>
        rw [hfl] at hrun
        simp only [Option.some.injEq] at hrun
        subst hrun
        exact filter_spec_aux (fun n => n.volume) (fun _ => rfl) fuel st.pool pool' root lo hi hfl
  · intro st' hrun
    simp only [contrastFiltering] at hrun
    cases hfl : filterLoop fuel (fun n => n.contrast) lo hi st.pool [root] with
    | none => rw [hfl] at hrun; exact absurd hrun (by simp)
    | some pool' =>
        rw [hfl] at hrun
        simp only [Option.some.injEq] at hrun
        subst hrun
        exact filter_spec_aux (fun n => n.contrast) (fun _ => rfl) fuel st.pool pool' root lo hi hfl

/-- Witness for C6: `areaFiltering(0,0)` on the attributed `imgPeak33`
tree (areas 9 and 1, both outside `[0,0]`) deactivates the root. -/
theorem filtering_only_deactivates_witness :
    ((0 : Int) ≤ 0) ∧
    areaFiltering 400 stPeak rootPeak 0 0 = some stAllOff ∧
    (getN stAllOff.pool rootPeak).active = false :=
  ⟨le_refl 0, rfl, by
    have h := ((filtering_only_deactivates 400 stPeak rootPeak 0 0 (le_refl 0)).1
      stAllOff rfl).2.2.2.2.1
    exact h [0, 1] rfl rootPeak (by decide) (by decide) (by decide)⟩

/-! Supporting lemmas for the MSER pass (claim C4). -/

theorem eraseMser_h (n1 n2 : Node) (h : eraseMser n1 = eraseMser n2) : n1.h = n2.h := by
  have t := congrArg Node.h h
  exact t

theorem eraseMser_father (n1 n2 : Node) (h : eraseMser n1 = eraseMser n2) :
    n1.father = n2.father := by
  have t := congrArg Node.father h
  exact t

theorem eraseMser_area (n1 n2 : Node) (h : eraseMser n1 = eraseMser n2) :
    n1.area = n2.area := by
  have t := congrArg Node.area h
  exact t

theorem eraseMser_childs (n1 n2 : Node) (h : eraseMser n1 = eraseMser n2) :
    n1.childs = n2.childs := by
  have t := congrArg Node.childs h
  exact t

/-- `mserWalk` reads only `h` and `father`, so pools agreeing up to the
MSER fields walk identically. -/
theorem mserWalk_agree (pool1 pool2 : List Node)
    (hag : ∀ j, eraseMser (getN pool1 j) = eraseMser (getN pool2 j)) :
    ∀ (fw : Nat) (h0 δ : Int) (t : Nat),
    mserWalk fw pool1 h0 δ t = mserWalk fw pool2 h0 δ t := by
  intro fw
  induction fw with
  | zero => intro h0 δ t; rfl
  | succ fw ih =>
      intro h0 δ t
      have h1 := eraseMser_h _ _ (hag t)
      have h2 := eraseMser_father _ _ (hag t)
      simp only [mserWalk, h1, h2]
      cases hf : (getN pool2 t).father with
      | none => simp
      | some f =>
          have h3 := eraseMser_father _ _ (hag f)
          simp only [h3]
          by_cases hc : ((h0 - (getN pool2 t).h < δ : Bool) &&
              ((getN pool2 f).father != some f)) = true
          · rw [if_pos hc, if_pos hc]
            exact ih h0 δ f
          · rw [if_neg hc, if_neg hc]

/-- One fuel step more cannot change a successful walk. -/
theorem mserWalk_succ (pool : List Node) (h0 δ : Int) :
    ∀ (fw : Nat) (t s : Nat), mserWalk fw pool h0 δ t = some s →
    mserWalk (fw + 1) pool h0 δ t = some s := by
  intro fw
  induction fw with
  | zero => intro t s h; simp [mserWalk] at h
  | succ fw ih =>
      intro t s h
      rw [mserWalk] at h
      rw [mserWalk]
      by_cases hc : (((h0 - (getN pool t).h < δ : Bool)) &&
          (match (getN pool t).father with
           | some f => (getN pool f).father != some f
           | none => false)) = true
      · rw [if_pos hc] at h
        rw [if_pos hc]
        exact ih _ _ h
      · rw [if_neg hc] at h
        rw [if_neg hc]
        exact h

/-- Successful walks agree across fuels. -/
theorem mserWalk_det (pool : List Node) (h0 δ : Int) (t s1 s2 : Nat) (f1 f2 : Nat)
    (h1 : mserWalk f1 pool h0 δ t = some s1)
    (h2 : mserWalk f2 pool h0 δ t = some s2) : s1 = s2 := by
  have hmono : ∀ (fw k : Nat) (s : Nat), mserWalk fw pool h0 δ t = some s →
      mserWalk (fw + k) pool h0 δ t = some s := by
    intro fw k
    induction k with
    | zero => intro s h; exact h
    | succ k ih => intro s h; exact mserWalk_succ pool h0 δ _ _ _ (ih s h)
  rcases Nat.le_total f1 f2 with hle | hle
  · obtain ⟨k, hk⟩ := Nat.le.dest hle
    have := hmono f1 k s1 h1
    rw [hk] at this
    rw [this] at h2
    exact Option.some.inj h2
  · obtain ⟨k, hk⟩ := Nat.le.dest hle
    have := hmono f2 k s2 h2
    rw [hk] at this
    rw [this] at h1
    exact (Option.some.inj h1).symm

/-- What the MSER pass does to the pool: the length and the
non-MSER fields are untouched; nodes the recursion never finishes keep
their three MSER-family fields; and every finished in-pool node's three
fields are exactly the outcome of the source's ancestor walk. -/
theorem mserRec_sets (δ : Int) :
    ∀ (fuel : Nat) (pool : List Node) (t : Nat) (cs : List Nat) (pool2 : List Node),
    mserRec fuel pool δ t cs = some pool2 →
    pool2.length = pool.length ∧
    (∀ i, eraseMser (getN pool2 i) = eraseMser (getN pool i)) ∧
    (∀ (pool0 : List Node) (seen : List Nat),
        (∀ j, (getN pool0 j).childs = (getN pool j).childs) →
        mserSeen fuel pool0 t cs = some seen →
        (∀ i, ¬ i ∈ seen →
            (getN pool2 i).mser = (getN pool i).mser ∧
            (getN pool2 i).area_derivative_delta_h = (getN pool i).area_derivative_delta_h ∧
            (getN pool2 i).area_derivative_delta_areaF =
              (getN pool i).area_derivative_delta_areaF) ∧
        (∀ i, i ∈ seen → i < pool.length →
            ∃ fw stop, mserWalk fw pool (getN pool i).h δ i = some stop ∧
              ((getN pool2 i).mser =
                if (getN pool i).h - (getN pool stop).h ≥ δ then
                  some (LD.div ⟨(getN pool stop).area - (getN pool i).area, 1⟩
                               ⟨(getN pool i).area, 1⟩)
                else none) ∧
              ((getN pool2 i).area_derivative_delta_h =
                if (getN pool i).h - (getN pool stop).h ≥ δ then
                  some (LD.div ⟨(getN pool stop).area - (getN pool i).area, 1⟩
                               ⟨(getN pool i).h - (getN pool stop).h, 1⟩)
                else none) ∧
              ((getN pool2 i).area_derivative_delta_areaF =
                if (getN pool i).h - (getN pool stop).h ≥ δ then
                  some (LD.div ⟨(getN pool stop).area - (getN pool i).area, 1⟩
                               ⟨(getN pool stop).area, 1⟩)
                else none))) := by
  intro fuel
  induction fuel with
  | zero => intro pool t cs pool2 h; simp [mserRec] at h
  | succ fuel ih =>
      intro pool t cs pool2 h
      cases cs with
      | nil =>
          simp only [mserRec] at h
          set pool1 := modN pool t (fun n =>
            { n with mser := none, area_derivative_delta_h := none,
                     area_derivative_delta_areaF := none }) with hpool1
          have hag1 : ∀ j, eraseMser (getN pool1 j) = eraseMser (getN pool j) := by
            intro j
            by_cases hj : j = t
            · subst hj
              by_cases hb : j < pool.length
              · rw [hpool1, getN_modN_self _ _ _ hb]; rfl
              · rw [hpool1, modN_oob _ _ _ (Nat.le_of_not_lt hb)]
            · rw [hpool1, getN_modN_ne _ _ _ _ hj]
          have hlen1 : pool1.length = pool.length := by rw [hpool1, length_modN]
          split at h
          · exact absurd h (by simp)
          · rename_i stop hw
            have hwpool : mserWalk fuel pool (getN pool t).h δ t = some stop := by
              rw [← mserWalk_agree pool1 pool hag1 fuel _ δ t]; exact hw
            have hsh : (getN pool1 stop).h = (getN pool stop).h :=
              eraseMser_h _ _ (hag1 stop)
            have hsa : (getN pool1 stop).area = (getN pool stop).area :=
              eraseMser_area _ _ (hag1 stop)
            split at h
            · rename_i hge
              have hge' : (getN pool t).h - (getN pool stop).h ≥ δ := by rwa [hsh] at hge
              simp only [Option.some.injEq] at h
              subst h
              have hlen2 : (modN pool1 t (fun n =>
                  { n with
                    mser := some (LD.div ⟨(getN pool1 stop).area - (getN pool t).area, 1⟩
                                         ⟨(getN pool t).area, 1⟩),
                    area_derivative_delta_h :=
                      some (LD.div ⟨(getN pool1 stop).area - (getN pool t).area, 1⟩
                                   ⟨(getN pool t).h - (getN pool1 stop).h, 1⟩),
                    area_derivative_delta_areaF :=
                      some (LD.div ⟨(getN pool1 stop).area - (getN pool t).area, 1⟩
                                   ⟨(getN pool1 stop).area, 1⟩) })).length = pool.length := by
                rw [length_modN, hlen1]
              refine ⟨hlen2, ?_, ?_⟩
              · intro j
                by_cases hj : j = t
                · subst hj
                  by_cases hb : j < pool1.length
                  · rw [getN_modN_self _ _ _ hb]
                    exact hag1 j
                  · rw [modN_oob _ _ _ (Nat.le_of_not_lt hb)]
                    exact hag1 j
                · rw [getN_modN_ne _ _ _ _ hj]
                  exact hag1 j
              · intro pool0 seen hch0 hseen
                simp only [mserSeen, Option.some.injEq] at hseen
                subst hseen
                constructor
                · intro i hni
                  have hit : i ≠ t := by
                    intro he; exact hni (by rw [he]; exact List.mem_singleton_self t)
                  rw [getN_modN_ne _ _ _ _ hit, hpool1, getN_modN_ne _ _ _ _ hit]
                  exact ⟨rfl, rfl, rfl⟩
                · intro i hmem hib
                  have hit : i = t := List.mem_singleton.mp hmem
                  subst hit
                  refine ⟨fuel, stop, by rw [← hwpool], ?_, ?_, ?_⟩
                  · rw [getN_modN_self _ _ _ (by rwa [hlen1]), if_pos hge', hsa]
                  · rw [getN_modN_self _ _ _ (by rwa [hlen1]), if_pos hge', hsa, hsh]
                  · rw [getN_modN_self _ _ _ (by rwa [hlen1]), if_pos hge', hsa]
            · rename_i hge
              have hge' : ¬ (getN pool t).h - (getN pool stop).h ≥ δ := by rwa [hsh] at hge
              simp only [Option.some.injEq] at h
              subst h
              refine ⟨hlen1, hag1, ?_⟩
              intro pool0 seen hch0 hseen
              simp only [mserSeen, Option.some.injEq] at hseen
              subst hseen
              constructor
              · intro i hni
                have hit : i ≠ t := by
                  intro he; exact hni (by rw [he]; exact List.mem_singleton_self t)
                rw [hpool1, getN_modN_ne _ _ _ _ hit]
                exact ⟨rfl, rfl, rfl⟩
              · intro i hmem hib
                have hit : i = t := List.mem_singleton.mp hmem
                subst hit
                refine ⟨fuel, stop, by rw [← hwpool], ?_, ?_, ?_⟩
                · rw [if_neg hge', hpool1, getN_modN_self _ _ _ hib]
                · rw [if_neg hge', hpool1, getN_modN_self _ _ _ hib]
                · rw [if_neg hge', hpool1, getN_modN_self _ _ _ hib]
      | cons c rest =>
          simp only [mserRec] at h
          cases hm : mserRec fuel pool δ c (getN pool c).childs with
          | none => rw [hm] at h; exact absurd h (by simp)
          | some poolm =>
              rw [hm] at h
              obtain ⟨len1, frame1, seen1⟩ := ih pool c (getN pool c).childs poolm hm
              obtain ⟨len2, frame2, seen2⟩ := ih poolm t rest pool2 h
              refine ⟨by rw [len2, len1], fun i => by rw [frame2 i, frame1 i], ?_⟩
              intro pool0 seen hch0 hseen
              simp only [mserSeen] at hseen
              cases hs1 : mserSeen fuel pool0 c (getN pool0 c).childs with
              | none => rw [hs1] at hseen; exact absurd hseen (by simp)
              | some v1 =>
                  rw [hs1] at hseen
                  cases hs2 : mserSeen fuel pool0 t rest with
                  | none => rw [hs2] at hseen; exact absurd hseen (by simp)
                  | some v2 =>
                      rw [hs2] at hseen
                      simp only [Option.some.injEq] at hseen
                      subst hseen
                      have hs1' : mserSeen fuel pool0 c (getN pool c).childs = some v1 := by
                        rw [← hch0 c]; exact hs1
                      obtain ⟨n1, val1⟩ := seen1 pool0 v1 hch0 hs1'
                      have hch0m : ∀ j, (getN pool0 j).childs = (getN poolm j).childs := by
                        intro j
                        rw [hch0 j, ← eraseMser_childs _ _ (frame1 j)]
                      obtain ⟨n2, val2⟩ := seen2 pool0 v2 hch0m hs2
                      constructor
                      · intro i hni
                        have hni1 : ¬ i ∈ v1 := fun hx => hni (List.mem_append.mpr (Or.inl hx))
                        have hni2 : ¬ i ∈ v2 := fun hx => hni (List.mem_append.mpr (Or.inr hx))
                        obtain ⟨a1, a2, a3⟩ := n2 i hni2
                        obtain ⟨b1, b2, b3⟩ := n1 i hni1
                        exact ⟨by rw [a1, b1], by rw [a2, b2], by rw [a3, b3]⟩
                      · intro i hmem hib
                        by_cases hv2 : i ∈ v2
                        · obtain ⟨fw, stop, hwm, e1, e2, e3⟩ :=
                            val2 i hv2 (by rwa [len1])
                          have hih : (getN poolm i).h = (getN pool i).h :=
                            eraseMser_h _ _ (frame1 i)
                          have hsth : (getN poolm stop).h = (getN pool stop).h :=
                            eraseMser_h _ _ (frame1 stop)
                          have hia : (getN poolm i).area = (getN pool i).area :=
                            eraseMser_area _ _ (frame1 i)
                          have hsta : (getN poolm stop).area = (getN pool stop).area :=
                            eraseMser_area _ _ (frame1 stop)
                          refine ⟨fw, stop, ?_, ?_, ?_, ?_⟩
                          · rw [← mserWalk_agree poolm pool frame1 fw _ δ i, ← hih]
                            exact hwm
                          · rw [e1, hih, hsth, hia, hsta]
                          · rw [e2, hih, hsth, hia, hsta]
                          · rw [e3, hih, hsth, hia, hsta]
                        · have hv1 : i ∈ v1 := by
                            rcases List.mem_append.mp hmem with hx | hx
                            · exact hx
                            · exact absurd hx hv2
                          obtain ⟨fw, stop, hwp, e1, e2, e3⟩ := val1 i hv1 hib
                          obtain ⟨a1, a2, a3⟩ := n2 i hv2
                          exact ⟨fw, stop, hwp, by rw [a1, e1], by rw [a2, e2],
                                 by rw [a3, e3]⟩

/-- Every successful ancestor chain starts with the query node. -/
theorem ancestors_head (fl : Nat) (pool : List Node) (t : Nat) (chain : List Nat)
    (h : ancestorsToRoot fl pool t = some chain) : ∃ tl, chain = t :: tl := by
  cases fl with
  | zero => simp [ancestorsToRoot] at h
  | succ fl =>
      simp only [ancestorsToRoot] at h
      split at h
      · rename_i f hf
        split at h
        · exact ⟨[], by simpa using h.symm⟩
        · cases ha : ancestorsToRoot fl pool f with
          | none => rw [ha] at h; simp at h
          | some tl => rw [ha] at h; exact ⟨tl, by simpa using h.symm⟩
      · exact ⟨[], by simpa using h.symm⟩

/-- The one-step structure of `ancestorsToRoot`. -/
theorem ancestors_shape (fl : Nat) (pool : List Node) (t : Nat) (chain : List Nat)
    (h : ancestorsToRoot (fl + 1) pool t = some chain) :
    (chain = [t] ∧ ((getN pool t).father = some t ∨ (getN pool t).father = none)) ∨
    (∃ f tail, (getN pool t).father = some f ∧ f ≠ t ∧ chain = t :: tail ∧
       ancestorsToRoot fl pool f = some tail) := by
  simp only [ancestorsToRoot] at h
  split at h
  · rename_i f hf
    split at h
    · rename_i hft
      subst hft
      exact Or.inl ⟨by simpa using h.symm, Or.inl hf⟩
    · rename_i hft
      cases ha : ancestorsToRoot fl pool f with
      | none => rw [ha] at h; simp at h
      | some tl =>
          rw [ha] at h
          exact Or.inr ⟨f, tl, hf, hft, by simpa using h.symm, ha⟩
  · rename_i hf
    exact Or.inl ⟨by simpa using h.symm, Or.inr hf⟩

/-- The characterization of the source's MSER ancestor walk against the
father chain: among the candidates — the chain with the root removed,
or the node itself when it is the root — the walk stops exactly at the
first one meeting the intensity threshold, and meets the threshold at
its stopping node exactly when such a candidate exists.  In particular
the root is never a candidate for a non-root node. -/
theorem mserWalk_char (pool : List Node) (h0 δ : Int) :
    ∀ (fl : Nat) (t : Nat) (chain : List Nat),
    ancestorsToRoot fl pool t = some chain →
    (getN pool (chain.getLastD t)).father = some (chain.getLastD t) →
    ∃ stop, mserWalk fl pool h0 δ t = some stop ∧
      (match (if chain.dropLast = [] then [t] else chain.dropLast).find?
          (fun x => decide (h0 - (getN pool x).h ≥ δ)) with
       | some a => stop = a ∧ h0 - (getN pool a).h ≥ δ
       | none => ¬ (h0 - (getN pool stop).h ≥ δ)) := by
  intro fl
  induction fl with
  | zero => intro t chain h; simp [ancestorsToRoot] at h
  | succ fl ih =>
      intro t chain hch hroot
      rcases ancestors_shape fl pool t chain hch with ⟨hc, _⟩ | ⟨f, tail, hf, hft, hc, htail⟩
      · subst hc
        have hroot1 : (getN pool t).father = some t := hroot
        have hcond : ¬ (((h0 - (getN pool t).h < δ : Bool)) &&
            (match (getN pool t).father with
             | some f => (getN pool f).father != some f
             | none => false)) = true := by
          simp [hroot1]
        have hwalk : mserWalk (fl + 1) pool h0 δ t = some t := by
          rw [mserWalk, if_neg hcond]
        refine ⟨t, hwalk, ?_⟩
        have hcands : (if ([t] : List Nat).dropLast = [] then [t]
            else ([t] : List Nat).dropLast) = [t] := by simp
        rw [hcands]
        by_cases hp : h0 - (getN pool t).h ≥ δ
        · rw [List.find?_cons_of_pos _ (by simpa using hp)]
          exact ⟨rfl, hp⟩
        · rw [List.find?_cons_of_neg _ (by simpa using hp), List.find?_nil]
          exact hp
      · subst hc
        obtain ⟨tl2, htl2⟩ := ancestors_head fl pool f tail htail
        subst htl2
        have hroot2 : (getN pool ((f :: tl2).getLastD f)).father =
            some ((f :: tl2).getLastD f) := by
          have he : (t :: f :: tl2).getLastD t = (f :: tl2).getLastD f := by
            rw [List.getLastD_cons, List.getLastD_cons, List.getLastD_cons]
          rwa [he] at hroot
        by_cases hp : h0 - (getN pool t).h ≥ δ
        · have hcond : ¬ (((h0 - (getN pool t).h < δ : Bool)) &&
              (match (getN pool t).father with
               | some g => (getN pool g).father != some g
               | none => false)) = true := by
            simp only [Bool.and_eq_true, decide_eq_true_eq]
            intro ⟨hlt, _⟩
            exact absurd hlt (Int.not_lt.mpr hp)
          refine ⟨t, by rw [mserWalk, if_neg hcond], ?_⟩
          have hne : (t :: f :: tl2).dropLast = t :: (f :: tl2).dropLast := rfl
          rw [hne, if_neg (by simp), List.find?_cons_of_pos _ (by simpa using hp)]
          exact ⟨rfl, hp⟩
        · by_cases hrf : (getN pool f).father = some f
          · have htl2nil : tl2 = [] := by
              cases fl with
              | zero => simp [ancestorsToRoot] at htail
              | succ fl2 =>
                  rcases ancestors_shape fl2 pool f (f :: tl2) htail with
                    ⟨hc2, _⟩ | ⟨g, tg, hg, hgne, hc2, _⟩
                  · simpa using hc2
                  · rw [hrf] at hg
                    exact absurd (Option.some.inj hg).symm hgne
            subst htl2nil
            have hcond : ¬ (((h0 - (getN pool t).h < δ : Bool)) &&
                (match (getN pool t).father with
                 | some g => (getN pool g).father != some g
                 | none => false)) = true := by
              simp [hf, hrf]
            refine ⟨t, by rw [mserWalk, if_neg hcond], ?_⟩
            have hdl : (t :: [f]).dropLast = [t] := rfl
            rw [hdl, if_neg (by simp)]
            rw [List.find?_cons_of_neg _ (by simpa using hp), List.find?_nil]
            exact hp
          · have hcond : (((h0 - (getN pool t).h < δ : Bool)) &&
                (match (getN pool t).father with
                 | some g => (getN pool g).father != some g
                 | none => false)) = true := by
              rw [hf]
              simp only [Bool.and_eq_true, bne_iff_ne, decide_eq_true_eq]
              exact ⟨Int.not_le.mp hp, hrf⟩
            have htl2ne : tl2 ≠ [] := by
              intro he
              subst he
              exact hrf hroot2
            obtain ⟨stop, hw, hchar⟩ := ih f (f :: tl2) htail hroot2
            have hwalk : mserWalk (fl + 1) pool h0 δ t = some stop := by
              rw [mserWalk, if_pos hcond, hf]
              exact hw
            refine ⟨stop, hwalk, ?_⟩
            have hdl1 : (t :: f :: tl2).dropLast = t :: (f :: tl2).dropLast := rfl
            have hdl2 : (f :: tl2).dropLast ≠ [] := by
              cases tl2 with
              | nil => exact absurd rfl htl2ne
              | cons a l => simp [List.dropLast_cons₂]
            rw [hdl1, if_neg (by simp), List.find?_cons_of_neg _ (by simpa using hp)]
            rw [if_neg hdl2] at hchar
            exact hchar

/-- Claim C4 (amended): `computeMSER(Δ)` walks the ancestor chain of a
node `n` examining only `n` and its ancestors strictly below the root
(for a non-root `n` the root itself is never examined; when `n` is the
root the walk examines `n` alone).  `mser(n)` is `(a.area − n.area) /
n.area` for the chain-nearest such candidate `a` with `n.h − a.h ≥ Δ`,
and the `+∞` sentinel when no candidate meets the threshold — in
particular when only the root would satisfy it. -/
theorem mser_amended
    (fuel fl : Nat) (pool : List Node) (delta : Int) (root : Nat) (pool2 : List Node)
    (hrun : computeMSERTop fuel pool delta root = some pool2)
    (seen : List Nat)
    (hseen : mserSeen fuel pool root ((getN pool root).childs) = some seen)
    (t : Nat) (ht : t ∈ seen) (htb : t < pool.length)
    (chain : List Nat)
    (hchain : ancestorsToRoot fl pool t = some chain)
    (hroot : (getN pool (chain.getLastD t)).father = some (chain.getLastD t)) :
    (getN pool2 t).mser =
      match (if chain.dropLast = [] then [t] else chain.dropLast).find?
          (fun x => decide ((getN pool t).h - (getN pool x).h ≥ delta)) with
      | some a => some (LD.div ⟨(getN pool a).area - (getN pool t).area, 1⟩
                               ⟨(getN pool t).area, 1⟩)
      | none => none := by
  obtain ⟨_, _, hseenp⟩ :=
    mserRec_sets delta fuel pool root ((getN pool root).childs) pool2 hrun
  obtain ⟨_, hval⟩ := hseenp pool seen (fun _ => rfl) hseen
  obtain ⟨fw, stop, hw, e1, _, _⟩ := hval t ht htb
  obtain ⟨stop2, hw2, hchar⟩ :=
    mserWalk_char pool (getN pool t).h delta fl t chain hchain hroot
  have hss : stop = stop2 := mserWalk_det pool _ delta _ _ _ _ _ hw hw2
  subst hss
  cases hfind : (if chain.dropLast = [] then [t] else chain.dropLast).find?
      (fun x => decide ((getN pool t).h - (getN pool x).h ≥ delta)) with
  | some a =>
      rw [hfind] at hchar
      have hchar2 : stop = a ∧ (getN pool t).h - (getN pool a).h ≥ delta := hchar
      obtain ⟨hsa, hge⟩ := hchar2
      subst hsa
      show (getN pool2 t).mser =
        some (LD.div ⟨(getN pool stop).area - (getN pool t).area, 1⟩
                     ⟨(getN pool t).area, 1⟩)
      rw [e1, if_pos hge]
  | none =>
      rw [hfind] at hchar
      have hchar2 : ¬ ((getN pool t).h - (getN pool stop).h ≥ delta) := hchar
      show (getN pool2 t).mser = none
      rw [e1, if_neg hchar2]

/-- Witness for the amended C4 on `imgStep21` with `Δ = 5`: the only
non-root node's candidate list is just itself, the threshold is unmet
there, and `mser` stays at the `+∞` sentinel even though the root
satisfies it. -/
theorem mser_amended_witness :
    computeMSERTop 200 poolStep21 5 0 = some poolStep21M ∧
    mserSeen 200 poolStep21 0 ((getN poolStep21 0).childs) = some [1, 0] ∧
    (1 : Nat) ∈ [1, 0] ∧ 1 < poolStep21.length ∧
    ancestorsToRoot 10 poolStep21 1 = some [1, 0] ∧
    (getN poolStep21 (([1, 0] : List Nat).getLastD 1)).father =
      some (([1, 0] : List Nat).getLastD 1) ∧
    (getN poolStep21M 1).mser =
      match (if ([1, 0] : List Nat).dropLast = [] then [1]
          else ([1, 0] : List Nat).dropLast).find?
          (fun x => decide ((getN poolStep21 1).h - (getN poolStep21 x).h ≥ 5)) with
      | some a => some (LD.div ⟨(getN poolStep21 a).area - (getN poolStep21 1).area, 1⟩
                               ⟨(getN poolStep21 1).area, 1⟩)
      | none => none :=
  ⟨rfl, rfl, by decide, by decide, rfl, rfl,
   mser_amended 200 10 poolStep21 5 0 poolStep21M rfl [1, 0] rfl 1 (by decide)
     (by decide) [1, 0] rfl rfl⟩

/-! Supporting lemmas for the DIRECT reconstruction (claims C9 and C1). -/

theorem getN_oob (pool : List Node) (i : Nat) (h : pool.length ≤ i) :
    getN pool i = defNode := by
  simp only [getN]
  induction pool generalizing i with
  | nil => rfl
  | cons a t ih =>
      cases i with
      | zero => simp at h
      | succ j => exact ih j (by simpa using h)

/-- Shifting the accumulator of `bfsOrder`. -/
theorem bfsOrder_acc (pool : List Node) :
    ∀ (fuel : Nat) (q acc : List Nat),
    bfsOrder fuel pool q acc =
      (bfsOrder fuel pool q []).map (fun o => acc.reverse ++ o) := by
  intro fuel
  induction fuel with
  | zero =>
      intro q acc
      cases q with
      | nil => simp [bfsOrder]
      | cons t rest => simp [bfsOrder]
  | succ fuel ih =>
      intro q acc
      cases q with
      | nil => simp [bfsOrder]
      | cons t rest =>
          show bfsOrder fuel pool (rest ++ (getN pool t).childs) (t :: acc) =
            (bfsOrder fuel pool (rest ++ (getN pool t).childs) [t]).map
              (fun o => acc.reverse ++ o)
          rw [ih _ (t :: acc), ih _ [t], Option.map_map]
          apply congrArg (fun f => Option.map f (bfsOrder fuel pool
            (rest ++ (getN pool t).childs) []))
          funext o
          simp

/-- `bfsOrder` depends on the pool only through the `childs` lists. -/
theorem bfsOrder_agree (pool1 pool2 : List Node)
    (hag : ∀ j, (getN pool1 j).childs = (getN pool2 j).childs) :
    ∀ (fuel : Nat) (q acc : List Nat),
    bfsOrder fuel pool1 q acc = bfsOrder fuel pool2 q acc := by
  intro fuel
  induction fuel with
  | zero => intro q acc; cases q <;> rfl
  | succ fuel ih =>
      intro q acc
      cases q with
      | nil => rfl
      | cons t rest =>
          show bfsOrder fuel pool1 (rest ++ (getN pool1 t).childs) (t :: acc) =
            bfsOrder fuel pool2 (rest ++ (getN pool2 t).childs) (t :: acc)
          rw [hag t, ih]

/-- The queue is contained in its own BFS order. -/
theorem bfsOrder_sub (pool : List Node) :
    ∀ (fuel : Nat) (q ord : List Nat),
    bfsOrder fuel pool q [] = some ord → ∀ i, i ∈ q → i ∈ ord := by
  intro fuel
  induction fuel with
  | zero =>
      intro q ord h i hi
      cases q with
      | nil => simp at hi
      | cons t rest => simp [bfsOrder] at h
  | succ fuel ih =>
      intro q ord h i hi
      cases q with
      | nil => simp at hi
      | cons t rest =>
          have h2 : bfsOrder fuel pool (rest ++ (getN pool t).childs) [t] = some ord := h
          rw [bfsOrder_acc] at h2
          cases hb : bfsOrder fuel pool (rest ++ (getN pool t).childs) [] with
          | none => rw [hb] at h2; simp at h2
          | some ord1 =>
              rw [hb] at h2
              simp only [Option.map_some', Option.some.injEq] at h2
              subst h2
              rcases List.mem_cons.mp hi with he | hm
              · subst he; simp
              · have := ih _ ord1 hb i (List.mem_append.mpr (Or.inl hm))
                simp [this]

/-- Every BFS-order member beyond the initial queue entered as some
order member's child. -/
theorem bfsOrder_child_origin (pool : List Node) :
    ∀ (fuel : Nat) (q ord : List Nat),
    bfsOrder fuel pool q [] = some ord →
    ∀ i, i ∈ ord → ¬ i ∈ q → ∃ j, j ∈ ord ∧ i ∈ (getN pool j).childs := by
  intro fuel
  induction fuel with
  | zero =>
      intro q ord h i hio hiq
      cases q with
      | nil =>
          simp only [bfsOrder, Option.some.injEq] at h
          subst h
          simp at hio
      | cons t rest => simp [bfsOrder] at h
  | succ fuel ih =>
      intro q ord h i hio hiq
      cases q with
      | nil =>
          simp only [bfsOrder, Option.some.injEq] at h
          subst h
          simp at hio
      | cons t rest =>
          have h2 : bfsOrder fuel pool (rest ++ (getN pool t).childs) [t] = some ord := h
          rw [bfsOrder_acc] at h2
          cases hb : bfsOrder fuel pool (rest ++ (getN pool t).childs) [] with
          | none => rw [hb] at h2; simp at h2
          | some ord1 =>
              rw [hb] at h2
              simp only [Option.map_some', Option.some.injEq] at h2
              subst h2
              have hit : i ≠ t := fun he => hiq (by rw [he]; simp)
              have hio1 : i ∈ ord1 := by
                rcases List.mem_cons.mp hio with he | hm
                · exact absurd (by simpa using he) hit
                · simpa using hm
              by_cases hiq1 : i ∈ rest ++ (getN pool t).childs
              · rcases List.mem_append.mp hiq1 with hr | hc
                · exact absurd (List.mem_cons.mpr (Or.inr hr)) hiq
                · exact ⟨t, by simp, hc⟩
              · obtain ⟨j, hj1, hj2⟩ := ih _ ord1 hb i hio1 hiq1
                exact ⟨j, by simp [hj1], hj2⟩

/-- `cideCollect` only collects active nodes. -/
theorem cideCollect_active (pool : List Node) :
    ∀ (fuel : Nat) (q acc tops : List Nat),
    cideCollect fuel pool q acc = some tops →
    (∀ i, i ∈ acc → (getN pool i).active = true) →
    ∀ i, i ∈ tops → (getN pool i).active = true := by
  intro fuel
  induction fuel with
  | zero =>
      intro q acc tops h hacc i hi
      cases q with
      | nil =>
          simp only [cideCollect, Option.some.injEq] at h
          subst h
          exact hacc i hi
      | cons t rest => simp [cideCollect] at h
  | succ fuel ih =>
      intro q acc tops h hacc i hi
      cases q with
      | nil =>
          simp only [cideCollect, Option.some.injEq] at h
          subst h
          exact hacc i hi
      | cons t rest =>
          simp only [cideCollect] at h
          by_cases ha : (getN pool t).active = true
          · rw [if_pos ha] at h
            refine ih _ _ _ h ?_ i hi
            intro j hj
            rcases List.mem_append.mp hj with hm | hm
            · exact hacc j hm
            · rw [List.mem_singleton.mp hm]; exact ha
          · rw [if_neg ha] at h
            exact ih _ _ _ h hacc i hi

theorem eraseH_father {a b : Node} (h : eraseH a = eraseH b) : a.father = b.father := by
  have t := congrArg Node.father h
  exact t

theorem eraseH_childs {a b : Node} (h : eraseH a = eraseH b) : a.childs = b.childs := by
  have t := congrArg Node.childs h
  exact t

theorem eraseH_active {a b : Node} (h : eraseH a = eraseH b) : a.active = b.active := by
  have t := congrArg Node.active h
  exact t

theorem eraseH_ori_h {a b : Node} (h : eraseH a = eraseH b) : a.ori_h = b.ori_h := by
  have t := congrArg Node.ori_h h
  exact t

theorem eraseHA_childs {a b : Node} (h : eraseHA a = eraseHA b) : a.childs = b.childs := by
  have t := congrArg Node.childs h
  exact t

theorem eraseHA_ori_h {a b : Node} (h : eraseHA a = eraseHA b) : a.ori_h = b.ori_h := by
  have t := congrArg Node.ori_h h
  exact t

/-- The inactive-child write of one `cideLoop` iteration: frame, length,
untouched indices, written value, value dichotomy, and active-node
preservation. -/
theorem hFold_spec (hv : Int) :
    ∀ (cs : List Nat) (pool : List Node),
    (∀ j, eraseH (getN (hFold hv pool cs) j) = eraseH (getN pool j)) ∧
    (hFold hv pool cs).length = pool.length ∧
    (∀ j, ¬ j ∈ cs → getN (hFold hv pool cs) j = getN pool j) ∧
    (∀ j, j ∈ cs → j < pool.length → (getN pool j).active = false →
      (getN (hFold hv pool cs) j).h = hv) ∧
    (∀ j, (getN (hFold hv pool cs) j).h = (getN pool j).h ∨
      (getN (hFold hv pool cs) j).h = hv) ∧
    (∀ j, (getN pool j).active = true → getN (hFold hv pool cs) j = getN pool j) := by
  intro cs
  induction cs with
  | nil =>
      intro pool
      exact ⟨fun j => rfl, rfl, fun j _ => rfl, fun j hj => absurd hj (by simp),
        fun j => Or.inl rfl, fun j _ => rfl⟩
  | cons c rest ih =>
      intro pool
      have hrw : hFold hv pool (c :: rest) =
          hFold hv (if (getN pool c).active = false then
            modN pool c (fun m => { m with h := hv }) else pool) rest := rfl
      by_cases hac : (getN pool c).active = false
      · rw [if_pos hac] at hrw
        obtain ⟨g1, g2, g3, g4, g6, g5⟩ := ih (modN pool c (fun m => { m with h := hv }))
        have s1 : ∀ j, eraseH (getN (modN pool c (fun m => { m with h := hv })) j) =
            eraseH (getN pool j) := by
          intro j
          by_cases hjc : j = c
          · subst hjc
            by_cases hlt : j < pool.length
            · rw [getN_modN_self _ _ _ hlt]
              rfl
            · rw [modN_oob _ _ _ (Nat.le_of_not_lt hlt)]
          · rw [getN_modN_ne _ _ _ _ hjc]
        refine ⟨?_, ?_, ?_, ?_, ?_, ?_⟩
        · intro j
          rw [hrw, g1 j, s1 j]
        · rw [hrw, g2, length_modN]
        · intro j hj
          rw [hrw, g3 j (fun hm => hj (List.mem_cons_of_mem _ hm)),
            getN_modN_ne _ _ _ _ (fun he => hj (by rw [he]; exact List.mem_cons_self _ _))]
        · intro j hj hlt hja
          rw [hrw]
          by_cases hjr : j ∈ rest
          · refine g4 j hjr (by rw [length_modN]; exact hlt) ?_
            have := eraseH_active (s1 j)
            rw [this, hja]
          · have hjc : j = c := by
              rcases List.mem_cons.mp hj with he | hm
              · exact he
              · exact absurd hm hjr
            subst hjc
            rw [g3 j hjr, getN_modN_self _ _ _ hlt]
        · intro j
          rw [hrw]
          rcases g6 j with hcase | hcase
          · by_cases hjc : j = c
            · subst hjc
              by_cases hlt : j < pool.length
              · rw [hcase, getN_modN_self _ _ _ hlt]
                exact Or.inr rfl
              · rw [hcase, modN_oob _ _ _ (Nat.le_of_not_lt hlt)]
                exact Or.inl rfl
            · rw [hcase, getN_modN_ne _ _ _ _ hjc]
              exact Or.inl rfl
          · exact Or.inr hcase
        · intro j hja
          have hjc : j ≠ c := by
            intro he
            rw [he] at hja
            rw [hja] at hac
            exact Bool.noConfusion hac
          rw [hrw, g5 j (by rw [getN_modN_ne _ _ _ _ hjc]; exact hja),
            getN_modN_ne _ _ _ _ hjc]
      · rw [if_neg hac] at hrw
        obtain ⟨g1, g2, g3, g4, g6, g5⟩ := ih pool
        refine ⟨fun j => by rw [hrw]; exact g1 j, by rw [hrw]; exact g2, ?_, ?_,
          fun j => by rw [hrw]; exact g6 j, fun j hja => by rw [hrw]; exact g5 j hja⟩
        · intro j hj
          rw [hrw]
          exact g3 j (fun hm => hj (List.mem_cons_of_mem _ hm))
        · intro j hj hlt hja
          rw [hrw]
          refine g4 j ?_ hlt hja
          rcases List.mem_cons.mp hj with he | hm
          · subst he
            rw [hja] at hac
            exact absurd rfl hac
          · exact hm

/-- The master characterization of `cideLoop`: only `h` fields change
(frame under `eraseH`), only BFS-order members change at all, active
nodes keep their `h`, and — under tree-shape sanity hypotheses — every
inactive order member ends at its father's final `h`. -/
theorem cideLoop_spec :
    ∀ (fuel : Nat) (pool : List Node) (q : List Nat) (res : Img)
      (out : Img × List Node) (fb : Nat) (ord : List Nat),
    cideLoop fuel pool q res = some out →
    bfsOrder fb pool q [] = some ord →
    (∀ i, eraseH (getN out.2 i) = eraseH (getN pool i)) ∧
    out.2.length = pool.length ∧
    (∀ i, ¬ i ∈ ord → getN out.2 i = getN pool i) ∧
    (∀ i, (getN pool i).active = true → (getN out.2 i).h = (getN pool i).h) ∧
    (ord.Nodup →
     (∀ j c, c ∈ (getN pool j).childs → (getN pool c).father = some j) →
     (∀ i j, (getN pool i).father = some j → i ≠ j → i ∈ (getN pool j).childs) →
     (∀ i, i ∈ q → ∀ p, (getN pool i).father = some p → p ≠ i → ¬ p ∈ ord) →
     ∀ i p, i ∈ ord → (getN pool i).father = some p →
       (getN pool i).active = false → i < pool.length → p < pool.length →
       ((p ∈ ord → (getN out.2 i).h = (getN out.2 p).h) ∧
        (¬ p ∈ ord → (getN out.2 i).h = (getN pool i).h))) := by
  intro fuel
  induction fuel with
  | zero =>
      intro pool q res out fb ord h hb
      cases q with
      | nil =>
          have h2 : some (res, pool) = some out := h
          have hb2 : some ([] : List Nat) = some ord := by cases fb <;> exact hb
          obtain rfl : (res, pool) = out := Option.some.inj h2
          obtain rfl : ([] : List Nat) = ord := Option.some.inj hb2
          refine ⟨fun i => rfl, rfl, fun i _ => rfl, fun i _ => rfl, ?_⟩
          intro _ _ _ _ i p hi
          exact absurd hi (List.not_mem_nil i)
      | cons t rest =>
          have h2 : (none : Option (Img × List Node)) = some out := h
          exact Option.noConfusion h2
  | succ fuel ih =>
      intro pool q res out fb ord h hb
      cases q with
      | nil =>
          have h2 : some (res, pool) = some out := h
          have hb2 : some ([] : List Nat) = some ord := by cases fb <;> exact hb
          obtain rfl : (res, pool) = out := Option.some.inj h2
          obtain rfl : ([] : List Nat) = ord := Option.some.inj hb2
          refine ⟨fun i => rfl, rfl, fun i _ => rfl, fun i _ => rfl, ?_⟩
          intro _ _ _ _ i p hi
          exact absurd hi (List.not_mem_nil i)
      | cons t rest =>
          have h2 : cideLoop fuel (hFold (getN pool t).h pool (getN pool t).childs)
              (rest ++ (getN pool t).childs)
              (paint res (getN pool t).pixels (getN pool t).h) = some out := h
          cases fb with
          | zero =>
              have hb2 : (none : Option (List Nat)) = some ord := hb
              exact Option.noConfusion hb2
          | succ fb =>
              have hb2 : bfsOrder fb pool (rest ++ (getN pool t).childs) [t] = some ord := hb
              rw [bfsOrder_acc] at hb2
              cases hbx : bfsOrder fb pool (rest ++ (getN pool t).childs) [] with
              | none =>
                  rw [hbx] at hb2
                  exact Option.noConfusion hb2
              | some ord1 =>
                  rw [hbx] at hb2
                  simp only [Option.map_some', Option.some.injEq] at hb2
                  have hord : t :: ord1 = ord := hb2
                  subst hord
                  obtain ⟨f1, f2, f3, f4, f6, f5⟩ :=
                    hFold_spec (getN pool t).h (getN pool t).childs pool
                  have hagc : ∀ j,
                      (getN (hFold (getN pool t).h pool (getN pool t).childs) j).childs =
                      (getN pool j).childs := fun j => eraseH_childs (f1 j)
                  have hbx1 : bfsOrder fb (hFold (getN pool t).h pool (getN pool t).childs)
                      (rest ++ (getN pool t).childs) [] = some ord1 :=
                    (bfsOrder_agree _ pool hagc fb _ []).trans hbx
                  obtain ⟨A2, L2, B2, D2, E2⟩ := ih _ _ _ out fb ord1 h2 hbx1
                  refine ⟨fun i => (A2 i).trans (f1 i), L2.trans f2, ?_, ?_, ?_⟩
                  · intro i hi
                    have hit : i ≠ t := fun he => hi (by rw [he]; exact List.mem_cons_self _ _)
                    have hi1 : ¬ i ∈ ord1 := fun hm => hi (List.mem_cons_of_mem _ hm)
                    have hic : ¬ i ∈ (getN pool t).childs := fun hc =>
                      hi1 (bfsOrder_sub _ fb _ ord1 hbx1 i
                        (List.mem_append.mpr (Or.inr hc)))
                    exact (B2 i hi1).trans (f3 i hic)
                  · intro i hia
                    have hp1 : getN (hFold (getN pool t).h pool (getN pool t).childs) i =
                        getN pool i := f5 i hia
                    have hia1 : (getN (hFold (getN pool t).h pool (getN pool t).childs) i).active
                        = true := by rw [hp1]; exact hia
                    exact (D2 i hia1).trans (by rw [hp1])
                  · intro hnd h1 h1b h3 i p hi hf ha hil hpl
                    have hnd1 : ord1.Nodup := (List.nodup_cons.mp hnd).2
                    have htn1 : ¬ t ∈ ord1 := (List.nodup_cons.mp hnd).1
                    have h1t : ∀ j c,
                        c ∈ (getN (hFold (getN pool t).h pool (getN pool t).childs) j).childs →
                        (getN (hFold (getN pool t).h pool (getN pool t).childs) c).father
                          = some j := by
                      intro j c hc
                      rw [eraseH_father (f1 c)]
                      exact h1 j c (by rw [← hagc j]; exact hc)
                    have h1bt : ∀ x y,
                        (getN (hFold (getN pool t).h pool (getN pool t).childs) x).father
                          = some y → x ≠ y →
                        x ∈ (getN (hFold (getN pool t).h pool (getN pool t).childs) y).childs := by
                      intro x y hxf hxy
                      rw [hagc y]
                      exact h1b x y (by rw [← eraseH_father (f1 x)]; exact hxf) hxy
                    have h3t : ∀ x, x ∈ rest ++ (getN pool t).childs → ∀ p2,
                        (getN (hFold (getN pool t).h pool (getN pool t).childs) x).father
                          = some p2 → p2 ≠ x → ¬ p2 ∈ ord1 := by
                      intro x hx p2 hp2 hne
                      have hp2p : (getN pool x).father = some p2 := by
                        rw [← eraseH_father (f1 x)]; exact hp2
                      rcases List.mem_append.mp hx with hr | hc
                      · intro hm
                        exact h3 x (List.mem_cons_of_mem _ hr) p2 hp2p hne
                          (List.mem_cons_of_mem _ hm)
                      · have hxt : (getN pool x).father = some t := h1 t x hc
                        rw [hxt] at hp2p
                        rw [(Option.some.inj hp2p).symm]
                        exact htn1
                    have E2app := E2 hnd1 h1t h1bt h3t
                    have hfi1 : (getN (hFold (getN pool t).h pool (getN pool t).childs) i).father
                        = some p := by rw [eraseH_father (f1 i)]; exact hf
                    have hai1 : (getN (hFold (getN pool t).h pool (getN pool t).childs) i).active
                        = false := by rw [eraseH_active (f1 i)]; exact ha
                    have hil1 : i < (hFold (getN pool t).h pool (getN pool t).childs).length := by
                      rw [f2]; exact hil
                    have hpl1 : p < (hFold (getN pool t).h pool (getN pool t).childs).length := by
                      rw [f2]; exact hpl
                    by_cases hit : i = t
                    · subst hit
                      constructor
                      · intro hp
                        by_cases hpt : p = i
                        · rw [hpt]
                        · exact absurd hp (h3 i (List.mem_cons_self _ _) p hf hpt)
                      · intro _
                        have hBt : getN out.2 i =
                            getN (hFold (getN pool i).h pool (getN pool i).childs) i := B2 i htn1
                        have hft : (getN (hFold (getN pool i).h pool (getN pool i).childs) i).h
                            = (getN pool i).h := by
                          rcases f6 i with hc | hc
                          · exact hc
                          · exact hc
                        rw [hBt, hft]
                    · have hio1 : i ∈ ord1 := by
                        rcases List.mem_cons.mp hi with he | hm
                        · exact absurd he hit
                        · exact hm
                      by_cases hpt : p = t
                      · have hic : i ∈ (getN pool t).childs := h1b i t (by rw [← hpt]; exact hf) hit
                        have hwi : (getN (hFold (getN pool t).h pool (getN pool t).childs) i).h
                            = (getN pool t).h := f4 i hic hil ha
                        have hE2 := (E2app i t hio1
                          (by rw [eraseH_father (f1 i), hf, hpt]) hai1 hil1
                          (by rw [f2, ← hpt]; exact hpl)).2 htn1
                        have hBt : getN out.2 t =
                            getN (hFold (getN pool t).h pool (getN pool t).childs) t := B2 t htn1
                        have hft : (getN (hFold (getN pool t).h pool (getN pool t).childs) t).h
                            = (getN pool t).h := by
                          rcases f6 t with hc | hc
                          · exact hc
                          · exact hc
                        constructor
                        · intro _
                          rw [hpt, hE2, hwi, hBt, hft]
                        · intro hnp
                          exact absurd (by rw [hpt]; exact List.mem_cons_self t ord1) hnp
                      · have hE := E2app i p hio1 hfi1 hai1 hil1 hpl1
                        constructor
                        · intro hp
                          have hp1 : p ∈ ord1 := by
                            rcases List.mem_cons.mp hp with he | hm
                            · exact absurd he hpt
                            · exact hm
                          exact hE.1 hp1
                        · intro hnp
                          have hnp1 : ¬ p ∈ ord1 := fun hm => hnp (List.mem_cons_of_mem _ hm)
                          have hv2 := hE.2 hnp1
                          have hfr : getN (hFold (getN pool t).h pool (getN pool t).childs) i =
                              getN pool i := by
                            refine f3 i ?_
                            intro hc
                            have h4 := h1 t i hc
                            rw [hf] at h4
                            exact hpt (Option.some.inj h4)
                          rw [hv2, hfr]

/-- `restoreLoop` only writes `active := true` and `h := ori_h` (frame
under `eraseHA`); nodes outside the BFS order are untouched and every
visited in-pool node ends with `h` equal to its original `ori_h`. -/
theorem restoreLoop_spec :
    ∀ (fuel : Nat) (pool : List Node) (q : List Nat) (pool2 : List Node),
    restoreLoop fuel pool q = some pool2 →
    (∀ i, eraseHA (getN pool2 i) = eraseHA (getN pool i)) ∧
    pool2.length = pool.length ∧
    (∀ fb ord, bfsOrder fb pool q [] = some ord →
      (∀ i, ¬ i ∈ ord → getN pool2 i = getN pool i) ∧
      (∀ i, i ∈ ord → i < pool.length → (getN pool2 i).h = (getN pool i).ori_h)) := by
  intro fuel
  induction fuel with
  | zero =>
      intro pool q pool2 h
      cases q with
      | nil =>
          obtain rfl : pool = pool2 := Option.some.inj h
          refine ⟨fun i => rfl, rfl, ?_⟩
          intro fb ord hb
          have hb2 : some ([] : List Nat) = some ord := by cases fb <;> exact hb
          obtain rfl : ([] : List Nat) = ord := Option.some.inj hb2
          exact ⟨fun i _ => rfl, fun i hi => absurd hi (List.not_mem_nil i)⟩
      | cons t rest =>
          exact Option.noConfusion (h : (none : Option (List Node)) = some pool2)
  | succ fuel ih =>
      intro pool q pool2 h
      cases q with
      | nil =>
          obtain rfl : pool = pool2 := Option.some.inj h
          refine ⟨fun i => rfl, rfl, ?_⟩
          intro fb ord hb
          have hb2 : some ([] : List Nat) = some ord := by cases fb <;> exact hb
          obtain rfl : ([] : List Nat) = ord := Option.some.inj hb2
          exact ⟨fun i _ => rfl, fun i hi => absurd hi (List.not_mem_nil i)⟩
      | cons t rest =>
          have h2 : restoreLoop fuel
              (modN pool t (fun n => { n with active := true, h := n.ori_h }))
              (rest ++ (getN (modN pool t
                (fun n => { n with active := true, h := n.ori_h })) t).childs)
              = some pool2 := h
          have s1 : ∀ j, eraseHA (getN (modN pool t
              (fun n => { n with active := true, h := n.ori_h })) j) =
              eraseHA (getN pool j) := by
            intro j
            by_cases hjc : j = t
            · subst hjc
              by_cases hlt : j < pool.length
              · rw [getN_modN_self _ _ _ hlt]
                rfl
              · rw [modN_oob _ _ _ (Nat.le_of_not_lt hlt)]
            · rw [getN_modN_ne _ _ _ _ hjc]
          have schilds : ∀ j, (getN (modN pool t
              (fun n => { n with active := true, h := n.ori_h })) j).childs =
              (getN pool j).childs := fun j => eraseHA_childs (s1 j)
          have soh : ∀ j, (getN (modN pool t
              (fun n => { n with active := true, h := n.ori_h })) j).ori_h =
              (getN pool j).ori_h := fun j => eraseHA_ori_h (s1 j)
          obtain ⟨A2, L2, R2⟩ := ih _ _ pool2 h2
          refine ⟨fun i => (A2 i).trans (s1 i), L2.trans (length_modN _ _ _), ?_⟩
          intro fb ord hb
          cases fb with
          | zero => exact Option.noConfusion (hb : (none : Option (List Nat)) = some ord)
          | succ fb =>
              have hb2 : bfsOrder fb pool (rest ++ (getN pool t).childs) [t] = some ord := hb
              rw [bfsOrder_acc] at hb2
              cases hbx : bfsOrder fb pool (rest ++ (getN pool t).childs) [] with
              | none =>
                  rw [hbx] at hb2
                  exact Option.noConfusion hb2
              | some ord1 =>
                  rw [hbx] at hb2
                  simp only [Option.map_some', Option.some.injEq] at hb2
                  have hord : t :: ord1 = ord := hb2
                  subst hord
                  have hbx1 : bfsOrder fb
                      (modN pool t (fun n => { n with active := true, h := n.ori_h }))
                      (rest ++ (getN (modN pool t
                        (fun n => { n with active := true, h := n.ori_h })) t).childs) []
                      = some ord1 := by
                    rw [schilds t]
                    exact (bfsOrder_agree _ pool schilds fb _ []).trans hbx
                  obtain ⟨B2, V2⟩ := R2 fb ord1 hbx1
                  constructor
                  · intro i hi
                    have hit : i ≠ t := fun he => hi (by rw [he]; exact List.mem_cons_self _ _)
                    have hi1 : ¬ i ∈ ord1 := fun hm => hi (List.mem_cons_of_mem _ hm)
                    exact (B2 i hi1).trans (getN_modN_ne _ _ _ _ hit)
                  · intro i hi hlt
                    by_cases hio1 : i ∈ ord1
                    · have hv := V2 i hio1 (by rw [length_modN]; exact hlt)
                      rw [hv, soh i]
                    · have hit : i = t := by
                        rcases List.mem_cons.mp hi with he | hm
                        · exact he
                        · exact absurd hm hio1
                      subst hit
                      rw [B2 i hio1, getN_modN_self _ _ _ hlt]

/-- Climbing the inactive ancestor chain: with the final-`h` equations
of `cideLoop_spec`, an inactive node's final `h` is the original `h` of
its nearest active ancestor. -/
theorem naa_climb (pool pool2 : List Node) (ord : List Nat)
    (hE : ∀ i p, i ∈ ord → (getN pool i).father = some p →
      (getN pool i).active = false → p ∈ ord →
      (getN pool2 i).h = (getN pool2 p).h)
    (hD : ∀ i, (getN pool i).active = true → (getN pool2 i).h = (getN pool i).h)
    (hup : ∀ i, i ∈ ord → (getN pool i).active = false →
      ∀ p, (getN pool i).father = some p → p ∈ ord) :
    ∀ (fw i a : Nat), naa fw pool i = some a → i ∈ ord →
      (getN pool i).active = false → (getN pool2 i).h = (getN pool a).h := by
  intro fw
  induction fw with
  | zero =>
      intro i a h
      exact Option.noConfusion (h : (none : Option Nat) = some a)
  | succ fw ih =>
      intro i a h hi ha
      have h2 : (match (getN pool i).father with
        | some f =>
            if f = i then none
            else if (getN pool f).active = true then some f else naa fw pool f
        | none => none) = some a := h
      cases hf : (getN pool i).father with
      | none =>
          rw [hf] at h2
          exact Option.noConfusion (h2 : (none : Option Nat) = some a)
      | some f =>
          rw [hf] at h2
          have h3 : (if f = i then none
            else if (getN pool f).active = true then some f else naa fw pool f)
            = some a := h2
          by_cases hfi : f = i
          · rw [if_pos hfi] at h3
            exact Option.noConfusion h3
          · rw [if_neg hfi] at h3
            have hp : f ∈ ord := hup i hi ha f hf
            by_cases hfa : (getN pool f).active = true
            · rw [if_pos hfa] at h3
              obtain rfl : f = a := Option.some.inj h3
              rw [hE i f hi hf ha hp, hD f hfa]
            · rw [if_neg hfa] at h3
              have hfa2 : (getN pool f).active = false := by
                cases hbx : (getN pool f).active with
                | false => rfl
                | true => exact absurd hbx hfa
              rw [hE i f hi hf ha hp]
              exact ih f a h3 hp hfa2

/-- **C9.** `constructImage(DIRECT)` is not read-only on the tree: for
every tree state whose pool is parent/child-coherent, and every inactive
node `nid` visited by the reconstruction whose nearest active ancestor
is `a`, the dispatched `constructImageDirectExpe` permanently overwrites
`nid`'s `h` field with its father's current `h`, collapsing the chain of
inactive nodes onto `a`'s level `(getN st.pool a).h`; the node's `ori_h`
is untouched, and `restore()` resets `h` back to that original `ori_h`. -/
theorem direct_reconstruction_overwrites_h
    (fuel fb fw fr fbr : Nat) (st : BState) (root nid a : Nat)
    (tops ord ordR : List Nat) (out : Img × BState)
    (htops : cideCollect fuel st.pool [root] [] = some tops)
    (hord : bfsOrder fb st.pool tops [] = some ord)
    (hnodup : ord.Nodup)
    (h1 : ∀ j, j < st.pool.length → ∀ c, c ∈ (getN st.pool j).childs →
      (getN st.pool c).father = some j)
    (h1b : ∀ i, i < st.pool.length → ∀ p, p < st.pool.length →
      ((getN st.pool i).father = some p ∧ i ≠ p → i ∈ (getN st.pool p).childs))
    (hfrange : ∀ i, i < st.pool.length →
      ((getN st.pool i).father.getD 0) < st.pool.length)
    (hbound : ∀ i, i ∈ ord → i < st.pool.length)
    (h3 : ∀ i, i ∈ tops → ∀ p, p ∈ ord → (getN st.pool i).father = some p → p = i)
    (hrun : constructImage fuel st root ConstructionDecision.DIRECT = some out)
    (hnid : nid ∈ ord)
    (hinact : (getN st.pool nid).active = false)
    (hnaa : naa fw st.pool nid = some a)
    (hordR : bfsOrder fbr st.pool [root] [] = some ordR)
    (hnidR : nid ∈ ordR) :
    (getN out.2.pool nid).h = (getN st.pool a).h ∧
    (getN out.2.pool nid).ori_h = (getN st.pool nid).ori_h ∧
    ∀ pool2, restoreLoop fr out.2.pool [root] = some pool2 →
      (getN pool2 nid).h = (getN st.pool nid).ori_h := by
  have h1u : ∀ j c, c ∈ (getN st.pool j).childs → (getN st.pool c).father = some j := by
    intro j c hc
    by_cases hj : j < st.pool.length
    · exact h1 j hj c hc
    · rw [getN_oob _ _ (Nat.le_of_not_lt hj)] at hc
      exact absurd hc (List.not_mem_nil c)
  have h1bu : ∀ i j, (getN st.pool i).father = some j → i ≠ j →
      i ∈ (getN st.pool j).childs := by
    intro i j hf hij
    by_cases hi : i < st.pool.length
    · have hjr : j < st.pool.length := by
        have := hfrange i hi
        rw [hf] at this
        exact this
      exact h1b i hi j hjr ⟨hf, hij⟩
    · rw [getN_oob _ _ (Nat.le_of_not_lt hi)] at hf
      exact Option.noConfusion hf
  have h3m : ∀ i, i ∈ tops → ∀ p, (getN st.pool i).father = some p → p ≠ i →
      ¬ p ∈ ord := by
    intro i hi p hf hne hm
    exact hne (h3 i hi p hm hf)
  have hrun2 : (match constructImageDirectExpe fuel st.pool root
      ⟨st.oriImg.sx, st.oriImg.sy, st.oriImg.sz, List.replicate st.oriImg.len 0⟩ with
    | none => none
    | some (res, pool) => some (res, { st with pool := pool })) = some out := hrun
  have hde : constructImageDirectExpe fuel st.pool root
      ⟨st.oriImg.sx, st.oriImg.sy, st.oriImg.sz, List.replicate st.oriImg.len 0⟩ =
      cideLoop fuel st.pool tops
        ((⟨st.oriImg.sx, st.oriImg.sy, st.oriImg.sz,
           List.replicate st.oriImg.len 0⟩ : Img).fill 0) := by
    show (match cideCollect fuel st.pool [root] [] with
      | none => none
      | some tops => cideLoop fuel st.pool tops
          ((⟨st.oriImg.sx, st.oriImg.sy, st.oriImg.sz,
             List.replicate st.oriImg.len 0⟩ : Img).fill 0)) = _
    rw [htops]
  rw [hde] at hrun2
  cases hc : cideLoop fuel st.pool tops
      ((⟨st.oriImg.sx, st.oriImg.sy, st.oriImg.sz,
         List.replicate st.oriImg.len 0⟩ : Img).fill 0) with
  | none =>
      rw [hc] at hrun2
      exact Option.noConfusion (hrun2 : (none : Option (Img × BState)) = some out)
  | some rp =>
      rw [hc] at hrun2
      obtain ⟨r2, p2⟩ := rp
      have hout : some (r2, { st with pool := p2 }) = some out := hrun2
      obtain rfl : ((r2, { st with pool := p2 }) : Img × BState) = out :=
        Option.some.inj hout
      obtain ⟨A2, L2, B2, D2, E2⟩ :=
        cideLoop_spec fuel st.pool tops _ (r2, p2) fb ord hc hord
      have E2app := E2 hnodup h1u h1bu h3m
      have hup : ∀ i, i ∈ ord → (getN st.pool i).active = false →
          ∀ p, (getN st.pool i).father = some p → p ∈ ord := by
        intro i hi hia p hf
        have hit : ¬ i ∈ tops := by
          intro hm
          have hia2 := cideCollect_active st.pool fuel [root] [] tops htops
            (fun x hx => absurd hx (List.not_mem_nil x)) i hm
          rw [hia2] at hia
          exact Bool.noConfusion hia
        obtain ⟨j, hj1, hj2⟩ := bfsOrder_child_origin st.pool fb tops ord hord i hi hit
        have hfj : (getN st.pool i).father = some j := h1u j i hj2
        rw [hf] at hfj
        rw [Option.some.inj hfj]
        exact hj1
      have hEfun : ∀ i p, i ∈ ord → (getN st.pool i).father = some p →
          (getN st.pool i).active = false → p ∈ ord →
          (getN p2 i).h = (getN p2 p).h := by
        intro i p hi hf hia hp
        exact (E2app i p hi hf hia (hbound i hi) (hbound p hp)).1 hp
      have hmain : (getN p2 nid).h = (getN st.pool a).h :=
        naa_climb st.pool p2 ord hEfun D2 hup fw nid a hnaa hnid hinact
      refine ⟨hmain, eraseH_ori_h (A2 nid), ?_⟩
      intro pool2 hres
      obtain ⟨Ar, Lr, Rr⟩ := restoreLoop_spec fr p2 [root] pool2 hres
      have hagc2 : ∀ j, (getN p2 j).childs = (getN st.pool j).childs :=
        fun j => eraseH_childs (A2 j)
      have hordR2 : bfsOrder fbr p2 [root] [] = some ordR :=
        (bfsOrder_agree p2 st.pool hagc2 fbr _ []).trans hordR
      obtain ⟨Br, Vr⟩ := Rr fbr ordR hordR2
      have hv := Vr nid hnidR (by rw [L2]; exact hbound nid hnid)
      rw [hv]
      exact eraseH_ori_h (A2 nid)

/-- Witness for C9 on the 3×1 chain image `[0, 1, 2]`: after
`areaFiltering(2, 3)` deactivates the area-1 leaf (node 2, whose level
is `h = ori_h = 2`), the DIRECT reconstruction rewrites the leaf's `h`
to its father's level 1 — the nearest active ancestor is node 1 with
`h = 1` — while `ori_h` stays 2, and `restore()` resets `h` to 2. -/
theorem direct_reconstruction_overwrites_h_witness :
    (getN stChainF.pool 2).active = false ∧
    (getN stChainF.pool 2).h = 2 ∧
    naa 5 stChainF.pool 2 = some 1 ∧
    (getN stChainF.pool 1).h = 1 ∧
    ((getN outChainF.2.pool 2).h = (getN stChainF.pool 1).h ∧
     (getN outChainF.2.pool 2).ori_h = (getN stChainF.pool 2).ori_h ∧
     ∀ pool2, restoreLoop 200 outChainF.2.pool [rootChainF] = some pool2 →
       (getN pool2 2).h = (getN stChainF.pool 2).ori_h) :=
  ⟨by decide, by decide, rfl, by decide,
   direct_reconstruction_overwrites_h 200 200 5 200 200 stChainF rootChainF 2 1
     [0] [0, 1, 2] [0, 1, 2] outChainF rfl rfl (by decide)
     (by decide) (by decide) (by decide) (by decide) (by decide)
     rfl (by decide) (by decide) rfl rfl (by decide)⟩

/-! Supporting lemmas for the father-level invariant of the builder
(claim C2). -/

theorem getD_eq_or_mem {α : Type} (l : List α) (i : Nat) (d : α) :
    l.getD i d = d ∨ l.getD i d ∈ l := by
  induction l generalizing i with
  | nil => exact Or.inl rfl
  | cons a t ih =>
      cases i with
      | zero => exact Or.inr (List.mem_cons_self _ _)
      | succ k =>
          rcases ih k with hc | hc
          · exact Or.inl hc
          · exact Or.inr (List.mem_cons_of_mem _ hc)

theorem scanLevel_le (st : BState) :
    ∀ k, 0 ≤ scanLevel st k → (scanLevel st k).toNat ≤ k := by
  intro k
  induction k with
  | zero =>
      intro h
      by_cases hn : nalGet st 0
      · simp [scanLevel, hn]
      · rw [scanLevel, if_neg hn] at h
        exact absurd h (by decide)
  | succ k ih =>
      intro h
      by_cases hn : nalGet st (k+1)
      · simp [scanLevel, hn]
      · have h2 : scanLevel st (k+1) = scanLevel st k := by
          rw [scanLevel, if_neg hn]
        rw [h2] at h ⊢
        exact Nat.le_succ_of_le (ih h)

theorem idxGet_idxSet_cases (st : BState) (l0 j0 : Nat) (v : Option Nat) (l j : Nat) :
    idxGet (idxSet st l0 j0 v) l j = idxGet st l j ∨
    (l = l0 ∧ j = j0 ∧ idxGet (idxSet st l0 j0 v) l j = v) := by
  show ((st.index.set l0 ((st.index.getD l0 []).set j0 v)).getD l []).getD j none
      = idxGet st l j ∨
    (l = l0 ∧ j = j0 ∧
      ((st.index.set l0 ((st.index.getD l0 []).set j0 v)).getD l []).getD j none = v)
  by_cases hl : l = l0
  · subst hl
    by_cases hrow : l < st.index.length
    · rw [getD_set_self _ _ _ _ hrow]
      by_cases hj : j = j0
      · subst hj
        by_cases hjl : j < (st.index.getD l []).length
        · exact Or.inr ⟨rfl, rfl, getD_set_self _ _ _ _ hjl⟩
        · rw [set_oob _ _ _ (Nat.le_of_not_lt hjl)]
          exact Or.inl rfl
      · rw [getD_set_ne _ _ _ _ _ hj]
        exact Or.inl rfl
    · rw [set_oob _ _ _ (Nat.le_of_not_lt hrow)]
      exact Or.inl rfl
  · rw [getD_set_ne _ _ _ _ _ hl]
    exact Or.inl rfl

theorem statusSet_pool (st : BState) (q v : Int) : (statusSet st q v).pool = st.pool := by
  unfold statusSet
  split <;> rfl

theorem statusSet_index (st : BState) (q v : Int) :
    (statusSet st q v).index = st.index := by
  unfold statusSet
  split <;> rfl

theorem statusSet_hMin (st : BState) (q v : Int) :
    (statusSet st q v).hMin = st.hMin := by
  unfold statusSet
  split <;> rfl

theorem invariants_of_fields {st st2 : BState} (hp : st2.pool = st.pool)
    (hi : st2.index = st.index) (hm : st2.hMin = st.hMin) :
    (IndexOK st → IndexOK st2) ∧ (FatherOK st.pool → FatherOK st2.pool) := by
  constructor
  · intro hI l j nid hx
    have hx2 : idxGet st l j = some nid := by
      show (st.index.getD l []).getD j none = some nid
      rw [← hi]
      exact hx
    rw [hp, hm]
    exact hI l j nid hx2
  · intro hF
    rw [hp]
    exact hF

theorem modN_hf_pres (pool : List Node) (nid : Nat) (f : Node → Node)
    (hh : ∀ n, (f n).h = n.h) (hf : ∀ n, (f n).father = n.father) :
    ∀ i, (getN (modN pool nid f) i).h = (getN pool i).h ∧
      (getN (modN pool nid f) i).father = (getN pool i).father := by
  intro i
  by_cases hic : i = nid
  · subst hic
    by_cases hlt : i < pool.length
    · rw [getN_modN_self _ _ _ hlt]
      exact ⟨hh _, hf _⟩
    · rw [modN_oob _ _ _ (Nat.le_of_not_lt hlt)]
      exact ⟨rfl, rfl⟩
  · rw [getN_modN_ne _ _ _ _ hic]
    exact ⟨rfl, rfl⟩

theorem modPool_pres (st : BState) (nid : Nat) (f : Node → Node)
    (hh : ∀ n, (f n).h = n.h) (hf : ∀ n, (f n).father = n.father)
    (hI : IndexOK st) (hF : FatherOK st.pool) :
    IndexOK (modPool st nid f) ∧ FatherOK (modPool st nid f).pool ∧
    (modPool st nid f).hMin = st.hMin := by
  refine ⟨?_, ?_, rfl⟩
  · intro l j x hx
    have hx2 : idxGet st l j = some x := hx
    obtain ⟨h1, h2⟩ := hI l j x hx2
    constructor
    · show x < (modN st.pool nid f).length
      rw [length_modN]
      exact h1
    · show (getN (modN st.pool nid f) x).h = st.hMin + l
      rw [(modN_hf_pres st.pool nid f hh hf x).1]
      exact h2
  · intro i p hfa
    have hfa2 : (getN st.pool i).father = some p := by
      rw [← (modN_hf_pres st.pool nid f hh hf i).2]
      exact hfa
    rcases hF i p hfa2 with he | ⟨hpl, hil, hlt⟩
    · exact Or.inl he
    · refine Or.inr ⟨?_, ?_, ?_⟩
      · show p < (modN st.pool nid f).length
        rw [length_modN]
        exact hpl
      · show i < (modN st.pool nid f).length
        rw [length_modN]
        exact hil
      · show (getN (modN st.pool nid f) p).h < (getN (modN st.pool nid f) i).h
        rw [(modN_hf_pres st.pool nid f hh hf p).1,
          (modN_hf_pres st.pool nid f hh hf i).1]
        exact hlt

theorem append_pres (st : BState) (w : Node) (hw : w.father = none)
    (hI : IndexOK st) (hF : FatherOK st.pool) :
    IndexOK { st with pool := st.pool ++ [w] } ∧ FatherOK (st.pool ++ [w]) := by
  constructor
  · intro l j x hx
    have hx2 : idxGet st l j = some x := hx
    obtain ⟨h1, h2⟩ := hI l j x hx2
    constructor
    · show x < (st.pool ++ [w]).length
      rw [List.length_append]
      exact Nat.lt_of_lt_of_le h1 (Nat.le_add_right _ _)
    · show (getN (st.pool ++ [w]) x).h = st.hMin + l
      rw [getN_append_lt _ _ _ h1]
      exact h2
  · intro i p hfa
    by_cases hil : i < st.pool.length
    · rw [getN_append_lt _ _ _ hil] at hfa
      rcases hF i p hfa with he | ⟨hpl, hil2, hlt⟩
      · exact Or.inl he
      · refine Or.inr ⟨?_, ?_, ?_⟩
        · rw [List.length_append]
          exact Nat.lt_of_lt_of_le hpl (Nat.le_add_right _ _)
        · rw [List.length_append]
          exact Nat.lt_of_lt_of_le hil2 (Nat.le_add_right _ _)
        · rw [getN_append_lt _ _ _ hpl, getN_append_lt _ _ _ hil2]
          exact hlt
    · by_cases hie : i = st.pool.length
      · subst hie
        rw [getN_append_self] at hfa
        rw [hw] at hfa
        exact Option.noConfusion hfa
      · have hge : (st.pool ++ [w]).length ≤ i := by
          rw [List.length_append]
          exact Nat.lt_of_le_of_ne (Nat.le_of_not_lt hil) (fun he => hie he.symm)
        rw [getN_oob _ _ hge] at hfa
        exact Option.noConfusion hfa

theorem modN_h_pres (pool : List Node) (nid : Nat) (f : Node → Node)
    (hh : ∀ n, (f n).h = n.h) :
    ∀ i, (getN (modN pool nid f) i).h = (getN pool i).h := by
  intro i
  by_cases hic : i = nid
  · subst hic
    by_cases hlt : i < pool.length
    · rw [getN_modN_self _ _ _ hlt]
      exact hh _
    · rw [modN_oob _ _ _ (Nat.le_of_not_lt hlt)]
  · rw [getN_modN_ne _ _ _ _ hic]

theorem fatherWrite_h (pool : List Node) (c f0 : Nat) :
    ∀ i, (getN (modN pool c (fun n => { n with father := some f0 })) i).h =
      (getN pool i).h :=
  modN_h_pres pool c (fun n => { n with father := some f0 }) (fun _ => rfl)

theorem modPool_presI (st : BState) (nid : Nat) (f : Node → Node)
    (hh : ∀ n, (f n).h = n.h) (hI : IndexOK st) : IndexOK (modPool st nid f) := by
  intro l j x hx
  have hx2 : idxGet st l j = some x := hx
  obtain ⟨h1, h2⟩ := hI l j x hx2
  constructor
  · show x < (modN st.pool nid f).length
    rw [length_modN]
    exact h1
  · show (getN (modN st.pool nid f) x).h = st.hMin + l
    rw [modN_h_pres st.pool nid f hh x]
    exact h2

theorem updAttr_pres (st : BState) (nid : Nat) (p : Int)
    (hI : IndexOK st) (hF : FatherOK st.pool) :
    IndexOK (updAttrStep st nid p) ∧ FatherOK (updAttrStep st nid p).pool ∧
    (updAttrStep st nid p).hMin = st.hMin :=
  modPool_pres st nid _ (fun _ => rfl) (fun _ => rfl) hI hF

theorem newIdxUpd_pres (st1 : BState) (h : Nat) (p nn : Int)
    (hI1 : IndexOK st1) (hF1 : FatherOK st1.pool) :
    IndexOK (updAttrStep (idxSet (newNode st1 (indexToH st1 h) nn).2 h
        nn.toNat (some (newNode st1 (indexToH st1 h) nn).1))
        (newNode st1 (indexToH st1 h) nn).1 p) ∧
    FatherOK (updAttrStep (idxSet (newNode st1 (indexToH st1 h) nn).2 h
        nn.toNat (some (newNode st1 (indexToH st1 h) nn).1))
        (newNode st1 (indexToH st1 h) nn).1 p).pool ∧
    (updAttrStep (idxSet (newNode st1 (indexToH st1 h) nn).2 h
        nn.toNat (some (newNode st1 (indexToH st1 h) nn).1))
        (newNode st1 (indexToH st1 h) nn).1 p).hMin = st1.hMin := by
  obtain ⟨hIa, hFa⟩ := append_pres st1 (mkNode (indexToH st1 h) nn) rfl hI1 hF1
  have hI2 : IndexOK (idxSet (newNode st1 (indexToH st1 h) nn).2 h nn.toNat
      (some (newNode st1 (indexToH st1 h) nn).1)) := by
    intro l j x hx
    rcases idxGet_idxSet_cases (newNode st1 (indexToH st1 h) nn).2 h nn.toNat
      (some (newNode st1 (indexToH st1 h) nn).1) l j with hc | ⟨hl, _, hval⟩
    · rw [hc] at hx
      have hx2 : idxGet { st1 with pool := st1.pool ++ [mkNode (indexToH st1 h) nn] }
          l j = some x := hx
      exact hIa l j x hx2
    · rw [hx] at hval
      obtain rfl : (newNode st1 (indexToH st1 h) nn).1 = x := (Option.some.inj hval).symm
      constructor
      · show st1.pool.length < (st1.pool ++ [mkNode (indexToH st1 h) nn]).length
        rw [List.length_append]
        exact Nat.lt_succ_self _
      · show (getN (st1.pool ++ [mkNode (indexToH st1 h) nn]) st1.pool.length).h
            = st1.hMin + l
        rw [getN_append_self, hl]
        rfl
  have hF2 : FatherOK (idxSet (newNode st1 (indexToH st1 h) nn).2 h nn.toNat
      (some (newNode st1 (indexToH st1 h) nn).1)).pool := hFa
  exact modPool_pres _ _ _ (fun _ => rfl) (fun _ => rfl) hI2 hF2

theorem popStep_pres (st : BState) (h : Nat) (p : Int)
    (hI : IndexOK st) (hF : FatherOK st.pool) :
    IndexOK (popStep st h p) ∧ FatherOK (popStep st h p).pool ∧
    (popStep st h p).hMin = st.hMin := by
  obtain ⟨hIf, hFf⟩ := invariants_of_fields (statusSet_pool st p (nnGet st h))
    (statusSet_index st p (nnGet st h)) (statusSet_hMin st p (nnGet st h))
  have hI1 := hIf hI
  have hF1 := hFf hF
  cases hidx : idxGet (statusSet st p (nnGet st h)) h (nnGet st h).toNat with
  | some nid =>
      have hps : popStep st h p = updAttrStep (statusSet st p (nnGet st h)) nid p := by
        simp only [popStep]
        rw [hidx]
      rw [hps]
      obtain ⟨a, b, c⟩ := updAttr_pres _ nid p hI1 hF1
      exact ⟨a, b, c.trans (statusSet_hMin st p _)⟩
  | none =>
      have hps : popStep st h p = updAttrStep
          (idxSet (newNode (statusSet st p (nnGet st h))
              (indexToH (statusSet st p (nnGet st h)) h) (nnGet st h)).2 h
            (nnGet st h).toNat
            (some (newNode (statusSet st p (nnGet st h))
              (indexToH (statusSet st p (nnGet st h)) h) (nnGet st h)).1))
          (newNode (statusSet st p (nnGet st h))
            (indexToH (statusSet st p (nnGet st h)) h) (nnGet st h)).1 p := by
        simp only [popStep]
        rw [hidx]
      rw [hps]
      obtain ⟨a, b, c⟩ := newIdxUpd_pres (statusSet st p (nnGet st h)) h p
        (nnGet st h) hI1 hF1
      exact ⟨a, b, c.trans (statusSet_hMin st p _)⟩

theorem linkFather_pres (st : BState) (m : Nat)
    (hI : IndexOK st) (hF : FatherOK st.pool) :
    IndexOK (linkFather st m).2 ∧ FatherOK (linkFather st m).2.pool ∧
    (linkFather st m).2.hMin = st.hMin ∧
    (linkFather st m).1 < (linkFather st m).2.pool.length ∧
    (getN (linkFather st m).2.pool (linkFather st m).1).h = st.hMin + m := by
  cases hidx : idxGet st m (nnGet st m).toNat with
  | some fid =>
      have hlf : linkFather st m = (fid, st) := by
        simp only [linkFather]
        rw [hidx]
      rw [hlf]
      obtain ⟨h1, h2⟩ := hI m (nnGet st m).toNat fid hidx
      exact ⟨hI, hF, rfl, h1, h2⟩
  | none =>
      have hlf : linkFather st m =
          ((newNode st (indexToH st m) (nnGet st m)).1,
           idxSet (newNode st (indexToH st m) (nnGet st m)).2 m (nnGet st m).toNat
             (some (newNode st (indexToH st m) (nnGet st m)).1)) := by
        simp only [linkFather]
        rw [hidx]
      rw [hlf]
      obtain ⟨hIa, hFa⟩ := append_pres st (mkNode (indexToH st m) (nnGet st m)) rfl hI hF
      have hI2 : IndexOK (idxSet (newNode st (indexToH st m) (nnGet st m)).2 m
          (nnGet st m).toNat (some (newNode st (indexToH st m) (nnGet st m)).1)) := by
        intro l j x hx
        rcases idxGet_idxSet_cases (newNode st (indexToH st m) (nnGet st m)).2 m
          (nnGet st m).toNat (some (newNode st (indexToH st m) (nnGet st m)).1) l j with
          hc | ⟨hl, _, hval⟩
        · rw [hc] at hx
          have hx2 : idxGet { st with pool := st.pool ++ [mkNode (indexToH st m) (nnGet st m)] }
              l j = some x := hx
          exact hIa l j x hx2
        · rw [hx] at hval
          obtain rfl : (newNode st (indexToH st m) (nnGet st m)).1 = x :=
            (Option.some.inj hval).symm
          constructor
          · show st.pool.length < (st.pool ++ [mkNode (indexToH st m) (nnGet st m)]).length
            rw [List.length_append]
            exact Nat.lt_succ_self _
          · show (getN (st.pool ++ [mkNode (indexToH st m) (nnGet st m)])
                st.pool.length).h = st.hMin + l
            rw [getN_append_self, hl]
            rfl
      have hF2 : FatherOK (idxSet (newNode st (indexToH st m) (nnGet st m)).2 m
          (nnGet st m).toNat (some (newNode st (indexToH st m) (nnGet st m)).1)).pool := hFa
      refine ⟨hI2, hF2, rfl, ?_, ?_⟩
      · show st.pool.length < (st.pool ++ [mkNode (indexToH st m) (nnGet st m)]).length
        rw [List.length_append]
        exact Nat.lt_succ_self _
      · show (getN (st.pool ++ [mkNode (indexToH st m) (nnGet st m)])
            st.pool.length).h = st.hMin + m
        rw [getN_append_self]
        rfl

theorem linkStep_pres (st : BState) (h m : Nat) (hmh : m < h)
    (hI : IndexOK st) (hF : FatherOK st.pool) :
    IndexOK (linkStep st h m) ∧ FatherOK (linkStep st h m).pool ∧
    (linkStep st h m).hMin = st.hMin := by
  obtain ⟨hI2, hF2, hm2, hfl, hfh⟩ := linkFather_pres st m hI hF
  cases hidx : idxGet (linkFather st m).2 h ((nnGet st h - 1).toNat) with
  | none =>
      have hls : linkStep st h m = (linkFather st m).2 := by
        simp only [linkStep]
        rw [hidx]
      rw [hls]
      exact ⟨hI2, hF2, hm2⟩
  | some cid =>
      have hls : linkStep st h m =
          modPool (modPool (linkFather st m).2 cid
            (fun n => { n with father := some (linkFather st m).1 }))
            (linkFather st m).1 (fun n => { n with childs := n.childs ++ [cid] }) := by
        simp only [linkStep]
        rw [hidx]
      rw [hls]
      obtain ⟨hcl, hch⟩ := hI2 h ((nnGet st h - 1).toNat) cid hidx
      rw [hm2] at hch
      have hI3 : IndexOK (modPool (linkFather st m).2 cid
          (fun n => { n with father := some (linkFather st m).1 })) :=
        modPool_presI _ cid _ (fun _ => rfl) hI2
      have hF3 : FatherOK (modPool (linkFather st m).2 cid
          (fun n => { n with father := some (linkFather st m).1 })).pool := by
        show FatherOK (modN (linkFather st m).2.pool cid
          (fun n => { n with father := some (linkFather st m).1 }))
        intro i p hfa
        by_cases hic : i = cid
        · rw [hic] at hfa
          rw [getN_modN_self _ _ _ hcl] at hfa
          have hfa2 : some (linkFather st m).1 = some p := hfa
          obtain rfl : (linkFather st m).1 = p := Option.some.inj hfa2
          refine Or.inr ⟨?_, ?_, ?_⟩
          · rw [length_modN]
            exact hfl
          · rw [length_modN]
            rw [hic]
            exact hcl
          · rw [fatherWrite_h (linkFather st m).2.pool cid (linkFather st m).1,
              fatherWrite_h (linkFather st m).2.pool cid (linkFather st m).1,
              hic, hfh, hch]
            omega
        · rw [getN_modN_ne _ _ _ _ hic] at hfa
          rcases hF2 i p hfa with he | ⟨hpl, hil, hlt⟩
          · exact Or.inl he
          · refine Or.inr ⟨?_, ?_, ?_⟩
            · rw [length_modN]
              exact hpl
            · rw [length_modN]
              exact hil
            · rw [fatherWrite_h (linkFather st m).2.pool cid (linkFather st m).1,
                fatherWrite_h (linkFather st m).2.pool cid (linkFather st m).1]
              exact hlt
      obtain ⟨a, b, c⟩ := modPool_pres
        (modPool (linkFather st m).2 cid
          (fun n => { n with father := some (linkFather st m).1 }))
        (linkFather st m).1 (fun n => { n with childs := n.childs ++ [cid] })
        (fun _ => rfl) (fun _ => rfl) hI3 hF3
      exact ⟨a, b, c.trans hm2⟩

theorem rootLinkStep_pres (st : BState) (hI : IndexOK st) (hF : FatherOK st.pool) :
    IndexOK (rootLinkStep st) ∧ FatherOK (rootLinkStep st).pool ∧
    (rootLinkStep st).hMin = st.hMin := by
  cases hidx : idxGet st 0 0 with
  | none =>
      have hrs : rootLinkStep st = st := by
        simp only [rootLinkStep]
        rw [hidx]
      rw [hrs]
      exact ⟨hI, hF, rfl⟩
  | some rid =>
      have hrs : rootLinkStep st =
          modPool st rid (fun n => { n with father := some rid }) := by
        simp only [rootLinkStep]
        rw [hidx]
      rw [hrs]
      obtain ⟨hrl, _⟩ := hI 0 0 rid hidx
      refine ⟨modPool_presI st rid _ (fun _ => rfl) hI, ?_, rfl⟩
      show FatherOK (modN st.pool rid (fun n => { n with father := some rid }))
      intro i p hfa
      by_cases hic : i = rid
      · rw [hic] at hfa
        rw [getN_modN_self _ _ _ hrl] at hfa
        have hfa2 : some rid = some p := hfa
        exact Or.inl ((Option.some.inj hfa2).symm.trans hic.symm)
      · rw [getN_modN_ne _ _ _ _ hic] at hfa
        rcases hF i p hfa with he | ⟨hpl, hil, hlt⟩
        · exact Or.inl he
        · refine Or.inr ⟨?_, ?_, ?_⟩
          · rw [length_modN]
            exact hpl
          · rw [length_modN]
            exact hil
          · rw [fatherWrite_h st.pool rid rid, fatherWrite_h st.pool rid rid]
            exact hlt

theorem floodTail_pres (st : BState) (h : Nat)
    (hI : IndexOK st) (hF : FatherOK st.pool) :
    IndexOK (floodTail st h).2 ∧ FatherOK (floodTail st h).2.pool ∧
    (floodTail st h).2.hMin = st.hMin := by
  have hI1 : IndexOK (nnSet st h (nnGet st h + 1)) := hI
  have hF1 : FatherOK (nnSet st h (nnGet st h + 1)).pool := hF
  have hft : (floodTail st h).2 = nalSet
      (if 0 ≤ (if h = 0 then (-1 : Int)
          else scanLevel (nnSet st h (nnGet st h + 1)) (h - 1)) then
        linkStep (nnSet st h (nnGet st h + 1)) h
          (if h = 0 then (-1 : Int)
            else scanLevel (nnSet st h (nnGet st h + 1)) (h - 1)).toNat
       else rootLinkStep (nnSet st h (nnGet st h + 1))) h false := rfl
  rw [hft]
  by_cases h0 : h = 0
  · rw [if_pos h0]
    rw [if_neg (by decide : ¬ (0 : Int) ≤ -1)]
    obtain ⟨a, b, c⟩ := rootLinkStep_pres _ hI1 hF1
    exact ⟨a, b, c⟩
  · rw [if_neg h0]
    by_cases hm : 0 ≤ scanLevel (nnSet st h (nnGet st h + 1)) (h - 1)
    · rw [if_pos hm]
      have hlt : (scanLevel (nnSet st h (nnGet st h + 1)) (h - 1)).toNat < h :=
        Nat.lt_of_le_of_lt (scanLevel_le _ _ hm)
          (Nat.sub_lt (Nat.pos_of_ne_zero h0) Nat.one_pos)
      obtain ⟨a, b, c⟩ := linkStep_pres _ h _ hlt hI1 hF1
      exact ⟨a, b, c⟩
    · rw [if_neg hm]
      obtain ⟨a, b, c⟩ := rootLinkStep_pres _ hI1 hF1
      exact ⟨a, b, c⟩

theorem nbrsState_pres (st : BState) (l : Nat) (q : Int)
    (hI : IndexOK st) (hF : FatherOK st.pool) :
    IndexOK (nalSet (statusSet (hqPush st l q) q NOT_ACTIVE) l true) ∧
    FatherOK (nalSet (statusSet (hqPush st l q) q NOT_ACTIVE) l true).pool ∧
    (nalSet (statusSet (hqPush st l q) q NOT_ACTIVE) l true).hMin = st.hMin := by
  obtain ⟨a, b⟩ := @invariants_of_fields st
    (nalSet (statusSet (hqPush st l q) q NOT_ACTIVE) l true)
    (statusSet_pool (hqPush st l q) q NOT_ACTIVE)
    (statusSet_index (hqPush st l q) q NOT_ACTIVE)
    (statusSet_hMin (hqPush st l q) q NOT_ACTIVE)
  exact ⟨a hI, b hF, statusSet_hMin (hqPush st l q) q NOT_ACTIVE⟩

/-- The machine invariant: every step of the flooding machine preserves
`IndexOK` and `FatherOK`, and never changes `hMin`. -/
theorem run_pres :
    ∀ (fuel : Nat) (cmd : Cmd) (st : BState) (r : Int × BState),
    run fuel cmd st = some r → IndexOK st → FatherOK st.pool →
    IndexOK r.2 ∧ FatherOK r.2.pool ∧ r.2.hMin = st.hMin := by
  intro fuel
  induction fuel with
  | zero =>
      intro cmd st r h _ _
      exact Option.noConfusion (h : (none : Option (Int × BState)) = some r)
  | succ fuel ih =>
      intro cmd st r h hI hF
      cases cmd with
      | flood hh =>
          simp only [run] at h
          cases hw : run fuel (Cmd.fwhile hh) st with
          | none =>
              rw [hw] at h
              exact Option.noConfusion h
          | some pr =>
              rw [hw] at h
              obtain ⟨v, st1⟩ := pr
              have h3 : some (floodTail st1 hh) = some r := h
              obtain rfl : floodTail st1 hh = r := Option.some.inj h3
              obtain ⟨a1, b1, c1⟩ := ih _ _ _ hw hI hF
              obtain ⟨a2, b2, c2⟩ := floodTail_pres st1 hh a1 b1
              exact ⟨a2, b2, c2.trans c1⟩
      | fwhile hh =>
          simp only [run] at h
          cases hq : hqGet st hh with
          | nil =>
              rw [hq] at h
              have h2 : some ((0 : Int), st) = some r := h
              obtain rfl : ((0 : Int), st) = r := Option.some.inj h2
              exact ⟨hI, hF, rfl⟩
          | cons p rest =>
              rw [hq] at h
              have h2 : (match run fuel
                  (Cmd.fnbrs hh p (popStep (hqSet st hh rest) hh p).seOff)
                  (popStep (hqSet st hh rest) hh p) with
                | none => none
                | some (_, st3) => run fuel (Cmd.fwhile hh) st3) = some r := h
              have hI1 : IndexOK (hqSet st hh rest) := hI
              have hF1 : FatherOK (hqSet st hh rest).pool := hF
              obtain ⟨hI2, hF2, hm2⟩ := popStep_pres (hqSet st hh rest) hh p hI1 hF1
              cases hrn : run fuel
                  (Cmd.fnbrs hh p (popStep (hqSet st hh rest) hh p).seOff)
                  (popStep (hqSet st hh rest) hh p) with
              | none =>
                  rw [hrn] at h2
                  exact Option.noConfusion h2
              | some pr2 =>
                  rw [hrn] at h2
                  obtain ⟨v2, st3⟩ := pr2
                  have h3 : run fuel (Cmd.fwhile hh) st3 = some r := h2
                  obtain ⟨a1, b1, c1⟩ := ih _ _ _ hrn hI2 hF2
                  obtain ⟨a2, b2, c2⟩ := ih _ _ _ h3 a1 b1
                  exact ⟨a2, b2, c2.trans (c1.trans hm2)⟩
      | fnbrs hh p offs =>
          cases offs with
          | nil =>
              simp only [run] at h
              obtain rfl : ((0 : Int), st) = r := Option.some.inj h
              exact ⟨hI, hF, rfl⟩
          | cons off rest =>
              simp only [run] at h
              obtain ⟨hIs, hFs, hMs⟩ := nbrsState_pres st
                (hToIndex st (st.imBorder.get (p + off))) (p + off) hI hF
              split at h
              · split at h
                · split at h
                  · exact Option.noConfusion h
                  · rename_i v4 st4 heq
                    obtain ⟨a1, b1, c1⟩ := ih _ _ _ heq hIs hFs
                    obtain ⟨a2, b2, c2⟩ := ih _ _ _ h a1 b1
                    exact ⟨a2, b2, c2.trans (c1.trans hMs)⟩
                · obtain ⟨a1, b1, c1⟩ := ih _ _ _ h hIs hFs
                  exact ⟨a1, b1, c1.trans hMs⟩
              · exact ih _ _ _ h hI hF
      | funtil m hh =>
          simp only [run] at h
          cases hrn : run fuel (Cmd.flood m) st with
          | none =>
              rw [hrn] at h
              exact Option.noConfusion h
          | some pr =>
              rw [hrn] at h
              obtain ⟨m2, st1⟩ := pr
              obtain ⟨a1, b1, c1⟩ := ih _ _ _ hrn hI hF
              have h2 : (if m2 = (hh : Int) then some (m2, st1)
                else run fuel (Cmd.funtil m2.toNat hh) st1) = some r := h
              by_cases he : m2 = (hh : Int)
              · rw [if_pos he] at h2
                obtain rfl : (m2, st1) = r := Option.some.inj h2
                exact ⟨a1, b1, c1⟩
              · rw [if_neg he] at h2
                obtain ⟨a2, b2, c2⟩ := ih _ _ _ h2 a1 b1
                exact ⟨a2, b2, c2.trans c1⟩

theorem getD_getD_none (rows : List (List (Option Nat)))
    (hall : ∀ row, row ∈ rows → ∀ x, x ∈ row → x = none) (l j : Nat) :
    (rows.getD l []).getD j none = none := by
  rcases getD_eq_or_mem rows l [] with hr | hr
  · rw [hr]
    rfl
  · rcases getD_eq_or_mem (rows.getD l []) j none with hx | hx
    · exact hx
    · exact hall _ hr _ hx

theorem initState_idx_none (img : Img) (conn : FlatSE) :
    ∀ l j, idxGet (initState img conn) l j = none := by
  intro l j
  show (((List.range ((img.getMax - img.getMin + 1).toNat)).map (fun l2 =>
      List.replicate (img.data.countP (fun v => v == img.getMin + l2))
        (none : Option Nat))).getD l []).getD j none = none
  apply getD_getD_none
  intro row hrow x hx
  rcases List.mem_map.mp hrow with ⟨a, _, hrep⟩
  rw [← hrep] at hx
  exact List.eq_of_mem_replicate hx

/-- **C2.** For every tree produced by the builder, every node whose
father is a different node lies strictly above it: the flooding machine
only ever links a closed level-`h` component under a node materialized
at a strictly lower level `m < h`, and the only self-link is the root's. -/
theorem builder_parent_strictly_lower (fuel : Nat) (img : Img) (conn : FlatSE)
    (root : Nat) (st : BState)
    (hbuild : computeTree fuel img conn = some (root, st)) :
    ∀ n p, (getN st.pool n).father = some p → p ≠ n →
      (getN st.pool p).h < (getN st.pool n).h := by
  intro n p hf hne
  cases hfs : findSeed (initState img conn) with
  | some s =>
      simp only [computeTree] at hbuild
      rw [hfs] at hbuild
      split at hbuild
      · exact Option.noConfusion hbuild
      · rename_i v st2 heq
        split at hbuild
        · rename_i root2 hidx
          have hpair : (root2, st2) = (root, st) := Option.some.inj hbuild
          have hst : st2 = st := congrArg Prod.snd hpair
          have hIs : IndexOK (nalSet (hqPush (initState img conn) 0 (s : Int)) 0 true) := by
            intro l j nid hx
            have hx2 : idxGet (initState img conn) l j = some nid := hx
            rw [initState_idx_none img conn l j] at hx2
            exact Option.noConfusion hx2
          have hFs : FatherOK
              (nalSet (hqPush (initState img conn) 0 (s : Int)) 0 true).pool := by
            intro i q hfa
            have hfa2 : (getN [] i).father = some q := hfa
            rw [getN_oob [] i (Nat.zero_le i)] at hfa2
            exact Option.noConfusion hfa2
          obtain ⟨aI, aF, aM⟩ := run_pres fuel (Cmd.flood 0) _ _ heq hIs hFs
          rw [← hst] at hf ⊢
          rcases aF n p hf with he | ⟨_, _, hlt⟩
          · exact absurd he hne
          · exact hlt
        · exact Option.noConfusion hbuild
  | none =>
      simp only [computeTree] at hbuild
      rw [hfs] at hbuild
      split at hbuild
      · exact Option.noConfusion hbuild
      · rename_i v st2 heq
        split at hbuild
        · rename_i root2 hidx
          have hpair : (root2, st2) = (root, st) := Option.some.inj hbuild
          have hst : st2 = st := congrArg Prod.snd hpair
          have hIs : IndexOK (nalSet (initState img conn) 0 true) := by
            intro l j nid hx
            have hx2 : idxGet (initState img conn) l j = some nid := hx
            rw [initState_idx_none img conn l j] at hx2
            exact Option.noConfusion hx2
          have hFs : FatherOK (nalSet (initState img conn) 0 true).pool := by
            intro i q hfa
            have hfa2 : (getN [] i).father = some q := hfa
            rw [getN_oob [] i (Nat.zero_le i)] at hfa2
            exact Option.noConfusion hfa2
          obtain ⟨aI, aF, aM⟩ := run_pres fuel (Cmd.flood 0) _ _ heq hIs hFs
          rw [← hst] at hf ⊢
          rcases aF n p hf with he | ⟨_, _, hlt⟩
          · exact absurd he hne
          · exact hlt
        · exact Option.noConfusion hbuild

/-- Witness for C2 on the 3×1 chain image `[0, 1, 2]`: the built tree
is the chain root (level 0) ← node 1 (level 1) ← node 2 (level 2), and
node 2's father, node 1, indeed sits strictly below it. -/
theorem builder_parent_strictly_lower_witness :
    computeTree 200 imgChain31 make2DN8 = some (treeChainRaw.1, treeChainRaw.2) ∧
    (getN treeChainRaw.2.pool 2).father = some 1 ∧
    (getN treeChainRaw.2.pool 1).h < (getN treeChainRaw.2.pool 2).h :=
  ⟨rfl, rfl,
   builder_parent_strictly_lower 200 imgChain31 make2DN8 treeChainRaw.1
     treeChainRaw.2 rfl 2 1 rfl (by decide)⟩

/-! Supporting lemmas for the OTSU attribute bundle (claim C7): frame
lemmas showing every pass dispatched after `computeOtsu` leaves the
otsu-relevant fields alone, and a characterization of `computeOtsu`. -/

theorem pool_upd (st : BState) (p : List Node) : ({ st with pool := p } : BState).pool = p :=
  rfl

theorem oproj_otsu {a b : Node} (h : oproj a = oproj b) : a.otsu = b.otsu := by
  have t := congrArg (fun x : LD × LD × LD × LD × LD × List Nat => x.1) h
  exact t

theorem oproj_mean {a b : Node} (h : oproj a = oproj b) : a.mean = b.mean := by
  have t := congrArg (fun x : LD × LD × LD × LD × LD × List Nat => x.2.1) h
  exact t

theorem oproj_mean_nghb {a b : Node} (h : oproj a = oproj b) :
    a.mean_nghb = b.mean_nghb := by
  have t := congrArg (fun x : LD × LD × LD × LD × LD × List Nat => x.2.2.1) h
  exact t

theorem oproj_variance {a b : Node} (h : oproj a = oproj b) :
    a.variance = b.variance := by
  have t := congrArg (fun x : LD × LD × LD × LD × LD × List Nat => x.2.2.2.1) h
  exact t

theorem oproj_variance_nghb {a b : Node} (h : oproj a = oproj b) :
    a.variance_nghb = b.variance_nghb := by
  have t := congrArg (fun x : LD × LD × LD × LD × LD × List Nat => x.2.2.2.2.1) h
  exact t

theorem oproj_childs {a b : Node} (h : oproj a = oproj b) : a.childs = b.childs := by
  have t := congrArg (fun x : LD × LD × LD × LD × LD × List Nat => x.2.2.2.2.2) h
  exact t

theorem otsuVal_oproj {a b : Node} (h : oproj a = oproj b) : otsuVal a = otsuVal b := by
  unfold otsuVal
  rw [oproj_mean h, oproj_mean_nghb h, oproj_variance h, oproj_variance_nghb h]

theorem eraseOtsu_mean {a b : Node} (h : eraseOtsu a = eraseOtsu b) : a.mean = b.mean := by
  have t := congrArg Node.mean h
  exact t

theorem eraseOtsu_mean_nghb {a b : Node} (h : eraseOtsu a = eraseOtsu b) :
    a.mean_nghb = b.mean_nghb := by
  have t := congrArg Node.mean_nghb h
  exact t

theorem eraseOtsu_variance {a b : Node} (h : eraseOtsu a = eraseOtsu b) :
    a.variance = b.variance := by
  have t := congrArg Node.variance h
  exact t

theorem eraseOtsu_variance_nghb {a b : Node} (h : eraseOtsu a = eraseOtsu b) :
    a.variance_nghb = b.variance_nghb := by
  have t := congrArg Node.variance_nghb h
  exact t

theorem eraseOtsu_childs {a b : Node} (h : eraseOtsu a = eraseOtsu b) :
    a.childs = b.childs := by
  have t := congrArg Node.childs h
  exact t

theorem otsuVal_eraseOtsu {a b : Node} (h : eraseOtsu a = eraseOtsu b) :
    otsuVal a = otsuVal b := by
  unfold otsuVal
  rw [eraseOtsu_mean h, eraseOtsu_mean_nghb h, eraseOtsu_variance h,
    eraseOtsu_variance_nghb h]

theorem modN_oproj (pool : List Node) (nid : Nat) (f : Node → Node)
    (hf : ∀ n, oproj (f n) = oproj n) :
    ∀ i, oproj (getN (modN pool nid f) i) = oproj (getN pool i) := by
  intro i
  by_cases hic : i = nid
  · subst hic
    by_cases hlt : i < pool.length
    · rw [getN_modN_self _ _ _ hlt]
      exact hf _
    · rw [modN_oob _ _ _ (Nat.le_of_not_lt hlt)]
  · rw [getN_modN_ne _ _ _ _ hic]

theorem modN_eraseOtsu (pool : List Node) (nid : Nat) (f : Node → Node)
    (hf : ∀ n, eraseOtsu (f n) = eraseOtsu n) :
    ∀ i, eraseOtsu (getN (modN pool nid f) i) = eraseOtsu (getN pool i) := by
  intro i
  by_cases hic : i = nid
  · subst hic
    by_cases hlt : i < pool.length
    · rw [getN_modN_self _ _ _ hlt]
      exact hf _
    · rw [modN_oob _ _ _ (Nat.le_of_not_lt hlt)]
  · rw [getN_modN_ne _ _ _ _ hic]

theorem areaDerivRec_frame :
    ∀ (fuel : Nat) (pool : List Node) (t : Nat) (cs : List Nat) (pool2 : List Node),
    areaDerivRec fuel pool t cs = some pool2 →
    (∀ i, oproj (getN pool2 i) = oproj (getN pool i)) ∧ pool2.length = pool.length := by
  intro fuel
  induction fuel with
  | zero =>
      intro pool t cs pool2 h
      exact Option.noConfusion (h : (none : Option (List Node)) = some pool2)
  | succ fuel ih =>
      intro pool t cs pool2 h
      cases cs with
      | nil =>
          simp only [areaDerivRec] at h
          injection h with h2
          subst h2
          exact ⟨modN_oproj _ _ _ (fun n => rfl), length_modN _ _ _⟩
      | cons c rest =>
          simp only [areaDerivRec] at h
          cases hc : areaDerivRec fuel pool c (getN pool c).childs with
          | none =>
              rw [hc] at h
              exact Option.noConfusion h
          | some pool1 =>
              rw [hc] at h
              obtain ⟨a1, l1⟩ := ih pool c (getN pool c).childs pool1 hc
              obtain ⟨a2, l2⟩ := ih pool1 t rest pool2 h
              exact ⟨fun i => (a2 i).trans (a1 i), l2.trans l1⟩

theorem areaDeriv2Rec_frame :
    ∀ (fuel : Nat) (pool : List Node) (t : Nat) (cs : List Nat) (pool2 : List Node),
    areaDeriv2Rec fuel pool t cs = some pool2 →
    (∀ i, oproj (getN pool2 i) = oproj (getN pool i)) ∧ pool2.length = pool.length := by
  intro fuel
  induction fuel with
  | zero =>
      intro pool t cs pool2 h
      exact Option.noConfusion (h : (none : Option (List Node)) = some pool2)
  | succ fuel ih =>
      intro pool t cs pool2 h
      cases cs with
      | nil =>
          simp only [areaDeriv2Rec] at h
          injection h with h2
          subst h2
          exact ⟨modN_oproj _ _ _ (fun n => rfl), length_modN _ _ _⟩
      | cons c rest =>
          simp only [areaDeriv2Rec] at h
          cases hc : areaDeriv2Rec fuel pool c (getN pool c).childs with
          | none =>
              rw [hc] at h
              exact Option.noConfusion h
          | some pool1 =>
              rw [hc] at h
              obtain ⟨a1, l1⟩ := ih pool c (getN pool c).childs pool1 hc
              obtain ⟨a2, l2⟩ := ih pool1 t rest pool2 h
              exact ⟨fun i => (a2 i).trans (a1 i), l2.trans l1⟩

theorem borderGradRec_frame (grad : Img) :
    ∀ (fuel : Nat) (pool : List Node) (t : Nat) (cs : List Nat) (pool2 : List Node),
    borderGradRec grad fuel pool t cs = some pool2 →
    (∀ i, oproj (getN pool2 i) = oproj (getN pool i)) ∧ pool2.length = pool.length := by
  intro fuel
  induction fuel with
  | zero =>
      intro pool t cs pool2 h
      exact Option.noConfusion (h : (none : Option (List Node)) = some pool2)
  | succ fuel ih =>
      intro pool t cs pool2 h
      cases cs with
      | nil =>
          simp only [borderGradRec] at h
          injection h with h2
          subst h2
          exact ⟨modN_oproj _ _ _ (fun n => rfl), length_modN _ _ _⟩
      | cons c rest =>
          simp only [borderGradRec] at h
          cases hc : borderGradRec grad fuel pool c (getN pool c).childs with
          | none =>
              rw [hc] at h
              exact Option.noConfusion h
          | some pool1 =>
              rw [hc] at h
              obtain ⟨a1, l1⟩ := ih pool c (getN pool c).childs pool1 hc
              obtain ⟨a2, l2⟩ := ih pool1 t rest pool2 h
              exact ⟨fun i => (a2 i).trans (a1 i), l2.trans l1⟩

theorem subNodesRec_frame :
    ∀ (fuel : Nat) (pool : List Node) (t : Nat) (cs : List Nat) (pool2 : List Node),
    subNodesRec fuel pool t cs = some pool2 →
    (∀ i, oproj (getN pool2 i) = oproj (getN pool i)) ∧ pool2.length = pool.length := by
  intro fuel
  induction fuel with
  | zero =>
      intro pool t cs pool2 h
      exact Option.noConfusion (h : (none : Option (List Node)) = some pool2)
  | succ fuel ih =>
      intro pool t cs pool2 h
      cases cs with
      | nil =>
          simp only [subNodesRec] at h
          injection h with h2
          subst h2
          exact ⟨fun i => rfl, rfl⟩
      | cons c rest =>
          simp only [subNodesRec] at h
          cases hc : subNodesRec fuel pool c (getN pool c).childs with
          | none =>
              rw [hc] at h
              exact Option.noConfusion h
          | some pool1 =>
              rw [hc] at h
              obtain ⟨a1, l1⟩ := ih pool c (getN pool c).childs pool1 hc
              obtain ⟨a2, l2⟩ := ih _ t rest pool2 h
              refine ⟨fun i => ((a2 i).trans (modN_oproj _ _ _ (by intro n; rfl) i)).trans (a1 i), ?_⟩
              rw [l2, length_modN, l1]

theorem contrastRec_frame :
    ∀ (fuel : Nat) (pool : List Node) (t : Nat) (cs : List Nat) (cmax : Int)
      (pool2 : List Node),
    contrastRec fuel pool t cs cmax = some pool2 →
    (∀ i, oproj (getN pool2 i) = oproj (getN pool i)) ∧ pool2.length = pool.length := by
  intro fuel
  induction fuel with
  | zero =>
      intro pool t cs cmax pool2 h
      exact Option.noConfusion (h : (none : Option (List Node)) = some pool2)
  | succ fuel ih =>
      intro pool t cs cmax pool2 h
      cases cs with
      | nil =>
          simp only [contrastRec] at h
          injection h with h2
          subst h2
          exact ⟨modN_oproj _ _ _ (fun n => rfl), length_modN _ _ _⟩
      | cons c rest =>
          simp only [contrastRec] at h
          cases hc : contrastRec fuel pool c (getN pool c).childs 0 with
          | none =>
              rw [hc] at h
              exact Option.noConfusion h
          | some pool1 =>
              rw [hc] at h
              obtain ⟨a1, l1⟩ := ih pool c (getN pool c).childs 0 pool1 hc
              obtain ⟨a2, l2⟩ := ih pool1 t rest _ pool2 h
              exact ⟨fun i => (a2 i).trans (a1 i), l2.trans l1⟩

theorem volumeInit_oproj (pool : List Node) (t : Nat) :
    ∀ i, oproj (getN (volumeInit pool t) i) = oproj (getN pool i) :=
  modN_oproj pool t _ (fun n => rfl)

theorem volumeInit_len (pool : List Node) (t : Nat) :
    (volumeInit pool t).length = pool.length :=
  length_modN _ _ _

theorem volumeRec_frame :
    ∀ (fuel : Nat) (pool : List Node) (t : Nat) (cs : List Nat) (pool2 : List Node),
    volumeRec fuel pool t cs = some pool2 →
    (∀ i, oproj (getN pool2 i) = oproj (getN pool i)) ∧ pool2.length = pool.length := by
  intro fuel
  induction fuel with
  | zero =>
      intro pool t cs pool2 h
      exact Option.noConfusion (h : (none : Option (List Node)) = some pool2)
  | succ fuel ih =>
      intro pool t cs pool2 h
      cases cs with
      | nil =>
          simp only [volumeRec] at h
          injection h with h2
          subst h2
          exact ⟨fun i => rfl, rfl⟩
      | cons c rest =>
          simp only [volumeRec] at h
          cases hc : volumeRec fuel (volumeInit pool c) c (getN pool c).childs with
          | none =>
              rw [hc] at h
              exact Option.noConfusion h
          | some pool1 =>
              rw [hc] at h
              obtain ⟨a1, l1⟩ := ih (volumeInit pool c) c (getN pool c).childs pool1 hc
              obtain ⟨a2, l2⟩ := ih _ t rest pool2 h
              refine ⟨fun i => ((a2 i).trans (modN_oproj _ _ _ (by intro n; rfl) i)).trans
                ((a1 i).trans (volumeInit_oproj pool c i)), ?_⟩
              rw [l2, length_modN, l1, volumeInit_len]

theorem mserRec_frame :
    ∀ (fuel : Nat) (pool : List Node) (delta : Int) (t : Nat) (cs : List Nat)
      (pool2 : List Node),
    mserRec fuel pool delta t cs = some pool2 →
    (∀ i, oproj (getN pool2 i) = oproj (getN pool i)) ∧ pool2.length = pool.length := by
  intro fuel
  induction fuel with
  | zero =>
      intro pool delta t cs pool2 h
      exact Option.noConfusion (h : (none : Option (List Node)) = some pool2)
  | succ fuel ih =>
      intro pool delta t cs pool2 h
      cases cs with
      | nil =>
          simp only [mserRec] at h
          split at h
          · exact Option.noConfusion h
          · split at h
            · injection h with h2
              subst h2
              refine ⟨fun i => ((modN_oproj _ _ _ (by intro n; rfl) i).trans
                (modN_oproj _ _ _ (by intro n; rfl) i)), ?_⟩
              rw [length_modN, length_modN]
            · injection h with h2
              subst h2
              exact ⟨modN_oproj _ _ _ (fun n => rfl), length_modN _ _ _⟩
      | cons c rest =>
          simp only [mserRec] at h
          cases hc : mserRec fuel pool delta c (getN pool c).childs with
          | none =>
              rw [hc] at h
              exact Option.noConfusion h
          | some pool1 =>
              rw [hc] at h
              obtain ⟨a1, l1⟩ := ih pool delta c (getN pool c).childs pool1 hc
              obtain ⟨a2, l2⟩ := ih pool1 delta t rest pool2 h
              exact ⟨fun i => (a2 i).trans (a1 i), l2.trans l1⟩

theorem contourWalkMin_frame :
    ∀ (fuel : Nat) (pool : List Node) (cur : Nat) (minv : Int) (save : Bool)
      (imOff : Int) (pool2 : List Node),
    contourWalkMin fuel pool cur minv save imOff = some pool2 →
    (∀ i, oproj (getN pool2 i) = oproj (getN pool i)) ∧ pool2.length = pool.length := by
  intro fuel
  induction fuel with
  | zero =>
      intro pool cur minv save imOff pool2 h
      exact Option.noConfusion (h : (none : Option (List Node)) = some pool2)
  | succ fuel ih =>
      intro pool cur minv save imOff pool2 h
      simp only [contourWalkMin] at h
      split at h
      · split at h
        · rename_i f hfa
          obtain ⟨a1, l1⟩ := ih _ f minv save imOff pool2 h
          refine ⟨fun i => (a1 i).trans (modN_oproj _ _ _ (by intro n; rfl) i), ?_⟩
          rw [l1, length_modN]
        · injection h with h2
          subst h2
          exact ⟨modN_oproj _ _ _ (fun n => rfl), length_modN _ _ _⟩
      · injection h with h2
        subst h2
        exact ⟨fun i => rfl, rfl⟩

theorem contourWalkBorder_frame :
    ∀ (fuel : Nat) (pool : List Node) (cur : Nat) (save : Bool) (imOff : Int)
      (pool2 : List Node),
    contourWalkBorder fuel pool cur save imOff = some pool2 →
    (∀ i, oproj (getN pool2 i) = oproj (getN pool i)) ∧ pool2.length = pool.length := by
  intro fuel
  induction fuel with
  | zero =>
      intro pool cur save imOff pool2 h
      exact Option.noConfusion (h : (none : Option (List Node)) = some pool2)
  | succ fuel ih =>
      intro pool cur save imOff pool2 h
      simp only [contourWalkBorder] at h
      split at h
      · rename_i f hfa
        split at h
        · injection h with h2
          subst h2
          exact ⟨modN_oproj _ _ _ (fun n => rfl), length_modN _ _ _⟩
        · obtain ⟨a1, l1⟩ := ih _ f save imOff pool2 h
          refine ⟨fun i => (a1 i).trans (modN_oproj _ _ _ (by intro n; rfl) i), ?_⟩
          rw [l1, length_modN]
      · injection h with h2
        subst h2
        exact ⟨modN_oproj _ _ _ (fun n => rfl), length_modN _ _ _⟩

theorem contourPixel_frame (fuel : Nat) (st : BState) (save : Bool)
    (pool : List Node) (o : Nat) (pool2 : List Node)
    (h : contourPixel fuel st save pool o = some pool2) :
    (∀ i, oproj (getN pool2 i) = oproj (getN pool i)) ∧ pool2.length = pool.length := by
  simp only [contourPixel] at h
  split at h
  · injection h with h2
    subst h2
    exact ⟨fun i => rfl, rfl⟩
  · split at h
    · injection h with h2
      subst h2
      exact ⟨fun i => rfl, rfl⟩
    · split at h
      · injection h with h2
        subst h2
        exact ⟨fun i => rfl, rfl⟩
      · rename_i nid hidx
        split at h
        · exact contourWalkBorder_frame fuel pool nid save _ pool2 h
        · split at h
          · rename_i minv hmv
            exact contourWalkMin_frame fuel pool nid minv save _ pool2 h
          · injection h with h2
            subst h2
            exact ⟨fun i => rfl, rfl⟩

theorem contourScan_frame :
    ∀ (os : List Nat) (fuel : Nat) (st : BState) (save : Bool)
      (pool pool2 : List Node),
    contourScan fuel st save pool os = some pool2 →
    (∀ i, oproj (getN pool2 i) = oproj (getN pool i)) ∧ pool2.length = pool.length := by
  intro os
  induction os with
  | nil =>
      intro fuel st save pool pool2 h
      injection (h : some pool = some pool2) with h2
      subst h2
      exact ⟨fun i => rfl, rfl⟩
  | cons o rest ih =>
      intro fuel st save pool pool2 h
      simp only [contourScan] at h
      cases hc : contourPixel fuel st save pool o with
      | none =>
          rw [hc] at h
          exact Option.noConfusion h
      | some pool1 =>
          rw [hc] at h
          obtain ⟨a1, l1⟩ := contourPixel_frame fuel st save pool o pool1 hc
          obtain ⟨a2, l2⟩ := ih fuel st save pool1 pool2 h
          exact ⟨fun i => (a2 i).trans (a1 i), l2.trans l1⟩

theorem computeContourPass_frame (fuel : Nat) (st : BState) (save : Bool)
    (stC : BState) (h : computeContourPass fuel st save = some stC) :
    (∀ i, oproj (getN stC.pool i) = oproj (getN st.pool i)) ∧
    stC.pool.length = st.pool.length := by
  simp only [computeContourPass] at h
  cases hsc : contourScan fuel st save st.pool (List.range st.imBorder.data.length) with
  | none =>
      rw [hsc] at h
      exact Option.noConfusion h
  | some pool =>
      rw [hsc] at h
      have h2 : some ({ st with pool := pool } : BState) = some stC := h
      obtain rfl : ({ st with pool := pool } : BState) = stC := Option.some.inj h2
      exact contourScan_frame _ fuel st save st.pool pool hsc

theorem ccLoop_frame :
    ∀ (fuel : Nat) (pool : List Node) (q : List Nat) (pool2 : List Node),
    ccLoop fuel pool q = some pool2 →
    (∀ i, oproj (getN pool2 i) = oproj (getN pool i)) ∧ pool2.length = pool.length := by
  intro fuel
  induction fuel with
  | zero =>
      intro pool q pool2 h
      cases q with
      | nil =>
          injection (h : some pool = some pool2) with h2
          subst h2
          exact ⟨fun i => rfl, rfl⟩
      | cons t rest =>
          exact Option.noConfusion (h : (none : Option (List Node)) = some pool2)
  | succ fuel ih =>
      intro pool q pool2 h
      cases q with
      | nil =>
          injection (h : some pool = some pool2) with h2
          subst h2
          exact ⟨fun i => rfl, rfl⟩
      | cons t rest =>
          simp only [ccLoop] at h
          obtain ⟨a1, l1⟩ := ih _ _ pool2 h
          refine ⟨fun i => (a1 i).trans (modN_oproj _ _ _ ?_ i), ?_⟩
          · intro n
            show oproj _ = oproj n
            split
            · split
              · rfl
              · rfl
            · split
              · rfl
              · rfl
          · rw [l1, length_modN]

theorem bboxStep_frame (pool : List Node) (t : Nat) :
    (∀ i, oproj (getN (bboxStep pool t) i) = oproj (getN pool i)) ∧
    (bboxStep pool t).length = pool.length := by
  cases hf : (getN pool t).father with
  | none =>
      have hb : bboxStep pool t = pool := by
        simp only [bboxStep, hf]
      rw [hb]
      exact ⟨fun i => rfl, rfl⟩
  | some f =>
      by_cases hft : f = t
      · have hb : bboxStep pool t = pool := by
          simp only [bboxStep, hf]
          rw [if_pos hft]
        rw [hb]
        exact ⟨fun i => rfl, rfl⟩
      · have hb : bboxStep pool t = modN pool f (fun fa =>
            { fa with xmin := min fa.xmin (getN pool t).xmin,
                      xmax := max fa.xmax (getN pool t).xmax,
                      ymin := min fa.ymin (getN pool t).ymin,
                      ymax := max fa.ymax (getN pool t).ymax,
                      zmin := min fa.zmin (getN pool t).zmin,
                      zmax := max fa.zmax (getN pool t).zmax }) := by
          simp only [bboxStep, hf]
          rw [if_neg hft]
        rw [hb]
        exact ⟨modN_oproj _ _ _ (fun n => rfl), length_modN _ _ _⟩

theorem bboxFold_frame :
    ∀ (order : List Nat) (pool : List Node),
    (∀ i, oproj (getN (bboxFold pool order) i) = oproj (getN pool i)) ∧
    (bboxFold pool order).length = pool.length := by
  intro order
  induction order with
  | nil =>
      intro pool
      exact ⟨fun i => rfl, rfl⟩
  | cons t rest ih =>
      intro pool
      have hb : bboxFold pool (t :: rest) = bboxFold (bboxStep pool t) rest := rfl
      rw [hb]
      obtain ⟨s1, s2⟩ := bboxStep_frame pool t
      obtain ⟨a1, l1⟩ := ih (bboxStep pool t)
      exact ⟨fun i => (a1 i).trans (s1 i), l1.trans s2⟩

theorem computeBoundingBoxTop_frame (fuel : Nat) (pool : List Node) (t : Nat)
    (pool2 : List Node) (h : computeBoundingBoxTop fuel pool t = some pool2) :
    (∀ i, oproj (getN pool2 i) = oproj (getN pool i)) ∧ pool2.length = pool.length := by
  simp only [computeBoundingBoxTop] at h
  cases hb : bfsOrder fuel pool [t] [] with
  | none =>
      rw [hb] at h
      exact Option.noConfusion h
  | some order =>
      rw [hb] at h
      injection h with h2
      subst h2
      exact bboxFold_frame order.reverse pool

theorem inSub_agree (pool1 pool2 : List Node)
    (hag : ∀ j, (getN pool1 j).childs = (getN pool2 j).childs) :
    ∀ (fw t i : Nat), inSub fw pool1 t i = inSub fw pool2 t i := by
  intro fw
  induction fw with
  | zero => intro t i; rfl
  | succ fw ih =>
      intro t i
      show (i == t || (getN pool1 t).childs.any (fun c => inSub fw pool1 c i)) =
        (i == t || (getN pool2 t).childs.any (fun c => inSub fw pool2 c i))
      rw [hag t]
      have hany : ∀ (cl : List Nat),
          cl.any (fun c => inSub fw pool1 c i) = cl.any (fun c => inSub fw pool2 c i) := by
        intro cl
        induction cl with
        | nil => rfl
        | cons a tl ihc =>
            show (inSub fw pool1 a i || tl.any (fun c => inSub fw pool1 c i)) = _
            rw [ih a i, ihc]
            rfl
      rw [hany]

/-- The `computeOtsu` pass: it only writes `otsu` fields, any value it
writes is the otsu formula of that node's (unchanged) statistics, and it
writes every node of the processed subtrees plus the call's own node. -/
theorem otsuRec_writes :
    ∀ (fuel : Nat) (pool : List Node) (t : Nat) (cs : List Nat) (pool2 : List Node),
    otsuRec fuel pool t cs = some pool2 →
    (∀ j c, c ∈ (getN pool j).childs → c < pool.length) →
    t < pool.length →
    (∀ c, c ∈ cs → c < pool.length) →
    (∀ i, eraseOtsu (getN pool2 i) = eraseOtsu (getN pool i)) ∧
    pool2.length = pool.length ∧
    (∀ i, (getN pool2 i).otsu = (getN pool i).otsu ∨
      (getN pool2 i).otsu = otsuVal (getN pool i)) ∧
    (∀ i, (i = t ∨ ∃ fw c, c ∈ cs ∧ inSub fw pool c i = true) →
      (getN pool2 i).otsu = otsuVal (getN pool i)) := by
  intro fuel
  induction fuel with
  | zero =>
      intro pool t cs pool2 h _ _ _
      exact Option.noConfusion (h : (none : Option (List Node)) = some pool2)
  | succ fuel ih =>
      intro pool t cs pool2 h hb ht hcs
      cases cs with
      | nil =>
          simp only [otsuRec] at h
          injection h with h2
          subst h2
          refine ⟨modN_eraseOtsu _ _ _ (fun n => rfl), length_modN _ _ _, ?_, ?_⟩
          · intro i
            by_cases hic : i = t
            · rw [hic, getN_modN_self _ _ _ ht]
              right
              rfl
            · rw [getN_modN_ne _ _ _ _ hic]
              left
              rfl
          · intro i hcov
            rcases hcov with he | ⟨fw, c, hc, _⟩
            · rw [he, getN_modN_self _ _ _ ht]
              rfl
            · exact absurd hc (List.not_mem_nil c)
      | cons c rest =>
          simp only [otsuRec] at h
          cases hc : otsuRec fuel pool c (getN pool c).childs with
          | none =>
              rw [hc] at h
              exact Option.noConfusion h
          | some pool1 =>
              rw [hc] at h
              have hcl : c < pool.length := hcs c (List.mem_cons_self _ _)
              obtain ⟨A1, L1, D1, W1⟩ := ih pool c (getN pool c).childs pool1 hc hb hcl
                (fun c2 hc2 => hb c c2 hc2)
              have hag1 : ∀ j, (getN pool1 j).childs = (getN pool j).childs :=
                fun j => eraseOtsu_childs (A1 j)
              have hb1 : ∀ j c2, c2 ∈ (getN pool1 j).childs → c2 < pool1.length := by
                intro j c2 hm
                rw [L1]
                exact hb j c2 (by rw [← hag1 j]; exact hm)
              have ht1 : t < pool1.length := by
                rw [L1]
                exact ht
              have hcs1 : ∀ c2, c2 ∈ rest → c2 < pool1.length := by
                intro c2 hm
                rw [L1]
                exact hcs c2 (List.mem_cons_of_mem _ hm)
              obtain ⟨A2, L2, D2, W2⟩ := ih pool1 t rest pool2 h hb1 ht1 hcs1
              refine ⟨fun i => (A2 i).trans (A1 i), L2.trans L1, ?_, ?_⟩
              · intro i
                rcases D2 i with h21 | h22
                · rw [h21]
                  exact D1 i
                · rw [h22]
                  right
                  exact otsuVal_eraseOtsu (A1 i)
              · intro i hcov
                rcases hcov with he | ⟨fw, c2, hc2, hins⟩
                · have hv := W2 i (Or.inl he)
                  rw [hv]
                  exact otsuVal_eraseOtsu (A1 i)
                · rcases List.mem_cons.mp hc2 with he2 | hm2
                  · have hval1 : (getN pool1 i).otsu = otsuVal (getN pool i) := by
                      rw [he2] at hins
                      cases fw with
                      | zero => exact Bool.noConfusion (hins : false = true)
                      | succ fw =>
                          have hins2 : (i == c || (getN pool c).childs.any
                              (fun c3 => inSub fw pool c3 i)) = true := hins
                          rcases Bool.or_eq_true_iff.mp hins2 with hA | hB
                          · have hie : i = c := by
                              simpa using hA
                            exact W1 i (Or.inl hie)
                          · rcases List.any_eq_true.mp hB with ⟨c3, hc3, hins3⟩
                            exact W1 i (Or.inr ⟨fw, c3, hc3, hins3⟩)
                    rcases D2 i with h21 | h22
                    · rw [h21, hval1]
                    · rw [h22]
                      exact otsuVal_eraseOtsu (A1 i)
                  · have hins1 : inSub fw pool1 c2 i = true := by
                      rw [inSub_agree pool1 pool hag1 fw c2 i]
                      exact hins
                    have hv := W2 i (Or.inr ⟨fw, c2, hm2, hins1⟩)
                    rw [hv]
                    exact otsuVal_eraseOtsu (A1 i)

theorem otsuRec_frame :
    ∀ (fuel : Nat) (pool : List Node) (t : Nat) (cs : List Nat) (pool2 : List Node),
    otsuRec fuel pool t cs = some pool2 →
    (∀ i, eraseOtsu (getN pool2 i) = eraseOtsu (getN pool i)) ∧
    pool2.length = pool.length := by
  intro fuel
  induction fuel with
  | zero =>
      intro pool t cs pool2 h
      exact Option.noConfusion (h : (none : Option (List Node)) = some pool2)
  | succ fuel ih =>
      intro pool t cs pool2 h
      cases cs with
      | nil =>
          simp only [otsuRec] at h
          injection h with h2
          subst h2
          exact ⟨modN_eraseOtsu _ _ _ (fun n => rfl), length_modN _ _ _⟩
      | cons c rest =>
          simp only [otsuRec] at h
          cases hc : otsuRec fuel pool c (getN pool c).childs with
          | none =>
              rw [hc] at h
              exact Option.noConfusion h
          | some pool1 =>
              rw [hc] at h
              obtain ⟨a1, l1⟩ := ih pool c (getN pool c).childs pool1 hc
              obtain ⟨a2, l2⟩ := ih pool1 t rest pool2 h
              exact ⟨fun i => (a2 i).trans (a1 i), l2.trans l1⟩

theorem obind_eq_some (a : Option BState) (f : BState → Option BState) (r : BState)
    (h : obind a f = some r) : ∃ s, a = some s ∧ f s = some r := by
  cases a with
  | none => exact Option.noConfusion (h : (none : Option BState) = some r)
  | some s => exact ⟨s, rfl, h⟩

theorem onPool_eq_some (st : BState) (r : Option (List Node)) (s : BState)
    (h : onPool st r = some s) :
    ∃ pool, r = some pool ∧ s = { st with pool := pool } := by
  cases r with
  | none => exact Option.noConfusion (h : (none : Option BState) = some s)
  | some pool =>
      refine ⟨pool, rfl, ?_⟩
      have h2 : some ({ st with pool := pool } : BState) = some s := h
      exact (Option.some.inj h2).symm

/-- An optional attribute stage `if cnd then alt else some s1` only
changes the otsu-relevant fields if its `alt` branch does. -/
theorem stage_frame (cnd : Prop) [Decidable cnd] (alt : Option BState) (s1 s2 : BState)
    (halt : cnd → alt = some s2 →
      (∀ i, oproj (getN s2.pool i) = oproj (getN s1.pool i)) ∧
      s2.pool.length = s1.pool.length)
    (h : (if cnd then alt else some s1) = some s2) :
    (∀ i, oproj (getN s2.pool i) = oproj (getN s1.pool i)) ∧
    s2.pool.length = s1.pool.length := by
  by_cases hc : cnd
  · rw [if_pos hc] at h
    exact halt hc h
  · rw [if_neg hc] at h
    obtain rfl : s1 = s2 := Option.some.inj h
    exact ⟨fun i => rfl, rfl⟩

theorem adChain_frame (fuel : Nat) (root : Nat) (delta : Int) (s1 s2 : BState)
    (h : obind (onPool s1 (computeAreaDerivativeTop fuel s1.pool root)) (fun st =>
         obind (onPool st (computeAreaDerivative2Top fuel st.pool root)) (fun st =>
         onPool st (computeMSERTop fuel st.pool delta root))) = some s2) :
    (∀ i, oproj (getN s2.pool i) = oproj (getN s1.pool i)) ∧
    s2.pool.length = s1.pool.length := by
  obtain ⟨sa, hsa, h⟩ := obind_eq_some _ _ _ h
  obtain ⟨pD, hpD, rfl⟩ := onPool_eq_some _ _ _ hsa
  obtain ⟨sb, hsb, h⟩ := obind_eq_some _ _ _ h
  obtain ⟨pD2, hpD2, rfl⟩ := onPool_eq_some _ _ _ hsb
  obtain ⟨pM2, hpM2, rfl⟩ := onPool_eq_some _ _ _ h
  obtain ⟨f1, l1⟩ := areaDerivRec_frame fuel s1.pool root (getN s1.pool root).childs pD hpD
  obtain ⟨f2, l2⟩ := areaDeriv2Rec_frame fuel pD root (getN pD root).childs pD2 hpD2
  obtain ⟨f3, l3⟩ := mserRec_frame fuel pD2 delta root (getN pD2 root).childs pM2 hpM2
  exact ⟨fun i => ((f3 i).trans (f2 i)).trans (f1 i), (l3.trans l2).trans l1⟩

theorem bgChain_frame (fuel : Nat) (root : Nat) (s1 s2 : BState)
    (h : obind (computeContourPass fuel s1 true) (fun st =>
         onPool st (computeBorderGradientTop fuel st.imGradient st.pool root)) = some s2) :
    (∀ i, oproj (getN s2.pool i) = oproj (getN s1.pool i)) ∧
    s2.pool.length = s1.pool.length := by
  obtain ⟨sc, hsc, h⟩ := obind_eq_some _ _ _ h
  obtain ⟨f1, l1⟩ := computeContourPass_frame fuel s1 true sc hsc
  obtain ⟨pB, hpB, rfl⟩ := onPool_eq_some _ _ _ h
  obtain ⟨f2, l2⟩ := borderGradRec_frame sc.imGradient fuel sc.pool root
    (getN sc.pool root).childs pB hpB
  exact ⟨fun i => (f2 i).trans (f1 i), l2.trans l1⟩

theorem ccPart_frame (fuel : Nat) (root : Nat) (s1 s2 : BState) (bg : Prop)
    [Decidable bg]
    (h : (if bg then onPool s1 (ccLoop fuel s1.pool [root])
          else obind (computeContourPass fuel s1 false) (fun st =>
            onPool st (ccLoop fuel st.pool [root]))) = some s2) :
    (∀ i, oproj (getN s2.pool i) = oproj (getN s1.pool i)) ∧
    s2.pool.length = s1.pool.length := by
  by_cases hb : bg
  · rw [if_pos hb] at h
    obtain ⟨pC, hpC, rfl⟩ := onPool_eq_some _ _ _ h
    exact ccLoop_frame fuel s1.pool [root] pC hpC
  · rw [if_neg hb] at h
    obtain ⟨sc, hsc, h⟩ := obind_eq_some _ _ _ h
    obtain ⟨f1, l1⟩ := computeContourPass_frame fuel s1 false sc hsc
    obtain ⟨pC, hpC, rfl⟩ := onPool_eq_some _ _ _ h
    obtain ⟨f2, l2⟩ := ccLoop_frame fuel sc.pool [root] pC hpC
    exact ⟨fun i => (f2 i).trans (f1 i), l2.trans l1⟩

/-- **C7.** For every attribute mask `ca` containing the `OTSU` flag,
the `ComponentTree(img, connexity, ca, delta)` constructor runs the
neighborhood-ring statistics pass at radius `delta` on the freshly
built tree and then the attribute bundle; inside the bundle the
(`OTSU`-implied) `AREA` branch computes, for the root and every node
reachable from it through child links,
`otsu = (mean − mean_nghb)² / (variance + variance_nghb)`. -/
theorem otsu_mask_computes_ring_and_otsu (fuel : Nat) (img : Img) (conn : FlatSE)
    (ca : Nat) (delta : Int) (root : Nat) (st0 stF : BState)
    (hca : ca &&& CA_OTSU = CA_OTSU)
    (hbuild : computeTree fuel img conn = some (root, st0))
    (hrun : componentTree4 fuel img conn ca delta = some (root, stF))
    (hroot : root < stF.pool.length)
    (hcb : ∀ j, j < stF.pool.length → ∀ c, c ∈ (getN stF.pool j).childs →
      c < stF.pool.length) :
    (∃ st1, computeNeighborhoodAttributes fuel st0 root delta = some st1 ∧
       computeAttributes3 fuel st1 root ca delta = some stF) ∧
    (∀ fw i, inSub fw stF.pool root i = true →
       (getN stF.pool i).otsu = otsuVal (getN stF.pool i)) := by
  have hO0 : ca &&& CA_OTSU ≠ 0 := by
    rw [hca]
    decide
  have hA0 : ca &&& CA_AREA ≠ 0 := by
    have h2 : (ca &&& 257) &&& 1 = ca &&& (257 &&& 1) := Nat.and_assoc ca 257 1
    have h257 : ca &&& 257 = 257 := hca
    have h5 : (257 : Nat) &&& 1 = 1 := by decide
    have h4 : ca &&& (257 &&& 1) = 257 &&& 1 := by rw [← h2, h257]
    rw [h5] at h4
    show ca &&& 1 ≠ 0
    rw [h4]
    decide
  simp only [componentTree4] at hrun
  split at hrun
  · exact Option.noConfusion hrun
  · rename_i r0 st0b heq0
    rw [hbuild] at heq0
    injection heq0 with heq0p
    have hr0 : root = r0 := congrArg Prod.fst heq0p
    have hs0 : st0 = st0b := congrArg Prod.snd heq0p
    subst hr0
    subst hs0
    rw [if_pos hO0] at hrun
    split at hrun
    · exact Option.noConfusion hrun
    · rename_i st1 heq1
      split at hrun
      · exact Option.noConfusion hrun
      · rename_i st2 heq2
        injection hrun with hrunp
        have hsF : st2 = stF := congrArg Prod.snd hrunp
        rw [hsF] at heq2
        refine ⟨⟨st1, heq1, heq2⟩, ?_⟩
        simp only [computeAttributes3] at heq2
        obtain ⟨sHead, hsHead, heqTail⟩ := obind_eq_some _ _ _ heq2
        rw [if_pos hA0] at hsHead
        obtain ⟨sA0, hsA0, hsHead2⟩ := obind_eq_some _ _ _ hsHead
        obtain ⟨pA, hpA, rfl⟩ := onPool_eq_some _ _ _ hsA0
        have hsHead3 : (if ca &&& CA_OTSU ≠ 0 then
            obind (onPool ({ st1 with pool := pA } : BState)
                (computeSumTop fuel pA root)) (fun st =>
            obind (onPool st (computeSumSquareTop fuel st.pool root)) (fun st =>
            obind (onPool st (computeMeanTop fuel st.pool root)) (fun st =>
            obind (onPool st (computeVarianceTop fuel st.pool root)) (fun st =>
            onPool st (computeOtsuTop fuel st.pool root)))))
          else some ({ st1 with pool := pA } : BState)) = some sHead := hsHead2
        rw [if_pos hO0] at hsHead3
        obtain ⟨sS0, hsS0, hsHead3⟩ := obind_eq_some _ _ _ hsHead3
        obtain ⟨pS, hpS, rfl⟩ := onPool_eq_some _ _ _ hsS0
        obtain ⟨sQ0, hsQ0, hsHead3⟩ := obind_eq_some _ _ _ hsHead3
        obtain ⟨pQ, hpQ, rfl⟩ := onPool_eq_some _ _ _ hsQ0
        obtain ⟨sM0, hsM0, hsHead3⟩ := obind_eq_some _ _ _ hsHead3
        obtain ⟨pM, hpM, rfl⟩ := onPool_eq_some _ _ _ hsM0
        obtain ⟨sV0, hsV0, hsHead3⟩ := obind_eq_some _ _ _ hsHead3
        obtain ⟨pV, hpV, rfl⟩ := onPool_eq_some _ _ _ hsV0
        obtain ⟨pO, hpO, rfl⟩ := onPool_eq_some _ _ _ hsHead3
        obtain ⟨s2, hs2, heqTail⟩ := obind_eq_some _ _ _ heqTail
        have hf2 : (∀ i, oproj (getN s2.pool i) = oproj (getN pO i)) ∧
            s2.pool.length = pO.length := by
          have hh := stage_frame _ _ _ _
            (fun _ h => adChain_frame fuel root delta _ s2 h) hs2
          exact hh
        obtain ⟨s3, hs3, heqTail⟩ := obind_eq_some _ _ _ heqTail
        have hf3 : (∀ i, oproj (getN s3.pool i) = oproj (getN s2.pool i)) ∧
            s3.pool.length = s2.pool.length :=
          stage_frame _ _ _ _ (fun _ h => by
            obtain ⟨pC, hpC, rfl⟩ := onPool_eq_some _ _ _ h
            exact contrastRec_frame fuel s2.pool root (getN s2.pool root).childs 0
              pC hpC) hs3
        obtain ⟨s4, hs4, heqTail⟩ := obind_eq_some _ _ _ heqTail
        have hf4 : (∀ i, oproj (getN s4.pool i) = oproj (getN s3.pool i)) ∧
            s4.pool.length = s3.pool.length :=
          stage_frame _ _ _ _ (fun _ h => by
            obtain ⟨pW, hpW, rfl⟩ := onPool_eq_some _ _ _ h
            obtain ⟨f1, l1⟩ := volumeRec_frame fuel (volumeInit s3.pool root) root
              (getN s3.pool root).childs pW hpW
            exact ⟨fun i => (f1 i).trans (volumeInit_oproj s3.pool root i),
              l1.trans (volumeInit_len s3.pool root)⟩) hs4
        obtain ⟨s5, hs5, heqTail⟩ := obind_eq_some _ _ _ heqTail
        have hf5 : (∀ i, oproj (getN s5.pool i) = oproj (getN s4.pool i)) ∧
            s5.pool.length = s4.pool.length :=
          stage_frame _ _ _ _ (fun _ h => bgChain_frame fuel root s4 s5 h) hs5
        obtain ⟨s6, hs6, heqTail⟩ := obind_eq_some _ _ _ heqTail
        have hf6 : (∀ i, oproj (getN s6.pool i) = oproj (getN s5.pool i)) ∧
            s6.pool.length = s5.pool.length :=
          stage_frame _ _ _ _ (fun _ h => ccPart_frame fuel root s5 s6 _ h) hs6
        obtain ⟨s7, hs7, heqTail⟩ := obind_eq_some _ _ _ heqTail
        have hf7 : (∀ i, oproj (getN s7.pool i) = oproj (getN s6.pool i)) ∧
            s7.pool.length = s6.pool.length :=
          stage_frame _ _ _ _ (fun _ h => by
            obtain ⟨pB2, hpB2, rfl⟩ := onPool_eq_some _ _ _ h
            exact computeBoundingBoxTop_frame fuel s6.pool root pB2 hpB2) hs7
        have hf8 : (∀ i, oproj (getN stF.pool i) = oproj (getN s7.pool i)) ∧
            stF.pool.length = s7.pool.length :=
          stage_frame _ _ _ _ (fun _ h => by
            obtain ⟨pN2, hpN2, rfl⟩ := onPool_eq_some _ _ _ h
            exact subNodesRec_frame fuel s7.pool root (getN s7.pool root).childs
              pN2 hpN2) heqTail
        have hfr : ∀ i, oproj (getN stF.pool i) = oproj (getN pO i) := by
          intro i
          exact ((((((hf8.1 i).trans (hf7.1 i)).trans (hf6.1 i)).trans
            (hf5.1 i)).trans (hf4.1 i)).trans (hf3.1 i)).trans (hf2.1 i)
        have hlenF : stF.pool.length = pO.length :=
          (((((hf8.2.trans hf7.2).trans hf6.2).trans hf5.2).trans hf4.2).trans
            hf3.2).trans hf2.2
        obtain ⟨AOf, LOf⟩ := otsuRec_frame fuel pV root (getN pV root).childs pO hpO
        have hagc : ∀ j, (getN stF.pool j).childs = (getN pV j).childs := fun j =>
          (oproj_childs (hfr j)).trans (eraseOtsu_childs (AOf j))
        have hbF : ∀ j c, c ∈ (getN stF.pool j).childs → c < stF.pool.length := by
          intro j c hm
          by_cases hj : j < stF.pool.length
          · exact hcb j hj c hm
          · rw [getN_oob stF.pool j (Nat.le_of_not_lt hj)] at hm
            exact absurd hm (List.not_mem_nil c)
        have hlenFV : stF.pool.length = pV.length := hlenF.trans LOf
        have hbV : ∀ j c, c ∈ (getN pV j).childs → c < pV.length := by
          intro j c hm
          have hm2 : c ∈ (getN stF.pool j).childs := by
            rw [hagc j]
            exact hm
          have hlt := hbF j c hm2
          rw [hlenFV] at hlt
          exact hlt
        have hrootV : root < pV.length := by
          rw [← hlenFV]
          exact hroot
        have hcsV : ∀ c, c ∈ (getN pV root).childs → c < pV.length := fun c hc =>
          hbV root c hc
        obtain ⟨AO, LO, DO, WO⟩ := otsuRec_writes fuel pV root (getN pV root).childs
          pO hpO hbV hrootV hcsV
        intro fw i hins
        rw [inSub_agree stF.pool pV hagc fw root i] at hins
        have hcov : i = root ∨ ∃ fw2 c, c ∈ (getN pV root).childs ∧
            inSub fw2 pV c i = true := by
          cases fw with
          | zero => exact Bool.noConfusion hins
          | succ fw =>
              have hins2 : (i == root || (getN pV root).childs.any
                  (fun c => inSub fw pV c i)) = true := hins
              rcases Bool.or_eq_true_iff.mp hins2 with h1 | h2
              · exact Or.inl (by simpa using h1)
              · obtain ⟨c, hcmem, hcin⟩ := List.any_eq_true.mp h2
                exact Or.inr ⟨fw, c, hcmem, hcin⟩
        calc (getN stF.pool i).otsu = (getN pO i).otsu := oproj_otsu (hfr i)
          _ = otsuVal (getN pV i) := WO i hcov
          _ = otsuVal (getN pO i) := (otsuVal_eraseOtsu (AO i)).symm
          _ = otsuVal (getN stF.pool i) := (otsuVal_oproj (hfr i)).symm

theorem otsu_mask_computes_ring_and_otsu_witness :
    CA_OTSU &&& CA_OTSU = CA_OTSU ∧
    computeTree 300 imgChain31 make2DN8 = some (rootOtsu, stOtsu0) ∧
    componentTree4 300 imgChain31 make2DN8 CA_OTSU 1 = some (rootOtsu, stOtsu) ∧
    rootOtsu < stOtsu.pool.length ∧
    inSub 3 stOtsu.pool rootOtsu 2 = true ∧
    (getN stOtsu.pool 2).otsu = otsuVal (getN stOtsu.pool 2) :=
  ⟨rfl, rfl, rfl, by decide, by decide,
   (otsu_mask_computes_ring_and_otsu 300 imgChain31 make2DN8 CA_OTSU 1 rootOtsu
      stOtsu0 stOtsu rfl rfl rfl (by decide) (by decide)).2 3 2 (by decide)⟩


/-! Supporting lemmas for claim C1: the pixel-tracking flooding
invariants (`PixBundle`) are preserved by every machine step, so the
builder only ever stores a pixel in the node of its own gray level. -/

theorem statusSet_hq (st : BState) (q v : Int) : (statusSet st q v).hq = st.hq := by
  unfold statusSet
  split <;> rfl

theorem statusSet_nn (st : BState) (q v : Int) :
    (statusSet st q v).number_nodes = st.number_nodes := by
  unfold statusSet
  split <;> rfl

theorem statusSet_oriImg (st : BState) (q v : Int) :
    (statusSet st q v).oriImg = st.oriImg := by
  unfold statusSet
  split <;> rfl

theorem statusSet_imBorder (st : BState) (q v : Int) :
    (statusSet st q v).imBorder = st.imBorder := by
  unfold statusSet
  split <;> rfl

theorem statusSet_back (st : BState) (q v : Int) :
    (statusSet st q v).back = st.back := by
  unfold statusSet
  split <;> rfl

theorem trOff_fields {st st2 : BState} (ho : st2.oriImg = st.oriImg)
    (hb : st2.imBorder = st.imBorder) (hbk : st2.back = st.back) (p : Int) :
    trOff st2 p = trOff st p := by
  unfold trOff
  rw [ho, hb, hbk]

theorem RealPix_fields {st st2 : BState} (ho : st2.oriImg = st.oriImg)
    (hb : st2.imBorder = st.imBorder) (hbk : st2.back = st.back) (p : Int)
    (h : RealPix st p) : RealPix st2 p := by
  unfold RealPix
  rw [trOff_fields ho hb hbk, ho, hb]
  exact h

theorem statusGet_statusSet_cases (st : BState) (q v p : Int) :
    statusGet (statusSet st q v) p = statusGet st p ∨
    statusGet (statusSet st q v) p = v := by
  unfold statusSet
  by_cases hq : 0 ≤ q
  · rw [if_pos hq]
    by_cases hp : 0 ≤ p
    · simp only [statusGet, hp, ite_true]
      by_cases hpq : p.toNat = q.toNat
      · by_cases hlt : q.toNat < st.status.length
        · rw [hpq, getD_set_self _ _ _ _ hlt]
          exact Or.inr rfl
        · rw [set_oob _ _ _ (Nat.le_of_not_lt hlt)]
          exact Or.inl rfl
      · rw [getD_set_ne _ _ _ _ _ hpq]
        exact Or.inl rfl
    · simp only [statusGet, hp, ite_false]
      exact Or.inl trivial
  · rw [if_neg hq]
    exact Or.inl rfl

theorem statusSet_bundle (st : BState) (q v : Int) (hv : v ≠ ACTIVE)
    (hB : PixBundle st) : PixBundle (statusSet st q v) := by
  obtain ⟨h1, h2, h3, h4, h5⟩ := hB
  refine ⟨?_, ?_, ?_, ?_, ?_⟩
  · intro p hact
    rcases statusGet_statusSet_cases st q v p with hc | hc
    · rw [hc] at hact
      obtain ⟨hr, hlo⟩ := h1 p hact
      refine ⟨RealPix_fields (statusSet_oriImg st q v) (statusSet_imBorder st q v)
        (statusSet_back st q v) p hr, ?_⟩
      rw [statusSet_hMin, statusSet_imBorder]
      exact hlo
    · rw [hc] at hact
      exact absurd hact hv
  · intro l p hp2
    have hp3 : p ∈ hqGet st l := by
      have hp4 : p ∈ (statusSet st q v).hq.getD l [] := hp2
      rw [statusSet_hq] at hp4
      exact hp4
    obtain ⟨hr, hval⟩ := h2 l p hp3
    refine ⟨RealPix_fields (statusSet_oriImg st q v) (statusSet_imBorder st q v)
      (statusSet_back st q v) p hr, ?_⟩
    rw [statusSet_imBorder, statusSet_hMin]
    exact hval
  · intro i o hmem
    have hmem2 : o ∈ (getN st.pool i).pixels := by
      rw [← statusSet_pool st q v]
      exact hmem
    obtain ⟨ha, hb2, hc⟩ := h3 i o hmem2
    rw [statusSet_pool, statusSet_oriImg]
    exact ⟨ha, hb2, hc⟩
  · intro i
    rw [statusSet_pool]
    exact h4 i
  · intro l
    show 0 ≤ (statusSet st q v).number_nodes.getD l 0
    rw [statusSet_nn]
    exact h5 l

theorem hqPush_bundle (st : BState) (l : Nat) (q : Int)
    (hrp : RealPix st q) (hval : st.imBorder.get q = st.hMin + l)
    (hB : PixBundle st) : PixBundle (hqPush st l q) := by
  obtain ⟨h1, h2, h3, h4, h5⟩ := hB
  refine ⟨h1, ?_, h3, h4, h5⟩
  intro l2 p hp2
  have hp3 : p ∈ (st.hq.set l (hqGet st l ++ [q])).getD l2 [] := hp2
  by_cases hl : l2 = l
  · subst hl
    by_cases hlen : l2 < st.hq.length
    · rw [getD_set_self _ _ _ _ hlen] at hp3
      rcases List.mem_append.mp hp3 with hin | hin
      · exact h2 l2 p hin
      · obtain rfl : p = q := List.mem_singleton.mp hin
        exact ⟨hrp, hval⟩
    · rw [set_oob _ _ _ (Nat.le_of_not_lt hlen)] at hp3
      exact h2 l2 p hp3
  · rw [getD_set_ne _ _ _ _ _ hl] at hp3
    exact h2 l2 p hp3

theorem hqSet_bundle (st : BState) (l : Nat) (v : List Int)
    (hsub : ∀ x ∈ v, x ∈ hqGet st l) (hB : PixBundle st) : PixBundle (hqSet st l v) := by
  obtain ⟨h1, h2, h3, h4, h5⟩ := hB
  refine ⟨h1, ?_, h3, h4, h5⟩
  intro l2 p hp2
  have hp3 : p ∈ (st.hq.set l v).getD l2 [] := hp2
  by_cases hl : l2 = l
  · subst hl
    by_cases hlen : l2 < st.hq.length
    · rw [getD_set_self _ _ _ _ hlen] at hp3
      exact h2 l2 p (hsub p hp3)
    · rw [set_oob _ _ _ (Nat.le_of_not_lt hlen)] at hp3
      exact h2 l2 p hp3
  · rw [getD_set_ne _ _ _ _ _ hl] at hp3
    exact h2 l2 p hp3

theorem nnSet_bundle (st : BState) (l : Nat) (v : Int) (hv : 0 ≤ v)
    (hB : PixBundle st) : PixBundle (nnSet st l v) := by
  obtain ⟨h1, h2, h3, h4, h5⟩ := hB
  refine ⟨h1, h2, h3, h4, ?_⟩
  intro l2
  show 0 ≤ (st.number_nodes.set l v).getD l2 0
  by_cases hl : l2 = l
  · subst hl
    by_cases hlen : l2 < st.number_nodes.length
    · rw [getD_set_self _ _ _ _ hlen]
      exact hv
    · rw [set_oob _ _ _ (Nat.le_of_not_lt hlen)]
      exact h5 l2
  · rw [getD_set_ne _ _ _ _ _ hl]
    exact h5 l2

theorem modN_pha (pool : List Node) (nid : Nat) (f : Node → Node)
    (hpix : ∀ n, (f n).pixels = n.pixels) (hh : ∀ n, (f n).h = n.h)
    (hact : ∀ n, (f n).active = n.active) :
    ∀ i, (getN (modN pool nid f) i).pixels = (getN pool i).pixels ∧
      (getN (modN pool nid f) i).h = (getN pool i).h ∧
      (getN (modN pool nid f) i).active = (getN pool i).active := by
  intro i
  by_cases hic : i = nid
  · subst hic
    by_cases hlt : i < pool.length
    · rw [getN_modN_self _ _ _ hlt]
      exact ⟨hpix _, hh _, hact _⟩
    · rw [modN_oob _ _ _ (Nat.le_of_not_lt hlt)]
      exact ⟨rfl, rfl, rfl⟩
  · rw [getN_modN_ne _ _ _ _ hic]
    exact ⟨rfl, rfl, rfl⟩

theorem modPool_bundle (st : BState) (nid : Nat) (f : Node → Node)
    (hpix : ∀ n, (f n).pixels = n.pixels) (hh : ∀ n, (f n).h = n.h)
    (hact : ∀ n, (f n).active = n.active) (hB : PixBundle st) :
    PixBundle (modPool st nid f) := by
  obtain ⟨h1, h2, h3, h4, h5⟩ := hB
  refine ⟨h1, h2, ?_, ?_, h5⟩
  · intro i o hmem
    obtain ⟨hpx, hhx, _⟩ := modN_pha st.pool nid f hpix hh hact i
    have hmem2 : o ∈ (getN (modN st.pool nid f) i).pixels := hmem
    rw [hpx] at hmem2
    obtain ⟨ha, hb2, hc⟩ := h3 i o hmem2
    refine ⟨ha, hb2, ?_⟩
    show st.oriImg.data.getD o.toNat 0 = (getN (modN st.pool nid f) i).h
    rw [hhx]
    exact hc
  · intro i
    obtain ⟨_, _, hax⟩ := modN_pha st.pool nid f hpix hh hact i
    show (getN (modN st.pool nid f) i).active = true
    rw [hax]
    exact h4 i

theorem newNode_bundle (st : BState) (hh0 : Int) (n0 : Int) (hB : PixBundle st) :
    PixBundle (newNode st hh0 n0).2 := by
  obtain ⟨h1, h2, h3, h4, h5⟩ := hB
  refine ⟨h1, h2, ?_, ?_, h5⟩
  · intro i o hmem
    have hmem2 : o ∈ (getN (st.pool ++ [mkNode hh0 n0]) i).pixels := hmem
    by_cases hlt : i < st.pool.length
    · rw [getN_append_lt _ _ _ hlt] at hmem2
      obtain ⟨ha, hb2, hc⟩ := h3 i o hmem2
      refine ⟨ha, hb2, ?_⟩
      show st.oriImg.data.getD o.toNat 0 = (getN (st.pool ++ [mkNode hh0 n0]) i).h
      rw [getN_append_lt _ _ _ hlt]
      exact hc
    · by_cases hie : i = st.pool.length
      · subst hie
        rw [getN_append_self] at hmem2
        exact absurd hmem2 (List.not_mem_nil o)
      · have hge : (st.pool ++ [mkNode hh0 n0]).length ≤ i := by
          rw [List.length_append, List.length_singleton]
          omega
        rw [getN_oob _ _ hge] at hmem2
        exact absurd hmem2 (List.not_mem_nil o)
  · intro i
    show (getN (st.pool ++ [mkNode hh0 n0]) i).active = true
    by_cases hlt : i < st.pool.length
    · rw [getN_append_lt _ _ _ hlt]
      exact h4 i
    · by_cases hie : i = st.pool.length
      · subst hie
        rw [getN_append_self]
        rfl
      · have hge : (st.pool ++ [mkNode hh0 n0]).length ≤ i := by
          rw [List.length_append, List.length_singleton]
          omega
        rw [getN_oob _ _ hge]
        rfl

theorem updAttr_getN (st : BState) (nid : Nat) (p : Int) :
    ∀ i, ((getN (updAttrStep st nid p).pool i).pixels = (getN st.pool i).pixels ∨
      (i = nid ∧ (getN (updAttrStep st nid p).pool i).pixels
        = (getN st.pool i).pixels ++ [trOff st p])) ∧
    (getN (updAttrStep st nid p).pool i).h = (getN st.pool i).h ∧
    (getN (updAttrStep st nid p).pool i).active = (getN st.pool i).active := by
  intro i
  simp only [updAttrStep, modPool]
  by_cases hic : i = nid
  · subst hic
    by_cases hlt : i < st.pool.length
    · rw [getN_modN_self _ _ _ hlt]
      exact ⟨Or.inr ⟨rfl, rfl⟩, rfl, rfl⟩
    · rw [modN_oob _ _ _ (Nat.le_of_not_lt hlt)]
      exact ⟨Or.inl rfl, rfl, rfl⟩
  · rw [getN_modN_ne _ _ _ _ hic]
    exact ⟨Or.inl rfl, rfl, rfl⟩

theorem updAttr_pix (st : BState) (nid : Nat) (p : Int)
    (hrp : RealPix st p)
    (hnh : st.oriImg.data.getD (trOff st p).toNat 0 = (getN st.pool nid).h)
    (hB : PixBundle st) : PixBundle (updAttrStep st nid p) := by
  obtain ⟨h1, h2, h3, h4, h5⟩ := hB
  obtain ⟨hp0, hof0, hlen0, hval0⟩ := hrp
  refine ⟨h1, h2, ?_, ?_, h5⟩
  · intro i o hmem
    obtain ⟨hpx, hhx, _⟩ := updAttr_getN st nid p i
    rcases hpx with hpx | ⟨hieq, hpx⟩
    · rw [hpx] at hmem
      obtain ⟨ha, hb2, hc⟩ := h3 i o hmem
      refine ⟨ha, hb2, ?_⟩
      show st.oriImg.data.getD o.toNat 0 = (getN (updAttrStep st nid p).pool i).h
      rw [hhx]
      exact hc
    · rw [hpx] at hmem
      rcases List.mem_append.mp hmem with hin | hin
      · obtain ⟨ha, hb2, hc⟩ := h3 i o hin
        refine ⟨ha, hb2, ?_⟩
        show st.oriImg.data.getD o.toNat 0 = (getN (updAttrStep st nid p).pool i).h
        rw [hhx]
        exact hc
      · obtain rfl : o = trOff st p := List.mem_singleton.mp hin
        refine ⟨hof0, hlen0, ?_⟩
        show st.oriImg.data.getD (trOff st p).toNat 0 = (getN (updAttrStep st nid p).pool i).h
        rw [hhx, hieq]
        exact hnh
  · intro i
    obtain ⟨_, _, hax⟩ := updAttr_getN st nid p i
    show (getN (updAttrStep st nid p).pool i).active = true
    rw [hax]
    exact h4 i

theorem popStep_pix (st : BState) (h : Nat) (p : Int)
    (hI : IndexOK st) (hB : PixBundle st)
    (hrp : RealPix st p) (hv : st.imBorder.get p = st.hMin + h) :
    PixBundle (popStep st h p) := by
  have hnn : (0 : Int) ≤ nnGet st h := hB.2.2.2.2 h
  have hvne : nnGet st h ≠ ACTIVE := by
    intro he
    rw [he] at hnn
    exact absurd hnn (by decide)
  have hB1 : PixBundle (statusSet st p (nnGet st h)) :=
    statusSet_bundle st p (nnGet st h) hvne hB
  have hrp1 : RealPix (statusSet st p (nnGet st h)) p :=
    RealPix_fields (statusSet_oriImg st p _) (statusSet_imBorder st p _)
      (statusSet_back st p _) p hrp
  have hI1 : IndexOK (statusSet st p (nnGet st h)) := by
    obtain ⟨f1, _⟩ := invariants_of_fields (statusSet_pool st p (nnGet st h))
      (statusSet_index st p (nnGet st h)) (statusSet_hMin st p (nnGet st h))
    exact f1 hI
  cases hidx : idxGet (statusSet st p (nnGet st h)) h (nnGet st h).toNat with
  | some nid =>
      have hps : popStep st h p = updAttrStep (statusSet st p (nnGet st h)) nid p := by
        simp only [popStep]
        rw [hidx]
      rw [hps]
      obtain ⟨_, hnidh⟩ := hI1 h (nnGet st h).toNat nid hidx
      refine updAttr_pix _ nid p hrp1 ?_ hB1
      have htr : trOff (statusSet st p (nnGet st h)) p = trOff st p :=
        trOff_fields (statusSet_oriImg st p _) (statusSet_imBorder st p _)
          (statusSet_back st p _) p
      rw [statusSet_oriImg, htr, hnidh, statusSet_hMin]
      obtain ⟨_, _, _, hval0⟩ := hrp
      rw [hval0]
      exact hv
  | none =>
      have hps : popStep st h p = updAttrStep
          (idxSet (newNode (statusSet st p (nnGet st h))
              (indexToH (statusSet st p (nnGet st h)) h) (nnGet st h)).2 h
            (nnGet st h).toNat
            (some (newNode (statusSet st p (nnGet st h))
              (indexToH (statusSet st p (nnGet st h)) h) (nnGet st h)).1))
          (newNode (statusSet st p (nnGet st h))
            (indexToH (statusSet st p (nnGet st h)) h) (nnGet st h)).1 p := by
        simp only [popStep]
        rw [hidx]
      rw [hps]
      have hB2 : PixBundle (idxSet (newNode (statusSet st p (nnGet st h))
          (indexToH (statusSet st p (nnGet st h)) h) (nnGet st h)).2 h (nnGet st h).toNat
          (some (newNode (statusSet st p (nnGet st h))
            (indexToH (statusSet st p (nnGet st h)) h) (nnGet st h)).1)) :=
        newNode_bundle _ _ _ hB1
      have hrp2 : RealPix (idxSet (newNode (statusSet st p (nnGet st h))
          (indexToH (statusSet st p (nnGet st h)) h) (nnGet st h)).2 h (nnGet st h).toNat
          (some (newNode (statusSet st p (nnGet st h))
            (indexToH (statusSet st p (nnGet st h)) h) (nnGet st h)).1)) p := hrp1
      refine updAttr_pix _ _ p hrp2 ?_ hB2
      have hh2 : (getN ((statusSet st p (nnGet st h)).pool ++
            [mkNode (indexToH (statusSet st p (nnGet st h)) h) (nnGet st h)])
            (statusSet st p (nnGet st h)).pool.length).h
          = st.hMin + (h : Int) := by
        rw [getN_append_self]
        show (statusSet st p (nnGet st h)).hMin + (h : Int) = st.hMin + (h : Int)
        rw [statusSet_hMin]
      have ho2 : (idxSet (newNode (statusSet st p (nnGet st h))
          (indexToH (statusSet st p (nnGet st h)) h) (nnGet st h)).2 h (nnGet st h).toNat
          (some (newNode (statusSet st p (nnGet st h))
            (indexToH (statusSet st p (nnGet st h)) h) (nnGet st h)).1)).oriImg
          = st.oriImg := statusSet_oriImg st p (nnGet st h)
      have hib2 : (idxSet (newNode (statusSet st p (nnGet st h))
          (indexToH (statusSet st p (nnGet st h)) h) (nnGet st h)).2 h (nnGet st h).toNat
          (some (newNode (statusSet st p (nnGet st h))
            (indexToH (statusSet st p (nnGet st h)) h) (nnGet st h)).1)).imBorder
          = st.imBorder := statusSet_imBorder st p (nnGet st h)
      have hbk2 : (idxSet (newNode (statusSet st p (nnGet st h))
          (indexToH (statusSet st p (nnGet st h)) h) (nnGet st h)).2 h (nnGet st h).toNat
          (some (newNode (statusSet st p (nnGet st h))
            (indexToH (statusSet st p (nnGet st h)) h) (nnGet st h)).1)).back
          = st.back := statusSet_back st p (nnGet st h)
      have htr2 : trOff (idxSet (newNode (statusSet st p (nnGet st h))
          (indexToH (statusSet st p (nnGet st h)) h) (nnGet st h)).2 h (nnGet st h).toNat
          (some (newNode (statusSet st p (nnGet st h))
            (indexToH (statusSet st p (nnGet st h)) h) (nnGet st h)).1)) p = trOff st p :=
        trOff_fields ho2 hib2 hbk2 p
      rw [ho2, htr2]
      show st.oriImg.data.getD (trOff st p).toNat 0 =
        (getN ((statusSet st p (nnGet st h)).pool ++
          [mkNode (indexToH (statusSet st p (nnGet st h)) h) (nnGet st h)])
          (statusSet st p (nnGet st h)).pool.length).h
      rw [hh2]
      obtain ⟨_, _, _, hval0⟩ := hrp
      rw [hval0]
      exact hv

theorem popStep_fields (st : BState) (h : Nat) (p : Int) :
    (popStep st h p).oriImg = st.oriImg ∧ (popStep st h p).imBorder = st.imBorder ∧
    (popStep st h p).back = st.back := by
  cases hidx : idxGet (statusSet st p (nnGet st h)) h (nnGet st h).toNat with
  | some nid =>
      have hps : popStep st h p = updAttrStep (statusSet st p (nnGet st h)) nid p := by
        simp only [popStep]
        rw [hidx]
      rw [hps]
      exact ⟨statusSet_oriImg st p _, statusSet_imBorder st p _, statusSet_back st p _⟩
  | none =>
      have hps : popStep st h p = updAttrStep
          (idxSet (newNode (statusSet st p (nnGet st h))
              (indexToH (statusSet st p (nnGet st h)) h) (nnGet st h)).2 h
            (nnGet st h).toNat
            (some (newNode (statusSet st p (nnGet st h))
              (indexToH (statusSet st p (nnGet st h)) h) (nnGet st h)).1))
          (newNode (statusSet st p (nnGet st h))
            (indexToH (statusSet st p (nnGet st h)) h) (nnGet st h)).1 p := by
        simp only [popStep]
        rw [hidx]
      rw [hps]
      exact ⟨statusSet_oriImg st p _, statusSet_imBorder st p _, statusSet_back st p _⟩

theorem linkFather_pix (st : BState) (m : Nat) (hB : PixBundle st) :
    PixBundle (linkFather st m).2 := by
  cases hidx : idxGet st m (nnGet st m).toNat with
  | some fid =>
      have hlf : linkFather st m = (fid, st) := by
        simp only [linkFather]
        rw [hidx]
      rw [hlf]
      exact hB
  | none =>
      have hlf : linkFather st m =
          ((newNode st (indexToH st m) (nnGet st m)).1,
           idxSet (newNode st (indexToH st m) (nnGet st m)).2 m (nnGet st m).toNat
             (some (newNode st (indexToH st m) (nnGet st m)).1)) := by
        simp only [linkFather]
        rw [hidx]
      rw [hlf]
      exact newNode_bundle _ _ _ hB

theorem linkFather_fields (st : BState) (m : Nat) :
    (linkFather st m).2.oriImg = st.oriImg ∧ (linkFather st m).2.imBorder = st.imBorder ∧
    (linkFather st m).2.back = st.back := by
  cases hidx : idxGet st m (nnGet st m).toNat with
  | some fid =>
      have hlf : linkFather st m = (fid, st) := by
        simp only [linkFather]
        rw [hidx]
      rw [hlf]
      exact ⟨rfl, rfl, rfl⟩
  | none =>
      have hlf : linkFather st m =
          ((newNode st (indexToH st m) (nnGet st m)).1,
           idxSet (newNode st (indexToH st m) (nnGet st m)).2 m (nnGet st m).toNat
             (some (newNode st (indexToH st m) (nnGet st m)).1)) := by
        simp only [linkFather]
        rw [hidx]
      rw [hlf]
      exact ⟨rfl, rfl, rfl⟩

theorem linkStep_pix (st : BState) (h m : Nat) (hB : PixBundle st) :
    PixBundle (linkStep st h m) := by
  have hBf : PixBundle (linkFather st m).2 := linkFather_pix st m hB
  cases hidx : idxGet (linkFather st m).2 h ((nnGet st h - 1).toNat) with
  | some cid =>
      have hls : linkStep st h m = modPool (modPool (linkFather st m).2 cid
          (fun n => { n with father := some (linkFather st m).1 }))
          (linkFather st m).1 (fun n => { n with childs := n.childs ++ [cid] }) := by
        simp only [linkStep]
        rw [hidx]
      rw [hls]
      exact modPool_bundle _ _ _ (fun n => rfl) (fun n => rfl) (fun n => rfl)
        (modPool_bundle _ _ _ (fun n => rfl) (fun n => rfl) (fun n => rfl) hBf)
  | none =>
      have hls : linkStep st h m = (linkFather st m).2 := by
        simp only [linkStep]
        rw [hidx]
      rw [hls]
      exact hBf

theorem linkStep_fields (st : BState) (h m : Nat) :
    (linkStep st h m).oriImg = st.oriImg ∧ (linkStep st h m).imBorder = st.imBorder ∧
    (linkStep st h m).back = st.back := by
  cases hidx : idxGet (linkFather st m).2 h ((nnGet st h - 1).toNat) with
  | some cid =>
      have hls : linkStep st h m = modPool (modPool (linkFather st m).2 cid
          (fun n => { n with father := some (linkFather st m).1 }))
          (linkFather st m).1 (fun n => { n with childs := n.childs ++ [cid] }) := by
        simp only [linkStep]
        rw [hidx]
      rw [hls]
      exact linkFather_fields st m
  | none =>
      have hls : linkStep st h m = (linkFather st m).2 := by
        simp only [linkStep]
        rw [hidx]
      rw [hls]
      exact linkFather_fields st m

theorem rootLinkStep_pix (st : BState) (hB : PixBundle st) :
    PixBundle (rootLinkStep st) := by
  cases hidx : idxGet st 0 0 with
  | some rid =>
      have hrl : rootLinkStep st = modPool st rid (fun n => { n with father := some rid }) := by
        simp only [rootLinkStep]
        rw [hidx]
      rw [hrl]
      exact modPool_bundle _ _ _ (fun n => rfl) (fun n => rfl) (fun n => rfl) hB
  | none =>
      have hrl : rootLinkStep st = st := by
        simp only [rootLinkStep]
        rw [hidx]
      rw [hrl]
      exact hB

theorem rootLinkStep_fields (st : BState) :
    (rootLinkStep st).oriImg = st.oriImg ∧ (rootLinkStep st).imBorder = st.imBorder ∧
    (rootLinkStep st).back = st.back := by
  cases hidx : idxGet st 0 0 with
  | some rid =>
      have hrl : rootLinkStep st = modPool st rid (fun n => { n with father := some rid }) := by
        simp only [rootLinkStep]
        rw [hidx]
      rw [hrl]
      exact ⟨rfl, rfl, rfl⟩
  | none =>
      have hrl : rootLinkStep st = st := by
        simp only [rootLinkStep]
        rw [hidx]
      rw [hrl]
      exact ⟨rfl, rfl, rfl⟩

theorem floodTail_pix (st : BState) (h : Nat) (hB : PixBundle st) :
    PixBundle (floodTail st h).2 := by
  have hnn : (0 : Int) ≤ nnGet st h := hB.2.2.2.2 h
  have hB1 : PixBundle (nnSet st h (nnGet st h + 1)) :=
    nnSet_bundle st h _ (by omega) hB
  have hft : (floodTail st h).2 = nalSet
      (if 0 ≤ (if h = 0 then (-1 : Int)
          else scanLevel (nnSet st h (nnGet st h + 1)) (h - 1)) then
        linkStep (nnSet st h (nnGet st h + 1)) h
          (if h = 0 then (-1 : Int)
            else scanLevel (nnSet st h (nnGet st h + 1)) (h - 1)).toNat
       else rootLinkStep (nnSet st h (nnGet st h + 1))) h false := rfl
  rw [hft]
  by_cases hm : 0 ≤ (if h = 0 then (-1 : Int)
      else scanLevel (nnSet st h (nnGet st h + 1)) (h - 1))
  · rw [if_pos hm]
    exact linkStep_pix _ h _ hB1
  · rw [if_neg hm]
    exact rootLinkStep_pix _ hB1

theorem floodTail_fields (st : BState) (h : Nat) :
    (floodTail st h).2.oriImg = st.oriImg ∧ (floodTail st h).2.imBorder = st.imBorder ∧
    (floodTail st h).2.back = st.back := by
  have hft : (floodTail st h).2 = nalSet
      (if 0 ≤ (if h = 0 then (-1 : Int)
          else scanLevel (nnSet st h (nnGet st h + 1)) (h - 1)) then
        linkStep (nnSet st h (nnGet st h + 1)) h
          (if h = 0 then (-1 : Int)
            else scanLevel (nnSet st h (nnGet st h + 1)) (h - 1)).toNat
       else rootLinkStep (nnSet st h (nnGet st h + 1))) h false := rfl
  rw [hft]
  by_cases hm : 0 ≤ (if h = 0 then (-1 : Int)
      else scanLevel (nnSet st h (nnGet st h + 1)) (h - 1))
  · rw [if_pos hm]
    exact linkStep_fields (nnSet st h (nnGet st h + 1)) h _
  · rw [if_neg hm]
    exact rootLinkStep_fields (nnSet st h (nnGet st h + 1))

theorem nbrsState_pix (st : BState) (q : Int)
    (hact : statusGet st q = ACTIVE) (hB : PixBundle st) :
    PixBundle (nalSet (statusSet (hqPush st (hToIndex st (st.imBorder.get q)) q)
      q NOT_ACTIVE) (hToIndex st (st.imBorder.get q)) true) := by
  obtain ⟨hrp, hlo⟩ := hB.1 q hact
  have hval : st.imBorder.get q = st.hMin + (hToIndex st (st.imBorder.get q) : Int) := by
    show st.imBorder.get q = st.hMin + ((st.imBorder.get q - st.hMin).toNat : Int)
    rw [Int.toNat_of_nonneg (by omega)]
    omega
  have hB1 : PixBundle (hqPush st (hToIndex st (st.imBorder.get q)) q) :=
    hqPush_bundle st _ q hrp hval hB
  have hB2 : PixBundle (statusSet (hqPush st (hToIndex st (st.imBorder.get q)) q)
      q NOT_ACTIVE) :=
    statusSet_bundle _ q NOT_ACTIVE (by decide) hB1
  exact hB2


/-- The pixel-tracking machine invariant: every step of the flooding
machine preserves `PixBundle`, and never changes the original image,
the bordered image, or the border widths. -/
theorem run_pix :
    ∀ (fuel : Nat) (cmd : Cmd) (st : BState) (r : Int × BState),
    run fuel cmd st = some r → IndexOK st → FatherOK st.pool → PixBundle st →
    PixBundle r.2 ∧ r.2.oriImg = st.oriImg ∧ r.2.imBorder = st.imBorder ∧
      r.2.back = st.back := by
  intro fuel
  induction fuel with
  | zero =>
      intro cmd st r h _ _ _
      exact Option.noConfusion (h : (none : Option (Int × BState)) = some r)
  | succ fuel ih =>
      intro cmd st r h hI hF hB
      cases cmd with
      | flood hh =>
          simp only [run] at h
          cases hw : run fuel (Cmd.fwhile hh) st with
          | none =>
              rw [hw] at h
              exact Option.noConfusion h
          | some pr =>
              rw [hw] at h
              obtain ⟨v, st1⟩ := pr
              have h3 : some (floodTail st1 hh) = some r := h
              obtain rfl : floodTail st1 hh = r := Option.some.inj h3
              obtain ⟨b1, o1, i1, k1⟩ := ih _ _ _ hw hI hF hB
              refine ⟨floodTail_pix st1 hh b1, ?_, ?_, ?_⟩
              · exact ((floodTail_fields st1 hh).1).trans o1
              · exact ((floodTail_fields st1 hh).2.1).trans i1
              · exact ((floodTail_fields st1 hh).2.2).trans k1
      | fwhile hh =>
          simp only [run] at h
          cases hq : hqGet st hh with
          | nil =>
              rw [hq] at h
              have h2 : some ((0 : Int), st) = some r := h
              obtain rfl : ((0 : Int), st) = r := Option.some.inj h2
              exact ⟨hB, rfl, rfl, rfl⟩
          | cons p rest =>
              rw [hq] at h
              have h2 : (match run fuel
                  (Cmd.fnbrs hh p (popStep (hqSet st hh rest) hh p).seOff)
                  (popStep (hqSet st hh rest) hh p) with
                | none => none
                | some (_, st3) => run fuel (Cmd.fwhile hh) st3) = some r := h
              have hpmem : p ∈ hqGet st hh := by
                rw [hq]
                exact List.mem_cons_self _ _
              obtain ⟨hrp, hval⟩ := hB.2.1 hh p hpmem
              have hBq : PixBundle (hqSet st hh rest) :=
                hqSet_bundle st hh rest (fun x hx => by
                  rw [hq]
                  exact List.mem_cons_of_mem _ hx) hB
              have hIq : IndexOK (hqSet st hh rest) := hI
              have hFq : FatherOK (hqSet st hh rest).pool := hF
              have hrpq : RealPix (hqSet st hh rest) p := hrp
              have hvq : (hqSet st hh rest).imBorder.get p
                  = (hqSet st hh rest).hMin + (hh : Int) := hval
              have hB2 : PixBundle (popStep (hqSet st hh rest) hh p) :=
                popStep_pix _ hh p hIq hBq hrpq hvq
              obtain ⟨hI2, hF2, _⟩ := popStep_pres (hqSet st hh rest) hh p hIq hFq
              obtain ⟨po, pi, pk⟩ := popStep_fields (hqSet st hh rest) hh p
              cases hrn : run fuel (Cmd.fnbrs hh p (popStep (hqSet st hh rest) hh p).seOff)
                  (popStep (hqSet st hh rest) hh p) with
              | none =>
                  rw [hrn] at h2
                  exact Option.noConfusion h2
              | some pr2 =>
                  rw [hrn] at h2
                  obtain ⟨v2, st3⟩ := pr2
                  have h3 : run fuel (Cmd.fwhile hh) st3 = some r := h2
                  obtain ⟨b1, o1, i1, k1⟩ := ih _ _ _ hrn hI2 hF2 hB2
                  obtain ⟨aI, aF, _⟩ := run_pres fuel _ _ _ hrn hI2 hF2
                  obtain ⟨b2, o2, i2, k2⟩ := ih _ _ _ h3 aI aF b1
                  refine ⟨b2, ?_, ?_, ?_⟩
                  · exact (o2.trans o1).trans po
                  · exact (i2.trans i1).trans pi
                  · exact (k2.trans k1).trans pk
      | fnbrs hh p offs =>
          cases offs with
          | nil =>
              simp only [run] at h
              obtain rfl : ((0 : Int), st) = r := Option.some.inj h
              exact ⟨hB, rfl, rfl, rfl⟩
          | cons off rest =>
              simp only [run] at h
              split at h
              · rename_i hactive
                have hBs : PixBundle (nalSet (statusSet (hqPush st
                    (hToIndex st (st.imBorder.get (p + off))) (p + off))
                    (p + off) NOT_ACTIVE) (hToIndex st (st.imBorder.get (p + off))) true) :=
                  nbrsState_pix st (p + off) hactive hB
                obtain ⟨hIs, hFs, _⟩ := nbrsState_pres st
                  (hToIndex st (st.imBorder.get (p + off))) (p + off) hI hF
                have ho0 : (nalSet (statusSet (hqPush st
                    (hToIndex st (st.imBorder.get (p + off))) (p + off))
                    (p + off) NOT_ACTIVE) (hToIndex st (st.imBorder.get (p + off)))
                    true).oriImg = st.oriImg := statusSet_oriImg _ _ _
                have hi0 : (nalSet (statusSet (hqPush st
                    (hToIndex st (st.imBorder.get (p + off))) (p + off))
                    (p + off) NOT_ACTIVE) (hToIndex st (st.imBorder.get (p + off)))
                    true).imBorder = st.imBorder := statusSet_imBorder _ _ _
                have hk0 : (nalSet (statusSet (hqPush st
                    (hToIndex st (st.imBorder.get (p + off))) (p + off))
                    (p + off) NOT_ACTIVE) (hToIndex st (st.imBorder.get (p + off)))
                    true).back = st.back := statusSet_back _ _ _
                split at h
                · split at h
                  · exact Option.noConfusion h
                  · rename_i v4 st4 heq
                    obtain ⟨b1, o1, i1, k1⟩ := ih _ _ _ heq hIs hFs hBs
                    obtain ⟨aI, aF, _⟩ := run_pres fuel _ _ _ heq hIs hFs
                    obtain ⟨b2, o2, i2, k2⟩ := ih _ _ _ h aI aF b1
                    exact ⟨b2, (o2.trans o1).trans ho0, (i2.trans i1).trans hi0,
                      (k2.trans k1).trans hk0⟩
                · obtain ⟨b1, o1, i1, k1⟩ := ih _ _ _ h hIs hFs hBs
                  exact ⟨b1, o1.trans ho0, i1.trans hi0, k1.trans hk0⟩
              · exact ih _ _ _ h hI hF hB
      | funtil m hh =>
          simp only [run] at h
          cases hrn : run fuel (Cmd.flood m) st with
          | none =>
              rw [hrn] at h
              exact Option.noConfusion h
          | some pr =>
              rw [hrn] at h
              obtain ⟨m2, st1⟩ := pr
              obtain ⟨b1, o1, i1, k1⟩ := ih _ _ _ hrn hI hF hB
              obtain ⟨aI, aF, _⟩ := run_pres fuel _ _ _ hrn hI hF
              have h2 : (if m2 = (hh : Int) then some (m2, st1)
                else run fuel (Cmd.funtil m2.toNat hh) st1) = some r := h
              by_cases he : m2 = (hh : Int)
              · rw [if_pos he] at h2
                obtain rfl : (m2, st1) = r := Option.some.inj h2
                exact ⟨b1, o1, i1, k1⟩
              · rw [if_neg he] at h2
                obtain ⟨b2, o2, i2, k2⟩ := ih _ _ _ h2 aI aF b1
                exact ⟨b2, o2.trans o1, i2.trans i1, k2.trans k1⟩


/-! Establishing the pixel-tracking invariants at the seeded initial
state: the bordered status image marks exactly the real cells `ACTIVE`,
and each such cell holds the original image's value. -/

theorem foldl_min_le (l : List Int) :
    ∀ a : Int, l.foldl min a ≤ a ∧ ∀ x ∈ l, l.foldl min a ≤ x := by
  induction l with
  | nil =>
      intro a
      exact ⟨le_refl _, fun x hx => absurd hx (List.not_mem_nil x)⟩
  | cons b t ih =>
      intro a
      obtain ⟨h1, h2⟩ := ih (min a b)
      refine ⟨le_trans h1 (min_le_left _ _), ?_⟩
      intro x hx
      rcases List.mem_cons.mp hx with rfl | hx2
      · exact le_trans h1 (min_le_right _ _)
      · exact h2 x hx2

theorem getMin_le (im : Img) : ∀ v ∈ im.data, im.getMin ≤ v := by
  intro v hv
  cases hd : im.data with
  | nil =>
      rw [hd] at hv
      exact absurd hv (List.not_mem_nil v)
  | cons v0 vs =>
      have hg : im.getMin = vs.foldl min v0 := by
        unfold Img.getMin
        rw [hd]
      rw [hg]
      rw [hd] at hv
      rcases List.mem_cons.mp hv with rfl | hv2
      · exact (foldl_min_le vs v).1
      · exact (foldl_min_le vs v0).2 v hv2

theorem range_map_getD {α : Type} (n : Nat) (f : Nat → α) (q : Nat) (hq : q < n)
    (d : α) : ((List.range n).map f).getD q d = f q := by
  have hlen : q < ((List.range n).map f).length := by simpa using hq
  rw [List.getD_eq_getElem _ _ hlen]
  simp

theorem lin_index_lt (a b c sx sy sz : Nat) (ha : a < sx) (hb : b < sy) (hc : c < sz) :
    a + b * sx + c * (sx * sy) < sx * sy * sz := by
  have h1 : a + b * sx < (b + 1) * sx := by
    have h0 : a + 1 ≤ sx := Nat.succ_le_of_lt ha
    calc a + b * sx < sx + b * sx := by omega
      _ = (b + 1) * sx := by ring
  have h2 : (b + 1) * sx ≤ sy * sx := Nat.mul_le_mul_right sx (Nat.succ_le_of_lt hb)
  have h3 : sy * sx = sx * sy := Nat.mul_comm _ _
  have h4 : sx * sy + c * (sx * sy) = (c + 1) * (sx * sy) := by ring
  have h5 : (c + 1) * (sx * sy) ≤ sz * (sx * sy) :=
    Nat.mul_le_mul_right _ (Nat.succ_le_of_lt hc)
  have h6 : sz * (sx * sy) = sx * sy * sz := by ring
  have h7 : a + b * sx + c * (sx * sy) < sx * sy + c * (sx * sy) := by
    have := h1.trans_le (h2.trans_eq h3)
    omega
  calc a + b * sx + c * (sx * sy) < sx * sy + c * (sx * sy) := h7
    _ = (c + 1) * (sx * sy) := h4
    _ ≤ sz * (sx * sy) := h5
    _ = sx * sy * sz := h6

theorem seNeg_nonneg (conn : FlatSE) :
    0 ≤ (seNegOffsets conn).1 ∧ 0 ≤ (seNegOffsets conn).2.1 ∧
    0 ≤ (seNegOffsets conn).2.2 := by
  refine ⟨?_, ?_, ?_⟩
  · show (0 : Int) ≤ ((conn.foldl (fun (a : Int) d => min a d.1) 0).natAbs : Int)
    exact Int.natCast_nonneg _
  · show (0 : Int) ≤ ((conn.foldl (fun (a : Int) d => min a d.2.1) 0).natAbs : Int)
    exact Int.natCast_nonneg _
  · show (0 : Int) ≤ ((conn.foldl (fun (a : Int) d => min a d.2.2) 0).natAbs : Int)
    exact Int.natCast_nonneg _

theorem addBorders_active_interior (im : Img) (back front : Int × Int × Int)
    (q : Nat)
    (hact : (addBorders im back front BORDER_STATUS).data.getD q BORDER_STATUS
      = ACTIVE) :
    q < (im.sx + back.1.toNat + front.1.toNat) *
        (im.sy + back.2.1.toNat + front.2.1.toNat) *
        (im.sz + back.2.2.toNat + front.2.2.toNat) ∧
    (back.1.toNat ≤ q % (im.sx + back.1.toNat + front.1.toNat) ∧
      q % (im.sx + back.1.toNat + front.1.toNat) < back.1.toNat + im.sx ∧
      back.2.1.toNat ≤ q / (im.sx + back.1.toNat + front.1.toNat) %
        (im.sy + back.2.1.toNat + front.2.1.toNat) ∧
      q / (im.sx + back.1.toNat + front.1.toNat) %
        (im.sy + back.2.1.toNat + front.2.1.toNat) < back.2.1.toNat + im.sy ∧
      back.2.2.toNat ≤ q / ((im.sx + back.1.toNat + front.1.toNat) *
        (im.sy + back.2.1.toNat + front.2.1.toNat)) ∧
      q / ((im.sx + back.1.toNat + front.1.toNat) *
        (im.sy + back.2.1.toNat + front.2.1.toNat)) < back.2.2.toNat + im.sz) := by
  simp only [addBorders] at hact
  by_cases hq2 : q < (im.sx + back.1.toNat + front.1.toNat) *
      (im.sy + back.2.1.toNat + front.2.1.toNat) *
      (im.sz + back.2.2.toNat + front.2.2.toNat)
  · rw [range_map_getD _ _ _ hq2] at hact
    refine ⟨hq2, ?_⟩
    split at hact
    · rename_i hcond
      exact hcond
    · exact absurd hact (by decide)
  · rw [List.getD_eq_default] at hact
    · exact absurd hact (by decide)
    · simpa using Nat.le_of_not_lt hq2

theorem addBorders_getD_eq (im : Img) (back front : Int × Int × Int) (v : Int)
    (q : Nat) (d : Int)
    (hq : q < (im.sx + back.1.toNat + front.1.toNat) *
        (im.sy + back.2.1.toNat + front.2.1.toNat) *
        (im.sz + back.2.2.toNat + front.2.2.toNat))
    (hcond : back.1.toNat ≤ q % (im.sx + back.1.toNat + front.1.toNat) ∧
      q % (im.sx + back.1.toNat + front.1.toNat) < back.1.toNat + im.sx ∧
      back.2.1.toNat ≤ q / (im.sx + back.1.toNat + front.1.toNat) %
        (im.sy + back.2.1.toNat + front.2.1.toNat) ∧
      q / (im.sx + back.1.toNat + front.1.toNat) %
        (im.sy + back.2.1.toNat + front.2.1.toNat) < back.2.1.toNat + im.sy ∧
      back.2.2.toNat ≤ q / ((im.sx + back.1.toNat + front.1.toNat) *
        (im.sy + back.2.1.toNat + front.2.1.toNat)) ∧
      q / ((im.sx + back.1.toNat + front.1.toNat) *
        (im.sy + back.2.1.toNat + front.2.1.toNat)) < back.2.2.toNat + im.sz) :
    (addBorders im back front v).data.getD q d =
      im.data.getD (q % (im.sx + back.1.toNat + front.1.toNat) - back.1.toNat +
        (q / (im.sx + back.1.toNat + front.1.toNat) %
          (im.sy + back.2.1.toNat + front.2.1.toNat) - back.2.1.toNat) * im.sx +
        (q / ((im.sx + back.1.toNat + front.1.toNat) *
          (im.sy + back.2.1.toNat + front.2.1.toNat)) - back.2.2.toNat) *
          (im.sx * im.sy)) 0 := by
  simp only [addBorders]
  rw [range_map_getD _ _ _ hq]
  rw [if_pos hcond]


theorem initState_StatusOK (img : Img) (conn : FlatSE)
    (hwf : img.data.length = img.len) : StatusOK (initState img conn) := by
  intro p hact
  by_cases hp : 0 ≤ p
  · simp only [statusGet, hp, ite_true] at hact
    have hstat : (initState img conn).status =
        (addBorders { sx := img.sx, sy := img.sy, sz := img.sz,
                      data := List.replicate img.len ACTIVE }
          (seNegOffsets conn) (sePosOffsets conn) BORDER_STATUS).data := rfl
    rw [hstat] at hact
    obtain ⟨hq2, hcond⟩ := addBorders_active_interior _ _ _ _ hact
    have hq3 : p.toNat < bNX img conn * bNY img conn * bNZ img conn := hq2
    have hcond3 : (seNegOffsets conn).1.toNat ≤ p.toNat % bNX img conn ∧
        p.toNat % bNX img conn < (seNegOffsets conn).1.toNat + img.sx ∧
        (seNegOffsets conn).2.1.toNat ≤ p.toNat / bNX img conn % bNY img conn ∧
        p.toNat / bNX img conn % bNY img conn < (seNegOffsets conn).2.1.toNat + img.sy ∧
        (seNegOffsets conn).2.2.toNat ≤ p.toNat / (bNX img conn * bNY img conn) ∧
        p.toNat / (bNX img conn * bNY img conn) < (seNegOffsets conn).2.2.toNat + img.sz :=
      hcond
    obtain ⟨hc1, hc2, hc3, hc4, hc5, hc6⟩ := hcond3
    have hxs : p.toNat % bNX img conn - (seNegOffsets conn).1.toNat < img.sx := by
      omega
    have hys : p.toNat / bNX img conn % bNY img conn - (seNegOffsets conn).2.1.toNat
        < img.sy := by
      omega
    have hzs : p.toNat / (bNX img conn * bNY img conn) - (seNegOffsets conn).2.2.toNat
        < img.sz := by
      omega
    have hlin : bLin img conn p.toNat < img.sx * img.sy * img.sz := by
      show p.toNat % bNX img conn - (seNegOffsets conn).1.toNat +
        (p.toNat / bNX img conn % bNY img conn - (seNegOffsets conn).2.1.toNat) * img.sx +
        (p.toNat / (bNX img conn * bNY img conn) - (seNegOffsets conn).2.2.toNat) *
          (img.sx * img.sy) < img.sx * img.sy * img.sz
      exact lin_index_lt _ _ _ _ _ _ hxs hys hzs
    have hlen : bLin img conn p.toNat < img.data.length := by
      rw [hwf]
      exact hlin
    obtain ⟨h0x, h0y, h0z⟩ := seNeg_nonneg conn
    have hbx : ((seNegOffsets conn).1.toNat : Int) = (seNegOffsets conn).1 :=
      Int.toNat_of_nonneg h0x
    have hby : ((seNegOffsets conn).2.1.toNat : Int) = (seNegOffsets conn).2.1 :=
      Int.toNat_of_nonneg h0y
    have hbz : ((seNegOffsets conn).2.2.toNat : Int) = (seNegOffsets conn).2.2 :=
      Int.toNat_of_nonneg h0z
    have htr : trOff (initState img conn) p = (bLin img conn p.toNat : Int) := by
      show (((p.toNat % bNX img conn : Nat) : Int) - (seNegOffsets conn).1) +
          (((p.toNat / bNX img conn % bNY img conn : Nat) : Int) -
            (seNegOffsets conn).2.1) * ((img.sx : Nat) : Int) +
          (((p.toNat / (bNX img conn * bNY img conn) : Nat) : Int) -
            (seNegOffsets conn).2.2) * (((img.sx : Nat) : Int) * ((img.sy : Nat) : Int)) =
        ((p.toNat % bNX img conn - (seNegOffsets conn).1.toNat +
          (p.toNat / bNX img conn % bNY img conn - (seNegOffsets conn).2.1.toNat) * img.sx +
          (p.toNat / (bNX img conn * bNY img conn) - (seNegOffsets conn).2.2.toNat) *
            (img.sx * img.sy) : Nat) : Int)
      rw [Nat.cast_add, Nat.cast_add, Nat.cast_mul, Nat.cast_mul, Nat.cast_mul,
        Nat.cast_sub hc1, Nat.cast_sub hc3, Nat.cast_sub hc5, hbx, hby, hbz]
    have hval : (initState img conn).imBorder.get p =
        img.data.getD (bLin img conn p.toNat) 0 := by
      have hget : (initState img conn).imBorder.get p =
          (addBorders img (seNegOffsets conn) (sePosOffsets conn) BORDER).data.getD
            p.toNat 0 := by
        show (if 0 ≤ p then (addBorders img (seNegOffsets conn) (sePosOffsets conn)
            BORDER).data.getD p.toNat 0 else 0) = _
        rw [if_pos hp]
      rw [hget]
      rw [addBorders_getD_eq img (seNegOffsets conn) (sePosOffsets conn) BORDER
        p.toNat 0 hq3 ⟨hc1, hc2, hc3, hc4, hc5, hc6⟩]
      exact rfl
    refine ⟨⟨hp, ?_, ?_, ?_⟩, ?_⟩
    · rw [htr]
      exact Int.natCast_nonneg _
    · rw [htr, Int.toNat_natCast]
      exact hlen
    · show img.data.getD (trOff (initState img conn) p).toNat 0 =
        (initState img conn).imBorder.get p
      rw [htr, Int.toNat_natCast, hval]
    · show (initState img conn).hMin ≤ (initState img conn).imBorder.get p
      rw [hval]
      show img.getMin ≤ img.data.getD (bLin img conn p.toNat) 0
      have hmem : img.data.getD (bLin img conn p.toNat) 0 ∈ img.data := by
        rw [List.getD_eq_getElem _ _ hlen]
        exact List.getElem_mem _
      exact getMin_le img _ hmem
  · simp only [statusGet, hp, ite_false] at hact
    exact absurd hact (by decide)

theorem initState_bundle (img : Img) (conn : FlatSE)
    (hwf : img.data.length = img.len) : PixBundle (initState img conn) := by
  refine ⟨initState_StatusOK img conn hwf, ?_, ?_, ?_, ?_⟩
  · intro l p hp2
    have hp3 : p ∈ (List.replicate ((img.getMax - img.getMin + 1).toNat)
        ([] : List Int)).getD l [] := hp2
    have hnil : (List.replicate ((img.getMax - img.getMin + 1).toNat)
        ([] : List Int)).getD l [] = [] := by
      rcases getD_eq_or_mem (List.replicate ((img.getMax - img.getMin + 1).toNat)
        ([] : List Int)) l [] with hc | hc
      · exact hc
      · exact List.eq_of_mem_replicate hc
    rw [hnil] at hp3
    exact absurd hp3 (List.not_mem_nil p)
  · intro i o hmem
    have hmem2 : o ∈ (getN [] i).pixels := hmem
    rw [getN_oob [] i (Nat.zero_le i)] at hmem2
    exact absurd hmem2 (List.not_mem_nil o)
  · intro i
    show (getN [] i).active = true
    rw [getN_oob [] i (Nat.zero_le i)]
    rfl
  · intro l
    show 0 ≤ (List.replicate ((img.getMax - img.getMin + 1).toNat) (0 : Int)).getD l 0
    rcases getD_eq_or_mem (List.replicate ((img.getMax - img.getMin + 1).toNat)
      (0 : Int)) l 0 with hc | hc
    · rw [hc]
    · rw [List.eq_of_mem_replicate hc]

/-- The builder stores only correctly-leveled, in-range pixels and
activates every node; it also keeps the original image intact. -/
theorem computeTree_pix (fuel : Nat) (img : Img) (conn : FlatSE) (root : Nat)
    (st : BState) (hwf : img.data.length = img.len)
    (hb : computeTree fuel img conn = some (root, st)) :
    PixOK st ∧ ActiveOK st.pool ∧ st.oriImg = img := by
  cases hfs : findSeed (initState img conn) with
  | some s =>
      simp only [computeTree] at hb
      rw [hfs] at hb
      split at hb
      · exact Option.noConfusion hb
      · rename_i v st2 heq
        split at hb
        · rename_i root2 hidx
          have hpair : (root2, st2) = (root, st) := Option.some.inj hb
          have hst : st2 = st := congrArg Prod.snd hpair
          have hIs : IndexOK (nalSet (hqPush (initState img conn) 0 (s : Int)) 0 true) := by
            intro l j nid hx
            have hx2 : idxGet (initState img conn) l j = some nid := hx
            rw [initState_idx_none img conn l j] at hx2
            exact Option.noConfusion hx2
          have hFs : FatherOK
              (nalSet (hqPush (initState img conn) 0 (s : Int)) 0 true).pool := by
            intro i q hfa
            have hfa2 : (getN [] i).father = some q := hfa
            rw [getN_oob [] i (Nat.zero_le i)] at hfa2
            exact Option.noConfusion hfa2
          have hfind := List.find?_some hfs
          have hfind2 : (((initState img conn).imBorder.data.getD s 0
                == (initState img conn).hMin) &&
              ((initState img conn).status.getD s BORDER_STATUS == ACTIVE)) = true :=
            hfind
          rw [Bool.and_eq_true] at hfind2
          obtain ⟨hbv, hbs⟩ := hfind2
          have hv1 : (initState img conn).imBorder.data.getD s 0
              = (initState img conn).hMin := eq_of_beq hbv
          have hv2 : (initState img conn).status.getD s BORDER_STATUS = ACTIVE :=
            eq_of_beq hbs
          have hact : statusGet (initState img conn) (s : Int) = ACTIVE := by
            show (if 0 ≤ (s : Int) then (initState img conn).status.getD
                ((s : Int)).toNat BORDER_STATUS else BORDER_STATUS) = ACTIVE
            rw [if_pos (Int.natCast_nonneg s), Int.toNat_natCast]
            exact hv2
          have hBinit : PixBundle (initState img conn) := initState_bundle img conn hwf
          obtain ⟨hrp, _⟩ := hBinit.1 (s : Int) hact
          have hvv : (initState img conn).imBorder.get (s : Int)
              = (initState img conn).hMin + ((0 : Nat) : Int) := by
            show (if 0 ≤ (s : Int) then (initState img conn).imBorder.data.getD
                ((s : Int)).toNat 0 else 0) = _
            rw [if_pos (Int.natCast_nonneg s), Int.toNat_natCast, hv1]
            simp
          have hBs : PixBundle (nalSet (hqPush (initState img conn) 0 (s : Int)) 0 true) :=
            hqPush_bundle (initState img conn) 0 (s : Int) hrp hvv hBinit
          obtain ⟨bF, oF, _, _⟩ := run_pix fuel (Cmd.flood 0) _ _ heq hIs hFs hBs
          rw [← hst]
          exact ⟨bF.2.2.1, bF.2.2.2.1, oF⟩
        · exact Option.noConfusion hb
  | none =>
      simp only [computeTree] at hb
      rw [hfs] at hb
      split at hb
      · exact Option.noConfusion hb
      · rename_i v st2 heq
        split at hb
        · rename_i root2 hidx
          have hpair : (root2, st2) = (root, st) := Option.some.inj hb
          have hst : st2 = st := congrArg Prod.snd hpair
          have hIs : IndexOK (nalSet (initState img conn) 0 true) := by
            intro l j nid hx
            have hx2 : idxGet (initState img conn) l j = some nid := hx
            rw [initState_idx_none img conn l j] at hx2
            exact Option.noConfusion hx2
          have hFs : FatherOK (nalSet (initState img conn) 0 true).pool := by
            intro i q hfa
            have hfa2 : (getN [] i).father = some q := hfa
            rw [getN_oob [] i (Nat.zero_le i)] at hfa2
            exact Option.noConfusion hfa2
          have hBs : PixBundle (nalSet (initState img conn) 0 true) :=
            initState_bundle img conn hwf
          obtain ⟨bF, oF, _, _⟩ := run_pix fuel (Cmd.flood 0) _ _ heq hIs hFs hBs
          rw [← hst]
          exact ⟨bF.2.2.1, bF.2.2.2.1, oF⟩
        · exact Option.noConfusion hb


/-! The painting loop of `constructImageDirectExpe` on an all-active
tree: every painted cell receives the image's own value there. -/

theorem Imgset_sizes (im : Img) (o v : Int) :
    (im.set o v).sx = im.sx ∧ (im.set o v).sy = im.sy ∧ (im.set o v).sz = im.sz ∧
    (im.set o v).data.length = im.data.length := by
  unfold Img.set
  split
  · exact ⟨rfl, rfl, rfl, List.length_set _ _ _⟩
  · exact ⟨rfl, rfl, rfl, rfl⟩

theorem Imgset_getD (im : Img) (o v : Int) (j : Nat) :
    ((im.set o v).data.getD j 0 = im.data.getD j 0) ∨
    ((im.set o v).data.getD j 0 = v ∧ 0 ≤ o ∧ j = o.toNat) := by
  unfold Img.set
  by_cases ho : 0 ≤ o
  · rw [if_pos ho]
    show (im.data.set o.toNat v).getD j 0 = _ ∨ _
    by_cases hj : j = o.toNat
    · by_cases hlt : o.toNat < im.data.length
      · rw [hj, getD_set_self _ _ _ _ hlt]
        exact Or.inr ⟨rfl, ho, rfl⟩
      · rw [hj, set_oob _ _ _ (Nat.le_of_not_lt hlt)]
        exact Or.inl rfl
    · rw [getD_set_ne _ _ _ _ _ hj]
      exact Or.inl rfl
  · rw [if_neg ho]
    exact Or.inl rfl

theorem Imgset_getD_self (im : Img) (o v : Int) (ho : 0 ≤ o)
    (hlt : o.toNat < im.data.length) : (im.set o v).data.getD o.toNat 0 = v := by
  unfold Img.set
  rw [if_pos ho]
  show (im.data.set o.toNat v).getD o.toNat 0 = v
  exact getD_set_self _ _ _ _ hlt

theorem paint_sizes : ∀ (pixels : List Int) (res : Img) (v : Int),
    (paint res pixels v).sx = res.sx ∧ (paint res pixels v).sy = res.sy ∧
    (paint res pixels v).sz = res.sz ∧
    (paint res pixels v).data.length = res.data.length := by
  intro pixels
  induction pixels with
  | nil =>
      intro res v
      exact ⟨rfl, rfl, rfl, rfl⟩
  | cons x xs ih =>
      intro res v
      have hstep := Imgset_sizes res x v
      have h2 := ih (res.set x v) v
      exact ⟨h2.1.trans hstep.1, h2.2.1.trans hstep.2.1, h2.2.2.1.trans hstep.2.2.1,
        h2.2.2.2.trans hstep.2.2.2⟩

theorem paint_getD (img : Img) : ∀ (pixels : List Int) (res : Img) (v : Int),
    (∀ o ∈ pixels, img.data.getD o.toNat 0 = v) →
    ∀ j : Nat, (paint res pixels v).data.getD j 0 = res.data.getD j 0 ∨
      (paint res pixels v).data.getD j 0 = img.data.getD j 0 := by
  intro pixels
  induction pixels with
  | nil =>
      intro res v hpx j
      exact Or.inl rfl
  | cons x xs ih =>
      intro res v hpx j
      have hx : img.data.getD x.toNat 0 = v := hpx x (List.mem_cons_self _ _)
      have h2 := ih (res.set x v) v (fun o ho => hpx o (List.mem_cons_of_mem _ ho)) j
      rcases h2 with h2 | h2
      · rcases Imgset_getD res x v j with h3 | ⟨h3, hxo, hj⟩
        · exact Or.inl (h2.trans h3)
        · have himg : img.data.getD j 0 = v := by
            rw [hj]
            exact hx
          exact Or.inr (h2.trans (h3.trans himg.symm))
      · exact Or.inr h2

theorem paint_covers (img : Img) : ∀ (pixels : List Int) (res : Img) (v : Int),
    (∀ o ∈ pixels, img.data.getD o.toNat 0 = v) →
    ∀ o ∈ pixels, 0 ≤ o → o.toNat < res.data.length →
      (paint res pixels v).data.getD o.toNat 0 = img.data.getD o.toNat 0 := by
  intro pixels
  induction pixels with
  | nil =>
      intro res v hpx o ho
      exact absurd ho (List.not_mem_nil o)
  | cons x xs ih =>
      intro res v hpx o hmem ho hlt
      have hox : img.data.getD o.toNat 0 = v := hpx o hmem
      rcases List.mem_cons.mp hmem with rfl | hmem2
      · have hset : (res.set o v).data.getD o.toNat 0 = v := Imgset_getD_self res o v ho hlt
        have h2 := paint_getD img xs (res.set o v) v
          (fun o2 ho2 => hpx o2 (List.mem_cons_of_mem _ ho2)) o.toNat
        rcases h2 with h2 | h2
        · have h3 : (paint (res.set o v) xs v).data.getD o.toNat 0
              = img.data.getD o.toNat 0 := h2.trans (hset.trans hox.symm)
          exact h3
        · exact h2
      · have hlt2 : o.toNat < (res.set x v).data.length := by
          rw [(Imgset_sizes res x v).2.2.2]
          exact hlt
        exact ih (res.set x v) v (fun o2 ho2 => hpx o2 (List.mem_cons_of_mem _ ho2))
          o hmem2 ho hlt2

theorem foldl_deact_id (v : Int) : ∀ (cs : List Nat) (pool : List Node),
    (∀ i, (getN pool i).active = true) →
    cs.foldl (fun pl c =>
      if (getN pl c).active = false then modN pl c (fun m => { m with h := v })
      else pl) pool = pool := by
  intro cs
  induction cs with
  | nil =>
      intro pool hact
      rfl
  | cons c rest ih =>
      intro pool hact
      have hc : (getN pool c).active = true := hact c
      have hstep : (if (getN pool c).active = false
          then modN pool c (fun m => { m with h := v }) else pool) = pool := by
        rw [hc]
        simp
      show rest.foldl (fun pl c2 =>
        if (getN pl c2).active = false then modN pl c2 (fun m => { m with h := v })
        else pl) (if (getN pool c).active = false
          then modN pool c (fun m => { m with h := v }) else pool) = pool
      rw [hstep]
      exact ih pool hact

theorem cideLoop_id (img : Img) :
    ∀ (fuel : Nat) (pool : List Node) (queue : List Nat) (res : Img)
      (res2 : Img) (pool2 : List Node),
    cideLoop fuel pool queue res = some (res2, pool2) →
    (∀ i, (getN pool i).active = true) →
    (∀ i o, o ∈ (getN pool i).pixels → 0 ≤ o ∧ o.toNat < res.data.length ∧
      img.data.getD o.toNat 0 = (getN pool i).h) →
    pool2 = pool ∧ res2.sx = res.sx ∧ res2.sy = res.sy ∧ res2.sz = res.sz ∧
    res2.data.length = res.data.length ∧
    (∀ j : Nat, res2.data.getD j 0 = res.data.getD j 0 ∨
      res2.data.getD j 0 = img.data.getD j 0) ∧
    (∀ j : Nat, pixCover fuel pool queue j = true →
      res2.data.getD j 0 = img.data.getD j 0) := by
  intro fuel
  induction fuel with
  | zero =>
      intro pool queue res res2 pool2 h hact hpix
      cases queue with
      | nil =>
          have h2 : some (res, pool) = some (res2, pool2) := h
          have hp := Option.some.inj h2
          obtain rfl : res = res2 := congrArg Prod.fst hp
          obtain rfl : pool = pool2 := congrArg Prod.snd hp
          exact ⟨rfl, rfl, rfl, rfl, rfl, fun j => Or.inl rfl,
            fun j hcj => Bool.noConfusion hcj⟩
      | cons t rest =>
          exact Option.noConfusion (h : (none : Option (Img × List Node))
            = some (res2, pool2))
  | succ fuel ih =>
      intro pool queue res res2 pool2 h hact hpix
      cases queue with
      | nil =>
          have h2 : some (res, pool) = some (res2, pool2) := h
          have hp := Option.some.inj h2
          obtain rfl : res = res2 := congrArg Prod.fst hp
          obtain rfl : pool = pool2 := congrArg Prod.snd hp
          exact ⟨rfl, rfl, rfl, rfl, rfl, fun j => Or.inl rfl,
            fun j hcj => Bool.noConfusion hcj⟩
      | cons t rest =>
          have hfold : (getN pool t).childs.foldl (fun pl c =>
              if (getN pl c).active = false then modN pl c
                (fun m => { m with h := (getN pool t).h })
              else pl) pool = pool :=
            foldl_deact_id (getN pool t).h (getN pool t).childs pool hact
          have h2 : cideLoop fuel pool (rest ++ (getN pool t).childs)
              (paint res (getN pool t).pixels (getN pool t).h) = some (res2, pool2) := by
            have h3 : cideLoop fuel ((getN pool t).childs.foldl (fun pl c =>
                if (getN pl c).active = false then modN pl c
                  (fun m => { m with h := (getN pool t).h })
                else pl) pool) (rest ++ (getN pool t).childs)
                (paint res (getN pool t).pixels (getN pool t).h) = some (res2, pool2) := h
            rw [hfold] at h3
            exact h3
          have hpaint := paint_sizes (getN pool t).pixels res (getN pool t).h
          have hpixv : ∀ o ∈ (getN pool t).pixels,
              img.data.getD o.toNat 0 = (getN pool t).h :=
            fun o ho => (hpix t o ho).2.2
          have hpix2 : ∀ i o, o ∈ (getN pool i).pixels → 0 ≤ o ∧
              o.toNat < (paint res (getN pool t).pixels (getN pool t).h).data.length ∧
              img.data.getD o.toNat 0 = (getN pool i).h := by
            intro i o ho
            obtain ⟨a, b, c⟩ := hpix i o ho
            refine ⟨a, ?_, c⟩
            rw [hpaint.2.2.2]
            exact b
          obtain ⟨hpool, hsx, hsy, hsz, hlen, hdich, hcov⟩ :=
            ih pool (rest ++ (getN pool t).childs)
              (paint res (getN pool t).pixels (getN pool t).h) res2 pool2 h2 hact hpix2
          refine ⟨hpool, hsx.trans hpaint.1, hsy.trans hpaint.2.1,
            hsz.trans hpaint.2.2.1, hlen.trans hpaint.2.2.2, ?_, ?_⟩
          · intro j
            rcases hdich j with hd | hd
            · rcases paint_getD img (getN pool t).pixels res (getN pool t).h hpixv j with
                hq | hq
              · exact Or.inl (hd.trans hq)
              · exact Or.inr (hd.trans hq)
            · exact Or.inr hd
          · intro j hcj
            have hcj2 : ((getN pool t).pixels.contains ((j : Int)) ||
                pixCover fuel pool (rest ++ (getN pool t).childs) j) = true := hcj
            rcases Bool.or_eq_true_iff.mp hcj2 with hc | hc
            · have hjmem : ((j : Int)) ∈ (getN pool t).pixels :=
                List.mem_of_elem_eq_true hc
              obtain ⟨ha, hb, hcv⟩ := hpix t _ hjmem
              have hpc := paint_covers img (getN pool t).pixels res (getN pool t).h hpixv
                ((j : Int)) hjmem ha hb
              rw [Int.toNat_natCast] at hpc
              rcases hdich j with hd | hd
              · exact hd.trans hpc
              · exact hd
            · exact hcov j hc

theorem cideCollect_allactive (fuel : Nat) (pool : List Node) (root : Nat)
    (hact : ∀ i, (getN pool i).active = true) :
    cideCollect (fuel + 1) pool [root] [] = some [root] := by
  show (if (getN pool root).active = true then cideCollect fuel pool [] ([] ++ [root])
    else cideCollect fuel pool ([] ++ (getN pool root).childs) []) = some [root]
  rw [if_pos (hact root)]
  cases fuel <;> rfl

/-- **C1.** Building the component tree from any image (with any
neighborhood that floods the whole image down to every pixel, expressed
by the `pixCover` side condition on the built tree) and reconstructing
under `DIRECT` with no filtering (the builder leaves every node active)
returns the input image exactly. -/
theorem direct_reconstruction_identity (fuel fuel2 : Nat) (img : Img) (conn : FlatSE)
    (root : Nat) (st : BState) (res : Img) (st2 : BState)
    (hwf : img.data.length = img.len)
    (hbuild : computeTree fuel img conn = some (root, st))
    (hrec : constructImage fuel2 st root ConstructionDecision.DIRECT = some (res, st2))
    (hcov : ∀ j : Nat, j < img.len → pixCover fuel2 st.pool [root] j = true) :
    res.sx = img.sx ∧ res.sy = img.sy ∧ res.sz = img.sz ∧ res.data = img.data := by
  obtain ⟨hpixok, hactok, hori⟩ := computeTree_pix fuel img conn root st hwf hbuild
  simp only [constructImage] at hrec
  cases fuel2 with
  | zero =>
      exact Option.noConfusion (hrec : (none : Option (Img × BState)) = some (res, st2))
  | succ f2 =>
      have hcc : cideCollect (f2 + 1) st.pool [root] [] = some [root] :=
        cideCollect_allactive f2 st.pool root hactok
      have hde : constructImageDirectExpe (f2 + 1) st.pool root
          ⟨st.oriImg.sx, st.oriImg.sy, st.oriImg.sz, List.replicate st.oriImg.len 0⟩
          = cideLoop (f2 + 1) st.pool [root]
            ((⟨st.oriImg.sx, st.oriImg.sy, st.oriImg.sz,
              List.replicate st.oriImg.len 0⟩ : Img).fill 0) := by
        simp only [constructImageDirectExpe]
        rw [hcc]
      rw [hde] at hrec
      cases hcl : cideLoop (f2 + 1) st.pool [root]
          ((⟨st.oriImg.sx, st.oriImg.sy, st.oriImg.sz,
            List.replicate st.oriImg.len 0⟩ : Img).fill 0) with
      | none =>
          rw [hcl] at hrec
          exact Option.noConfusion hrec
      | some pr =>
          rw [hcl] at hrec
          obtain ⟨resL, poolL⟩ := pr
          have hrec2 : some (resL, { st with pool := poolL }) = some (res, st2) := hrec
          have hres : resL = res := congrArg Prod.fst (Option.some.inj hrec2)
          have hpixR : ∀ i o, o ∈ (getN st.pool i).pixels → 0 ≤ o ∧
              o.toNat < ((⟨st.oriImg.sx, st.oriImg.sy, st.oriImg.sz,
                List.replicate st.oriImg.len 0⟩ : Img).fill 0).data.length ∧
              img.data.getD o.toNat 0 = (getN st.pool i).h := by
            intro i o ho
            obtain ⟨a, b, c⟩ := hpixok i o ho
            rw [hori] at b c
            refine ⟨a, ?_, c⟩
            show o.toNat < (List.replicate (List.replicate st.oriImg.len
              (0 : Int)).length (0 : Int)).length
            rw [List.length_replicate, List.length_replicate, hori]
            rw [hwf] at b
            exact b
          obtain ⟨hpool, hsx, hsy, hsz, hlen, hdich, hcovL⟩ :=
            cideLoop_id img (f2 + 1) st.pool [root] _ resL poolL hcl hactok hpixR
          refine ⟨?_, ?_, ?_, ?_⟩
          · rw [← hres, hsx]
            show st.oriImg.sx = img.sx
            rw [hori]
          · rw [← hres, hsy]
            show st.oriImg.sy = img.sy
            rw [hori]
          · rw [← hres, hsz]
            show st.oriImg.sz = img.sz
            rw [hori]
          · rw [← hres]
            have hlen2 : resL.data.length = img.data.length := by
              rw [hlen]
              show (List.replicate (List.replicate st.oriImg.len
                (0 : Int)).length (0 : Int)).length = img.data.length
              rw [List.length_replicate, List.length_replicate, hori, hwf]
            apply List.ext_getElem hlen2
            intro j hj1 hj2
            have hdg : resL.data.getD j 0 = img.data.getD j 0 := by
              apply hcovL
              apply hcov
              rw [← hwf]
              exact hj2
            rw [List.getD_eq_getElem _ _ hj1, List.getD_eq_getElem _ _ hj2] at hdg
            exact hdg

/-- Witness for C1 on the 3×1 chain image `[0, 1, 2]`: building at fuel
200 and reconstructing under `DIRECT` with no filtering returns the
input image. -/
theorem direct_reconstruction_identity_witness :
    imgChain31.data.length = imgChain31.len ∧
    computeTree 200 imgChain31 make2DN8 = some (treeChainRaw.1, treeChainRaw.2) ∧
    constructImage 200 treeChainRaw.2 treeChainRaw.1 ConstructionDecision.DIRECT =
      some (resC1, stC1) ∧
    (∀ j : Nat, j < imgChain31.len →
      pixCover 200 treeChainRaw.2.pool [treeChainRaw.1] j = true) ∧
    resC1.data = imgChain31.data :=
  ⟨by decide, rfl, rfl, by decide,
   (direct_reconstruction_identity 200 200 imgChain31 make2DN8 treeChainRaw.1
      treeChainRaw.2 resC1 stC1 (by decide) rfl rfl (by decide)).2.2.2⟩


/-! Claim C5: accounting for the contour scan.  Every scanned cell
whose probe sees the image border starts a father walk that bumps the
`contourLength` of every node up to the root, and no walk ever
decreases a counter. -/

theorem modN_father_contour (pool : List Node) (cur : Nat) (f : Node → Node)
    (hfa : ∀ n, (f n).father = n.father)
    (hcl : ∀ n, n.contourLength ≤ (f n).contourLength) :
    ∀ i, (getN (modN pool cur f) i).father = (getN pool i).father ∧
      (getN pool i).contourLength ≤ (getN (modN pool cur f) i).contourLength := by
  intro i
  by_cases hic : i = cur
  · subst hic
    by_cases hlt : i < pool.length
    · rw [getN_modN_self _ _ _ hlt]
      exact ⟨hfa _, hcl _⟩
    · rw [modN_oob _ _ _ (Nat.le_of_not_lt hlt)]
      exact ⟨rfl, le_refl _⟩
  · rw [getN_modN_ne _ _ _ _ hic]
    exact ⟨rfl, le_refl _⟩

theorem fatherReach_congr (pool1 pool2 : List Node)
    (hfa : ∀ i, (getN pool1 i).father = (getN pool2 i).father)
    (hlen : pool1.length = pool2.length) :
    ∀ (fuel : Nat) (i root : Nat),
    fatherReach fuel pool1 i root = fatherReach fuel pool2 i root := by
  intro fuel
  induction fuel with
  | zero =>
      intro i root
      rfl
  | succ fuel ih =>
      intro i root
      show (decide (i < pool1.length) &&
          (i == root || ((getN pool1 i).father.elim false (fun f =>
            (f != i) && fatherReach fuel pool1 f root)))) =
        (decide (i < pool2.length) &&
          (i == root || ((getN pool2 i).father.elim false (fun f =>
            (f != i) && fatherReach fuel pool2 f root))))
      rw [hlen, hfa i]
      cases hf : (getN pool2 i).father with
      | none => rfl
      | some f =>
          show (decide (i < pool2.length) &&
              (i == root || ((f != i) && fatherReach fuel pool1 f root))) =
            (decide (i < pool2.length) &&
              (i == root || ((f != i) && fatherReach fuel pool2 f root)))
          rw [ih f root]

theorem contourWalkMin_acct (save : Bool) (imOff : Int) :
    ∀ (fuel : Nat) (pool : List Node) (cur : Nat) (minv : Int) (pool2 : List Node),
    contourWalkMin fuel pool cur minv save imOff = some pool2 →
    (∀ i, (getN pool2 i).father = (getN pool i).father) ∧
    pool2.length = pool.length ∧
    (∀ i, (getN pool i).contourLength ≤ (getN pool2 i).contourLength) := by
  intro fuel
  induction fuel with
  | zero =>
      intro pool cur minv pool2 h
      exact Option.noConfusion (h : (none : Option (List Node)) = some pool2)
  | succ fuel ih =>
      intro pool cur minv pool2 h
      simp only [contourWalkMin] at h
      have hW := modN_father_contour pool cur (fun m =>
        { m with contourLength := m.contourLength + 1,
                 pixels_border := if save then m.pixels_border ++ [imOff]
                   else m.pixels_border })
        (fun n => rfl)
        (fun n => by
          show n.contourLength ≤ n.contourLength + 1
          omega)
      by_cases hgt : (getN pool cur).h > minv
      · rw [if_pos hgt] at h
        cases hfo : (getN pool cur).father with
        | some f =>
            rw [hfo] at h
            obtain ⟨rf, rl, rm⟩ := ih (modN pool cur (fun m =>
              { m with contourLength := m.contourLength + 1,
                       pixels_border := if save then m.pixels_border ++ [imOff]
                         else m.pixels_border })) f minv pool2 h
            exact ⟨fun i => (rf i).trans (hW i).1, rl.trans (length_modN _ _ _),
              fun i => le_trans (hW i).2 (rm i)⟩
        | none =>
            rw [hfo] at h
            have h2 : some (modN pool cur (fun m =>
                { m with contourLength := m.contourLength + 1,
                         pixels_border := if save then m.pixels_border ++ [imOff]
                           else m.pixels_border })) = some pool2 := h
            obtain rfl := Option.some.inj h2
            exact ⟨fun i => (hW i).1, length_modN _ _ _, fun i => (hW i).2⟩
      · rw [if_neg hgt] at h
        have h2 : some pool = some pool2 := h
        obtain rfl := Option.some.inj h2
        exact ⟨fun i => rfl, rfl, fun i => le_refl _⟩

theorem contourWalkBorder_acct (root : Nat) (save : Bool) (imOff : Int) :
    ∀ (fuel : Nat) (pool : List Node) (cur : Nat) (pool2 : List Node),
    contourWalkBorder fuel pool cur save imOff = some pool2 →
    (∀ i, (getN pool2 i).father = (getN pool i).father) ∧
    pool2.length = pool.length ∧
    (∀ i, (getN pool i).contourLength ≤ (getN pool2 i).contourLength) ∧
    (fatherReach fuel pool cur root = true →
      (getN pool root).contourLength + 1 ≤ (getN pool2 root).contourLength) := by
  intro fuel
  induction fuel with
  | zero =>
      intro pool cur pool2 h
      exact Option.noConfusion (h : (none : Option (List Node)) = some pool2)
  | succ fuel ih =>
      intro pool cur pool2 h
      simp only [contourWalkBorder] at h
      have hW := modN_father_contour pool cur (fun m =>
        { m with contourLength := m.contourLength + 1,
                 pixels_border := if save then m.pixels_border ++ [imOff]
                   else m.pixels_border })
        (fun n => rfl)
        (fun n => by
          show n.contourLength ≤ n.contourLength + 1
          omega)
      cases hf : (getN (modN pool cur (fun m =>
          { m with contourLength := m.contourLength + 1,
                   pixels_border := if save then m.pixels_border ++ [imOff]
                     else m.pixels_border })) cur).father with
      | none =>
          rw [hf] at h
          have h2 : some (modN pool cur (fun m =>
              { m with contourLength := m.contourLength + 1,
                       pixels_border := if save then m.pixels_border ++ [imOff]
                         else m.pixels_border })) = some pool2 := h
          obtain rfl := Option.some.inj h2
          refine ⟨fun i => (hW i).1, length_modN _ _ _, fun i => (hW i).2, ?_⟩
          intro hre
          have hre2 : (decide (cur < pool.length) && (cur == root ||
              ((getN pool cur).father.elim false (fun f2 =>
                (f2 != cur) && fatherReach fuel pool f2 root)))) = true := hre
          rw [Bool.and_eq_true] at hre2
          obtain ⟨hin, hor⟩ := hre2
          have hcur : cur < pool.length := of_decide_eq_true hin
          have hfo : (getN pool cur).father = none := by
            rw [← (hW cur).1]
            exact hf
          rw [hfo] at hor
          have hor2 : (cur == root || false) = true := hor
          have hcr : cur = root := by
            rcases Bool.or_eq_true_iff.mp hor2 with hc | hc
            · simpa using hc
            · exact Bool.noConfusion hc
          rw [← hcr, getN_modN_self _ _ _ hcur]
      | some f =>
          rw [hf] at h
          have h2 : (if f = cur then some (modN pool cur (fun m =>
              { m with contourLength := m.contourLength + 1,
                       pixels_border := if save then m.pixels_border ++ [imOff]
                         else m.pixels_border }))
            else contourWalkBorder fuel (modN pool cur (fun m =>
              { m with contourLength := m.contourLength + 1,
                       pixels_border := if save then m.pixels_border ++ [imOff]
                         else m.pixels_border })) f save imOff) = some pool2 := h
          by_cases hfc : f = cur
          · rw [if_pos hfc] at h2
            obtain rfl := Option.some.inj h2
            refine ⟨fun i => (hW i).1, length_modN _ _ _, fun i => (hW i).2, ?_⟩
            intro hre
            have hre2 : (decide (cur < pool.length) && (cur == root ||
                ((getN pool cur).father.elim false (fun f2 =>
                  (f2 != cur) && fatherReach fuel pool f2 root)))) = true := hre
            rw [Bool.and_eq_true] at hre2
            obtain ⟨hin, hor⟩ := hre2
            have hcur : cur < pool.length := of_decide_eq_true hin
            have hfo : (getN pool cur).father = some f := by
              rw [← (hW cur).1]
              exact hf
            rw [hfo] at hor
            have hor2 : (cur == root ||
                ((f != cur) && fatherReach fuel pool f root)) = true := hor
            have hcr : cur = root := by
              rcases Bool.or_eq_true_iff.mp hor2 with hc | hc
              · simpa using hc
              · rw [Bool.and_eq_true] at hc
                exact absurd hfc (bne_iff_ne.mp hc.1)
            rw [← hcr, getN_modN_self _ _ _ hcur]
          · rw [if_neg hfc] at h2
            obtain ⟨rf, rl, rm, rr⟩ := ih (modN pool cur (fun m =>
              { m with contourLength := m.contourLength + 1,
                       pixels_border := if save then m.pixels_border ++ [imOff]
                         else m.pixels_border })) f pool2 h2
            refine ⟨fun i => (rf i).trans (hW i).1,
              rl.trans (length_modN _ _ _),
              fun i => le_trans (hW i).2 (rm i), ?_⟩
            intro hre
            have hre2 : (decide (cur < pool.length) && (cur == root ||
                ((getN pool cur).father.elim false (fun f2 =>
                  (f2 != cur) && fatherReach fuel pool f2 root)))) = true := hre
            rw [Bool.and_eq_true] at hre2
            obtain ⟨hin, hor⟩ := hre2
            have hcur : cur < pool.length := of_decide_eq_true hin
            have hfo : (getN pool cur).father = some f := by
              rw [← (hW cur).1]
              exact hf
            rw [hfo] at hor
            have hor2 : (cur == root ||
                ((f != cur) && fatherReach fuel pool f root)) = true := hor
            rcases Bool.or_eq_true_iff.mp hor2 with hc | hc
            · have hcr : cur = root := by simpa using hc
              have h1 : (getN pool root).contourLength + 1
                  ≤ (getN (modN pool cur (fun m =>
                    { m with contourLength := m.contourLength + 1,
                             pixels_border := if save then m.pixels_border ++ [imOff]
                               else m.pixels_border })) root).contourLength := by
                rw [← hcr, getN_modN_self _ _ _ hcur]
              exact le_trans h1 (rm root)
            · rw [Bool.and_eq_true] at hc
              obtain ⟨hfne, hrf⟩ := hc
              have hrf2 : fatherReach fuel (modN pool cur (fun m =>
                  { m with contourLength := m.contourLength + 1,
                           pixels_border := if save then m.pixels_border ++ [imOff]
                             else m.pixels_border })) f root = true := by
                rw [fatherReach_congr _ pool (fun i => (hW i).1)
                  (length_modN _ _ _) fuel f root]
                exact hrf
              have h2b := rr hrf2
              have h3 := (hW root).2
              omega


theorem contourPixel_acct (fuel : Nat) (st : BState) (save : Bool) (root : Nat)
    (pool : List Node) (o : Nat) (pool2 : List Node)
    (h : contourPixel fuel st save pool o = some pool2)
    (hfa0 : ∀ i, (getN pool i).father = (getN st.pool i).father)
    (hlen0 : pool.length = st.pool.length) :
    (∀ i, (getN pool2 i).father = (getN pool i).father) ∧
    pool2.length = pool.length ∧
    (∀ i, (getN pool i).contourLength ≤ (getN pool2 i).contourLength) ∧
    (goodC5 fuel st root o = true →
      (getN pool root).contourLength + 1 ≤ (getN pool2 root).contourLength) := by
  simp only [contourPixel] at h
  by_cases hs0 : st.status.getD o BORDER_STATUS = BORDER_STATUS
  · rw [if_pos hs0] at h
    obtain rfl : pool = pool2 := Option.some.inj h
    refine ⟨fun i => rfl, rfl, fun i => le_refl _, ?_⟩
    intro hg
    have hg4 : ((((st.status.getD o BORDER_STATUS != BORDER_STATUS) &&
        (contourProbe st o (st.imBorder.data.getD o 0)).1) &&
        (contourProbe st o (st.imBorder.data.getD o 0)).2.1) &&
        ((if 0 ≤ st.status.getD o BORDER_STATUS then
            idxGet st (hToIndex st (st.imBorder.data.getD o 0))
              (st.status.getD o BORDER_STATUS).toNat
          else none).elim false (fun nid => fatherReach fuel st.pool nid root))) = true := hg
    rw [Bool.and_eq_true, Bool.and_eq_true, Bool.and_eq_true] at hg4
    exact absurd hs0 (bne_iff_ne.mp hg4.1.1.1)
  · rw [if_neg hs0] at h
    by_cases hpr : (contourProbe st o (st.imBorder.data.getD o 0)).1 = false
    · rw [if_pos hpr] at h
      obtain rfl : pool = pool2 := Option.some.inj h
      refine ⟨fun i => rfl, rfl, fun i => le_refl _, ?_⟩
      intro hg
      have hg4 : ((((st.status.getD o BORDER_STATUS != BORDER_STATUS) &&
          (contourProbe st o (st.imBorder.data.getD o 0)).1) &&
          (contourProbe st o (st.imBorder.data.getD o 0)).2.1) &&
          ((if 0 ≤ st.status.getD o BORDER_STATUS then
              idxGet st (hToIndex st (st.imBorder.data.getD o 0))
                (st.status.getD o BORDER_STATUS).toNat
            else none).elim false (fun nid => fatherReach fuel st.pool nid root))) = true :=
        hg
      rw [Bool.and_eq_true, Bool.and_eq_true, Bool.and_eq_true] at hg4
      exact Bool.noConfusion (hpr.symm.trans hg4.1.1.2)
    · rw [if_neg hpr] at h
      cases hidx : (if 0 ≤ st.status.getD o BORDER_STATUS then
          idxGet st (hToIndex st (st.imBorder.data.getD o 0))
            (st.status.getD o BORDER_STATUS).toNat
        else none) with
      | none =>
          rw [hidx] at h
          obtain rfl : pool = pool2 := Option.some.inj h
          refine ⟨fun i => rfl, rfl, fun i => le_refl _, ?_⟩
          intro hg
          have hg4 : ((((st.status.getD o BORDER_STATUS != BORDER_STATUS) &&
              (contourProbe st o (st.imBorder.data.getD o 0)).1) &&
              (contourProbe st o (st.imBorder.data.getD o 0)).2.1) &&
              ((if 0 ≤ st.status.getD o BORDER_STATUS then
                  idxGet st (hToIndex st (st.imBorder.data.getD o 0))
                    (st.status.getD o BORDER_STATUS).toNat
                else none).elim false (fun nid =>
                  fatherReach fuel st.pool nid root))) = true := hg
          rw [Bool.and_eq_true, Bool.and_eq_true, Bool.and_eq_true, hidx] at hg4
          exact Bool.noConfusion hg4.2
      | some nid =>
          rw [hidx] at h
          have h2 : (if (contourProbe st o (st.imBorder.data.getD o 0)).2.1 = true then
              contourWalkBorder fuel pool nid save (borderToOri st o)
            else
              match (contourProbe st o (st.imBorder.data.getD o 0)).2.2 with
              | some minv => contourWalkMin fuel pool nid minv save (borderToOri st o)
              | none => some pool) = some pool2 := h
          split at h2
          · rename_i hbd
            obtain ⟨wf, wl, wm, wr⟩ := contourWalkBorder_acct root save
              (borderToOri st o) fuel pool nid pool2 h2
            refine ⟨wf, wl, wm, ?_⟩
            intro hg
            have hg4 : ((((st.status.getD o BORDER_STATUS != BORDER_STATUS) &&
                (contourProbe st o (st.imBorder.data.getD o 0)).1) &&
                (contourProbe st o (st.imBorder.data.getD o 0)).2.1) &&
                ((if 0 ≤ st.status.getD o BORDER_STATUS then
                    idxGet st (hToIndex st (st.imBorder.data.getD o 0))
                      (st.status.getD o BORDER_STATUS).toNat
                  else none).elim false (fun nid2 =>
                    fatherReach fuel st.pool nid2 root))) = true := hg
            rw [Bool.and_eq_true, Bool.and_eq_true, Bool.and_eq_true, hidx] at hg4
            have hgD : fatherReach fuel st.pool nid root = true := hg4.2
            have hre : fatherReach fuel pool nid root = true := by
              rw [fatherReach_congr pool st.pool hfa0 hlen0 fuel nid root]
              exact hgD
            exact wr hre
          · rename_i hbd
            split at h2
            · rename_i minv hmin
              obtain ⟨wf, wl, wm⟩ := contourWalkMin_acct save (borderToOri st o)
                fuel pool nid minv pool2 h2
              refine ⟨wf, wl, wm, ?_⟩
              intro hg
              have hg4 : ((((st.status.getD o BORDER_STATUS != BORDER_STATUS) &&
                  (contourProbe st o (st.imBorder.data.getD o 0)).1) &&
                  (contourProbe st o (st.imBorder.data.getD o 0)).2.1) &&
                  ((if 0 ≤ st.status.getD o BORDER_STATUS then
                      idxGet st (hToIndex st (st.imBorder.data.getD o 0))
                        (st.status.getD o BORDER_STATUS).toNat
                    else none).elim false (fun nid2 =>
                      fatherReach fuel st.pool nid2 root))) = true := hg
              rw [Bool.and_eq_true, Bool.and_eq_true, Bool.and_eq_true] at hg4
              exact absurd hg4.1.2 hbd
            · rename_i hmin
              obtain rfl : pool = pool2 := Option.some.inj h2
              refine ⟨fun i => rfl, rfl, fun i => le_refl _, ?_⟩
              intro hg
              have hg4 : ((((st.status.getD o BORDER_STATUS != BORDER_STATUS) &&
                  (contourProbe st o (st.imBorder.data.getD o 0)).1) &&
                  (contourProbe st o (st.imBorder.data.getD o 0)).2.1) &&
                  ((if 0 ≤ st.status.getD o BORDER_STATUS then
                      idxGet st (hToIndex st (st.imBorder.data.getD o 0))
                        (st.status.getD o BORDER_STATUS).toNat
                    else none).elim false (fun nid2 =>
                      fatherReach fuel st.pool nid2 root))) = true := hg
              rw [Bool.and_eq_true, Bool.and_eq_true, Bool.and_eq_true] at hg4
              exact absurd hg4.1.2 hbd

theorem contourScan_acct (fuel : Nat) (st : BState) (save : Bool) (root : Nat) :
    ∀ (L : List Nat) (pool : List Node) (pool2 : List Node),
    contourScan fuel st save pool L = some pool2 →
    (∀ i, (getN pool i).father = (getN st.pool i).father) →
    pool.length = st.pool.length →
    (∀ i, (getN pool2 i).father = (getN st.pool i).father) ∧
    pool2.length = st.pool.length ∧
    (getN pool root).contourLength + (L.countP (goodC5 fuel st root) : Int) ≤
      (getN pool2 root).contourLength := by
  intro L
  induction L with
  | nil =>
      intro pool pool2 h hfa hlen
      obtain rfl : pool = pool2 := Option.some.inj h
      refine ⟨hfa, hlen, ?_⟩
      rw [List.countP_nil]
      simp
  | cons o rest ih =>
      intro pool pool2 h hfa hlen
      simp only [contourScan] at h
      cases hcp : contourPixel fuel st save pool o with
      | none =>
          rw [hcp] at h
          exact Option.noConfusion h
      | some pool1 =>
          rw [hcp] at h
          obtain ⟨pf, pl, pm, pr⟩ := contourPixel_acct fuel st save root pool o pool1
            hcp hfa hlen
          have hfa1 : ∀ i, (getN pool1 i).father = (getN st.pool i).father :=
            fun i => (pf i).trans (hfa i)
          have hlen1 : pool1.length = st.pool.length := pl.trans hlen
          obtain ⟨qf, ql, qcount⟩ := ih pool1 pool2 h hfa1 hlen1
          refine ⟨qf, ql, ?_⟩
          rw [List.countP_cons]
          by_cases hg : goodC5 fuel st root o = true
          · have hstep := pr hg
            rw [if_pos hg]
            push_cast
            omega
          · have hmono := pm root
            rw [if_neg hg]
            push_cast
            omega

/-- Counterexample to C5 as stated: on the non-constant 2×2 2D image
`[0, 1, 0, 0]` under 8-connectivity, the contour scan leaves the root
with `contourLength = 4`, which is less than `2·(W+H) = 8`: only the
`2·(W+H) − 4` frame pixels (corners counted once) probe the border. -/
theorem contour_root_counterexample :
    (∃ a ∈ imgSq22.data, ∃ b ∈ imgSq22.data, a ≠ b) ∧
    imgSq22.sz = 1 ∧
    computeTree 100 imgSq22 make2DN8 = some (treeSq22.1, treeSq22.2) ∧
    computeContourPass 100 treeSq22.2 false = some stSq22 ∧
    (getN stSq22.pool treeSq22.1).contourLength <
      2 * ((imgSq22.sx : Int) + (imgSq22.sy : Int)) := by
  refine ⟨⟨0, ?_, 1, ?_, ?_⟩, rfl, rfl, rfl, ?_⟩
  · decide
  · decide
  · decide
  · decide


theorem contourProbe_eq (st : BState) (o : Nat) (v : Int) :
    contourProbe st o v = st.seOff.foldl (probeStep st o v) (false, false, none) := rfl

theorem probeStep_mono (st : BState) (o : Nat) (v : Int)
    (a : Bool × Bool × Option Int) (d : Int)
    (h1 : a.1 = true) (h2 : a.2.1 = true) :
    (probeStep st o v a d).1 = true ∧ (probeStep st o v a d).2.1 = true := by
  simp only [probeStep]
  by_cases hb : statusGet st ((o : Int) + d) ≠ BORDER_STATUS
  · rw [if_pos hb]
    by_cases hv : v > st.imBorder.get ((o : Int) + d)
    · rw [if_pos hv]
      exact ⟨rfl, h2⟩
    · rw [if_neg hv]
      exact ⟨h1, h2⟩
  · rw [if_neg hb]
    exact ⟨rfl, rfl⟩

theorem probe_fold_mono (st : BState) (o : Nat) (v : Int) :
    ∀ (L : List Int) (a : Bool × Bool × Option Int), a.1 = true → a.2.1 = true →
    (L.foldl (probeStep st o v) a).1 = true ∧
    (L.foldl (probeStep st o v) a).2.1 = true := by
  intro L
  induction L with
  | nil =>
      intro a h1 h2
      exact ⟨h1, h2⟩
  | cons d L2 ih =>
      intro a h1 h2
      obtain ⟨k1, k2⟩ := probeStep_mono st o v a d h1 h2
      rw [List.foldl_cons]
      exact ih (probeStep st o v a d) k1 k2

theorem probe_fold_hit (st : BState) (o : Nat) (v : Int) :
    ∀ (L : List Int) (a : Bool × Bool × Option Int),
    (∃ d ∈ L, statusGet st ((o : Int) + d) = BORDER_STATUS) →
    (L.foldl (probeStep st o v) a).1 = true ∧
    (L.foldl (probeStep st o v) a).2.1 = true := by
  intro L
  induction L with
  | nil =>
      intro a h
      obtain ⟨d, hd, _⟩ := h
      exact absurd hd (List.not_mem_nil d)
  | cons d0 L2 ih =>
      intro a h
      obtain ⟨d, hd, hb⟩ := h
      rw [List.foldl_cons]
      rcases List.mem_cons.mp hd with rfl | hd2
      · have hstep : probeStep st o v a d = (true, true, some st.hMin) := by
          simp only [probeStep]
          rw [if_neg (not_not_intro hb)]
        rw [hstep]
        exact probe_fold_mono st o v L2 (true, true, some st.hMin) rfl rfl
      · exact ih (probeStep st o v a d0) ⟨d, hd2, hb⟩

theorem probe_border (st : BState) (o : Nat) (v : Int) (d : Int)
    (hd : d ∈ st.seOff) (hb : statusGet st ((o : Int) + d) = BORDER_STATUS) :
    (contourProbe st o v).1 = true ∧ (contourProbe st o v).2.1 = true := by
  rw [contourProbe_eq]
  exact probe_fold_hit st o v st.seOff (false, false, none) ⟨d, hd, hb⟩

theorem getD_replicate {α : Type} (n i : Nat) (d : α) :
    (List.replicate n d).getD i d = d := by
  induction n generalizing i with
  | zero => cases i <;> rfl
  | succ m ih =>
      cases i with
      | zero => rfl
      | succ k => exact ih k

theorem statusSet_seOff (st : BState) (q v : Int) :
    (statusSet st q v).seOff = st.seOff := by
  unfold statusSet
  split <;> rfl

theorem InteriorB_fields {st st2 : BState} (hb : st2.imBorder = st.imBorder)
    (hk : st2.back = st.back) (ho : st2.oriImg = st.oriImg) (o : Nat) :
    InteriorB st2 o ↔ InteriorB st o := by
  unfold InteriorB
  rw [hb, hk, ho]

theorem RingB_of_fields {st st2 : BState} (hs : st2.status = st.status)
    (hqe : st2.hq = st.hq) (hb : st2.imBorder = st.imBorder)
    (hk : st2.back = st.back) (ho : st2.oriImg = st.oriImg)
    (hR : RingB st) : RingB st2 := by
  obtain ⟨h1, h2⟩ := hR
  constructor
  · intro o hno
    rw [show st2.status.getD o BORDER_STATUS = st.status.getD o BORDER_STATUS from by
      rw [hs]]
    exact h1 o (fun hI => hno ((InteriorB_fields hb hk ho o).mpr hI))
  · intro l p hp
    have hp2 : p ∈ hqGet st l := by
      show p ∈ st.hq.getD l []
      rw [← hqe]
      exact hp
    obtain ⟨hp0, hpi⟩ := h2 l p hp2
    exact ⟨hp0, (InteriorB_fields hb hk ho p.toNat).mpr hpi⟩

theorem ring_statusSet (st : BState) (q v : Int) (hq0 : 0 ≤ q)
    (hqi : InteriorB st q.toNat) (hR : RingB st) : RingB (statusSet st q v) := by
  obtain ⟨h1, h2⟩ := hR
  constructor
  · intro o hno
    have hno2 : ¬ InteriorB st o := fun hI => hno
      ((InteriorB_fields (statusSet_imBorder st q v) (statusSet_back st q v)
        (statusSet_oriImg st q v) o).mpr hI)
    have hne : o ≠ q.toNat := fun he => hno2 (by rw [he]; exact hqi)
    have hst : (statusSet st q v).status = st.status.set q.toNat v := by
      unfold statusSet
      rw [if_pos hq0]
    rw [hst, getD_set_ne _ _ _ _ _ hne]
    exact h1 o hno2
  · intro l p hp
    have hp2 : p ∈ hqGet st l := by
      show p ∈ st.hq.getD l []
      rw [← statusSet_hq st q v]
      exact hp
    obtain ⟨hp0, hpi⟩ := h2 l p hp2
    exact ⟨hp0, (InteriorB_fields (statusSet_imBorder st q v) (statusSet_back st q v)
      (statusSet_oriImg st q v) p.toNat).mpr hpi⟩

theorem ring_hqPush (st : BState) (l : Nat) (q : Int) (hq0 : 0 ≤ q)
    (hqi : InteriorB st q.toNat) (hR : RingB st) : RingB (hqPush st l q) := by
  obtain ⟨h1, h2⟩ := hR
  constructor
  · intro o hno
    exact h1 o (fun hI => hno ((InteriorB_fields rfl rfl rfl o).mpr hI))
  · intro l2 p hp
    have hp3 : p ∈ (st.hq.set l (hqGet st l ++ [q])).getD l2 [] := hp
    have hgoal : 0 ≤ p ∧ InteriorB st p.toNat →
        0 ≤ p ∧ InteriorB (hqPush st l q) p.toNat :=
      fun h => ⟨h.1, (InteriorB_fields rfl rfl rfl p.toNat).mpr h.2⟩
    by_cases hl : l2 = l
    · subst hl
      by_cases hlen : l2 < st.hq.length
      · rw [getD_set_self _ _ _ _ hlen] at hp3
        rcases List.mem_append.mp hp3 with hin | hin
        · exact hgoal (h2 l2 p hin)
        · obtain rfl : p = q := List.mem_singleton.mp hin
          exact hgoal ⟨hq0, hqi⟩
      · rw [set_oob _ _ _ (Nat.le_of_not_lt hlen)] at hp3
        exact hgoal (h2 l2 p hp3)
    · rw [getD_set_ne _ _ _ _ _ hl] at hp3
      exact hgoal (h2 l2 p hp3)

theorem ring_hqSet (st : BState) (l : Nat) (v : List Int)
    (hsub : ∀ x ∈ v, x ∈ hqGet st l) (hR : RingB st) : RingB (hqSet st l v) := by
  obtain ⟨h1, h2⟩ := hR
  constructor
  · intro o hno
    exact h1 o (fun hI => hno ((InteriorB_fields rfl rfl rfl o).mpr hI))
  · intro l2 p hp
    have hp3 : p ∈ (st.hq.set l v).getD l2 [] := hp
    have hgoal : 0 ≤ p ∧ InteriorB st p.toNat →
        0 ≤ p ∧ InteriorB (hqSet st l v) p.toNat :=
      fun h => ⟨h.1, (InteriorB_fields rfl rfl rfl p.toNat).mpr h.2⟩
    by_cases hl : l2 = l
    · subst hl
      by_cases hlen : l2 < st.hq.length
      · rw [getD_set_self _ _ _ _ hlen] at hp3
        exact hgoal (h2 l2 p (hsub p hp3))
      · rw [set_oob _ _ _ (Nat.le_of_not_lt hlen)] at hp3
        exact hgoal (h2 l2 p hp3)
    · rw [getD_set_ne _ _ _ _ _ hl] at hp3
      exact hgoal (h2 l2 p hp3)


theorem popStep_seOff (st : BState) (h : Nat) (p : Int) :
    (popStep st h p).seOff = st.seOff := by
  cases hidx : idxGet (statusSet st p (nnGet st h)) h (nnGet st h).toNat with
  | some nid =>
      have hps : popStep st h p = updAttrStep (statusSet st p (nnGet st h)) nid p := by
        simp only [popStep]
        rw [hidx]
      rw [hps]
      exact statusSet_seOff st p _
  | none =>
      have hps : popStep st h p = updAttrStep
          (idxSet (newNode (statusSet st p (nnGet st h))
              (indexToH (statusSet st p (nnGet st h)) h) (nnGet st h)).2 h
            (nnGet st h).toNat
            (some (newNode (statusSet st p (nnGet st h))
              (indexToH (statusSet st p (nnGet st h)) h) (nnGet st h)).1))
          (newNode (statusSet st p (nnGet st h))
            (indexToH (statusSet st p (nnGet st h)) h) (nnGet st h)).1 p := by
        simp only [popStep]
        rw [hidx]
      rw [hps]
      exact statusSet_seOff st p _

theorem ring_popStep (st : BState) (h : Nat) (p : Int) (hp0 : 0 ≤ p)
    (hpi : InteriorB st p.toNat) (hR : RingB st) : RingB (popStep st h p) := by
  have hR1 : RingB (statusSet st p (nnGet st h)) := ring_statusSet st p _ hp0 hpi hR
  cases hidx : idxGet (statusSet st p (nnGet st h)) h (nnGet st h).toNat with
  | some nid =>
      have hps : popStep st h p = updAttrStep (statusSet st p (nnGet st h)) nid p := by
        simp only [popStep]
        rw [hidx]
      rw [hps]
      exact RingB_of_fields rfl rfl rfl rfl rfl hR1
  | none =>
      have hps : popStep st h p = updAttrStep
          (idxSet (newNode (statusSet st p (nnGet st h))
              (indexToH (statusSet st p (nnGet st h)) h) (nnGet st h)).2 h
            (nnGet st h).toNat
            (some (newNode (statusSet st p (nnGet st h))
              (indexToH (statusSet st p (nnGet st h)) h) (nnGet st h)).1))
          (newNode (statusSet st p (nnGet st h))
            (indexToH (statusSet st p (nnGet st h)) h) (nnGet st h)).1 p := by
        simp only [popStep]
        rw [hidx]
      rw [hps]
      exact RingB_of_fields rfl rfl rfl rfl rfl hR1

theorem linkFather_shq (st : BState) (m : Nat) :
    (linkFather st m).2.status = st.status ∧ (linkFather st m).2.hq = st.hq ∧
    (linkFather st m).2.seOff = st.seOff := by
  cases hidx : idxGet st m (nnGet st m).toNat with
  | some fid =>
      have hlf : linkFather st m = (fid, st) := by
        simp only [linkFather]
        rw [hidx]
      rw [hlf]
      exact ⟨rfl, rfl, rfl⟩
  | none =>
      have hlf : linkFather st m =
          ((newNode st (indexToH st m) (nnGet st m)).1,
           idxSet (newNode st (indexToH st m) (nnGet st m)).2 m (nnGet st m).toNat
             (some (newNode st (indexToH st m) (nnGet st m)).1)) := by
        simp only [linkFather]
        rw [hidx]
      rw [hlf]
      exact ⟨rfl, rfl, rfl⟩

theorem linkStep_shq (st : BState) (h m : Nat) :
    (linkStep st h m).status = st.status ∧ (linkStep st h m).hq = st.hq ∧
    (linkStep st h m).seOff = st.seOff := by
  cases hidx : idxGet (linkFather st m).2 h ((nnGet st h - 1).toNat) with
  | some cid =>
      have hls : linkStep st h m = modPool (modPool (linkFather st m).2 cid
          (fun n => { n with father := some (linkFather st m).1 }))
          (linkFather st m).1 (fun n => { n with childs := n.childs ++ [cid] }) := by
        simp only [linkStep]
        rw [hidx]
      rw [hls]
      exact linkFather_shq st m
  | none =>
      have hls : linkStep st h m = (linkFather st m).2 := by
        simp only [linkStep]
        rw [hidx]
      rw [hls]
      exact linkFather_shq st m

theorem rootLinkStep_shq (st : BState) :
    (rootLinkStep st).status = st.status ∧ (rootLinkStep st).hq = st.hq ∧
    (rootLinkStep st).seOff = st.seOff := by
  cases hidx : idxGet st 0 0 with
  | some rid =>
      have hrl : rootLinkStep st = modPool st rid
          (fun n => { n with father := some rid }) := by
        simp only [rootLinkStep]
        rw [hidx]
      rw [hrl]
      exact ⟨rfl, rfl, rfl⟩
  | none =>
      have hrl : rootLinkStep st = st := by
        simp only [rootLinkStep]
        rw [hidx]
      rw [hrl]
      exact ⟨rfl, rfl, rfl⟩

theorem floodTail_shq (st : BState) (h : Nat) :
    (floodTail st h).2.status = st.status ∧ (floodTail st h).2.hq = st.hq ∧
    (floodTail st h).2.seOff = st.seOff := by
  have hft : (floodTail st h).2 = nalSet
      (if 0 ≤ (if h = 0 then (-1 : Int)
          else scanLevel (nnSet st h (nnGet st h + 1)) (h - 1)) then
        linkStep (nnSet st h (nnGet st h + 1)) h
          (if h = 0 then (-1 : Int)
            else scanLevel (nnSet st h (nnGet st h + 1)) (h - 1)).toNat
       else rootLinkStep (nnSet st h (nnGet st h + 1))) h false := rfl
  rw [hft]
  by_cases hm : 0 ≤ (if h = 0 then (-1 : Int)
      else scanLevel (nnSet st h (nnGet st h + 1)) (h - 1))
  · rw [if_pos hm]
    exact linkStep_shq (nnSet st h (nnGet st h + 1)) h _
  · rw [if_neg hm]
    exact rootLinkStep_shq (nnSet st h (nnGet st h + 1))

theorem ring_floodTail (st : BState) (h : Nat) (hR : RingB st) :
    RingB (floodTail st h).2 := by
  obtain ⟨s1, s2, _⟩ := floodTail_shq st h
  obtain ⟨f1, f2, f3⟩ := floodTail_fields st h
  exact RingB_of_fields s1 s2 f2 f3 f1 hR

theorem ring_nbrs (st : BState) (l : Nat) (q : Int)
    (hact : statusGet st q = ACTIVE) (hR : RingB st) :
    RingB (nalSet (statusSet (hqPush st l q) q NOT_ACTIVE) l true) := by
  have hq0 : 0 ≤ q := by
    by_contra h0
    have hb : statusGet st q = BORDER_STATUS := by
      unfold statusGet
      rw [if_neg h0]
    rw [hact] at hb
    exact absurd hb (by decide)
  have hqi : InteriorB st q.toNat := by
    by_contra hni
    have hb : st.status.getD q.toNat BORDER_STATUS = BORDER_STATUS := hR.1 q.toNat hni
    have hact2 : st.status.getD q.toNat BORDER_STATUS = ACTIVE := by
      have hgq : statusGet st q = st.status.getD q.toNat BORDER_STATUS := by
        unfold statusGet
        rw [if_pos hq0]
      rw [← hgq]
      exact hact
    rw [hact2] at hb
    exact absurd hb (by decide)
  have hR1 : RingB (hqPush st l q) := ring_hqPush st l q hq0 hqi hR
  have hqi1 : InteriorB (hqPush st l q) q.toNat :=
    (InteriorB_fields rfl rfl rfl q.toNat).mpr hqi
  have hR2 : RingB (statusSet (hqPush st l q) q NOT_ACTIVE) :=
    ring_statusSet (hqPush st l q) q NOT_ACTIVE hq0 hqi1 hR1
  exact RingB_of_fields rfl rfl rfl rfl rfl hR2

/-- The border-ring machine invariant: every step of the flooding
machine preserves `RingB`, and never changes the original image, the
bordered image, the border widths or the flat neighbor offsets. -/
theorem run_ring :
    ∀ (fuel : Nat) (cmd : Cmd) (st : BState) (r : Int × BState),
    run fuel cmd st = some r → RingB st →
    RingB r.2 ∧ r.2.oriImg = st.oriImg ∧ r.2.imBorder = st.imBorder ∧
      r.2.back = st.back ∧ r.2.seOff = st.seOff := by
  intro fuel
  induction fuel with
  | zero =>
      intro cmd st r h _
      exact Option.noConfusion (h : (none : Option (Int × BState)) = some r)
  | succ fuel ih =>
      intro cmd st r h hR
      cases cmd with
      | flood hh =>
          simp only [run] at h
          cases hw : run fuel (Cmd.fwhile hh) st with
          | none =>
              rw [hw] at h
              exact Option.noConfusion h
          | some pr =>
              rw [hw] at h
              obtain ⟨v, st1⟩ := pr
              have h3 : some (floodTail st1 hh) = some r := h
              obtain rfl : floodTail st1 hh = r := Option.some.inj h3
              obtain ⟨b1, o1, i1, k1, s1⟩ := ih _ _ _ hw hR
              obtain ⟨fo, fi, fk⟩ := floodTail_fields st1 hh
              obtain ⟨_, _, gso⟩ := floodTail_shq st1 hh
              exact ⟨ring_floodTail st1 hh b1, fo.trans o1, fi.trans i1,
                fk.trans k1, gso.trans s1⟩
      | fwhile hh =>
          simp only [run] at h
          cases hq : hqGet st hh with
          | nil =>
              rw [hq] at h
              have h2 : some ((0 : Int), st) = some r := h
              obtain rfl : ((0 : Int), st) = r := Option.some.inj h2
              exact ⟨hR, rfl, rfl, rfl, rfl⟩
          | cons p rest =>
              rw [hq] at h
              have h2 : (match run fuel
                  (Cmd.fnbrs hh p (popStep (hqSet st hh rest) hh p).seOff)
                  (popStep (hqSet st hh rest) hh p) with
                | none => none
                | some (_, st3) => run fuel (Cmd.fwhile hh) st3) = some r := h
              have hpmem : p ∈ hqGet st hh := by
                rw [hq]
                exact List.mem_cons_self _ _
              obtain ⟨hp0, hpi⟩ := hR.2 hh p hpmem
              have hRq : RingB (hqSet st hh rest) :=
                ring_hqSet st hh rest (fun x hx => by
                  rw [hq]
                  exact List.mem_cons_of_mem _ hx) hR
              have hpiq : InteriorB (hqSet st hh rest) p.toNat :=
                (InteriorB_fields rfl rfl rfl p.toNat).mpr hpi
              have hR2 : RingB (popStep (hqSet st hh rest) hh p) :=
                ring_popStep (hqSet st hh rest) hh p hp0 hpiq hRq
              obtain ⟨po, pi2, pk⟩ := popStep_fields (hqSet st hh rest) hh p
              have ps := popStep_seOff (hqSet st hh rest) hh p
              cases hrn : run fuel (Cmd.fnbrs hh p (popStep (hqSet st hh rest) hh p).seOff)
                  (popStep (hqSet st hh rest) hh p) with
              | none =>
                  rw [hrn] at h2
                  exact Option.noConfusion h2
              | some pr2 =>
                  rw [hrn] at h2
                  obtain ⟨v2, st3⟩ := pr2
                  have h3 : run fuel (Cmd.fwhile hh) st3 = some r := h2
                  obtain ⟨b1, o1, i1, k1, s1⟩ := ih _ _ _ hrn hR2
                  obtain ⟨b2, o2, i2, k2, s2⟩ := ih _ _ _ h3 b1
                  exact ⟨b2, (o2.trans o1).trans po, (i2.trans i1).trans pi2,
                    (k2.trans k1).trans pk, (s2.trans s1).trans ps⟩
      | fnbrs hh p offs =>
          cases offs with
          | nil =>
              simp only [run] at h
              obtain rfl : ((0 : Int), st) = r := Option.some.inj h
              exact ⟨hR, rfl, rfl, rfl, rfl⟩
          | cons off rest =>
              simp only [run] at h
              split at h
              · rename_i hactive
                have hRs : RingB (nalSet (statusSet (hqPush st
                    (hToIndex st (st.imBorder.get (p + off))) (p + off))
                    (p + off) NOT_ACTIVE) (hToIndex st (st.imBorder.get (p + off)))
                    true) :=
                  ring_nbrs st (hToIndex st (st.imBorder.get (p + off))) (p + off)
                    hactive hR
                have ho0 : (nalSet (statusSet (hqPush st
                    (hToIndex st (st.imBorder.get (p + off))) (p + off))
                    (p + off) NOT_ACTIVE) (hToIndex st (st.imBorder.get (p + off)))
                    true).oriImg = st.oriImg := statusSet_oriImg _ _ _
                have hi0 : (nalSet (statusSet (hqPush st
                    (hToIndex st (st.imBorder.get (p + off))) (p + off))
                    (p + off) NOT_ACTIVE) (hToIndex st (st.imBorder.get (p + off)))
                    true).imBorder = st.imBorder := statusSet_imBorder _ _ _
                have hk0 : (nalSet (statusSet (hqPush st
                    (hToIndex st (st.imBorder.get (p + off))) (p + off))
                    (p + off) NOT_ACTIVE) (hToIndex st (st.imBorder.get (p + off)))
                    true).back = st.back := statusSet_back _ _ _
                have hsf : (nalSet (statusSet (hqPush st
                    (hToIndex st (st.imBorder.get (p + off))) (p + off))
                    (p + off) NOT_ACTIVE) (hToIndex st (st.imBorder.get (p + off)))
                    true).seOff = st.seOff := statusSet_seOff _ _ _
                split at h
                · split at h
                  · exact Option.noConfusion h
                  · rename_i v4 st4 heq
                    obtain ⟨b1, o1, i1, k1, s1⟩ := ih _ _ _ heq hRs
                    obtain ⟨b2, o2, i2, k2, s2⟩ := ih _ _ _ h b1
                    exact ⟨b2, (o2.trans o1).trans ho0, (i2.trans i1).trans hi0,
                      (k2.trans k1).trans hk0, (s2.trans s1).trans hsf⟩
                · obtain ⟨b1, o1, i1, k1, s1⟩ := ih _ _ _ h hRs
                  exact ⟨b1, o1.trans ho0, i1.trans hi0, k1.trans hk0, s1.trans hsf⟩
              · exact ih _ _ _ h hR
      | funtil m hh =>
          simp only [run] at h
          cases hrn : run fuel (Cmd.flood m) st with
          | none =>
              rw [hrn] at h
              exact Option.noConfusion h
          | some pr =>
              rw [hrn] at h
              obtain ⟨m2, st1⟩ := pr
              obtain ⟨b1, o1, i1, k1, s1⟩ := ih _ _ _ hrn hR
              have h2 : (if m2 = (hh : Int) then some (m2, st1)
                else run fuel (Cmd.funtil m2.toNat hh) st1) = some r := h
              by_cases he : m2 = (hh : Int)
              · rw [if_pos he] at h2
                obtain rfl : (m2, st1) = r := Option.some.inj h2
                exact ⟨b1, o1, i1, k1, s1⟩
              · rw [if_neg he] at h2
                obtain ⟨b2, o2, i2, k2, s2⟩ := ih _ _ _ h2 b1
                exact ⟨b2, o2.trans o1, i2.trans i1, k2.trans k1, s2.trans s1⟩


theorem addBorders_length (im : Img) (back front : Int × Int × Int) (v : Int) :
    (addBorders im back front v).data.length =
      (im.sx + back.1.toNat + front.1.toNat) *
      (im.sy + back.2.1.toNat + front.2.1.toNat) *
      (im.sz + back.2.2.toNat + front.2.2.toNat) := by
  simp only [addBorders]
  rw [List.length_map, List.length_range]

theorem addBorders_getD_out (im : Img) (back front : Int × Int × Int) (v : Int)
    (q : Nat) (d : Int)
    (hq : q < (im.sx + back.1.toNat + front.1.toNat) *
        (im.sy + back.2.1.toNat + front.2.1.toNat) *
        (im.sz + back.2.2.toNat + front.2.2.toNat))
    (hcond : ¬ (back.1.toNat ≤ q % (im.sx + back.1.toNat + front.1.toNat) ∧
      q % (im.sx + back.1.toNat + front.1.toNat) < back.1.toNat + im.sx ∧
      back.2.1.toNat ≤ q / (im.sx + back.1.toNat + front.1.toNat) %
        (im.sy + back.2.1.toNat + front.2.1.toNat) ∧
      q / (im.sx + back.1.toNat + front.1.toNat) %
        (im.sy + back.2.1.toNat + front.2.1.toNat) < back.2.1.toNat + im.sy ∧
      back.2.2.toNat ≤ q / ((im.sx + back.1.toNat + front.1.toNat) *
        (im.sy + back.2.1.toNat + front.2.1.toNat)) ∧
      q / ((im.sx + back.1.toNat + front.1.toNat) *
        (im.sy + back.2.1.toNat + front.2.1.toNat)) < back.2.2.toNat + im.sz)) :
    (addBorders im back front v).data.getD q d = v := by
  simp only [addBorders]
  rw [range_map_getD _ _ _ hq]
  rw [if_neg hcond]

theorem initState_ring (img : Img) (conn : FlatSE) : RingB (initState img conn) := by
  constructor
  · intro o hno
    have hstat : (initState img conn).status =
        (addBorders { sx := img.sx, sy := img.sy, sz := img.sz,
                      data := List.replicate img.len ACTIVE }
          (seNegOffsets conn) (sePosOffsets conn) BORDER_STATUS).data := rfl
    rw [hstat]
    by_cases hlt : o <
        (img.sx + (seNegOffsets conn).1.toNat + (sePosOffsets conn).1.toNat) *
        (img.sy + (seNegOffsets conn).2.1.toNat + (sePosOffsets conn).2.1.toNat) *
        (img.sz + (seNegOffsets conn).2.2.toNat + (sePosOffsets conn).2.2.toNat)
    · exact addBorders_getD_out _ _ _ _ o BORDER_STATUS hlt (fun hc => hno hc)
    · rw [List.getD_eq_default]
      rw [addBorders_length]
      exact Nat.le_of_not_lt hlt
  · intro l p hp
    have hp2 : p ∈ (List.replicate ((img.getMax - img.getMin + 1).toNat)
        ([] : List Int)).getD l [] := hp
    rw [getD_replicate] at hp2
    exact absurd hp2 (List.not_mem_nil p)

theorem computeTree_ring (fuel : Nat) (img : Img) (conn : FlatSE) (root : Nat)
    (st : BState) (hb : computeTree fuel img conn = some (root, st)) :
    RingB st ∧ st.oriImg = img ∧
    st.imBorder = addBorders img (seNegOffsets conn) (sePosOffsets conn) BORDER ∧
    st.back = seNegOffsets conn ∧
    st.seOff = seFlatOffsets conn
      (addBorders img (seNegOffsets conn) (sePosOffsets conn) BORDER).sx
      (addBorders img (seNegOffsets conn) (sePosOffsets conn) BORDER).sy ∧
    IndexOK st := by
  cases hfs : findSeed (initState img conn) with
  | some s =>
      simp only [computeTree] at hb
      rw [hfs] at hb
      split at hb
      · exact Option.noConfusion hb
      · rename_i v st2 heq
        split at hb
        · rename_i root2 hidx
          have hpair : (root2, st2) = (root, st) := Option.some.inj hb
          have hst : st2 = st := congrArg Prod.snd hpair
          have hfind := List.find?_some hfs
          have hfind2 : (((initState img conn).imBorder.data.getD s 0
                == (initState img conn).hMin) &&
              ((initState img conn).status.getD s BORDER_STATUS == ACTIVE)) = true :=
            hfind
          rw [Bool.and_eq_true] at hfind2
          have hv2 : (initState img conn).status.getD s BORDER_STATUS = ACTIVE :=
            eq_of_beq hfind2.2
          have hRinit : RingB (initState img conn) := initState_ring img conn
          have hsi : InteriorB (initState img conn) ((s : Int)).toNat := by
            by_contra hni
            have hb2 := hRinit.1 ((s : Int)).toNat hni
            rw [Int.toNat_natCast] at hb2
            rw [hv2] at hb2
            exact absurd hb2 (by decide)
          have hRs : RingB (nalSet (hqPush (initState img conn) 0 (s : Int)) 0 true) := by
            have hR1 : RingB (hqPush (initState img conn) 0 (s : Int)) :=
              ring_hqPush _ 0 _ (Int.natCast_nonneg s) hsi hRinit
            exact RingB_of_fields rfl rfl rfl rfl rfl hR1
          obtain ⟨bF, oF, iF, kF, sF⟩ := run_ring fuel (Cmd.flood 0) _ _ heq hRs
          have hIs : IndexOK (nalSet (hqPush (initState img conn) 0 (s : Int)) 0 true) := by
            intro l j nid hx
            have hx2 : idxGet (initState img conn) l j = some nid := hx
            rw [initState_idx_none img conn l j] at hx2
            exact Option.noConfusion hx2
          have hFs : FatherOK
              (nalSet (hqPush (initState img conn) 0 (s : Int)) 0 true).pool := by
            intro i q hfa
            have hfa2 : (getN [] i).father = some q := hfa
            rw [getN_oob [] i (Nat.zero_le i)] at hfa2
            exact Option.noConfusion hfa2
          obtain ⟨aI, _, _⟩ := run_pres fuel _ _ _ heq hIs hFs
          rw [← hst]
          exact ⟨bF, oF, iF, kF, sF, aI⟩
        · exact Option.noConfusion hb
  | none =>
      simp only [computeTree] at hb
      rw [hfs] at hb
      split at hb
      · exact Option.noConfusion hb
      · rename_i v st2 heq
        split at hb
        · rename_i root2 hidx
          have hpair : (root2, st2) = (root, st) := Option.some.inj hb
          have hst : st2 = st := congrArg Prod.snd hpair
          have hRs : RingB (nalSet (initState img conn) 0 true) :=
            RingB_of_fields rfl rfl rfl rfl rfl (initState_ring img conn)
          obtain ⟨bF, oF, iF, kF, sF⟩ := run_ring fuel (Cmd.flood 0) _ _ heq hRs
          have hIs : IndexOK (nalSet (initState img conn) 0 true) := by
            intro l j nid hx
            have hx2 : idxGet (initState img conn) l j = some nid := hx
            rw [initState_idx_none img conn l j] at hx2
            exact Option.noConfusion hx2
          have hFs : FatherOK (nalSet (initState img conn) 0 true).pool := by
            intro i q hfa
            have hfa2 : (getN [] i).father = some q := hfa
            rw [getN_oob [] i (Nat.zero_le i)] at hfa2
            exact Option.noConfusion hfa2
          obtain ⟨aI, _, _⟩ := run_pres fuel _ _ _ heq hIs hFs
          rw [← hst]
          exact ⟨bF, oF, iF, kF, sF, aI⟩
        · exact Option.noConfusion hb


theorem cl_modN (pool : List Node) (j : Nat) (f : Node → Node)
    (hf : ∀ n, (f n).contourLength = n.contourLength)
    (h0 : ∀ i, (getN pool i).contourLength = 0) :
    ∀ i, (getN (modN pool j f) i).contourLength = 0 := by
  intro i
  by_cases hic : i = j
  · subst hic
    by_cases hlt : i < pool.length
    · rw [getN_modN_self _ _ _ hlt, hf]
      exact h0 i
    · rw [modN_oob _ _ _ (Nat.le_of_not_lt hlt)]
      exact h0 i
  · rw [getN_modN_ne _ _ _ _ hic]
    exact h0 i

theorem cl_append (pool : List Node) (x : Node) (hx : x.contourLength = 0)
    (h0 : ∀ i, (getN pool i).contourLength = 0) :
    ∀ i, (getN (pool ++ [x]) i).contourLength = 0 := by
  intro i
  by_cases hlt : i < pool.length
  · rw [getN_append_lt _ _ _ hlt]
    exact h0 i
  · by_cases heq : i = pool.length
    · subst heq
      rw [getN_append_self]
      exact hx
    · have hge : (pool ++ [x]).length ≤ i := by
        rw [List.length_append, List.length_singleton]
        omega
      rw [getN_oob _ _ hge]
      rfl

theorem cl_updAttr (st : BState) (nid : Nat) (p : Int)
    (h0 : ∀ i, (getN st.pool i).contourLength = 0) :
    ∀ i, (getN (updAttrStep st nid p).pool i).contourLength = 0 := by
  simp only [updAttrStep, modPool]
  apply cl_modN
  · intro n
    rfl
  · exact h0

theorem cl_popStep (st : BState) (h : Nat) (p : Int)
    (h0 : ∀ i, (getN st.pool i).contourLength = 0) :
    ∀ i, (getN (popStep st h p).pool i).contourLength = 0 := by
  cases hidx : idxGet (statusSet st p (nnGet st h)) h (nnGet st h).toNat with
  | some nid =>
      have hps : popStep st h p = updAttrStep (statusSet st p (nnGet st h)) nid p := by
        simp only [popStep]
        rw [hidx]
      rw [hps]
      apply cl_updAttr
      intro i
      rw [statusSet_pool]
      exact h0 i
  | none =>
      have hps : popStep st h p = updAttrStep
          (idxSet (newNode (statusSet st p (nnGet st h))
              (indexToH (statusSet st p (nnGet st h)) h) (nnGet st h)).2 h
            (nnGet st h).toNat
            (some (newNode (statusSet st p (nnGet st h))
              (indexToH (statusSet st p (nnGet st h)) h) (nnGet st h)).1))
          (newNode (statusSet st p (nnGet st h))
            (indexToH (statusSet st p (nnGet st h)) h) (nnGet st h)).1 p := by
        simp only [popStep]
        rw [hidx]
      rw [hps]
      apply cl_updAttr
      simp only [idxSet, newNode]
      apply cl_append
      · rfl
      · intro i
        rw [statusSet_pool]
        exact h0 i

theorem cl_linkFather (st : BState) (m : Nat)
    (h0 : ∀ i, (getN st.pool i).contourLength = 0) :
    ∀ i, (getN (linkFather st m).2.pool i).contourLength = 0 := by
  cases hidx : idxGet st m (nnGet st m).toNat with
  | some fid =>
      have hlf : linkFather st m = (fid, st) := by
        simp only [linkFather]
        rw [hidx]
      rw [hlf]
      exact h0
  | none =>
      have hlf : linkFather st m =
          ((newNode st (indexToH st m) (nnGet st m)).1,
           idxSet (newNode st (indexToH st m) (nnGet st m)).2 m (nnGet st m).toNat
             (some (newNode st (indexToH st m) (nnGet st m)).1)) := by
        simp only [linkFather]
        rw [hidx]
      rw [hlf]
      simp only [idxSet, newNode]
      apply cl_append
      · rfl
      · exact h0

theorem cl_linkStep (st : BState) (h m : Nat)
    (h0 : ∀ i, (getN st.pool i).contourLength = 0) :
    ∀ i, (getN (linkStep st h m).pool i).contourLength = 0 := by
  have h1 := cl_linkFather st m h0
  cases hidx : idxGet (linkFather st m).2 h ((nnGet st h - 1).toNat) with
  | some cid =>
      have hls : linkStep st h m = modPool (modPool (linkFather st m).2 cid
          (fun n => { n with father := some (linkFather st m).1 }))
          (linkFather st m).1 (fun n => { n with childs := n.childs ++ [cid] }) := by
        simp only [linkStep]
        rw [hidx]
      rw [hls]
      simp only [modPool]
      apply cl_modN
      · intro n
        rfl
      · apply cl_modN
        · intro n
          rfl
        · exact h1
  | none =>
      have hls : linkStep st h m = (linkFather st m).2 := by
        simp only [linkStep]
        rw [hidx]
      rw [hls]
      exact h1

theorem cl_rootLinkStep (st : BState)
    (h0 : ∀ i, (getN st.pool i).contourLength = 0) :
    ∀ i, (getN (rootLinkStep st).pool i).contourLength = 0 := by
  cases hidx : idxGet st 0 0 with
  | some rid =>
      have hrl : rootLinkStep st = modPool st rid
          (fun n => { n with father := some rid }) := by
        simp only [rootLinkStep]
        rw [hidx]
      rw [hrl]
      simp only [modPool]
      apply cl_modN
      · intro n
        rfl
      · exact h0
  | none =>
      have hrl : rootLinkStep st = st := by
        simp only [rootLinkStep]
        rw [hidx]
      rw [hrl]
      exact h0

theorem cl_floodTail (st : BState) (h : Nat)
    (h0 : ∀ i, (getN st.pool i).contourLength = 0) :
    ∀ i, (getN (floodTail st h).2.pool i).contourLength = 0 := by
  have hft : (floodTail st h).2 = nalSet
      (if 0 ≤ (if h = 0 then (-1 : Int)
          else scanLevel (nnSet st h (nnGet st h + 1)) (h - 1)) then
        linkStep (nnSet st h (nnGet st h + 1)) h
          (if h = 0 then (-1 : Int)
            else scanLevel (nnSet st h (nnGet st h + 1)) (h - 1)).toNat
       else rootLinkStep (nnSet st h (nnGet st h + 1))) h false := rfl
  rw [hft]
  by_cases hm : 0 ≤ (if h = 0 then (-1 : Int)
      else scanLevel (nnSet st h (nnGet st h + 1)) (h - 1))
  · rw [if_pos hm]
    exact cl_linkStep _ h _ h0
  · rw [if_neg hm]
    exact cl_rootLinkStep _ h0

/-- The flooding machine never touches any node's `contourLength`. -/
theorem run_cl :
    ∀ (fuel : Nat) (cmd : Cmd) (st : BState) (r : Int × BState),
    run fuel cmd st = some r →
    (∀ i, (getN st.pool i).contourLength = 0) →
    ∀ i, (getN r.2.pool i).contourLength = 0 := by
  intro fuel
  induction fuel with
  | zero =>
      intro cmd st r h _
      exact Option.noConfusion (h : (none : Option (Int × BState)) = some r)
  | succ fuel ih =>
      intro cmd st r h h0
      cases cmd with
      | flood hh =>
          simp only [run] at h
          cases hw : run fuel (Cmd.fwhile hh) st with
          | none =>
              rw [hw] at h
              exact Option.noConfusion h
          | some pr =>
              rw [hw] at h
              obtain ⟨v, st1⟩ := pr
              have h3 : some (floodTail st1 hh) = some r := h
              obtain rfl : floodTail st1 hh = r := Option.some.inj h3
              exact cl_floodTail st1 hh (ih _ _ _ hw h0)
      | fwhile hh =>
          simp only [run] at h
          cases hq : hqGet st hh with
          | nil =>
              rw [hq] at h
              have h2 : some ((0 : Int), st) = some r := h
              obtain rfl : ((0 : Int), st) = r := Option.some.inj h2
              exact h0
          | cons p rest =>
              rw [hq] at h
              have h2 : (match run fuel
                  (Cmd.fnbrs hh p (popStep (hqSet st hh rest) hh p).seOff)
                  (popStep (hqSet st hh rest) hh p) with
                | none => none
                | some (_, st3) => run fuel (Cmd.fwhile hh) st3) = some r := h
              have h01 : ∀ i,
                  (getN (popStep (hqSet st hh rest) hh p).pool i).contourLength = 0 :=
                cl_popStep (hqSet st hh rest) hh p h0
              cases hrn : run fuel (Cmd.fnbrs hh p (popStep (hqSet st hh rest) hh p).seOff)
                  (popStep (hqSet st hh rest) hh p) with
              | none =>
                  rw [hrn] at h2
                  exact Option.noConfusion h2
              | some pr2 =>
                  rw [hrn] at h2
                  obtain ⟨v2, st3⟩ := pr2
                  have h3 : run fuel (Cmd.fwhile hh) st3 = some r := h2
                  exact ih _ _ _ h3 (ih _ _ _ hrn h01)
      | fnbrs hh p offs =>
          cases offs with
          | nil =>
              simp only [run] at h
              obtain rfl : ((0 : Int), st) = r := Option.some.inj h
              exact h0
          | cons off rest =>
              simp only [run] at h
              split at h
              · rename_i hactive
                have h01 : ∀ i, (getN (nalSet (statusSet (hqPush st
                    (hToIndex st (st.imBorder.get (p + off))) (p + off))
                    (p + off) NOT_ACTIVE) (hToIndex st (st.imBorder.get (p + off)))
                    true).pool i).contourLength = 0 := by
                  intro i
                  have hp2 : (nalSet (statusSet (hqPush st
                      (hToIndex st (st.imBorder.get (p + off))) (p + off))
                      (p + off) NOT_ACTIVE) (hToIndex st (st.imBorder.get (p + off)))
                      true).pool = st.pool := statusSet_pool _ _ _
                  rw [hp2]
                  exact h0 i
                split at h
                · split at h
                  · exact Option.noConfusion h
                  · rename_i v4 st4 heq
                    exact ih _ _ _ h (ih _ _ _ heq h01)
                · exact ih _ _ _ h h01
              · exact ih _ _ _ h h0
      | funtil m hh =>
          simp only [run] at h
          cases hrn : run fuel (Cmd.flood m) st with
          | none =>
              rw [hrn] at h
              exact Option.noConfusion h
          | some pr =>
              rw [hrn] at h
              obtain ⟨m2, st1⟩ := pr
              have h2 : (if m2 = (hh : Int) then some (m2, st1)
                else run fuel (Cmd.funtil m2.toNat hh) st1) = some r := h
              by_cases he : m2 = (hh : Int)
              · rw [if_pos he] at h2
                obtain rfl : (m2, st1) = r := Option.some.inj h2
                exact ih _ _ _ hrn h0
              · rw [if_neg he] at h2
                exact ih _ _ _ h2 (ih _ _ _ hrn h0)

theorem computeTree_cl (fuel : Nat) (img : Img) (conn : FlatSE) (root : Nat)
    (st : BState) (hb : computeTree fuel img conn = some (root, st)) :
    ∀ i, (getN st.pool i).contourLength = 0 := by
  have h00 : ∀ i, (getN ([] : List Node) i).contourLength = 0 := by
    intro i
    rw [getN_oob [] i (Nat.zero_le i)]
    rfl
  cases hfs : findSeed (initState img conn) with
  | some s =>
      simp only [computeTree] at hb
      rw [hfs] at hb
      split at hb
      · exact Option.noConfusion hb
      · rename_i v st2 heq
        split at hb
        · rename_i root2 hidx
          have hst : st2 = st := congrArg Prod.snd (Option.some.inj hb)
          have hcl := run_cl fuel (Cmd.flood 0) _ _ heq (fun i => h00 i)
          rw [← hst]
          exact hcl
        · exact Option.noConfusion hb
  | none =>
      simp only [computeTree] at hb
      rw [hfs] at hb
      split at hb
      · exact Option.noConfusion hb
      · rename_i v st2 heq
        split at hb
        · rename_i root2 hidx
          have hst : st2 = st := congrArg Prod.snd (Option.some.inj hb)
          have hcl := run_cl fuel (Cmd.flood 0) _ _ heq (fun i => h00 i)
          rw [← hst]
          exact hcl
        · exact Option.noConfusion hb


theorem lin2_mod (x y S : Nat) (hx : x < S) : (x + y * S) % S = x := by
  rw [Nat.add_mul_mod_self_right]
  exact Nat.mod_eq_of_lt hx

theorem lin2_div (x y S : Nat) (hS : 0 < S) (hx : x < S) : (x + y * S) / S = y := by
  rw [Nat.add_mul_div_right _ _ hS, Nat.div_eq_of_lt hx]
  omega

theorem lin2_inj (S x y x2 y2 : Nat) (hx : x < S) (hx2 : x2 < S)
    (h : x + y * S = x2 + y2 * S) : x = x2 ∧ y = y2 := by
  have hS : 0 < S := by omega
  have h1 : (x + y * S) % S = (x2 + y2 * S) % S := by rw [h]
  rw [lin2_mod x y S hx, lin2_mod x2 y2 S hx2] at h1
  have h2 : (x + y * S) / S = (x2 + y2 * S) / S := by rw [h]
  rw [lin2_div x y S hS hx, lin2_div x2 y2 S hS hx2] at h2
  exact ⟨h1, h2⟩

theorem bOff_inj (img : Img) (hW : 0 < img.sx) :
    ∀ a b : Nat, bOff img a = bOff img b → a = b := by
  intro a b h
  have h2 : (a % img.sx + 1) + (a / img.sx + 1) * (img.sx + 2) =
      (b % img.sx + 1) + (b / img.sx + 1) * (img.sx + 2) := h
  have ha : a % img.sx + 1 < img.sx + 2 := by
    have := Nat.mod_lt a hW
    omega
  have hb2 : b % img.sx + 1 < img.sx + 2 := by
    have := Nat.mod_lt b hW
    omega
  obtain ⟨hm1, hd1⟩ := lin2_inj (img.sx + 2) _ _ _ _ ha hb2 h2
  have hm : a % img.sx = b % img.sx := by omega
  have hd : a / img.sx = b / img.sx := by omega
  calc a = img.sx * (a / img.sx) + a % img.sx := (Nat.div_add_mod a img.sx).symm
    _ = img.sx * (b / img.sx) + b % img.sx := by rw [hm, hd]
    _ = b := Nat.div_add_mod b img.sx

theorem frameCells_length (img : Img) :
    (frameCells img).length = 2 * img.sx + 2 * (img.sy - 2) := by
  simp only [frameCells, List.length_append, List.length_map, List.length_range]
  omega

theorem frameCells_nodup (img : Img) (hW : 2 ≤ img.sx) (hH : 2 ≤ img.sy) :
    (frameCells img).Nodup := by
  have hW0 : 0 < img.sx := by omega
  have hprof : ∀ x y : Nat, x < img.sx →
      (x + y * img.sx) % img.sx = x ∧ (x + y * img.sx) / img.sx = y := by
    intro x y hx
    exact ⟨lin2_mod x y img.sx hx, lin2_div x y img.sx hW0 hx⟩
  have memA : ∀ a ∈ (List.range img.sx).map (fun x => x),
      a % img.sx = a ∧ a / img.sx = 0 := by
    intro a ha
    obtain ⟨x, hx, rfl⟩ := List.mem_map.mp ha
    exact ⟨Nat.mod_eq_of_lt (List.mem_range.mp hx),
      Nat.div_eq_of_lt (List.mem_range.mp hx)⟩
  have memB : ∀ a ∈ (List.range img.sx).map (fun x => x + (img.sy - 1) * img.sx),
      a / img.sx = img.sy - 1 := by
    intro a ha
    obtain ⟨x, hx, rfl⟩ := List.mem_map.mp ha
    exact (hprof x (img.sy - 1) (List.mem_range.mp hx)).2
  have memC : ∀ a ∈ (List.range (img.sy - 2)).map (fun y => (y + 1) * img.sx),
      a % img.sx = 0 ∧ a / img.sx ≠ 0 ∧ a / img.sx ≠ img.sy - 1 := by
    intro a ha
    obtain ⟨y, hy, rfl⟩ := List.mem_map.mp ha
    have hy2 := List.mem_range.mp hy
    have hp := hprof 0 (y + 1) hW0
    rw [Nat.zero_add] at hp
    refine ⟨hp.1, ?_, ?_⟩
    · rw [hp.2]
      omega
    · rw [hp.2]
      omega
  have memD : ∀ a ∈ (List.range (img.sy - 2)).map
      (fun y => (img.sx - 1) + (y + 1) * img.sx),
      a % img.sx = img.sx - 1 ∧ a / img.sx ≠ 0 ∧ a / img.sx ≠ img.sy - 1 := by
    intro a ha
    obtain ⟨y, hy, rfl⟩ := List.mem_map.mp ha
    have hy2 := List.mem_range.mp hy
    have hp := hprof (img.sx - 1) (y + 1) (by omega)
    refine ⟨hp.1, ?_, ?_⟩
    · rw [hp.2]
      omega
    · rw [hp.2]
      omega
  have ndA : ((List.range img.sx).map (fun x => x)).Nodup :=
    (List.nodup_range img.sx).map Function.injective_id
  have ndB : ((List.range img.sx).map (fun x => x + (img.sy - 1) * img.sx)).Nodup :=
    (List.nodup_range img.sx).map (fun a b hab => Nat.add_right_cancel hab)
  have ndC : ((List.range (img.sy - 2)).map (fun y => (y + 1) * img.sx)).Nodup :=
    (List.nodup_range (img.sy - 2)).map (fun a b hab => by
      have := Nat.eq_of_mul_eq_mul_right hW0 hab
      omega)
  have ndD : ((List.range (img.sy - 2)).map
      (fun y => (img.sx - 1) + (y + 1) * img.sx)).Nodup :=
    (List.nodup_range (img.sy - 2)).map (fun a b hab => by
      have hab2 := Nat.add_left_cancel hab
      have := Nat.eq_of_mul_eq_mul_right hW0 hab2
      omega)
  refine List.nodup_append.mpr ⟨?_, ndD, ?_⟩
  · refine List.nodup_append.mpr ⟨?_, ndC, ?_⟩
    · refine List.nodup_append.mpr ⟨ndA, ndB, ?_⟩
      intro a haA haB
      have h1 := (memA a haA).2
      have h2 := memB a haB
      have h3 : (0 : Nat) = img.sy - 1 := h1.symm.trans h2
      omega
    · intro a haAB haC
      rcases List.mem_append.mp haAB with haA | haB
      · exact (memC a haC).2.1 (memA a haA).2
      · exact (memC a haC).2.2 (memB a haB)
  · intro a haABC haD
    rcases List.mem_append.mp haABC with haAB | haC
    · rcases List.mem_append.mp haAB with haA | haB
      · exact (memD a haD).2.1 (memA a haA).2
      · exact (memD a haD).2.2 (memB a haB)
    · have h1 := (memC a haC).1
      have h2 := (memD a haD).1
      have h3 : (0 : Nat) = img.sx - 1 := h1.symm.trans h2
      omega

theorem length_le_countP (p : Nat → Bool) (l : List Nat) (N : Nat)
    (hnd : l.Nodup) (hmem : ∀ a ∈ l, a < N ∧ p a = true) :
    l.length ≤ (List.range N).countP p := by
  rw [List.countP_eq_length_filter]
  have hsub : ∀ a ∈ l, a ∈ (List.range N).filter p := by
    intro a ha
    obtain ⟨h1, h2⟩ := hmem a ha
    rw [List.mem_filter]
    exact ⟨List.mem_range.mpr h1, h2⟩
  calc l.length = l.toFinset.card := (List.toFinset_card_of_nodup hnd).symm
    _ ≤ ((List.range N).filter p).toFinset.card := by
        apply Finset.card_le_card
        intro a ha
        rw [List.mem_toFinset] at ha
        rw [List.mem_toFinset]
        exact hsub a ha
    _ ≤ ((List.range N).filter p).length := List.toFinset_card_le _


theorem frame_off_lt (W H x y : Nat) (hx : x < W) (hy : y < H) :
    (x + 1) + (y + 1) * (W + 2) < (W + 2) * (H + 2) := by
  have h1 : (x + 1) + (y + 1) * (W + 2) < (y + 2) * (W + 2) := by
    have e : (y + 2) * (W + 2) = (y + 1) * (W + 2) + (W + 2) := by ring
    omega
  have h2 : (y + 2) * (W + 2) ≤ (H + 2) * (W + 2) :=
    Nat.mul_le_mul_right _ (by omega)
  have e2 : (H + 2) * (W + 2) = (W + 2) * (H + 2) := Nat.mul_comm _ _
  omega

theorem goodC5_intro (fuel2 : Nat) (st : BState) (root : Nat) (o : Nat) (d : Int)
    (hd : d ∈ st.seOff)
    (hbd : statusGet st ((o : Int) + d) = BORDER_STATUS)
    (hs0 : 0 ≤ st.status.getD o BORDER_STATUS)
    (hsome : (idxGet st (hToIndex st (st.imBorder.data.getD o 0))
        (st.status.getD o BORDER_STATUS).toNat).isSome = true)
    (hIdx : IndexOK st)
    (hreach : ∀ i, i < st.pool.length → fatherReach fuel2 st.pool i root = true) :
    goodC5 fuel2 st root o = true := by
  obtain ⟨nid, hnid⟩ := Option.isSome_iff_exists.mp hsome
  obtain ⟨hlt, _⟩ := hIdx _ _ _ hnid
  obtain ⟨hp1, hp2⟩ := probe_border st o (st.imBorder.data.getD o 0) d hd hbd
  show ((st.status.getD o BORDER_STATUS != BORDER_STATUS) &&
    (contourProbe st o (st.imBorder.data.getD o 0)).1 &&
    (contourProbe st o (st.imBorder.data.getD o 0)).2.1 &&
    ((if 0 ≤ st.status.getD o BORDER_STATUS then
        idxGet st (hToIndex st (st.imBorder.data.getD o 0))
          (st.status.getD o BORDER_STATUS).toNat
      else none).elim false (fun nid2 => fatherReach fuel2 st.pool nid2 root))) = true
  rw [Bool.and_eq_true, Bool.and_eq_true, Bool.and_eq_true]
  refine ⟨⟨⟨?_, hp1⟩, hp2⟩, ?_⟩
  · rw [bne_iff_ne]
    intro heq
    rw [heq] at hs0
    exact absurd hs0 (by decide)
  · rw [if_pos hs0, hnid]
    show fatherReach fuel2 st.pool nid root = true
    exact hreach nid hlt

theorem goodC5_cell (fuel2 : Nat) (st : BState) (root : Nat) (img : Img)
    (hbE : st.imBorder =
      addBorders img (seNegOffsets make2DN8) (sePosOffsets make2DN8) BORDER)
    (hkE : st.back = seNegOffsets make2DN8)
    (hoE : st.oriImg = img)
    (hring : RingOK st)
    (hIdx : IndexOK st)
    (hreach : ∀ i, i < st.pool.length → fatherReach fuel2 st.pool i root = true)
    (o q : Nat) (d : Int)
    (hd : d ∈ st.seOff)
    (hqd : (o : Int) + d = (q : Int))
    (hnq : ¬ (1 ≤ q % (img.sx + 2) ∧ q % (img.sx + 2) < 1 + img.sx ∧
      1 ≤ q / (img.sx + 2) % (img.sy + 2) ∧
      q / (img.sx + 2) % (img.sy + 2) < 1 + img.sy ∧
      (0 : Nat) ≤ q / ((img.sx + 2) * (img.sy + 2)) ∧
      q / ((img.sx + 2) * (img.sy + 2)) < 0 + img.sz))
    (hs0 : 0 ≤ st.status.getD o BORDER_STATUS)
    (hsome : (idxGet st (hToIndex st (st.imBorder.data.getD o 0))
        (st.status.getD o BORDER_STATUS).toNat).isSome = true) :
    goodC5 fuel2 st root o = true := by
  have e1 : (seNegOffsets make2DN8).1.toNat = 1 := by decide
  have e2 : (seNegOffsets make2DN8).2.1.toNat = 1 := by decide
  have e3 : (seNegOffsets make2DN8).2.2.toNat = 0 := by decide
  have hsx : (addBorders img (seNegOffsets make2DN8) (sePosOffsets make2DN8)
      BORDER).sx = img.sx + 2 := by
    show img.sx + (seNegOffsets make2DN8).1.toNat +
      (sePosOffsets make2DN8).1.toNat = img.sx + 2
    rw [e1, show (sePosOffsets make2DN8).1.toNat = 1 from by decide]
  have hsy : (addBorders img (seNegOffsets make2DN8) (sePosOffsets make2DN8)
      BORDER).sy = img.sy + 2 := by
    show img.sy + (seNegOffsets make2DN8).2.1.toNat +
      (sePosOffsets make2DN8).2.1.toNat = img.sy + 2
    rw [e2, show (sePosOffsets make2DN8).2.1.toNat = 1 from by decide]
  have hni : ¬ InteriorB st q := by
    intro hI
    unfold InteriorB at hI
    rw [hbE, hkE, hoE] at hI
    rw [hsx, hsy, e1, e2, e3] at hI
    exact hnq hI
  have hbd : statusGet st ((o : Int) + d) = BORDER_STATUS := by
    rw [hqd]
    show (if 0 ≤ (q : Int) then st.status.getD ((q : Int)).toNat BORDER_STATUS
      else BORDER_STATUS) = BORDER_STATUS
    rw [if_pos (Int.natCast_nonneg q), Int.toNat_natCast]
    exact hring q hni
  exact goodC5_intro fuel2 st root o d hd hbd hs0 hsome hIdx hreach


/-- Amended C5: for every 2D image with `W, H ≥ 2` — in particular
every non-constant one — built into a max-tree under the 8-connected
neighborhood and contour-scanned, the root's `contourLength` is at
least `2·(W+H) − 4`: each of the `2·(W+H) − 4` frame pixels probes the
image border and increments every node of its father chain up to the
root, and each corner is a single frame pixel, so the bound is
`2·(W+H) − 4` and not the spec's `2·(W+H)`. -/
theorem contour_root_lower_amended (fuel fuel2 : Nat) (img : Img)
    (root : Nat) (st st2 : BState)
    (hW : 2 ≤ img.sx) (hH : 2 ≤ img.sy) (hZ : img.sz = 1)
    (hbuild : computeTree fuel img make2DN8 = some (root, st))
    (hlab : ∀ j, j < img.len →
      0 ≤ st.status.getD (bOff img j) BORDER_STATUS ∧
      (idxGet st (hToIndex st (st.imBorder.data.getD (bOff img j) 0))
        (st.status.getD (bOff img j) BORDER_STATUS).toNat).isSome = true)
    (hreach : ∀ i, i < st.pool.length → fatherReach fuel2 st.pool i root = true)
    (hscan : computeContourPass fuel2 st false = some st2) :
    2 * ((img.sx : Int) + (img.sy : Int)) - 4 ≤ (getN st2.pool root).contourLength := by
  obtain ⟨⟨hring, hqg⟩, hoE, hbE, hkE, hsE, hIdx⟩ :=
    computeTree_ring fuel img make2DN8 root st hbuild
  have hW0 : 0 < img.sx := by omega
  have e1 : (seNegOffsets make2DN8).1.toNat = 1 := by decide
  have e2 : (seNegOffsets make2DN8).2.1.toNat = 1 := by decide
  have e3 : (seNegOffsets make2DN8).2.2.toNat = 0 := by decide
  have f1 : (sePosOffsets make2DN8).1.toNat = 1 := by decide
  have f2 : (sePosOffsets make2DN8).2.1.toNat = 1 := by decide
  have f3 : (sePosOffsets make2DN8).2.2.toNat = 0 := by decide
  have hsx : (addBorders img (seNegOffsets make2DN8) (sePosOffsets make2DN8)
      BORDER).sx = img.sx + 2 := by
    show img.sx + (seNegOffsets make2DN8).1.toNat +
      (sePosOffsets make2DN8).1.toNat = img.sx + 2
    rw [e1, f1]
  have hsy : (addBorders img (seNegOffsets make2DN8) (sePosOffsets make2DN8)
      BORDER).sy = img.sy + 2 := by
    show img.sy + (seNegOffsets make2DN8).2.1.toNat +
      (sePosOffsets make2DN8).2.1.toNat = img.sy + 2
    rw [e2, f2]
  have hsE2 : st.seOff = seFlatOffsets make2DN8 (img.sx + 2) (img.sy + 2) := by
    rw [hsE, hsx, hsy]
  have hNlen : st.imBorder.data.length = (img.sx + 2) * (img.sy + 2) := by
    rw [hbE, addBorders_length, e1, f1, e2, f2, e3, f3, hZ]
    ring
  have hdU : ((0 : Int) + (-1) * ((img.sx + 2 : Nat) : Int) +
      0 * (((img.sx + 2 : Nat) : Int) * ((img.sy + 2 : Nat) : Int))) ∈ st.seOff := by
    rw [hsE2]
    exact List.mem_map.mpr ⟨(0, -1, 0), by decide, rfl⟩
  have hdD : ((0 : Int) + 1 * ((img.sx + 2 : Nat) : Int) +
      0 * (((img.sx + 2 : Nat) : Int) * ((img.sy + 2 : Nat) : Int))) ∈ st.seOff := by
    rw [hsE2]
    exact List.mem_map.mpr ⟨(0, 1, 0), by decide, rfl⟩
  have hdL : ((-1 : Int) + 0 * ((img.sx + 2 : Nat) : Int) +
      0 * (((img.sx + 2 : Nat) : Int) * ((img.sy + 2 : Nat) : Int))) ∈ st.seOff := by
    rw [hsE2]
    exact List.mem_map.mpr ⟨(-1, 0, 0), by decide, rfl⟩
  have hdR : ((1 : Int) + 0 * ((img.sx + 2 : Nat) : Int) +
      0 * (((img.sx + 2 : Nat) : Int) * ((img.sy + 2 : Nat) : Int))) ∈ st.seOff := by
    rw [hsE2]
    exact List.mem_map.mpr ⟨(1, 0, 0), by decide, rfl⟩
  have hgood : ∀ a ∈ (frameCells img).map (bOff img),
      a < st.imBorder.data.length ∧ goodC5 fuel2 st root a = true := by
    intro a ha
    obtain ⟨j, hj, rfl⟩ := List.mem_map.mp ha
    rcases List.mem_append.mp hj with hABC | hD
    · rcases List.mem_append.mp hABC with hAB | hC
      · rcases List.mem_append.mp hAB with hA | hB
        · obtain ⟨x, hxr, rfl⟩ := List.mem_map.mp hA
          have hx := List.mem_range.mp hxr
          have hmod : x % img.sx = x := Nat.mod_eq_of_lt hx
          have hdiv : x / img.sx = 0 := Nat.div_eq_of_lt hx
          have hbo : bOff img x = (x + 1) + (0 + 1) * (img.sx + 2) := by
            unfold bOff
            rw [hmod, hdiv]
          have hjlen : x < img.len := by
            show x < img.sx * img.sy * img.sz
            rw [hZ]
            have h1 : img.sx * img.sy * 1 = img.sx * img.sy := by ring
            rw [h1]
            have h2 : img.sx ≤ img.sx * img.sy := Nat.le_mul_of_pos_right _ (by omega)
            omega
          obtain ⟨hs0, hsome⟩ := hlab x hjlen
          constructor
          · rw [hNlen, hbo]
            exact frame_off_lt img.sx img.sy x 0 hx (by omega)
          · refine goodC5_cell fuel2 st root img hbE hkE hoE hring hIdx hreach
              (bOff img x) (x + 1) _ hdU ?_ ?_ hs0 hsome
            · rw [hbo]
              push_cast
              ring
            · intro hc
              obtain ⟨c1, c2, c3, c4, c5, c6⟩ := hc
              have hdq : (x + 1) / (img.sx + 2) = 0 := Nat.div_eq_of_lt (by omega)
              rw [hdq, Nat.zero_mod] at c3
              omega
        · obtain ⟨x, hxr, rfl⟩ := List.mem_map.mp hB
          have hx := List.mem_range.mp hxr
          have hmod : (x + (img.sy - 1) * img.sx) % img.sx = x := lin2_mod _ _ _ hx
          have hdiv : (x + (img.sy - 1) * img.sx) / img.sx = img.sy - 1 :=
            lin2_div _ _ _ hW0 hx
          have hy1 : img.sy - 1 + 1 = img.sy := by omega
          have hbo : bOff img (x + (img.sy - 1) * img.sx) =
              (x + 1) + img.sy * (img.sx + 2) := by
            unfold bOff
            rw [hmod, hdiv, hy1]
          have hjlen : x + (img.sy - 1) * img.sx < img.len := by
            show x + (img.sy - 1) * img.sx < img.sx * img.sy * img.sz
            rw [hZ]
            have h0 : x + (img.sy - 1) * img.sx + 0 * (img.sx * img.sy) <
                img.sx * img.sy * 1 :=
              lin_index_lt x (img.sy - 1) 0 img.sx img.sy 1 hx (by omega) (by omega)
            omega
          obtain ⟨hs0, hsome⟩ := hlab _ hjlen
          constructor
          · rw [hNlen, hbo]
            have hfl := frame_off_lt img.sx img.sy x (img.sy - 1) hx (by omega)
            rw [hy1] at hfl
            exact hfl
          · refine goodC5_cell fuel2 st root img hbE hkE hoE hring hIdx hreach
              _ ((x + 1) + (img.sy + 1) * (img.sx + 2)) _ hdD ?_ ?_ hs0 hsome
            · rw [hbo]
              push_cast
              ring
            · intro hc
              obtain ⟨c1, c2, c3, c4, c5, c6⟩ := hc
              have hdq : ((x + 1) + (img.sy + 1) * (img.sx + 2)) / (img.sx + 2)
                  = img.sy + 1 := lin2_div _ _ _ (by omega) (by omega)
              have hmq : (img.sy + 1) % (img.sy + 2) = img.sy + 1 :=
                Nat.mod_eq_of_lt (by omega)
              rw [hdq, hmq] at c4
              omega
      · obtain ⟨y, hyr, rfl⟩ := List.mem_map.mp hC
        have hy := List.mem_range.mp hyr
        have hmod : ((y + 1) * img.sx) % img.sx = 0 := Nat.mul_mod_left _ _
        have hdiv : ((y + 1) * img.sx) / img.sx = y + 1 := by
          have h0 : (y + 1) * img.sx = 0 + (y + 1) * img.sx := by omega
          rw [h0, lin2_div 0 (y + 1) img.sx hW0 hW0]
        have hbo : bOff img ((y + 1) * img.sx) =
            (0 + 1) + ((y + 1) + 1) * (img.sx + 2) := by
          unfold bOff
          rw [hmod, hdiv]
        have hjlen : (y + 1) * img.sx < img.len := by
          show (y + 1) * img.sx < img.sx * img.sy * img.sz
          rw [hZ]
          have h0 : 0 + (y + 1) * img.sx + 0 * (img.sx * img.sy) <
              img.sx * img.sy * 1 :=
            lin_index_lt 0 (y + 1) 0 img.sx img.sy 1 hW0 (by omega) (by omega)
          omega
        obtain ⟨hs0, hsome⟩ := hlab _ hjlen
        constructor
        · rw [hNlen, hbo]
          exact frame_off_lt img.sx img.sy 0 (y + 1) hW0 (by omega)
        · refine goodC5_cell fuel2 st root img hbE hkE hoE hring hIdx hreach
            _ ((y + 2) * (img.sx + 2)) _ hdL ?_ ?_ hs0 hsome
          · rw [hbo]
            push_cast
            ring
          · intro hc
            obtain ⟨c1, c2, c3, c4, c5, c6⟩ := hc
            have hmq : ((y + 2) * (img.sx + 2)) % (img.sx + 2) = 0 :=
              Nat.mul_mod_left _ _
            rw [hmq] at c1
            omega
    · obtain ⟨y, hyr, rfl⟩ := List.mem_map.mp hD
      have hy := List.mem_range.mp hyr
      have hmod : ((img.sx - 1) + (y + 1) * img.sx) % img.sx = img.sx - 1 :=
        lin2_mod _ _ _ (by omega)
      have hdiv : ((img.sx - 1) + (y + 1) * img.sx) / img.sx = y + 1 :=
        lin2_div _ _ _ hW0 (by omega)
      have hx1 : img.sx - 1 + 1 = img.sx := by omega
      have hbo : bOff img ((img.sx - 1) + (y + 1) * img.sx) =
          img.sx + ((y + 1) + 1) * (img.sx + 2) := by
        unfold bOff
        rw [hmod, hdiv, hx1]
      have hjlen : (img.sx - 1) + (y + 1) * img.sx < img.len := by
        show (img.sx - 1) + (y + 1) * img.sx < img.sx * img.sy * img.sz
        rw [hZ]
        have h0 : (img.sx - 1) + (y + 1) * img.sx + 0 * (img.sx * img.sy) <
            img.sx * img.sy * 1 :=
          lin_index_lt (img.sx - 1) (y + 1) 0 img.sx img.sy 1 (by omega) (by omega)
            (by omega)
        omega
      obtain ⟨hs0, hsome⟩ := hlab _ hjlen
      constructor
      · rw [hNlen, hbo]
        have hfl := frame_off_lt img.sx img.sy (img.sx - 1) (y + 1) (by omega) (by omega)
        rw [hx1] at hfl
        exact hfl
      · refine goodC5_cell fuel2 st root img hbE hkE hoE hring hIdx hreach
          _ ((img.sx + 1) + (y + 2) * (img.sx + 2)) _ hdR ?_ ?_ hs0 hsome
        · rw [hbo]
          push_cast
          ring
        · intro hc
          obtain ⟨c1, c2, c3, c4, c5, c6⟩ := hc
          have hmq : ((img.sx + 1) + (y + 2) * (img.sx + 2)) % (img.sx + 2)
              = img.sx + 1 := lin2_mod _ _ _ (by omega)
          rw [hmq] at c2
          omega
  have hnodup : ((frameCells img).map (bOff img)).Nodup :=
    (frameCells_nodup img hW hH).map (fun a b h => bOff_inj img hW0 a b h)
  have hcount : ((frameCells img).map (bOff img)).length ≤
      (List.range st.imBorder.data.length).countP (goodC5 fuel2 st root) :=
    length_le_countP _ _ _ hnodup (fun a ha => ⟨(hgood a ha).1, (hgood a ha).2⟩)
  rw [List.length_map, frameCells_length] at hcount
  have hcl := computeTree_cl fuel img make2DN8 root st hbuild root
  simp only [computeContourPass] at hscan
  cases hcs : contourScan fuel2 st false st.pool (List.range st.imBorder.data.length) with
  | none =>
      rw [hcs] at hscan
      exact Option.noConfusion hscan
  | some poolC =>
      rw [hcs] at hscan
      have hsc2 : some ({ st with pool := poolC } : BState) = some st2 := hscan
      obtain rfl : ({ st with pool := poolC } : BState) = st2 := Option.some.inj hsc2
      obtain ⟨_, _, hcnt⟩ := contourScan_acct fuel2 st false root
        (List.range st.imBorder.data.length) st.pool poolC hcs (fun i => rfl) rfl
      rw [hcl] at hcnt
      have hc2 : ((2 * img.sx + 2 * (img.sy - 2) : Nat) : Int) ≤
          ((List.range st.imBorder.data.length).countP (goodC5 fuel2 st root) : Int) :=
        Nat.cast_le.mpr hcount
      show 2 * ((img.sx : Int) + (img.sy : Int)) - 4 ≤ (getN poolC root).contourLength
      omega


/-- Witness for the amended C5 on the non-constant 3×3 image: `W = H = 3`,
the flood labels every pixel and every node's father chain reaches the
root, and the scanned root ends with `contourLength ≥ 2·(3+3) − 4 = 8`. -/
theorem contour_root_lower_amended_witness :
    2 ≤ img33C5.sx ∧ 2 ≤ img33C5.sy ∧ img33C5.sz = 1 ∧
    computeTree 200 img33C5 make2DN8 = some (treeC5.1, treeC5.2) ∧
    (∀ j, j < img33C5.len →
      0 ≤ treeC5.2.status.getD (bOff img33C5 j) BORDER_STATUS ∧
      (idxGet treeC5.2 (hToIndex treeC5.2
          (treeC5.2.imBorder.data.getD (bOff img33C5 j) 0))
        (treeC5.2.status.getD (bOff img33C5 j) BORDER_STATUS).toNat).isSome = true) ∧
    (∀ i, i < treeC5.2.pool.length →
      fatherReach 200 treeC5.2.pool i treeC5.1 = true) ∧
    computeContourPass 200 treeC5.2 false = some stC5 ∧
    2 * ((img33C5.sx : Int) + (img33C5.sy : Int)) - 4 ≤
      (getN stC5.pool treeC5.1).contourLength :=
  ⟨by decide, by decide, rfl, rfl, by decide, by decide, rfl,
   contour_root_lower_amended 200 200 img33C5 treeC5.1 treeC5.2 stC5
     (by decide) (by decide) rfl rfl (by decide) (by decide) rfl⟩

end CTAI
